import Mathlib

/-!
# plmalloc: buddy allocator and slab-on-buddy allocator

A shallow embedding of `src/plmalloc/src/buddy.c` and
`src/plmalloc/src/allocator.c` (with their headers), followed by theorems
about the embedded functions.

Conventions of the embedding.

* The chunk descriptor array, the bitmap array and the tables of lists are
  memories indexed by natural numbers (`Nat → _`); a store `p[i].f = v`
  becomes a functional update at index `i`.  Stores are performed in the
  order of the C statements, so aliasing between the updated cells is
  handled as in the source.
* A pointer to a chunk descriptor (`list->head`) is the index of the chunk,
  `none` standing for `NULL`.
* `size_t` counters that the source increments or decrements (`length`)
  wrap modulo `2^64`, and so does the sum `chunk_index + (1ULL << order)`
  of the macro `CHECK_BLOCK`, which is applied to the arguments of
  `buddy_reserve` as they come.  A chunk index `2^64 - k` that passes the
  macro addresses the descriptor `k` places before the array: the memory
  `chunk_array` holds these cells too, with the contents that the memory
  around the array has.  The bit-field stores (`order`, 4 bits; `prev`/`next`,
  29 bits) are never truncating: every caller passes an order `≤ 15` and a
  chunk index `< 2^29` (this is what `ASSERT_BLOCK` states), so the fields
  are plain natural numbers.
* `assert` is compiled out (`NDEBUG`): the functions are total and the
  assertions are not part of the transition functions.  The assertions are
  embedded on their own: for a call of a function `f`, the Boolean
  `f_asserts` follows the control flow of `f` and tells whether every
  assertion met by the call holds.
* `BUDDY_ALIGN_TO_ORDER(i, o) = i & ~(2^o - 1)` clears the low `o` bits of
  `i`; it is written `i / 2^o * 2^o`.
* The compile-time switch `ALLOCATOR_STRICT_ADDR` is the Boolean parameter
  `strict` of the allocator functions.
-/

set_option autoImplicit false

/-! # Definitions -/

/-! ## Constants -/

/-- The errno value `EINVAL`. -/
def EINVAL : Nat := 22

/-- The errno value `EBUSY`. -/
def EBUSY : Nat := 16

/-- The errno value `ENOMEM`. -/
def ENOMEM : Nat := 12

/-- The macro `BUDDY_FAIL`, `(size_t)(-1)`. -/
def BUDDY_FAIL : Nat := 2 ^ 64 - 1

/-- The macro `BUDDY_ORDER_BITS`. -/
def BUDDY_ORDER_BITS : Nat := 4

/-- The macro `BUDDY_MAX_ORDER_COUNT`. -/
def BUDDY_MAX_ORDER_COUNT : Nat := 2 ^ BUDDY_ORDER_BITS

/-- The macro `BUDDY_MAX_ORDER`. -/
def BUDDY_MAX_ORDER : Nat := BUDDY_MAX_ORDER_COUNT - 1

/-- The macro `BUDDY_LINK_BITS`. -/
def BUDDY_LINK_BITS : Nat := (64 - BUDDY_ORDER_BITS - 1) / 2

/-- The macro `BUDDY_MAX_CHUNK_COUNT`. -/
def BUDDY_MAX_CHUNK_COUNT : Nat := 2 ^ BUDDY_LINK_BITS

/-- The macro `BUDDY_ORDER_TO_COUNT(o)`, `1ULL << o`. -/
def BUDDY_ORDER_TO_COUNT (o : Nat) : Nat := 2 ^ o

/-- The macro `BUDDY_ALIGN_TO_ORDER(index, order)`: `index` with its low
`order` bits cleared. -/
def BUDDY_ALIGN_TO_ORDER (index order : Nat) : Nat :=
  index / BUDDY_ORDER_TO_COUNT order * BUDDY_ORDER_TO_COUNT order

/-- Increment of a `size_t` counter. -/
def size_inc (n : Nat) : Nat := (n + 1) % 2 ^ 64

/-- Decrement of a `size_t` counter. -/
def size_dec (n : Nat) : Nat := (n + (2 ^ 64 - 1)) % 2 ^ 64

/-! ## Data model of the buddy layer -/

/-- The struct `buddy_chunk_t`. -/
structure buddy_chunk_t where
  free : Bool
  order : Nat
  prev : Nat
  next : Nat

/-- The struct `buddy_list_t`. -/
structure buddy_list_t where
  head : Option Nat
  length : Nat

/-- The struct `buddy_t`. -/
structure buddy_t where
  chunk_count : Nat
  chunk_array : Nat → buddy_chunk_t
  max_order : Nat
  lists : Nat → buddy_list_t

/-- Store into one cell of a memory. -/
def store {α : Type} (m : Nat → α) (i : Nat) (v : α) : Nat → α :=
  fun j => if j = i then v else m j

/-- The count of leading zero bits among the low `n` bits of `x`. -/
def clz_from : Nat → Nat → Nat
  | 0, _ => 0
  | n + 1, x => if x.testBit n then 0 else clz_from n x + 1

/-- The builtin `__builtin_clzll` on a 64-bit value (the result for `0`,
which C leaves undefined, is `64`). -/
def clzll (x : Nat) : Nat := clz_from 64 x

/-- The index of the highest set bit,
`sizeof(unsigned long long) * 8 - __builtin_clzll(x) - 1`. -/
def highest_bit (x : Nat) : Nat := 8 * 8 - clzll x - 1

namespace Buddy

/-- The macro `CHECK_BLOCK`.  The sum `chunk_index + (1ULL << order)` of its
third test is a sum of unsigned 64-bit values: it is taken modulo `2^64`. -/
def CHECK_BLOCK (buddy : buddy_t) (chunk_index order : Nat) : Bool :=
  decide (order ≤ buddy.max_order) &&
  (decide (BUDDY_ALIGN_TO_ORDER chunk_index order = chunk_index) &&
   decide ((chunk_index + BUDDY_ORDER_TO_COUNT order) % 2 ^ 64 ≤ buddy.chunk_count))

/-- The sum in the third test of `CHECK_BLOCK` does not pass `2^64` (the
test is only reached with `order ≤ max_order`). -/
def no_wrap (buddy : buddy_t) (chunk_index order : Nat) : Prop :=
  order ≤ buddy.max_order → chunk_index + BUDDY_ORDER_TO_COUNT order < 2 ^ 64

/-- The loop of `propagate_state`: `n` iterations starting at `i`, each
doing `chunk[i] = chunk[0]` where `chunk = array + chunk_index`. -/
def propagate_loop (chunk_index : Nat) :
    Nat → Nat → (Nat → buddy_chunk_t) → (Nat → buddy_chunk_t)
  | 0, _, array => array
  | n + 1, i, array =>
    propagate_loop chunk_index n (i + 1) (store array (chunk_index + i) (array chunk_index))

/-- The function `propagate_state` of buddy.c, on the descriptor array. -/
def propagate_state (array : Nat → buddy_chunk_t) (chunk_index order : Nat) :
    Nat → buddy_chunk_t :=
  propagate_loop chunk_index (BUDDY_ORDER_TO_COUNT order - 1) 1 array

/-- The function `push_list` of buddy.c. -/
def push_list (buddy : buddy_t) (order chunk_index : Nat) : buddy_t :=
  let array := buddy.chunk_array
  let list := buddy.lists order
  let linked : (Nat → buddy_chunk_t) × buddy_list_t :=
    match list.head with
    | some head =>
      let a1 := store array chunk_index { array chunk_index with next := head }
      let a2 := store a1 chunk_index { a1 chunk_index with prev := (a1 head).prev }
      let a3 := store a2 (a2 head).prev { a2 (a2 head).prev with next := chunk_index }
      let a4 := store a3 head { a3 head with prev := chunk_index }
      (a4, list)
    | none =>
      let a1 := store array chunk_index { array chunk_index with prev := chunk_index }
      let a2 := store a1 chunk_index { a1 chunk_index with next := chunk_index }
      (a2, { list with head := some chunk_index })
  let list2 : buddy_list_t := { linked.2 with length := size_inc linked.2.length }
  let a5 := store linked.1 chunk_index { linked.1 chunk_index with free := true }
  let a6 := store a5 chunk_index { a5 chunk_index with order := order }
  { buddy with
    chunk_array := propagate_state a6 chunk_index order
    lists := store buddy.lists order list2 }

/-- The function `pop_list` of buddy.c. -/
def pop_list (buddy : buddy_t) (order chunk_index : Nat) : buddy_t :=
  let array := buddy.chunk_array
  let list := buddy.lists order
  let unlinked : (Nat → buddy_chunk_t) × buddy_list_t :=
    if list.length > 1 then
      let a1 := store array (array chunk_index).prev
        { array (array chunk_index).prev with next := (array chunk_index).next }
      let a2 := store a1 (a1 chunk_index).next
        { a1 (a1 chunk_index).next with prev := (a1 chunk_index).prev }
      if list.head = some chunk_index then
        (a2, { list with head := some (a2 chunk_index).next })
      else (a2, list)
    else (array, { list with head := none })
  { buddy with
    chunk_array := unlinked.1
    lists := store buddy.lists order { unlinked.2 with length := size_dec unlinked.2.length } }

/-- The function `pop_list_head` of buddy.c; returns the new state and the
index of the popped chunk.  With a `NULL` head the pointer difference
`head - array` has no meaning in C; the index `0` stands for it. -/
def pop_list_head (buddy : buddy_t) (order : Nat) : buddy_t × Nat :=
  let array := buddy.chunk_array
  let list := buddy.lists order
  let chunk_index := list.head.getD 0
  let unlinked : (Nat → buddy_chunk_t) × buddy_list_t :=
    if list.length > 1 then
      let a1 := store array (array chunk_index).prev
        { array (array chunk_index).prev with next := (array chunk_index).next }
      let a2 := store a1 (a1 chunk_index).next
        { a1 (a1 chunk_index).next with prev := (a1 chunk_index).prev }
      (a2, { list with head := some (a2 chunk_index).next })
    else (array, { list with head := none })
  ({ buddy with
     chunk_array := unlinked.1
     lists := store buddy.lists order { unlinked.2 with length := size_dec unlinked.2.length } },
   chunk_index)

/-- The inner `while(1)` loop of `buddy_init` for one order; `fuel` bounds
the number of iterations (every iteration advances `offset` by
`2^order ≥ 1`, so `chunk_count` iterations always suffice). -/
def init_blocks (order : Nat) : Nat → buddy_t → Nat → buddy_t × Nat
  | 0, buddy, offset => (buddy, offset)
  | fuel + 1, buddy, offset =>
    let next_offset := offset + BUDDY_ORDER_TO_COUNT order
    if next_offset > buddy.chunk_count then (buddy, offset)
    else init_blocks order fuel (push_list buddy order offset) next_offset

/-- The outer `for` loop of `buddy_init`: `init_orders k` runs the orders
`k - 1, k - 2, ..., 0`. -/
def init_orders : Nat → buddy_t → Nat → buddy_t × Nat
  | 0, buddy, offset => (buddy, offset)
  | order + 1, buddy, offset =>
    let r := init_blocks order buddy.chunk_count buddy offset
    init_orders order r.1 r.2

/-- The function `buddy_init`.  `chunk_mem` is what the metadata allocator
returns for the descriptor array: `none` for `NULL`, otherwise the
(arbitrary) initial contents of the array and of the memory around it. -/
def buddy_init (chunk_count : Nat) (chunk_mem : Option (Nat → buddy_chunk_t)) :
    Except Nat buddy_t :=
  if chunk_count = 0 ∨ chunk_count > BUDDY_MAX_CHUNK_COUNT then .error EINVAL
  else
    match chunk_mem with
    | none => .error ENOMEM
    | some array =>
      let hb := highest_bit chunk_count
      let max_order := if hb < BUDDY_MAX_ORDER then hb else BUDDY_MAX_ORDER
      let buddy : buddy_t :=
        { chunk_count := chunk_count
          chunk_array := array
          max_order := max_order
          lists := fun _ => { head := none, length := 0 } }
      .ok (init_orders (max_order + 1) buddy 0).1

/-- The function `mark_allocated`. -/
def mark_allocated (buddy : buddy_t) (chunk_index order : Nat) : buddy_t :=
  let array := buddy.chunk_array
  let a1 := store array chunk_index { array chunk_index with free := false }
  let a2 := store a1 chunk_index { a1 chunk_index with order := order }
  { buddy with chunk_array := propagate_state a2 chunk_index order }

/-- The function `allocate_block`; `fuel` bounds the depth of the recursion,
which climbs from `order` to at most `max_order + 1`. -/
def allocate_block : Nat → buddy_t → Nat → buddy_t × Nat
  | 0, buddy, _ => (buddy, BUDDY_FAIL)
  | fuel + 1, buddy, order =>
    if order > buddy.max_order then (buddy, BUDDY_FAIL)
    else if (buddy.lists order).length ≠ 0 then pop_list_head buddy order
    else
      let r := allocate_block fuel buddy (order + 1)
      if r.2 = BUDDY_FAIL then (r.1, BUDDY_FAIL)
      else
        let buddy_chunk_index := r.2 + BUDDY_ORDER_TO_COUNT order
        (push_list r.1 order buddy_chunk_index, r.2)

/-- The function `buddy_allocate`. -/
def buddy_allocate (buddy : buddy_t) (order : Nat) : buddy_t × Nat :=
  let r := allocate_block (buddy.max_order + 2 - order) buddy order
  if r.2 = BUDDY_FAIL then (r.1, BUDDY_FAIL)
  else (mark_allocated r.1 r.2 order, r.2)

/-- The function `reserve_block`; `fuel` bounds the depth of the recursion,
which descends from `root_order` to `order`. -/
def reserve_block : Nat → buddy_t → Nat → Nat → Nat → Nat → buddy_t
  | 0, buddy, _, _, _, _ => buddy
  | fuel + 1, buddy, chunk_index, order, root_chunk_index, root_order =>
    if root_order = order then buddy
    else
      let sub_order := root_order - 1
      let boundary := root_chunk_index + BUDDY_ORDER_TO_COUNT sub_order
      if chunk_index < boundary then
        reserve_block fuel (push_list buddy sub_order boundary)
          chunk_index order root_chunk_index sub_order
      else
        reserve_block fuel (push_list buddy sub_order root_chunk_index)
          chunk_index order boundary sub_order

/-- The function `buddy_reserve`; returns the new state and the `int`
result. -/
def buddy_reserve (buddy : buddy_t) (chunk_index order : Nat) : buddy_t × Nat :=
  if !CHECK_BLOCK buddy chunk_index order then (buddy, EINVAL)
  else
    let chunk := buddy.chunk_array chunk_index
    if !(chunk.free && decide (chunk.order ≥ order)) then (buddy, EBUSY)
    else
      let root_order := chunk.order
      let root_chunk_index := BUDDY_ALIGN_TO_ORDER chunk_index root_order
      let b1 := pop_list buddy root_order root_chunk_index
      let b2 := reserve_block (root_order + 1) b1 chunk_index order root_chunk_index root_order
      (mark_allocated b2 chunk_index order, 0)

/-- The function `free_block`; `fuel` bounds the depth of the recursion,
which climbs from `order` to at most `max_order`. -/
def free_block : Nat → buddy_t → Nat → Nat → buddy_t
  | 0, buddy, _, _ => buddy
  | fuel + 1, buddy, order, chunk_index =>
    let merge : Option Nat :=
      if order < buddy.max_order then
        let higher_chunk_index := BUDDY_ALIGN_TO_ORDER chunk_index (order + 1)
        let buddy_chunk_index :=
          if chunk_index = higher_chunk_index then
            higher_chunk_index + BUDDY_ORDER_TO_COUNT order
          else higher_chunk_index
        if buddy_chunk_index < buddy.chunk_count then
          let buddy_chunk := buddy.chunk_array buddy_chunk_index
          if buddy_chunk.order = order ∧ buddy_chunk.free = true then some buddy_chunk_index
          else none
        else none
      else none
    match merge with
    | some buddy_chunk_index =>
      free_block fuel (pop_list buddy order buddy_chunk_index) (order + 1)
        (BUDDY_ALIGN_TO_ORDER chunk_index (order + 1))
    | none => push_list buddy order chunk_index

/-- The function `buddy_free`; returns the new state and the `int` result. -/
def buddy_free (buddy : buddy_t) (chunk_index : Nat) : buddy_t × Nat :=
  if chunk_index ≥ buddy.chunk_count then (buddy, EINVAL)
  else
    let chunk := buddy.chunk_array chunk_index
    if chunk.free then (buddy, EINVAL)
    else
      let order := chunk.order
      if !CHECK_BLOCK buddy chunk_index order then (buddy, EINVAL)
      else (free_block (buddy.max_order + 1 - order) buddy order chunk_index, 0)

end Buddy

/-! ## Data model of the slab layer -/

/-- The macro `ALLOCATOR_FAIL`, `(size_t)(-1)`. -/
def ALLOCATOR_FAIL : Nat := 2 ^ 64 - 1

/-- The macro `ALLOCATOR_MAX_LEVEL_COUNT`. -/
def ALLOCATOR_MAX_LEVEL_COUNT : Nat := 4 * BUDDY_MAX_ORDER_COUNT

/-- The macro `ALLOCATOR_MAX_LEVEL`. -/
def ALLOCATOR_MAX_LEVEL : Nat := ALLOCATOR_MAX_LEVEL_COUNT - 1

/-- The macro `ALLOCATOR_BITMAP_BITS`. -/
def ALLOCATOR_BITMAP_BITS : Nat := 64 - 1 - 2

/-- The macro `ALLOCATOR_MAX_CHUNK_COUNT`. -/
def ALLOCATOR_MAX_CHUNK_COUNT : Nat := BUDDY_MAX_CHUNK_COUNT

/-- The macro `ALLOCATOR_CHUNK_SIZE`. -/
def ALLOCATOR_CHUNK_SIZE : Nat := 512

/-- The macro `ALLOCATOR_LEVEL_TO_ORDER`. -/
def ALLOCATOR_LEVEL_TO_ORDER (level : Nat) : Nat := level / 4

/-- The macro `ALLOCATOR_GROUP_BASE_SIZE`, `8ULL << group_index`. -/
def ALLOCATOR_GROUP_BASE_SIZE (group_index : Nat) : Nat := (8 <<< group_index) % 2 ^ 64

/-- The macro `ALLOCATOR_GROUP_SIZE_GAP`, `2ULL << group_index`. -/
def ALLOCATOR_GROUP_SIZE_GAP (group_index : Nat) : Nat := (2 <<< group_index) % 2 ^ 64

/-- The struct `allocator_bitmap_t`. -/
structure allocator_bitmap_t where
  tiny : Bool
  index_in_group : Nat
  frees : Nat

/-- The struct `allocator_list_t`. -/
structure allocator_list_t where
  head : Option Nat
  length : Nat

/-- The struct `allocator_t`. -/
structure allocator_t where
  buddy : buddy_t
  bitmap_array : Nat → allocator_bitmap_t
  lists : Nat → allocator_list_t

/-- The macro `DIV_CEIL(n, p)`. -/
def DIV_CEIL (n p : Nat) : Nat := if n = 0 then 0 else (n - 1) / p + 1

/-- The function `allocator_level_size` (unsigned 64-bit arithmetic). -/
def allocator_level_size (level : Nat) : Nat :=
  let group_index := level / 4
  (ALLOCATOR_GROUP_BASE_SIZE group_index +
    (level % 4) * ALLOCATOR_GROUP_SIZE_GAP group_index) % 2 ^ 64

/-- The function `allocator_size_to_level`: a non-negative level, or the
negated order of a direct allocation. -/
def allocator_size_to_level (size : Nat) : Int :=
  if size < 8 then 0
  else
    let group_index := highest_bit size - 3
    let level_addition :=
      DIV_CEIL (size - ALLOCATOR_GROUP_BASE_SIZE group_index)
        (ALLOCATOR_GROUP_SIZE_GAP group_index)
    let level := group_index * 4 + level_addition
    if level ≤ ALLOCATOR_MAX_LEVEL then (level : Int)
    else
      let chunk_count := DIV_CEIL size ALLOCATOR_CHUNK_SIZE
      let hb := highest_bit chunk_count
      let order := if 2 ^ hb = chunk_count then hb else hb + 1
      Int.neg (order : Int)

namespace Allocator

/-- The function `push_list` of allocator.c. -/
def push_list (allocator : allocator_t) (level chunk_index : Nat) : allocator_t :=
  let chunk_array := allocator.buddy.chunk_array
  let list := allocator.lists level
  let linked : (Nat → buddy_chunk_t) × allocator_list_t :=
    match list.head with
    | some head =>
      let a1 := store chunk_array chunk_index { chunk_array chunk_index with next := head }
      let a2 := store a1 chunk_index { a1 chunk_index with prev := (a1 head).prev }
      let a3 := store a2 (a2 head).prev { a2 (a2 head).prev with next := chunk_index }
      let a4 := store a3 head { a3 head with prev := chunk_index }
      (a4, list)
    | none =>
      let a1 := store chunk_array chunk_index { chunk_array chunk_index with prev := chunk_index }
      let a2 := store a1 chunk_index { a1 chunk_index with next := chunk_index }
      (a2, { list with head := some chunk_index })
  { allocator with
    buddy := { allocator.buddy with chunk_array := linked.1 }
    lists := store allocator.lists level { linked.2 with length := size_inc linked.2.length } }

/-- The function `pop_list` of allocator.c. -/
def pop_list (allocator : allocator_t) (level chunk_index : Nat) : allocator_t :=
  let chunk_array := allocator.buddy.chunk_array
  let list := allocator.lists level
  let unlinked : (Nat → buddy_chunk_t) × allocator_list_t :=
    if list.length > 1 then
      let a1 := store chunk_array (chunk_array chunk_index).prev
        { chunk_array (chunk_array chunk_index).prev with next := (chunk_array chunk_index).next }
      let a2 := store a1 (a1 chunk_index).next
        { a1 (a1 chunk_index).next with prev := (a1 chunk_index).prev }
      if list.head = some chunk_index then
        (a2, { list with head := some (a2 chunk_index).next })
      else (a2, list)
    else (chunk_array, { list with head := none })
  { allocator with
    buddy := { allocator.buddy with chunk_array := unlinked.1 }
    lists := store allocator.lists level
      { unlinked.2 with length := size_dec unlinked.2.length } }

/-- The function `get_bitmap_bits`: the table `bits_array` holds
`MIN(512 / 8, 61)`, `MIN(512 / 10, 61)`, `MIN(512 / 12, 61)`,
`MIN(512 / 14, 61)`. -/
def get_bitmap_bits (level : Nat) : Nat :=
  let bits_array : List Nat :=
    [min (ALLOCATOR_CHUNK_SIZE / 8) ALLOCATOR_BITMAP_BITS,
     min (ALLOCATOR_CHUNK_SIZE / 10) ALLOCATOR_BITMAP_BITS,
     min (ALLOCATOR_CHUNK_SIZE / 12) ALLOCATOR_BITMAP_BITS,
     min (ALLOCATOR_CHUNK_SIZE / 14) ALLOCATOR_BITMAP_BITS]
  bits_array.getD (level % 4) 0

/-- The macro `FULL_BITMAP(level)`. -/
def FULL_BITMAP (level : Nat) : Nat := 2 ^ get_bitmap_bits level - 1

/-- The function `init_bitmap`. -/
def init_bitmap (allocator : allocator_t) (chunk_index level : Nat) : allocator_t :=
  { allocator with
    bitmap_array := store allocator.bitmap_array chunk_index
      { tiny := true, index_in_group := level % 4, frees := FULL_BITMAP level } }

/-- The count of trailing zero bits, `__builtin_ctzll`, searched upwards from
bit `i` for at most `n` positions (the result for `0`, which C leaves
undefined, is the width reached). -/
def ctz_from : Nat → Nat → Nat → Nat
  | 0, i, _ => i
  | n + 1, i, x => if x.testBit i then i else ctz_from n (i + 1) x

/-- The builtin `__builtin_ctzll`. -/
def ctzll (x : Nat) : Nat := ctz_from 64 0 x

/-- The expression `frees & ~mask`. -/
def clear_mask (frees mask : Nat) : Nat := frees ^^^ (frees &&& mask)

/-- The function `allocator_init`.  `chunk_mem` and `bitmap_mem` are what the
metadata allocator returns for the two arrays (`none` for `NULL`, otherwise
the arbitrary initial contents: the bitmap array is not cleared). -/
def allocator_init (size : Nat) (chunk_mem : Option (Nat → buddy_chunk_t))
    (bitmap_mem : Option (Nat → allocator_bitmap_t)) : Except Nat allocator_t :=
  let chunk_count := size / ALLOCATOR_CHUNK_SIZE
  if chunk_count = 0 ∨ chunk_count > ALLOCATOR_MAX_CHUNK_COUNT then .error EINVAL
  else
    match Buddy.buddy_init chunk_count chunk_mem with
    | .error ret => .error ret
    | .ok buddy =>
      match bitmap_mem with
      | none => .error ENOMEM
      | some array =>
        .ok { buddy := buddy
              bitmap_array := array
              lists := fun _ => { head := none, length := 0 } }

/-- The tail of `allocator_allocate` and `allocator_reserve`: clear the bit,
and pop the block from its level when no bit is left. -/
def take_piece (allocator : allocator_t) (level chunk_index mask : Nat) : allocator_t :=
  let bitmap := allocator.bitmap_array chunk_index
  let a1 : allocator_t :=
    { allocator with
      bitmap_array := store allocator.bitmap_array chunk_index
        { bitmap with frees := clear_mask bitmap.frees mask } }
  if (a1.bitmap_array chunk_index).frees = 0 then pop_list a1 level chunk_index else a1

/-- The function `allocator_allocate`; returns the new state and the
offset, or `ALLOCATOR_FAIL`. -/
def allocator_allocate (allocator : allocator_t) (size : Nat) : allocator_t × Nat :=
  let level := allocator_size_to_level size
  if level < 0 then
    let r := Buddy.buddy_allocate allocator.buddy (-level).toNat
    if r.2 = BUDDY_FAIL then ({ allocator with buddy := r.1 }, ALLOCATOR_FAIL)
    else
      ({ allocator with
         buddy := r.1
         bitmap_array := store allocator.bitmap_array r.2
           { allocator.bitmap_array r.2 with tiny := false } },
       r.2 * ALLOCATOR_CHUNK_SIZE)
  else
    let level := level.toNat
    let list := allocator.lists level
    let found : Option (allocator_t × Nat) :=
      if list.length = 0 then
        let r := Buddy.buddy_allocate allocator.buddy (ALLOCATOR_LEVEL_TO_ORDER level)
        if r.2 = BUDDY_FAIL then none
        else
          some (init_bitmap (push_list { allocator with buddy := r.1 } level r.2) r.2 level, r.2)
      else some (allocator, list.head.getD 0)
    match found with
    | none =>
      ({ allocator with
         buddy := (Buddy.buddy_allocate allocator.buddy (ALLOCATOR_LEVEL_TO_ORDER level)).1 },
       ALLOCATOR_FAIL)
    | some (a1, chunk_index) =>
      let bit_index := ctzll (a1.bitmap_array chunk_index).frees
      (take_piece a1 level chunk_index (2 ^ bit_index),
       chunk_index * ALLOCATOR_CHUNK_SIZE + bit_index * allocator_level_size level)

/-- The function `get_bit_index`: the bit index, or `-EINVAL`. -/
def get_bit_index (strict : Bool) (addr chunk_index level : Nat) : Int :=
  let offset_in_block := addr - chunk_index * ALLOCATOR_CHUNK_SIZE
  let level_size := allocator_level_size level
  let bit_index := offset_in_block / level_size
  if bit_index ≥ get_bitmap_bits level ∨
      (strict = true ∧ bit_index * level_size ≠ offset_in_block) then
    - (EINVAL : Int)
  else (bit_index : Int)

/-- The function `allocator_reserve`; returns the new state and the `int`
result. -/
def allocator_reserve (strict : Bool) (allocator : allocator_t) (addr size : Nat) :
    allocator_t × Nat :=
  let chunk_index := addr / ALLOCATOR_CHUNK_SIZE
  if chunk_index ≥ allocator.buddy.chunk_count then (allocator, EINVAL)
  else
    let level := allocator_size_to_level size
    if level < 0 then
      if strict = true ∧ addr ≠ chunk_index * ALLOCATOR_CHUNK_SIZE then (allocator, EINVAL)
      else
        let r := Buddy.buddy_reserve allocator.buddy chunk_index (-level).toNat
        ({ allocator with buddy := r.1 }, r.2)
    else
      let level := level.toNat
      let order := ALLOCATOR_LEVEL_TO_ORDER level
      let chunk_index := BUDDY_ALIGN_TO_ORDER chunk_index order
      let bit_index := get_bit_index strict addr chunk_index level
      if bit_index < 0 then (allocator, (-bit_index).toNat)
      else
        let bitmap_mask := 2 ^ bit_index.toNat
        let chunk := allocator.buddy.chunk_array chunk_index
        let bitmap := allocator.bitmap_array chunk_index
        if chunk.free then
          let r := Buddy.buddy_reserve allocator.buddy chunk_index order
          if r.2 ≠ 0 then ({ allocator with buddy := r.1 }, r.2)
          else
            let a1 := init_bitmap (push_list { allocator with buddy := r.1 } level chunk_index)
              chunk_index level
            (take_piece a1 level chunk_index bitmap_mask, 0)
        else if ¬ (chunk.order = order ∧ bitmap.tiny = true) ∨
            chunk.order * 4 + bitmap.index_in_group ≠ level ∨
            bitmap.frees &&& bitmap_mask = 0 then
          (allocator, EBUSY)
        else (take_piece allocator level chunk_index bitmap_mask, 0)

/-- The middle of the tail of `allocator_free`: push the block back on its
level when all its pieces were allocated, and set the bit. -/
def set_piece (allocator : allocator_t) (level chunk_index mask : Nat) : allocator_t :=
  let bitmap := allocator.bitmap_array chunk_index
  let a1 := if bitmap.frees = 0 then push_list allocator level chunk_index else allocator
  { a1 with
    bitmap_array := store a1.bitmap_array chunk_index
      { a1.bitmap_array chunk_index with
        frees := (a1.bitmap_array chunk_index).frees ||| mask } }

/-- The tail of `allocator_free`: after `set_piece`, a block whose pieces are
all free is popped from its level and returned to the buddy (the result of
`buddy_free` is dropped, as in the source). -/
def give_piece (allocator : allocator_t) (level chunk_index mask : Nat) : allocator_t :=
  let a2 := set_piece allocator level chunk_index mask
  if (a2.bitmap_array chunk_index).frees = FULL_BITMAP level then
    let a3 := pop_list a2 level chunk_index
    { a3 with buddy := (Buddy.buddy_free a3.buddy chunk_index).1 }
  else a2

/-- The function `allocator_free`; returns the new state and the `int`
result. -/
def allocator_free (strict : Bool) (allocator : allocator_t) (addr : Nat) :
    allocator_t × Nat :=
  let chunk_index := addr / ALLOCATOR_CHUNK_SIZE
  if chunk_index ≥ allocator.buddy.chunk_count then (allocator, EINVAL)
  else
    let chunk := allocator.buddy.chunk_array chunk_index
    if chunk.free then (allocator, EINVAL)
    else
      let order := chunk.order
      let chunk_index := BUDDY_ALIGN_TO_ORDER chunk_index order
      let bitmap := allocator.bitmap_array chunk_index
      if !bitmap.tiny then
        if strict = true ∧ addr ≠ chunk_index * ALLOCATOR_CHUNK_SIZE then (allocator, EINVAL)
        else
          let r := Buddy.buddy_free allocator.buddy chunk_index
          ({ allocator with buddy := r.1 }, r.2)
      else
        let level := order * 4 + bitmap.index_in_group
        let bit_index := get_bit_index strict addr chunk_index level
        if bit_index < 0 then (allocator, (-bit_index).toNat)
        else
          let bitmap_mask := 2 ^ bit_index.toNat
          if bitmap.frees &&& bitmap_mask ≠ 0 then (allocator, EINVAL)
          else (give_piece allocator level chunk_index bitmap_mask, 0)

/-- The function `allocator_usable_size`. -/
def allocator_usable_size (strict : Bool) (allocator : allocator_t) (addr : Nat) : Nat :=
  let chunk_index := addr / ALLOCATOR_CHUNK_SIZE
  if chunk_index ≥ allocator.buddy.chunk_count then 0
  else
    let chunk := allocator.buddy.chunk_array chunk_index
    if chunk.free then 0
    else
      let order := chunk.order
      let chunk_index := BUDDY_ALIGN_TO_ORDER chunk_index order
      let bitmap := allocator.bitmap_array chunk_index
      if !bitmap.tiny then
        if strict = true ∧ addr ≠ chunk_index * ALLOCATOR_CHUNK_SIZE then 0
        else BUDDY_ORDER_TO_COUNT order * ALLOCATOR_CHUNK_SIZE
      else
        let level := order * 4 + bitmap.index_in_group
        allocator_level_size level

end Allocator

/-- The links written by `push_list` (both in buddy.c and in allocator.c). -/
def push_links (array : Nat → buddy_chunk_t) (head : Option Nat) (chunk_index : Nat) :
    Nat → buddy_chunk_t :=
  match head with
  | some head =>
    let a1 := store array chunk_index { array chunk_index with next := head }
    let a2 := store a1 chunk_index { a1 chunk_index with prev := (a1 head).prev }
    let a3 := store a2 (a2 head).prev { a2 (a2 head).prev with next := chunk_index }
    store a3 head { a3 head with prev := chunk_index }
  | none =>
    let a1 := store array chunk_index { array chunk_index with prev := chunk_index }
    store a1 chunk_index { a1 chunk_index with next := chunk_index }

/-- The links written by `pop_list` (both in buddy.c and in allocator.c). -/
def pop_links (array : Nat → buddy_chunk_t) (length : Nat) (chunk_index : Nat) :
    Nat → buddy_chunk_t :=
  if length > 1 then
    let a1 := store array (array chunk_index).prev
      { array (array chunk_index).prev with next := (array chunk_index).next }
    store a1 (a1 chunk_index).next
      { a1 (a1 chunk_index).next with prev := (a1 chunk_index).prev }
  else array

/-! ## Blocks and their buddies -/

/-- Chunk `j` lies in the block of order `o` that starts at chunk `c`. -/
def in_block (c o j : Nat) : Prop := c ≤ j ∧ j < c + 2 ^ o

/-- The start of the buddy of the block of order `o` starting at `c`, as
`free_block` computes it. -/
def buddy_of (c o : Nat) : Nat :=
  if c = BUDDY_ALIGN_TO_ORDER c (o + 1) then BUDDY_ALIGN_TO_ORDER c (o + 1) + 2 ^ o
  else BUDDY_ALIGN_TO_ORDER c (o + 1)

namespace Buddy

/-- The chunks `[c, c + 2^o)` form a block of the buddy: the range is
aligned, inside the managed chunks, and every descriptor in it carries
`free = f` and `order = o`. -/
structure IsBlock (b : buddy_t) (c o : Nat) (f : Bool) : Prop where
  aligned : BUDDY_ALIGN_TO_ORDER c o = c
  in_range : c + 2 ^ o ≤ b.chunk_count
  order_le : o ≤ b.max_order
  uniform : ∀ j, in_block c o j → (b.chunk_array j).free = f ∧ (b.chunk_array j).order = o

/-- Chunk `j` lies in the range `[hc, hc + hs)` that an operation is
currently rewriting (`hs = 0`: no such range). -/
def in_hole (hc hs j : Nat) : Prop := hc ≤ j ∧ j < hc + hs

/-- The invariant of the `free`/`order` fields outside the range
`[hc, hc + hs)`: the chunks are covered by blocks, and no free block has a
free buddy of the same order below `max_order`. -/
structure PInvH (b : buddy_t) (hc hs : Nat) : Prop where
  cover : ∀ i, i < b.chunk_count → ¬ in_hole hc hs i →
    ∃ c o f, IsBlock b c o f ∧ in_block c o i ∧ ∀ j, in_block c o j → ¬ in_hole hc hs j
  merged : ∀ c o, IsBlock b c o true → ¬ in_hole hc hs c → o < b.max_order →
    buddy_of c o < b.chunk_count →
    (in_hole hc hs (buddy_of c o) → hs ≤ 2 ^ o) ∧
    (¬ in_hole hc hs (buddy_of c o) →
      ¬ ((b.chunk_array (buddy_of c o)).free = true ∧
         (b.chunk_array (buddy_of c o)).order = o))

/-- Two states with the same `free` and `order` fields. -/
structure SameFO (b b2 : buddy_t) : Prop where
  chunk_count : b2.chunk_count = b.chunk_count
  max_order : b2.max_order = b.max_order
  free : ∀ j, (b2.chunk_array j).free = (b.chunk_array j).free
  order : ∀ j, (b2.chunk_array j).order = (b.chunk_array j).order

/-- State `b2` is `b` with `free = f` and `order = o` written over the block
`[c, c + 2^o)`. -/
structure SetBlock (b b2 : buddy_t) (c o : Nat) (f : Bool) : Prop where
  chunk_count : b2.chunk_count = b.chunk_count
  max_order : b2.max_order = b.max_order
  inside : ∀ j, in_block c o j → (b2.chunk_array j).free = f ∧ (b2.chunk_array j).order = o
  outside : ∀ j, ¬ in_block c o j →
    (b2.chunk_array j).free = (b.chunk_array j).free ∧
    (b2.chunk_array j).order = (b.chunk_array j).order

end Buddy

/-! ## Circular doubly-linked lists threaded through the descriptors -/

/-- The links lead from `a` through the chunks of `l` to `b`: every chunk's
`next` is its successor and every chunk's `prev` is its predecessor. -/
def Seg (arr : Nat → buddy_chunk_t) : Nat → List Nat → Nat → Prop
  | a, [], b => (arr a).next = b ∧ (arr b).prev = a
  | a, x :: l, b => (arr a).next = x ∧ (arr x).prev = a ∧ Seg arr x l b

/-- The list whose head pointer is `head` and whose length field is `len`
is the circular doubly-linked list of the chunks `l`, in this order. -/
structure IsCList (arr : Nat → buddy_chunk_t) (l : List Nat) (head : Option Nat)
    (len : Nat) : Prop where
  nodup : l.Nodup
  len_eq : len = l.length
  head_eq : head = l.head?
  links : ∀ h t, l = h :: t → Seg arr h t h

namespace Buddy

/-- The invariant of the buddy layer outside the range `[hc, hc + hs)` under
rewriting; `ls o` is the sequence of chunks on the free list of order
`o`. -/
structure BInvH (b : buddy_t) (ls : Nat → List Nat) (hc hs : Nat) : Prop where
  sized : b.chunk_count ≤ BUDDY_MAX_CHUNK_COUNT
  ordered : b.max_order ≤ BUDDY_MAX_ORDER
  pinv : PInvH b hc hs
  lists : ∀ o, IsCList b.chunk_array (ls o) (b.lists o).head (b.lists o).length
  mem : ∀ o c, c ∈ ls o ↔ (IsBlock b c o true ∧ ¬ in_hole hc hs c)

/-- The state `b` in the middle of an operation started in `b0`: the
invariant holds outside the range under rewriting, the `free` flags outside
the range are those of `b0`, the range consists of chunks that were free in
`b0` or belong to the block `K` being freed, and the descriptors of the
other allocated chunks are untouched. -/
structure Mid (b0 b : buddy_t) (ls : Nat → List Nat) (hc hs : Nat) (K : Nat → Prop) :
    Prop where
  inv : BInvH b ls hc hs
  chunk_count : b.chunk_count = b0.chunk_count
  max_order : b.max_order = b0.max_order
  free_out : ∀ j, ¬ in_hole hc hs j → (b.chunk_array j).free = (b0.chunk_array j).free
  hole_free : ∀ j, in_hole hc hs j → (b0.chunk_array j).free = true ∨ K j
  k_in : ∀ j, K j → in_hole hc hs j
  keep : ∀ j, (b0.chunk_array j).free = false → ¬ K j → b.chunk_array j = b0.chunk_array j

/-- The state `b2` at the end of an operation started in `b0` that turned the
chunks `K` into a block with `free = f`. -/
structure Done (b0 b2 : buddy_t) (ls : Nat → List Nat) (K : Nat → Prop) (f : Bool) : Prop where
  inv : BInvH b2 ls 0 0
  chunk_count : b2.chunk_count = b0.chunk_count
  max_order : b2.max_order = b0.max_order
  free_in : ∀ j, K j → (b2.chunk_array j).free = f
  free_out : ∀ j, ¬ K j → (b2.chunk_array j).free = (b0.chunk_array j).free
  keep : ∀ j, (b0.chunk_array j).free = false → ¬ K j → b2.chunk_array j = b0.chunk_array j

/-- The state of the seeding loops of `buddy_init`: the chunks below `off`
are seeded with free blocks. -/
structure Seeded (b : buddy_t) (ls : Nat → List Nat) (n m off : Nat) : Prop where
  inv : BInvH b ls off (n - off)
  chunk_count : b.chunk_count = n
  max_order : b.max_order = m
  le : off ≤ n
  all_free : ∀ j, j < off → (b.chunk_array j).free = true

/-- The buddy states reachable from a successful `buddy_init` by calls of
`buddy_allocate` and `buddy_free` with any arguments and calls of
`buddy_reserve` with any arguments for which the sum of `CHECK_BLOCK` does
not wrap (a call whose sum wraps reads descriptors outside the array). -/
inductive Reachable : buddy_t → Prop
  | init (n : Nat) (array : Nat → buddy_chunk_t) (b : buddy_t) :
      buddy_init n (some array) = .ok b → Reachable b
  | allocate (b : buddy_t) (order : Nat) : Reachable b → Reachable (buddy_allocate b order).1
  | reserve (b : buddy_t) (chunk_index order : Nat) :
      Reachable b → no_wrap b chunk_index order →
      Reachable (buddy_reserve b chunk_index order).1
  | free (b : buddy_t) (chunk_index : Nat) :
      Reachable b → Reachable (buddy_free b chunk_index).1

/-- The calls of the buddy interface. -/
inductive Op where
  | allocate (order : Nat)
  | reserve (chunk_index order : Nat)
  | free (chunk_index : Nat)

/-- The call is not a `buddy_reserve` for which the sum of `CHECK_BLOCK`
wraps, on a buddy with the given `max_order`. -/
def Op.no_wrap (max_order : Nat) : Op → Bool
  | .reserve chunk_index order =>
    decide (order ≤ max_order → chunk_index + BUDDY_ORDER_TO_COUNT order < 2 ^ 64)
  | _ => true

/-- One call of the buddy interface on a state paired with the list of live
blocks `(chunk_index, order)`: a successful `buddy_allocate` or
`buddy_reserve` adds its block, a successful `buddy_free` removes the block
starting at the freed chunk. -/
def step (s : buddy_t × List (Nat × Nat)) : Op → buddy_t × List (Nat × Nat)
  | .allocate order =>
    let r := buddy_allocate s.1 order
    if r.2 = BUDDY_FAIL then (r.1, s.2) else (r.1, (r.2, order) :: s.2)
  | .reserve chunk_index order =>
    let r := buddy_reserve s.1 chunk_index order
    if r.2 = 0 then (r.1, (chunk_index, order) :: s.2) else (r.1, s.2)
  | .free chunk_index =>
    let r := buddy_free s.1 chunk_index
    if r.2 = 0 then (r.1, s.2.filter (fun p => decide (p.1 ≠ chunk_index))) else (r.1, s.2)

/-- A sequence of calls, tracking the live blocks. -/
def run (s : buddy_t × List (Nat × Nat)) (ops : List Op) : buddy_t × List (Nat × Nat) :=
  ops.foldl step s

/-- Reserving the blocks of `l` one after the other; the result codes. -/
def replay (b : buddy_t) : List (Nat × Nat) → List Nat
  | [] => []
  | p :: l => (buddy_reserve b p.1 p.2).2 :: replay (buddy_reserve b p.1 p.2).1 l

/-- The live list holds exactly the allocated blocks of the state. -/
structure Live (n m : Nat) (b : buddy_t) (L : List (Nat × Nat)) : Prop where
  inv : ∃ ls, BInvH b ls 0 0
  chunk_count : b.chunk_count = n
  max_order : b.max_order = m
  nodup : L.Nodup
  mem : ∀ c o, (c, o) ∈ L ↔ IsBlock b c o false

end Buddy

namespace Allocator
open Buddy

/-- The list layer of the slab invariant: the buddy invariant holds, every
level list is a well-formed circular list, and the members of the lists are
the chunks described by `M`, which are allocated. -/
structure ALists (a : allocator_t) (ls lls : Nat → List Nat) (M : Nat → Nat → Prop) :
    Prop where
  binv : BInvH a.buddy ls 0 0
  llists : ∀ L, IsCList a.buddy.chunk_array (lls L) (a.lists L).head (a.lists L).length
  lmem : ∀ L c, c ∈ lls L ↔ M c L
  mfree : ∀ c L, M c L → c < a.buddy.chunk_count ∧ (a.buddy.chunk_array c).free = false
  munique : ∀ c L L2, M c L → M c L2 → L = L2

/-- The slab invariant.  `T c L` is the (ghost) set of tiny blocks: block
`c` was taken from the buddy for level `L`.  A tiny block is an allocated
buddy block of order `L / 4` whose bitmap is tagged for `L` and has no bit
beyond the width of the level; the list of a level holds exactly its tiny
blocks with a free piece. -/
structure AInv (a : allocator_t) (ls lls : Nat → List Nat) (T : Nat → Nat → Prop) :
    Prop where
  lists : ALists a ls lls (fun c L => T c L ∧ (a.bitmap_array c).frees ≠ 0)
  tlevel : ∀ c L, T c L → L < 64
  tblock : ∀ c L, T c L → IsBlock a.buddy c (L / 4) false
  tbitmap : ∀ c L, T c L →
    (a.bitmap_array c).tiny = true ∧ (a.bitmap_array c).index_in_group = L % 4
  tfrees : ∀ c L, T c L → ∀ j, (a.bitmap_array c).frees.testBit j = true →
    j < get_bitmap_bits L

end Allocator

namespace Buddy

/-- The effect of an operation on the `free` and `order` fields: the chunks
`K` get `free = f`, the flags of the other chunks are kept, and so are the
orders of the other allocated chunks. -/
structure Eff (b0 b2 : buddy_t) (K : Nat → Prop) (f : Bool) : Prop where
  chunk_count : b2.chunk_count = b0.chunk_count
  max_order : b2.max_order = b0.max_order
  free_in : ∀ j, K j → (b2.chunk_array j).free = f
  free_out : ∀ j, ¬ K j → (b2.chunk_array j).free = (b0.chunk_array j).free
  order_out : ∀ j, (b0.chunk_array j).free = false → ¬ K j →
    (b2.chunk_array j).order = (b0.chunk_array j).order

end Buddy

namespace Allocator
open Buddy

/-- The order of the buddy block that holds the allocation `p = (addr, size)`. -/
def entry_order (p : Nat × Nat) : Nat :=
  if allocator_size_to_level p.2 < 0 then (-(allocator_size_to_level p.2)).toNat
  else ALLOCATOR_LEVEL_TO_ORDER (allocator_size_to_level p.2).toNat

/-- The first chunk of the buddy block that holds the allocation `p`. -/
def entry_chunk (p : Nat × Nat) : Nat :=
  BUDDY_ALIGN_TO_ORDER (p.1 / ALLOCATOR_CHUNK_SIZE) (entry_order p)

/-- The index of the piece `p` in its tiny block. -/
def entry_bit (p : Nat × Nat) : Nat :=
  (p.1 - entry_chunk p * ALLOCATOR_CHUNK_SIZE) /
    allocator_level_size (allocator_size_to_level p.2).toNat

/-- The number of bytes of the piece or block that holds the allocation `p`. -/
def entry_size (p : Nat × Nat) : Nat :=
  if allocator_size_to_level p.2 < 0 then
    2 ^ entry_order p * ALLOCATOR_CHUNK_SIZE
  else allocator_level_size (allocator_size_to_level p.2).toNat

/-- The allocation `p = (addr, size)` is live in the state: its block is an
allocated buddy block; a direct allocation starts the block, which is not a
tiny block; a tiny allocation is an allocated piece of a tiny block of its
level and starts that piece. -/
def Valid (a : allocator_t) (T : Nat → Nat → Prop) (p : Nat × Nat) : Prop :=
  IsBlock a.buddy (entry_chunk p) (entry_order p) false ∧
  if allocator_size_to_level p.2 < 0 then
    p.1 = entry_chunk p * ALLOCATOR_CHUNK_SIZE ∧ ∀ L, ¬ T (entry_chunk p) L
  else
    T (entry_chunk p) (allocator_size_to_level p.2).toNat ∧
    entry_bit p < get_bitmap_bits (allocator_size_to_level p.2).toNat ∧
    (a.bitmap_array (entry_chunk p)).frees.testBit (entry_bit p) = false ∧
    p.1 = entry_chunk p * ALLOCATOR_CHUNK_SIZE +
      entry_bit p * allocator_level_size (allocator_size_to_level p.2).toNat

/-- The slab invariant together with a list of live allocations with
distinct addresses. -/
structure Live (a : allocator_t) (ls lls : Nat → List Nat) (T : Nat → Nat → Prop)
    (E : List (Nat × Nat)) : Prop where
  inv : AInv a ls lls T
  nodup : (E.map Prod.fst).Nodup
  valid : ∀ p, p ∈ E → Valid a T p

/-- Every allocated block that is not a tiny block has `tiny = 0` in its
bitmap. -/
def Direct (a : allocator_t) (T : Nat → Nat → Prop) : Prop :=
  ∀ c o, IsBlock a.buddy c o false → (∃ L, T c L) ∨ (a.bitmap_array c).tiny = false

/-- Every allocated chunk and every allocated piece of a tiny block belongs
to an allocation of the list. -/
structure Exact (a : allocator_t) (T : Nat → Nat → Prop) (E : List (Nat × Nat)) : Prop where
  chunks : ∀ j, j < a.buddy.chunk_count → (a.buddy.chunk_array j).free = false →
    ∃ p, p ∈ E ∧ in_block (entry_chunk p) (entry_order p) j
  pieces : ∀ c L, T c L → ∀ i, i < get_bitmap_bits L →
    (a.bitmap_array c).frees.testBit i = false →
    ∃ p, p ∈ E ∧ 0 ≤ allocator_size_to_level p.2 ∧ entry_chunk p = c ∧ entry_bit p = i

/-- The state `a2` is the state `a` with one more live allocation `p`. -/
def Added (a : allocator_t) (T : Nat → Nat → Prop) (E : List (Nat × Nat)) (a2 : allocator_t)
    (p : Nat × Nat) : Prop :=
  ∃ ls2 lls2 T2, Live a2 ls2 lls2 T2 (p :: E) ∧ (Direct a T → Direct a2 T2) ∧
    (Exact a T E → Exact a2 T2 (p :: E)) ∧
    a2.buddy.chunk_count = a.buddy.chunk_count ∧ a2.buddy.max_order = a.buddy.max_order

/-- The allocations that stay live after a successful `allocator_free` of
`addr`: those whose range `[addr, addr + usable_size)` does not hold `addr`. -/
def remaining (strict : Bool) (a : allocator_t) (addr : Nat) (E : List (Nat × Nat)) :
    List (Nat × Nat) :=
  E.filter (fun p =>
    !(decide (p.1 ≤ addr) && decide (addr < p.1 + allocator_usable_size strict a p.1)))

/-- The calls of the allocator interface. -/
inductive Op where
  | allocate (size : Nat)
  | reserve (addr size : Nat)
  | free (addr : Nat)

/-- Whether the call is an `allocator_reserve`. -/
def Op.is_reserve : Op → Bool
  | .reserve _ _ => true
  | _ => false

/-- One call of the allocator interface: the new state and the returned
value. -/
def exec (strict : Bool) (a : allocator_t) : Op → allocator_t × Nat
  | .allocate size => allocator_allocate a size
  | .reserve addr size => allocator_reserve strict a addr size
  | .free addr => allocator_free strict a addr

/-- A sequence of calls: the final state and the returned values. -/
def trace (strict : Bool) : allocator_t → List Op → allocator_t × List Nat
  | a, [] => (a, [])
  | a, op :: ops =>
    ((trace strict (exec strict a op).1 ops).1,
     (exec strict a op).2 :: (trace strict (exec strict a op).1 ops).2)

/-- One call of the allocator interface on a state paired with the list of
its live allocations `(addr, size)`: a successful `allocator_allocate` adds
the returned address with the requested size, a successful
`allocator_reserve` adds its arguments, and a successful `allocator_free`
removes the allocations whose range holds the freed address. -/
def step (strict : Bool) (s : allocator_t × List (Nat × Nat)) :
    Op → allocator_t × List (Nat × Nat)
  | .allocate size =>
    let r := allocator_allocate s.1 size
    if r.2 = ALLOCATOR_FAIL then (r.1, s.2) else (r.1, (r.2, size) :: s.2)
  | .reserve addr size =>
    let r := allocator_reserve strict s.1 addr size
    if r.2 = 0 then (r.1, (addr, size) :: s.2) else (r.1, s.2)
  | .free addr =>
    let r := allocator_free strict s.1 addr
    if r.2 = 0 then (r.1, remaining strict s.1 addr s.2) else (r.1, s.2)

/-- A sequence of calls, tracking the live allocations. -/
def run (strict : Bool) (s : allocator_t × List (Nat × Nat)) (ops : List Op) :
    allocator_t × List (Nat × Nat) :=
  ops.foldl (step strict) s

/-- Reserving the allocations of `l` one after the other; the result codes. -/
def replay (strict : Bool) (a : allocator_t) : List (Nat × Nat) → List Nat
  | [] => []
  | p :: l =>
    (allocator_reserve strict a p.1 p.2).2 ::
      replay strict (allocator_reserve strict a p.1 p.2).1 l

/-- The invariant of the states reached by `allocator_allocate` and
`allocator_free` from a fresh allocator of `n` chunks, with the list of live
allocations. -/
def Src (n m : Nat) (a : allocator_t) (E : List (Nat × Nat)) : Prop :=
  ∃ ls lls T, Live a ls lls T E ∧ Direct a T ∧
    a.buddy.chunk_count = n ∧ a.buddy.max_order = m

end Allocator

/-! ## Example states -/

/-- Zeroed memory for the chunk array. -/
def zero_chunks : Nat → buddy_chunk_t :=
  fun _ => { free := false, order := 0, prev := 0, next := 0 }

/-- Zeroed memory for the bitmap array. -/
def zero_bitmaps : Nat → allocator_bitmap_t :=
  fun _ => { tiny := false, index_in_group := 0, frees := 0 }

/-- Memory for the bitmap array whose prior contents have `tiny = 1`,
`index_in_group = 0` and `frees = 2` in every entry. -/
def stale_bitmaps : Nat → allocator_bitmap_t :=
  fun _ => { tiny := true, index_in_group := 0, frees := 2 }

/-- Memory around the descriptor array in which the words before the array
(the cells with an index from `2^63` on) have bit 0, the `free` bit, set;
the cells of the array itself are zero. -/
def stray_chunks : Nat → buddy_chunk_t :=
  fun i =>
    if i < 2 ^ 63 then { free := false, order := 0, prev := 0, next := 0 }
    else { free := true, order := 0, prev := 0, next := 0 }

namespace Buddy

/-- The state after `buddy_init` (the empty buddy when it fails). -/
def init_state (n : Nat) (array : Nat → buddy_chunk_t) : buddy_t :=
  match buddy_init n (some array) with
  | .ok b => b
  | .error _ =>
    { chunk_count := 0, chunk_array := array, max_order := 0
      lists := fun _ => { head := none, length := 0 } }

/-- The chunks met from `c` in `n` steps along the `next` links. -/
def walk (array : Nat → buddy_chunk_t) : Nat → Nat → List Nat
  | 0, _ => []
  | n + 1, c => c :: walk array n (array c).next

/-- The blocks on the free list of an order, from its head. -/
def list_members (b : buddy_t) (order : Nat) : List Nat :=
  match (b.lists order).head with
  | none => []
  | some head => walk b.chunk_array (b.lists order).length head

/-- The blocks on the free lists of the orders `0 .. max_order`. -/
def free_blocks (b : buddy_t) : List (List Nat) :=
  (List.range (b.max_order + 1)).map (list_members b)

end Buddy

namespace Allocator

/-- The state after `allocator_init` (the empty allocator when it fails). -/
def init_state (size : Nat) (chunk_mem : Nat → buddy_chunk_t)
    (bitmap_mem : Nat → allocator_bitmap_t) : allocator_t :=
  match allocator_init size (some chunk_mem) (some bitmap_mem) with
  | .ok a => a
  | .error _ =>
    { buddy :=
        { chunk_count := 0, chunk_array := chunk_mem, max_order := 0
          lists := fun _ => { head := none, length := 0 } }
      bitmap_array := bitmap_mem
      lists := fun _ => { head := none, length := 0 } }

/-- A successful `allocator_init` followed by a sequence of calls: the final
state and the returned values. -/
def from_init (strict : Bool) (size : Nat) (chunk_mem : Nat → buddy_chunk_t)
    (bitmap_mem : Nat → allocator_bitmap_t) (ops : List Op) :
    Option (allocator_t × List Nat) :=
  match allocator_init size (some chunk_mem) (some bitmap_mem) with
  | .ok a => some (trace strict a ops)
  | .error _ => none

/-- A successful `allocator_init` followed by a sequence of calls: the live
allocations. -/
def live_from_init (strict : Bool) (size : Nat) (chunk_mem : Nat → buddy_chunk_t)
    (bitmap_mem : Nat → allocator_bitmap_t) (ops : List Op) : Option (List (Nat × Nat)) :=
  match allocator_init size (some chunk_mem) (some bitmap_mem) with
  | .ok a => some (run strict (a, []) ops).2
  | .error _ => none

/-- The address of chunk `k * 1024`. -/
def block_addr (k : Nat) : Nat := k * 1024 * 512

/-- Thirteen successful calls on a fresh allocator of 8192 chunks, after
which the list of level 40 holds the block of level 41 at chunk 4096. -/
def corrupt_ops : List Op :=
  [.reserve (block_addr 2) 8192, .free (block_addr 2), .reserve (block_addr 1) 458753,
   .reserve (block_addr 3) 458753, .reserve (block_addr 5) 458753,
   .reserve (block_addr 2) 458753, .reserve (block_addr 0) 8192,
   .reserve (block_addr 4) 10240, .reserve (block_addr 6) 8192,
   .reserve (block_addr 7) 8192, .reserve (block_addr 2) 8192, .free (block_addr 2),
   .free (block_addr 0)]

/-- Ten successful calls on a fresh allocator of 8192 chunks, the last two
being direct allocations of order 11. -/
def misalign_ops : List Op :=
  [.reserve (block_addr 0) 8192, .reserve (block_addr 3) 8192,
   .reserve (block_addr 4) 8192, .reserve (block_addr 5) 458753,
   .reserve (block_addr 6) 16384, .free (block_addr 3), .free (block_addr 6),
   .reserve (block_addr 5 + 8192) 8192, .allocate 1048576, .allocate 1048576]

end Allocator

namespace Buddy

/-- The state `b2` comes from `b` by freeing chunks: the sizes are kept, and
every chunk that is not free in `b2` has the `free` and `order` fields it had
in `b`. -/
def Kept (b b2 : buddy_t) : Prop :=
  b2.chunk_count = b.chunk_count ∧ b2.max_order = b.max_order ∧
  ∀ j, (b2.chunk_array j).free = true ∨
    ((b2.chunk_array j).free = (b.chunk_array j).free ∧
     (b2.chunk_array j).order = (b.chunk_array j).order)

end Buddy

namespace Allocator

/-- The allocator states reachable from a successful `allocator_init` by
calls of `allocator_allocate` and `allocator_free` with any arguments. -/
inductive Reached (strict : Bool) : allocator_t → Prop
  | init (size : Nat) (chunk_mem : Nat → buddy_chunk_t)
      (bitmap_mem : Nat → allocator_bitmap_t) (a : allocator_t) :
      allocator_init size (some chunk_mem) (some bitmap_mem) = .ok a → Reached strict a
  | allocate (a : allocator_t) (size : Nat) :
      Reached strict a → Reached strict (allocator_allocate a size).1
  | free (a : allocator_t) (addr : Nat) :
      Reached strict a → Reached strict (allocator_free strict a addr).1

end Allocator

/-- The ceiling of `n / p` of the specification. -/
def spec_ceil_div (n p : Nat) : Nat := (n + p - 1) / p

/-- The level of the specification for a size of at least `8`: with
`h = floor (log2 size)` and `g = h - 3`, the level is
`4 * g + ceil ((size - (8 << g)) / (2 << g))`. -/
def spec_level (size : Nat) : Nat :=
  let h := Nat.log 2 size
  let g := h - 3
  4 * g + spec_ceil_div (size - (8 <<< g)) (2 <<< g)

/-- The smallest `o` with `2 ^ o ≥ n`. -/
def spec_order (n : Nat) : Nat :=
  Nat.find (⟨n, Nat.le_of_lt (Nat.lt_two_pow n)⟩ : ∃ o, 2 ^ o ≥ n)

/-- The classification of the specification: `0` below `8`, the level when
it is at most `63`, and otherwise `-o` for the smallest `o` with
`2 ^ o ≥ ceil (size / 512)`. -/
def spec_size_to_level (size : Nat) : Int :=
  if size < 8 then 0
  else if spec_level size ≤ 63 then (spec_level size : Int)
  else -((spec_order (spec_ceil_div size 512) : Nat) : Int)

/-- The free list of order `o` after `buddy_init n`, as the specification
describes it, for `max_order = m`: the list of order `m` holds the
`floor (n / 2 ^ m)` blocks `0, 2 ^ m, 2 * 2 ^ m, ...`; a list of an order
`o < m` holds one block if bit `o` of `n` is set, starting at `n` with its
low `o + 1` bits cleared, and is empty otherwise. -/
def spec_init_list (n m o : Nat) : List Nat :=
  if o = m then (List.range (n / 2 ^ m)).map (fun i => i * 2 ^ m)
  else if o < m ∧ n.testBit o = true then [n / 2 ^ (o + 1) * 2 ^ (o + 1)]
  else []

/-! ## Assertions, list members and chunk counts -/

/-- The assertions of `allocator_size_to_level`, in the order of the source:
whether all of them hold on the path taken for `size` (unsigned 64-bit
arithmetic; the signed comparison `level_addition >= 0` is on a value that
is never negative). -/
def size_to_level_asserts (size : Nat) : Bool :=
  if size < 8 then true
  else
    let hb := highest_bit size
    let group_index := hb - 3
    let level_addition :=
      DIV_CEIL (size - ALLOCATOR_GROUP_BASE_SIZE group_index)
        (ALLOCATOR_GROUP_SIZE_GAP group_index)
    let level := group_index * 4 + level_addition
    decide (hb ≥ 3) &&
    (decide (size ≥ ALLOCATOR_GROUP_BASE_SIZE group_index) &&
    (decide ((level_addition : Int) ≥ 0) &&
    (decide (level_addition ≤ 4) &&
    (if level ≤ ALLOCATOR_MAX_LEVEL then true
     else
       let chunk_count := DIV_CEIL size ALLOCATOR_CHUNK_SIZE
       let hb2 := highest_bit chunk_count
       let order := if 2 ^ hb2 = chunk_count then hb2 else hb2 + 1
       decide (chunk_count > 0) &&
       (decide (order > 0) &&
        decide ((BUDDY_ORDER_TO_COUNT order * ALLOCATOR_CHUNK_SIZE) % 2 ^ 64 ≥ size))))))

namespace Allocator
open Buddy

/-- The blocks on the list of a level, from its head. -/
def level_members (a : allocator_t) (level : Nat) : List Nat :=
  match (a.lists level).head with
  | none => []
  | some head => Buddy.walk a.buddy.chunk_array (a.lists level).length head

end Allocator

namespace Buddy

/-- The number of free chunks. -/
def free_count (b : buddy_t) : Nat :=
  (List.range b.chunk_count).countP (fun j => (b.chunk_array j).free)

/-- The number of allocated chunks. -/
def allocated_count (b : buddy_t) : Nat :=
  (List.range b.chunk_count).countP (fun j => !(b.chunk_array j).free)

/-- The number of chunks of the blocks on the free lists: the sum over the
orders of `length * 2 ^ order`. -/
def listed_count (b : buddy_t) : Nat :=
  ((List.range (b.max_order + 1)).map (fun o => (b.lists o).length * 2 ^ o)).sum

end Buddy

namespace Buddy

/-- The assertions of `push_list` of buddy.c: `ASSERT_BLOCK`, and the
`length` of the list agrees with its head pointer. -/
def push_list_asserts (buddy : buddy_t) (order chunk_index : Nat) : Bool :=
  CHECK_BLOCK buddy chunk_index order &&
  (match (buddy.lists order).head with
   | some _ => decide ((buddy.lists order).length > 0)
   | none => decide ((buddy.lists order).length = 0))

/-- The assertions of `pop_list` of buddy.c. -/
def pop_list_asserts (buddy : buddy_t) (order chunk_index : Nat) : Bool :=
  let chunk := buddy.chunk_array chunk_index
  let list := buddy.lists order
  CHECK_BLOCK buddy chunk_index order &&
  (chunk.free &&
  (decide (chunk.order = order) &&
  (decide (chunk.prev < buddy.chunk_count) &&
  (decide (chunk.next < buddy.chunk_count) &&
  (decide (list.length > 0) &&
  (if list.length > 1 then
     decide (chunk.prev ≠ chunk_index) && decide (chunk.next ≠ chunk_index)
   else
     decide (chunk.prev = chunk_index) &&
     (decide (chunk.next = chunk_index) && decide (list.head = some chunk_index))))))))

/-- The assertions of `pop_list_head` of buddy.c. -/
def pop_list_head_asserts (buddy : buddy_t) (order : Nat) : Bool :=
  let list := buddy.lists order
  match list.head with
  | none => false
  | some chunk_index =>
    let head := buddy.chunk_array chunk_index
    CHECK_BLOCK buddy chunk_index order &&
    (head.free &&
    (decide (head.order = order) &&
    (decide (list.length > 0) &&
    (if list.length > 1 then
       decide (head.prev ≠ chunk_index) && decide (head.next ≠ chunk_index)
     else
       decide (head.prev = chunk_index) && decide (head.next = chunk_index)))))

/-- The assertion of `mark_allocated`. -/
def mark_allocated_asserts (buddy : buddy_t) (chunk_index order : Nat) : Bool :=
  CHECK_BLOCK buddy chunk_index order

/-- The assertions met by a call of `allocate_block`, with its recursive
calls; without fuel only a call that returns at its first test is
accepted. -/
def allocate_block_asserts : Nat → buddy_t → Nat → Bool
  | 0, buddy, order => decide (order > buddy.max_order)
  | fuel + 1, buddy, order =>
    if order > buddy.max_order then true
    else if (buddy.lists order).length ≠ 0 then pop_list_head_asserts buddy order
    else
      let r := allocate_block fuel buddy (order + 1)
      allocate_block_asserts fuel buddy (order + 1) &&
      (if r.2 = BUDDY_FAIL then true
       else push_list_asserts r.1 order (r.2 + BUDDY_ORDER_TO_COUNT order))

/-- The assertions met by a call of `buddy_allocate`. -/
def buddy_allocate_asserts (buddy : buddy_t) (order : Nat) : Bool :=
  let r := allocate_block (buddy.max_order + 2 - order) buddy order
  allocate_block_asserts (buddy.max_order + 2 - order) buddy order &&
  (if r.2 = BUDDY_FAIL then true else mark_allocated_asserts r.1 r.2 order)

/-- The assertions met by a call of `reserve_block`, with its recursive
calls; a call without fuel is not accepted.  The two sums compared by the
fourth assertion are taken modulo `2^64`. -/
def reserve_block_asserts : Nat → buddy_t → Nat → Nat → Nat → Nat → Bool
  | 0, _, _, _, _, _ => false
  | fuel + 1, buddy, chunk_index, order, root_chunk_index, root_order =>
    CHECK_BLOCK buddy chunk_index order &&
    (CHECK_BLOCK buddy root_chunk_index root_order &&
    (decide (root_chunk_index ≤ chunk_index) &&
    (decide ((root_chunk_index + BUDDY_ORDER_TO_COUNT root_order) % 2 ^ 64 ≥
        (chunk_index + BUDDY_ORDER_TO_COUNT order) % 2 ^ 64) &&
    (decide (root_order ≥ order) &&
    (if root_order = order then true
     else
       let sub_order := root_order - 1
       let boundary := root_chunk_index + BUDDY_ORDER_TO_COUNT sub_order
       if chunk_index < boundary then
         push_list_asserts buddy sub_order boundary &&
         reserve_block_asserts fuel (push_list buddy sub_order boundary)
           chunk_index order root_chunk_index sub_order
       else
         push_list_asserts buddy sub_order root_chunk_index &&
         reserve_block_asserts fuel (push_list buddy sub_order root_chunk_index)
           chunk_index order boundary sub_order)))))

/-- The assertions met by a call of `buddy_reserve`. -/
def buddy_reserve_asserts (buddy : buddy_t) (chunk_index order : Nat) : Bool :=
  if !CHECK_BLOCK buddy chunk_index order then true
  else
    let chunk := buddy.chunk_array chunk_index
    if !(chunk.free && decide (chunk.order ≥ order)) then true
    else
      let root_order := chunk.order
      let root_chunk_index := BUDDY_ALIGN_TO_ORDER chunk_index root_order
      let b1 := pop_list buddy root_order root_chunk_index
      let b2 := reserve_block (root_order + 1) b1 chunk_index order root_chunk_index root_order
      pop_list_asserts buddy root_order root_chunk_index &&
      (reserve_block_asserts (root_order + 1) b1 chunk_index order root_chunk_index
        root_order &&
       mark_allocated_asserts b2 chunk_index order)

/-- The assertions met by a call of `free_block`, with its recursive calls;
a call without fuel is not accepted. -/
def free_block_asserts : Nat → buddy_t → Nat → Nat → Bool
  | 0, _, _, _ => false
  | fuel + 1, buddy, order, chunk_index =>
    CHECK_BLOCK buddy chunk_index order &&
    (if order < buddy.max_order then
       let higher_chunk_index := BUDDY_ALIGN_TO_ORDER chunk_index (order + 1)
       let buddy_chunk_index :=
         if chunk_index = higher_chunk_index then
           higher_chunk_index + BUDDY_ORDER_TO_COUNT order
         else higher_chunk_index
       (if chunk_index = higher_chunk_index then true
        else decide (chunk_index = higher_chunk_index + BUDDY_ORDER_TO_COUNT order)) &&
       (if buddy_chunk_index < buddy.chunk_count then
          let buddy_chunk := buddy.chunk_array buddy_chunk_index
          decide (buddy_chunk.order ≤ order) &&
          (if buddy_chunk.order = order ∧ buddy_chunk.free = true then
             pop_list_asserts buddy order buddy_chunk_index &&
             free_block_asserts fuel (pop_list buddy order buddy_chunk_index) (order + 1)
               higher_chunk_index
           else push_list_asserts buddy order chunk_index)
        else push_list_asserts buddy order chunk_index)
     else push_list_asserts buddy order chunk_index)

/-- The assertions met by a call of `buddy_free`. -/
def buddy_free_asserts (buddy : buddy_t) (chunk_index : Nat) : Bool :=
  if chunk_index ≥ buddy.chunk_count then true
  else
    let chunk := buddy.chunk_array chunk_index
    if chunk.free then true
    else
      let order := chunk.order
      if !CHECK_BLOCK buddy chunk_index order then true
      else free_block_asserts (buddy.max_order + 1 - order) buddy order chunk_index

/-- The assertions met by the inner loop of `buddy_init` for one order;
without fuel only an iteration that leaves the loop is accepted. -/
def init_blocks_asserts (order : Nat) : Nat → buddy_t → Nat → Bool
  | 0, buddy, offset => decide (offset + BUDDY_ORDER_TO_COUNT order > buddy.chunk_count)
  | fuel + 1, buddy, offset =>
    let next_offset := offset + BUDDY_ORDER_TO_COUNT order
    if next_offset > buddy.chunk_count then true
    else
      push_list_asserts buddy order offset &&
      init_blocks_asserts order fuel (push_list buddy order offset) next_offset

/-- The assertions met by the outer loop of `buddy_init`. -/
def init_orders_asserts : Nat → buddy_t → Nat → Bool
  | 0, _, _ => true
  | order + 1, buddy, offset =>
    let r := init_blocks order buddy.chunk_count buddy offset
    init_blocks_asserts order buddy.chunk_count buddy offset &&
    init_orders_asserts order r.1 r.2

/-- The assertions met by a call of `buddy_init`: `highest_bit >= 0`, those
of the calls of `push_list`, and `offset == chunk_count` at the end. -/
def buddy_init_asserts (chunk_count : Nat) (chunk_mem : Option (Nat → buddy_chunk_t)) :
    Bool :=
  if chunk_count = 0 ∨ chunk_count > BUDDY_MAX_CHUNK_COUNT then true
  else
    match chunk_mem with
    | none => true
    | some array =>
      let hb := highest_bit chunk_count
      let max_order := if hb < BUDDY_MAX_ORDER then hb else BUDDY_MAX_ORDER
      let buddy : buddy_t :=
        { chunk_count := chunk_count
          chunk_array := array
          max_order := max_order
          lists := fun _ => { head := none, length := 0 } }
      decide (clzll chunk_count + 1 ≤ 8 * 8) &&
      (init_orders_asserts (max_order + 1) buddy 0 &&
       decide ((init_orders (max_order + 1) buddy 0).2 = chunk_count))

end Buddy

/-! # Theorems -/

/-! ## Arithmetic of blocks -/

theorem BUDDY_ORDER_TO_COUNT_eq (o : Nat) : BUDDY_ORDER_TO_COUNT o = 2 ^ o := rfl

theorem align_eq (i o : Nat) : BUDDY_ALIGN_TO_ORDER i o = i / 2 ^ o * 2 ^ o := rfl

theorem align_le (i o : Nat) : BUDDY_ALIGN_TO_ORDER i o ≤ i := by
  rw [align_eq]; exact Nat.div_mul_le_self i (2 ^ o)

theorem lt_align_add (i o : Nat) : i < BUDDY_ALIGN_TO_ORDER i o + 2 ^ o := by
  rw [align_eq]
  have h := Nat.lt_succ_self (i / 2 ^ o)
  have h2 : i < (i / 2 ^ o + 1) * 2 ^ o := by
    rw [← Nat.div_lt_iff_lt_mul (Nat.two_pow_pos o)]; exact h
  rw [Nat.add_mul, Nat.one_mul] at h2; exact h2

/-- A chunk lies in the block starting at the aligned `c` iff aligning it
gives `c`. -/
theorem mem_block_iff {c o : Nat} (hc : BUDDY_ALIGN_TO_ORDER c o = c) (j : Nat) :
    (c ≤ j ∧ j < c + 2 ^ o) ↔ BUDDY_ALIGN_TO_ORDER j o = c := by
  constructor
  · rintro ⟨h1, h2⟩
    rw [align_eq] at hc ⊢
    have hp := Nat.two_pow_pos o
    have e : j / 2 ^ o = c / 2 ^ o := by
      apply Nat.le_antisymm
      · apply Nat.le_of_lt_succ
        rw [Nat.div_lt_iff_lt_mul hp, Nat.succ_mul, hc]; exact h2
      · exact Nat.div_le_div_right h1
    rw [e, hc]
  · intro h
    rw [← h]
    exact ⟨align_le j o, lt_align_add j o⟩

theorem align_align (i o : Nat) :
    BUDDY_ALIGN_TO_ORDER (BUDDY_ALIGN_TO_ORDER i o) o = BUDDY_ALIGN_TO_ORDER i o := by
  rw [align_eq, align_eq, Nat.mul_div_cancel _ (Nat.two_pow_pos o)]

theorem align_div (i o : Nat) : BUDDY_ALIGN_TO_ORDER i o / 2 ^ o = i / 2 ^ o := by
  rw [align_eq, Nat.mul_div_cancel _ (Nat.two_pow_pos o)]

theorem align_eq_iff_div (i j o : Nat) :
    BUDDY_ALIGN_TO_ORDER i o = BUDDY_ALIGN_TO_ORDER j o ↔ i / 2 ^ o = j / 2 ^ o := by
  rw [align_eq, align_eq]
  constructor
  · intro h; exact Nat.eq_of_mul_eq_mul_right (Nat.two_pow_pos o) h
  · intro h; rw [h]

/-- Two chunks in the same block of order `o` are in the same block of
every higher order. -/
theorem align_mono {i j o p : Nat} (h : BUDDY_ALIGN_TO_ORDER i o = BUDDY_ALIGN_TO_ORDER j o)
    (hop : o ≤ p) : BUDDY_ALIGN_TO_ORDER i p = BUDDY_ALIGN_TO_ORDER j p := by
  rw [align_eq_iff_div] at h ⊢
  obtain ⟨d, rfl⟩ := Nat.exists_eq_add_of_le hop
  rw [pow_add, ← Nat.div_div_eq_div_mul, ← Nat.div_div_eq_div_mul, h]

/-- Aligning to a lower order first does not change the alignment. -/
theorem align_align_le {i o p : Nat} (hop : o ≤ p) :
    BUDDY_ALIGN_TO_ORDER (BUDDY_ALIGN_TO_ORDER i o) p = BUDDY_ALIGN_TO_ORDER i p :=
  align_mono (align_align i o) hop

/-! ## The descriptor array after the list operations -/

theorem store_apply {α : Type} (m : Nat → α) (i : Nat) (v : α) (j : Nat) :
    store m i v j = if j = i then v else m j := rfl

theorem store_same {α : Type} (m : Nat → α) (i : Nat) (v : α) : store m i v i = v := by
  simp [store]

theorem store_store {α : Type} (m : Nat → α) (i : Nat) (v w : α) :
    store (store m i v) i w = store m i w := by
  funext j; simp only [store_apply]; split <;> rfl

theorem store_other {α : Type} (m : Nat → α) {i j : Nat} (v : α) (h : j ≠ i) :
    store m i v j = m j := by
  simp [store, h]

namespace Buddy

theorem propagate_loop_apply (c : Nat) (n i : Nat) (hi : 1 ≤ i) (a : Nat → buddy_chunk_t)
    (j : Nat) :
    propagate_loop c n i a j = if c + i ≤ j ∧ j < c + i + n then a c else a j := by
  induction n generalizing i a with
  | zero =>
    have : ¬ (c + i ≤ j ∧ j < c + i + 0) := by omega
    rw [propagate_loop, if_neg this]
  | succ n ih =>
    rw [propagate_loop, ih (i + 1) (by omega)]
    have hc : store a (c + i) (a c) c = a c := store_other _ _ (by omega)
    rw [hc]
    by_cases h1 : c + (i + 1) ≤ j ∧ j < c + (i + 1) + n
    · have h2 : c + i ≤ j ∧ j < c + i + (n + 1) := by omega
      rw [if_pos h1, if_pos h2]
    · rw [if_neg h1]
      by_cases h3 : j = c + i
      · have h2 : c + i ≤ j ∧ j < c + i + (n + 1) := by omega
        rw [if_pos h2, h3, store_same]
      · have h2 : ¬ (c + i ≤ j ∧ j < c + i + (n + 1)) := by omega
        rw [if_neg h2, store_other _ _ h3]

/-- The function `propagate_state` copies the first descriptor of the block
over the other descriptors of the block. -/
theorem propagate_state_apply (a : Nat → buddy_chunk_t) (c o j : Nat) :
    propagate_state a c o j = if c < j ∧ j < c + 2 ^ o then a c else a j := by
  rw [propagate_state, propagate_loop_apply c _ 1 (Nat.le_refl 1), BUDDY_ORDER_TO_COUNT_eq]
  have hp := Nat.two_pow_pos o
  by_cases h : c < j ∧ j < c + 2 ^ o
  · have h2 : c + 1 ≤ j ∧ j < c + 1 + (2 ^ o - 1) := by omega
    rw [if_pos h, if_pos h2]
  · have h2 : ¬ (c + 1 ≤ j ∧ j < c + 1 + (2 ^ o - 1)) := by omega
    rw [if_neg h, if_neg h2]

end Buddy

theorem store_free (m : Nat → buddy_chunk_t) (i : Nat) (v : buddy_chunk_t) (j : Nat)
    (h : v.free = (m i).free) : (store m i v j).free = (m j).free := by
  rw [store_apply]; split
  · next e => rw [e, h]
  · rfl

theorem store_order (m : Nat → buddy_chunk_t) (i : Nat) (v : buddy_chunk_t) (j : Nat)
    (h : v.order = (m i).order) : (store m i v j).order = (m j).order := by
  rw [store_apply]; split
  · next e => rw [e, h]
  · rfl

theorem push_links_free (a : Nat → buddy_chunk_t) (h : Option Nat) (c j : Nat) :
    (push_links a h c j).free = (a j).free := by
  cases h with
  | none =>
    unfold push_links
    rw [store_free, store_free]
    all_goals rfl
  | some h =>
    unfold push_links
    rw [store_free, store_free, store_free, store_free]
    all_goals rfl

theorem push_links_order (a : Nat → buddy_chunk_t) (h : Option Nat) (c j : Nat) :
    (push_links a h c j).order = (a j).order := by
  cases h with
  | none =>
    unfold push_links
    rw [store_order, store_order]
    all_goals rfl
  | some h =>
    unfold push_links
    rw [store_order, store_order, store_order, store_order]
    all_goals rfl

theorem pop_links_free (a : Nat → buddy_chunk_t) (n c j : Nat) :
    (pop_links a n c j).free = (a j).free := by
  unfold pop_links
  split
  · rw [store_free, store_free]
    all_goals rfl
  · rfl

theorem pop_links_order (a : Nat → buddy_chunk_t) (n c j : Nat) :
    (pop_links a n c j).order = (a j).order := by
  unfold pop_links
  split
  · rw [store_order, store_order]
    all_goals rfl
  · rfl

namespace Buddy

theorem push_list_chunk_array (b : buddy_t) (o c j : Nat) :
    (push_list b o c).chunk_array j =
      if c ≤ j ∧ j < c + 2 ^ o then
        { push_links b.chunk_array (b.lists o).head c c with free := true, order := o }
      else push_links b.chunk_array (b.lists o).head c j := by
  have key : (push_list b o c).chunk_array =
      propagate_state (store (push_links b.chunk_array (b.lists o).head c) c
        { push_links b.chunk_array (b.lists o).head c c with free := true, order := o }) c o := by
    cases hd : (b.lists o).head <;>
    · simp only [push_list, push_links, hd, store_same, store_store]
  rw [key, propagate_state_apply]
  have hp := Nat.two_pow_pos o
  by_cases h1 : c < j ∧ j < c + 2 ^ o
  · rw [if_pos h1, if_pos (by omega), store_same]
  · rw [if_neg h1]
    by_cases h2 : j = c
    · rw [if_pos (by omega), h2, store_same]
    · rw [if_neg (by omega), store_other _ _ h2]

theorem push_list_chunk_count (b : buddy_t) (o c : Nat) :
    (push_list b o c).chunk_count = b.chunk_count := rfl

theorem push_list_max_order (b : buddy_t) (o c : Nat) :
    (push_list b o c).max_order = b.max_order := rfl

theorem pop_list_chunk_array (b : buddy_t) (o c : Nat) :
    (pop_list b o c).chunk_array = pop_links b.chunk_array (b.lists o).length c := by
  unfold pop_list pop_links
  by_cases h : (b.lists o).length > 1
  · simp only [h, if_true]
    split_ifs <;> rfl
  · simp only [h, if_false]

theorem pop_list_chunk_count (b : buddy_t) (o c : Nat) :
    (pop_list b o c).chunk_count = b.chunk_count := rfl

theorem pop_list_max_order (b : buddy_t) (o c : Nat) :
    (pop_list b o c).max_order = b.max_order := rfl

theorem pop_list_head_eq (b : buddy_t) (o c : Nat) (h : (b.lists o).head = some c) :
    pop_list_head b o = (pop_list b o c, c) := by
  unfold pop_list_head pop_list
  simp only [h, Option.getD_some, if_true]

theorem mark_allocated_chunk_array (b : buddy_t) (c o j : Nat) :
    (mark_allocated b c o).chunk_array j =
      if c ≤ j ∧ j < c + 2 ^ o then { b.chunk_array c with free := false, order := o }
      else b.chunk_array j := by
  have key : (mark_allocated b c o).chunk_array =
      propagate_state (store b.chunk_array c
        { b.chunk_array c with free := false, order := o }) c o := by
    simp only [mark_allocated, store_same, store_store]
  rw [key, propagate_state_apply]
  have hp := Nat.two_pow_pos o
  by_cases h1 : c < j ∧ j < c + 2 ^ o
  · rw [if_pos h1, if_pos (by omega), store_same]
  · rw [if_neg h1]
    by_cases h2 : j = c
    · rw [if_pos (by omega), h2, store_same]
    · rw [if_neg (by omega), store_other _ _ h2]

end Buddy

theorem in_block_iff {c o : Nat} (hc : BUDDY_ALIGN_TO_ORDER c o = c) (j : Nat) :
    in_block c o j ↔ BUDDY_ALIGN_TO_ORDER j o = c := mem_block_iff hc j

theorem in_block_self (c o : Nat) : in_block c o c :=
  ⟨Nat.le_refl c, Nat.lt_add_of_pos_right (Nat.two_pow_pos o)⟩

/-- Aligned blocks are nested or disjoint. -/
theorem block_nested {x p y q j : Nat} (hx : BUDDY_ALIGN_TO_ORDER x p = x)
    (hy : BUDDY_ALIGN_TO_ORDER y q = y) (hpq : p ≤ q)
    (h1 : in_block x p j) (h2 : in_block y q j) (k : Nat) (hk : in_block x p k) :
    in_block y q k := by
  rw [in_block_iff hx] at h1 hk
  rw [in_block_iff hy] at h2 ⊢
  rw [← h2]
  exact align_mono (hk.trans h1.symm) hpq

/-- Two aligned blocks of the same order that share a chunk are equal. -/
theorem block_eq {x y o j : Nat} (hx : BUDDY_ALIGN_TO_ORDER x o = x)
    (hy : BUDDY_ALIGN_TO_ORDER y o = y) (h1 : in_block x o j) (h2 : in_block y o j) :
    x = y := by
  rw [in_block_iff hx] at h1
  rw [in_block_iff hy] at h2
  exact h1.symm.trans h2

/-- The two halves of an aligned block are aligned. -/
theorem align_halves {p o : Nat} (hp : BUDDY_ALIGN_TO_ORDER p (o + 1) = p) :
    BUDDY_ALIGN_TO_ORDER p o = p ∧ BUDDY_ALIGN_TO_ORDER (p + 2 ^ o) o = p + 2 ^ o ∧
      BUDDY_ALIGN_TO_ORDER (p + 2 ^ o) (o + 1) = p := by
  have hpos := Nat.two_pow_pos o
  rw [align_eq] at hp
  have e : p = (p / 2 ^ (o + 1) * 2) * 2 ^ o := by
    rw [Nat.mul_assoc, Nat.mul_comm 2, ← pow_succ]; exact hp.symm
  refine ⟨?_, ?_, ?_⟩
  · rw [align_eq]
    conv_lhs => rw [e]
    rw [Nat.mul_div_cancel _ hpos]; exact e.symm
  · rw [align_eq]
    have e2 : p + 2 ^ o = (p / 2 ^ (o + 1) * 2 + 1) * 2 ^ o := by
      rw [Nat.add_mul, Nat.one_mul, ← e]
    conv_lhs => rw [e2]
    rw [Nat.mul_div_cancel _ hpos]
    exact e2.symm
  · have hin : in_block p (o + 1) (p + 2 ^ o) := by
      refine ⟨Nat.le_add_right _ _, ?_⟩
      rw [pow_succ]; omega
    exact (in_block_iff (by rw [align_eq]; exact hp) _).1 hin

/-- An aligned block is the lower or the upper half of its parent. -/
theorem aligned_cases {a o : Nat} (ha : BUDDY_ALIGN_TO_ORDER a o = a) :
    a = BUDDY_ALIGN_TO_ORDER a (o + 1) ∨ a = BUDDY_ALIGN_TO_ORDER a (o + 1) + 2 ^ o := by
  have hpos := Nat.two_pow_pos o
  have hp : BUDDY_ALIGN_TO_ORDER (BUDDY_ALIGN_TO_ORDER a (o + 1)) (o + 1) =
      BUDDY_ALIGN_TO_ORDER a (o + 1) := align_align a (o + 1)
  obtain ⟨h1, h2, _⟩ := align_halves hp
  have hle := align_le a (o + 1)
  have hlt := lt_align_add a (o + 1)
  rw [pow_succ] at hlt
  by_cases hc : a < BUDDY_ALIGN_TO_ORDER a (o + 1) + 2 ^ o
  · left
    exact block_eq ha h1 (in_block_self a o) ⟨hle, hc⟩
  · right
    exact block_eq ha h2 (in_block_self a o) ⟨by omega, by omega⟩

theorem buddy_of_lower {p o : Nat} (hp : BUDDY_ALIGN_TO_ORDER p (o + 1) = p) :
    buddy_of p o = p + 2 ^ o := by
  unfold buddy_of; rw [hp, if_pos rfl]

theorem buddy_of_upper {p o : Nat} (hp : BUDDY_ALIGN_TO_ORDER p (o + 1) = p) :
    buddy_of (p + 2 ^ o) o = p := by
  unfold buddy_of
  rw [(align_halves hp).2.2, if_neg]
  have := Nat.two_pow_pos o
  omega

/-- The shape of a block and its buddy inside their parent `p`. -/
theorem buddy_cases {a o : Nat} (ha : BUDDY_ALIGN_TO_ORDER a o = a) :
    ∃ p, BUDDY_ALIGN_TO_ORDER p (o + 1) = p ∧
      ((a = p ∧ buddy_of a o = p + 2 ^ o) ∨ (a = p + 2 ^ o ∧ buddy_of a o = p)) := by
  have hp := align_align a (o + 1)
  refine ⟨BUDDY_ALIGN_TO_ORDER a (o + 1), hp, ?_⟩
  rcases aligned_cases ha with h | h
  · left
    refine ⟨h, ?_⟩
    rw [h, align_align]
    exact buddy_of_lower hp
  · right
    refine ⟨h, ?_⟩
    conv_lhs => rw [h]
    exact buddy_of_upper hp

theorem buddy_of_aligned {a o : Nat} (ha : BUDDY_ALIGN_TO_ORDER a o = a) :
    BUDDY_ALIGN_TO_ORDER (buddy_of a o) o = buddy_of a o := by
  obtain ⟨p, hp, h | h⟩ := buddy_cases ha
  · rw [h.2]; exact (align_halves hp).2.1
  · rw [h.2]; exact (align_halves hp).1

theorem buddy_of_buddy_of {a o : Nat} (ha : BUDDY_ALIGN_TO_ORDER a o = a) :
    buddy_of (buddy_of a o) o = a := by
  obtain ⟨p, hp, h | h⟩ := buddy_cases ha
  · rw [h.2, buddy_of_upper hp]; exact h.1.symm
  · rw [h.2, buddy_of_lower hp]; exact h.1.symm

theorem buddy_of_not_in_block {a o : Nat} (ha : BUDDY_ALIGN_TO_ORDER a o = a) :
    ¬ in_block a o (buddy_of a o) := by
  have := Nat.two_pow_pos o
  obtain ⟨p, hp, h | h⟩ := buddy_cases ha
  · rw [h.2, h.1]; unfold in_block; omega
  · rw [h.2, h.1]; unfold in_block; omega

/-- A block and its buddy make up their parent. -/
theorem in_parent_iff {a o : Nat} (ha : BUDDY_ALIGN_TO_ORDER a o = a) (j : Nat) :
    in_block (BUDDY_ALIGN_TO_ORDER a (o + 1)) (o + 1) j ↔
      in_block a o j ∨ in_block (buddy_of a o) o j := by
  have := Nat.two_pow_pos o
  obtain ⟨p, hp, h | h⟩ := buddy_cases ha
  · rw [h.2, h.1, hp]; unfold in_block; rw [pow_succ]; omega
  · have e : BUDDY_ALIGN_TO_ORDER a (o + 1) = p := by rw [h.1]; exact (align_halves hp).2.2
    rw [h.2, e, h.1]; unfold in_block; rw [pow_succ]; omega

/-- If the buddy of a block of order `o` lies in an aligned block of a
higher order, so does the block. -/
theorem in_block_of_buddy {a o y q : Nat} (ha : BUDDY_ALIGN_TO_ORDER a o = a)
    (hy : BUDDY_ALIGN_TO_ORDER y q = y) (hoq : o < q) (h : in_block y q (buddy_of a o)) :
    in_block y q a := by
  have hpar : BUDDY_ALIGN_TO_ORDER (BUDDY_ALIGN_TO_ORDER a (o + 1)) (o + 1) =
      BUDDY_ALIGN_TO_ORDER a (o + 1) := align_align a (o + 1)
  have h1 : in_block (BUDDY_ALIGN_TO_ORDER a (o + 1)) (o + 1) (buddy_of a o) :=
    (in_parent_iff ha _).2 (Or.inr (in_block_self _ _))
  have h2 : in_block (BUDDY_ALIGN_TO_ORDER a (o + 1)) (o + 1) a :=
    (in_parent_iff ha _).2 (Or.inl (in_block_self _ _))
  exact block_nested hpar hy hoq h1 h a h2

namespace Buddy

theorem in_hole_pow (hc ho j : Nat) : in_hole hc (2 ^ ho) j ↔ in_block hc ho j := Iff.rfl

theorem not_in_hole_zero (hc j : Nat) : ¬ in_hole hc 0 j := by
  unfold in_hole; omega

theorem IsBlock.unique {b : buddy_t} {c o c2 o2 j : Nat} {f f2 : Bool}
    (h1 : IsBlock b c o f) (h2 : IsBlock b c2 o2 f2)
    (hj1 : in_block c o j) (hj2 : in_block c2 o2 j) : c = c2 ∧ o = o2 ∧ f = f2 := by
  have e1 := h1.uniform j hj1
  have e2 := h2.uniform j hj2
  have eo : o = o2 := e1.2.symm.trans e2.2
  subst eo
  exact ⟨block_eq h1.aligned h2.aligned hj1 hj2, rfl, e1.1.symm.trans e2.1⟩

theorem IsBlock.transfer {b b2 : buddy_t} {c o : Nat} {f : Bool} (h : IsBlock b c o f)
    (hn : b2.chunk_count = b.chunk_count) (hm : b2.max_order = b.max_order)
    (hfo : ∀ j, in_block c o j →
      (b2.chunk_array j).free = (b.chunk_array j).free ∧
      (b2.chunk_array j).order = (b.chunk_array j).order) : IsBlock b2 c o f :=
  { aligned := h.aligned
    in_range := by rw [hn]; exact h.in_range
    order_le := by rw [hm]; exact h.order_le
    uniform := fun j hj => by
      have e := hfo j hj
      have u := h.uniform j hj
      exact ⟨e.1.trans u.1, e.2.trans u.2⟩ }

theorem SameFO.symm {b b2 : buddy_t} (h : SameFO b b2) : SameFO b2 b :=
  { chunk_count := h.chunk_count.symm
    max_order := h.max_order.symm
    free := fun j => (h.free j).symm
    order := fun j => (h.order j).symm }

theorem SameFO.refl (b : buddy_t) : SameFO b b :=
  { chunk_count := rfl, max_order := rfl, free := fun _ => rfl, order := fun _ => rfl }

theorem SameFO.trans {b b2 b3 : buddy_t} (h : SameFO b b2) (h2 : SameFO b2 b3) : SameFO b b3 :=
  { chunk_count := h2.chunk_count.trans h.chunk_count
    max_order := h2.max_order.trans h.max_order
    free := fun j => (h2.free j).trans (h.free j)
    order := fun j => (h2.order j).trans (h.order j) }

theorem IsBlock.sameFO {b b2 : buddy_t} {c o : Nat} {f : Bool} (h : IsBlock b c o f)
    (hs : SameFO b b2) : IsBlock b2 c o f :=
  h.transfer hs.chunk_count hs.max_order (fun j _ => ⟨hs.free j, hs.order j⟩)

theorem PInvH.same_fo {b b2 : buddy_t} {hc hs : Nat} (h : PInvH b hc hs) (hfo : SameFO b b2) :
    PInvH b2 hc hs := by
  constructor
  · intro i hi hni
    rw [hfo.chunk_count] at hi
    obtain ⟨c, o, f, hb, hin, hd⟩ := h.cover i hi hni
    exact ⟨c, o, f, hb.sameFO hfo, hin, hd⟩
  · intro c o hb hnc ho hbud
    rw [hfo.max_order] at ho
    rw [hfo.chunk_count] at hbud
    have := h.merged c o (hb.sameFO hfo.symm) hnc ho hbud
    rw [hfo.free, hfo.order]
    exact this

/-- Every chunk of a state satisfying the invariant lies in a block whose
order and start are read off its own descriptor. -/
theorem PInvH.block_of {b : buddy_t} (h : PInvH b 0 0) {i : Nat} (hi : i < b.chunk_count) :
    IsBlock b (BUDDY_ALIGN_TO_ORDER i (b.chunk_array i).order) (b.chunk_array i).order
      (b.chunk_array i).free := by
  obtain ⟨c, o, f, hb, hin, _⟩ := h.cover i hi (not_in_hole_zero 0 i)
  have e := hb.uniform i hin
  have ec : BUDDY_ALIGN_TO_ORDER i o = c := (in_block_iff hb.aligned i).1 hin
  rw [e.1, e.2, ec]
  exact hb

/-- Declaring a block of a consistent state as the range under rewriting. -/
theorem PInvH.open_block {b : buddy_t} (h : PInvH b 0 0) {c o : Nat} {f : Bool}
    (hb : IsBlock b c o f) : PInvH b c (2 ^ o) := by
  constructor
  · intro i hi hni
    obtain ⟨c2, o2, f2, hb2, hin2, _⟩ := h.cover i hi (not_in_hole_zero 0 i)
    refine ⟨c2, o2, f2, hb2, hin2, ?_⟩
    intro j hj hjh
    obtain ⟨e1, e2, _⟩ := hb2.unique hb hj hjh
    subst e1; subst e2
    exact hni hin2
  · intro c2 o2 hb2 hnc ho hbud
    have old := (h.merged c2 o2 hb2 (not_in_hole_zero 0 c2) ho hbud).2
      (not_in_hole_zero 0 _)
    refine ⟨?_, fun _ => old⟩
    intro hin
    by_contra hlt
    have hlt2 : o2 < o := by
      by_contra hge
      exact hlt (Nat.pow_le_pow_right (by decide) (Nat.le_of_not_lt hge))
    exact hnc (in_block_of_buddy hb2.aligned hb.aligned hlt2 hin)

/-- Splitting the range: one half `[p, p + 2^ho)` becomes a free block of
order `ho`, the other half `[q, q + 2^ho)` stays under rewriting. -/
theorem PInvH.split {b b2 : buddy_t} {hc ho p q : Nat} (h : PInvH b hc (2 ^ (ho + 1)))
    (hal : BUDDY_ALIGN_TO_ORDER hc (ho + 1) = hc) (hr : hc + 2 ^ (ho + 1) ≤ b.chunk_count)
    (hm : ho + 1 ≤ b.max_order)
    (hpq : (p = hc + 2 ^ ho ∧ q = hc) ∨ (p = hc ∧ q = hc + 2 ^ ho))
    (hset : SetBlock b b2 p ho true) : PInvH b2 q (2 ^ ho) := by
  have hpos := Nat.two_pow_pos ho
  have hpow : 2 ^ (ho + 1) = 2 * 2 ^ ho := by rw [pow_succ]; omega
  obtain ⟨hal1, hal2, _⟩ := align_halves hal
  have hpal : BUDDY_ALIGN_TO_ORDER p ho = p := by
    rcases hpq with ⟨e, _⟩ | ⟨e, _⟩ <;> rw [e] <;> assumption
  have hbud : buddy_of p ho = q := by
    rcases hpq with ⟨e, e2⟩ | ⟨e, e2⟩
    · rw [e, e2]; exact buddy_of_upper hal
    · rw [e, e2]; exact buddy_of_lower hal
  -- the hole is the union of the two halves
  have hunion : ∀ j, in_hole hc (2 ^ (ho + 1)) j ↔ in_block p ho j ∨ in_hole q (2 ^ ho) j := by
    intro j
    rcases hpq with ⟨e, e2⟩ | ⟨e, e2⟩ <;> rw [e, e2] <;> unfold in_hole in_block <;> omega
  have hdisj : ∀ j, in_block p ho j → ¬ in_hole q (2 ^ ho) j := by
    intro j
    rcases hpq with ⟨e, e2⟩ | ⟨e, e2⟩ <;> rw [e, e2] <;> unfold in_hole in_block <;> omega
  have hP : IsBlock b2 p ho true :=
    { aligned := hpal
      in_range := by
        rw [hset.chunk_count]
        rcases hpq with ⟨e, _⟩ | ⟨e, _⟩ <;> rw [e] <;> omega
      order_le := by rw [hset.max_order]; omega
      uniform := hset.inside }
  -- blocks of the new state that avoid the pushed half are blocks of the old state
  have hback : ∀ {c o f}, IsBlock b2 c o f → ¬ in_block p ho c → IsBlock b c o f ∧
      ∀ j, in_block c o j → ¬ in_block p ho j := by
    intro c o f hb hnc
    have hd : ∀ j, in_block c o j → ¬ in_block p ho j := by
      intro j hj hjp
      obtain ⟨e1, e2, _⟩ := hb.unique hP hj hjp
      subst e1; subst e2
      exact hnc (in_block_self _ _)
    refine ⟨hb.transfer hset.chunk_count.symm hset.max_order.symm ?_, hd⟩
    intro j hj
    have := hset.outside j (hd j hj)
    exact ⟨this.1.symm, this.2.symm⟩
  constructor
  · intro i hi hni
    rw [hset.chunk_count] at hi
    by_cases hip : in_block p ho i
    · exact ⟨p, ho, true, hP, hip, hdisj⟩
    · have hnh : ¬ in_hole hc (2 ^ (ho + 1)) i := by
        rw [hunion]; exact fun h => h.elim hip hni
      obtain ⟨c, o, f, hb, hin, hd⟩ := h.cover i hi hnh
      have hd2 : ∀ j, in_block c o j → ¬ in_block p ho j :=
        fun j hj hjp => hd j hj ((hunion j).2 (Or.inl hjp))
      refine ⟨c, o, f, hb.transfer hset.chunk_count hset.max_order ?_, hin, ?_⟩
      · intro j hj
        exact hset.outside j (hd2 j hj)
      · intro j hj hjq
        exact hd j hj ((hunion j).2 (Or.inr hjq))
  · intro c o hb hnc hom hbn
    rw [hset.max_order] at hom
    rw [hset.chunk_count] at hbn
    by_cases hcp : in_block p ho c
    · obtain ⟨e1, e2, _⟩ := hb.unique hP (in_block_self _ _) hcp
      subst e1; subst e2
      rw [hbud]
      exact ⟨fun _ => Nat.le_refl _, fun hn => absurd (in_block_self q o) hn⟩
    · obtain ⟨hbo, hd⟩ := hback hb hcp
      have hnh : ¬ in_hole hc (2 ^ (ho + 1)) c := by
        rw [hunion]; exact fun h => h.elim hcp hnc
      obtain ⟨m1, m2⟩ := h.merged c o hbo hnh hom hbn
      constructor
      · intro hin
        have := m1 ((hunion _).2 (Or.inr hin))
        omega
      · intro hnin
        by_cases hbp : in_block p ho (buddy_of c o)
        · have hle := m1 ((hunion _).2 (Or.inl hbp))
          have hne : ho ≠ o := by
            intro e; subst e; omega
          rw [(hset.inside _ hbp).2]
          exact fun h => hne h.2
        · have hnh2 : ¬ in_hole hc (2 ^ (ho + 1)) (buddy_of c o) := by
            rw [hunion]; exact fun h => h.elim hbp hnin
          have := m2 hnh2
          rw [(hset.outside _ hbp).1, (hset.outside _ hbp).2]
          exact this

/-- Merging the range under rewriting with its free buddy of the same
order. -/
theorem PInvH.merge {b : buddy_t} {hc ho : Nat} (h : PInvH b hc (2 ^ ho))
    (hal : BUDDY_ALIGN_TO_ORDER hc ho = hc) (hr : hc + 2 ^ ho ≤ b.chunk_count)
    (hm : ho < b.max_order) (hs : buddy_of hc ho < b.chunk_count)
    (hf : (b.chunk_array (buddy_of hc ho)).free = true ∧
      (b.chunk_array (buddy_of hc ho)).order = ho) :
    PInvH b (BUDDY_ALIGN_TO_ORDER hc (ho + 1)) (2 ^ (ho + 1)) ∧
    BUDDY_ALIGN_TO_ORDER hc (ho + 1) + 2 ^ (ho + 1) ≤ b.chunk_count ∧
    IsBlock b (buddy_of hc ho) ho true := by
  have hpos := Nat.two_pow_pos ho
  have hpow : 2 ^ (ho + 1) = 2 * 2 ^ ho := by rw [pow_succ]; omega
  have hsal := buddy_of_aligned hal
  have hnin : ¬ in_hole hc (2 ^ ho) (buddy_of hc ho) := buddy_of_not_in_block hal
  obtain ⟨c, o, f, hb, hin, hd⟩ := h.cover _ hs hnin
  have hu := hb.uniform _ hin
  have ef : f = true := hu.1.symm.trans hf.1
  have eo : o = ho := hu.2.symm.trans hf.2
  subst ef; subst eo
  have ec : c = buddy_of hc o := block_eq hb.aligned hsal hin (in_block_self _ _)
  subst ec
  have hunion : ∀ j, in_hole (BUDDY_ALIGN_TO_ORDER hc (o + 1)) (2 ^ (o + 1)) j ↔
      in_block hc o j ∨ in_block (buddy_of hc o) o j := in_parent_iff hal
  have hrange : BUDDY_ALIGN_TO_ORDER hc (o + 1) + 2 ^ (o + 1) ≤ b.chunk_count := by
    have h1 := hb.in_range
    obtain ⟨p, hp, hh | hh⟩ := buddy_cases hal
    · have e : BUDDY_ALIGN_TO_ORDER hc (o + 1) = p := by rw [hh.1]; exact hp
      rw [e]; rw [hh.2] at h1; omega
    · have e : BUDDY_ALIGN_TO_ORDER hc (o + 1) = p := by
        rw [hh.1]; exact (align_halves hp).2.2
      rw [e]; rw [hh.1] at hr; omega
  refine ⟨?_, hrange, hb⟩
  constructor
  · intro i hi hni
    have hni1 : ¬ in_hole hc (2 ^ o) i := fun hh => hni ((hunion i).2 (Or.inl hh))
    have hni2 : ¬ in_block (buddy_of hc o) o i := fun hh => hni ((hunion i).2 (Or.inr hh))
    obtain ⟨c2, o2, f2, hb2, hin2, hd2⟩ := h.cover i hi hni1
    refine ⟨c2, o2, f2, hb2, hin2, ?_⟩
    intro j hj hjh
    rcases (hunion j).1 hjh with hh | hh
    · exact hd2 j hj hh
    · obtain ⟨e1, e2, _⟩ := hb2.unique hb hj hh
      subst e1; subst e2
      exact hni2 hin2
  · intro c2 o2 hb2 hnc hom hbn
    have hnc1 : ¬ in_hole hc (2 ^ o) c2 := fun hh => hnc ((hunion c2).2 (Or.inl hh))
    obtain ⟨m1, m2⟩ := h.merged c2 o2 hb2 hnc1 hom hbn
    constructor
    · intro hin2
      by_contra hlt
      have hlt2 : o2 < o + 1 := by
        by_contra hge
        exact hlt (Nat.pow_le_pow_right (by decide) (Nat.le_of_not_lt hge))
      exact hnc (in_block_of_buddy hb2.aligned (align_align hc (o + 1)) hlt2 hin2)
    · intro hnin2
      exact m2 (fun hh => hnin2 ((hunion _).2 (Or.inl hh)))

/-- Closing the range under rewriting: it becomes one block of order `ho`,
allocated, or free when its buddy is not a free block of the same order. -/
theorem PInvH.close {b b2 : buddy_t} {hc ho : Nat} {f : Bool} (h : PInvH b hc (2 ^ ho))
    (hal : BUDDY_ALIGN_TO_ORDER hc ho = hc) (hr : hc + 2 ^ ho ≤ b.chunk_count)
    (hm : ho ≤ b.max_order) (hset : SetBlock b b2 hc ho f)
    (hno : f = true → ho < b.max_order → buddy_of hc ho < b.chunk_count →
      ¬ ((b.chunk_array (buddy_of hc ho)).free = true ∧
         (b.chunk_array (buddy_of hc ho)).order = ho)) :
    PInvH b2 0 0 := by
  have hH : IsBlock b2 hc ho f :=
    { aligned := hal
      in_range := by rw [hset.chunk_count]; exact hr
      order_le := by rw [hset.max_order]; exact hm
      uniform := hset.inside }
  constructor
  · intro i hi _
    rw [hset.chunk_count] at hi
    by_cases hih : in_block hc ho i
    · exact ⟨hc, ho, f, hH, hih, fun j _ => not_in_hole_zero 0 j⟩
    · obtain ⟨c, o, f2, hb, hin, hd⟩ := h.cover i hi hih
      refine ⟨c, o, f2, hb.transfer hset.chunk_count hset.max_order ?_, hin,
        fun j _ => not_in_hole_zero 0 j⟩
      intro j hj
      exact hset.outside j (hd j hj)
  · intro c o hb _ hom hbn
    rw [hset.max_order] at hom
    rw [hset.chunk_count] at hbn
    refine ⟨fun hh => absurd hh (not_in_hole_zero 0 _), fun _ => ?_⟩
    by_cases hch : in_block hc ho c
    · obtain ⟨e1, e2, e3⟩ := hb.unique hH (in_block_self _ _) hch
      subst e1; subst e2; subst e3
      have hout := hset.outside _ (buddy_of_not_in_block hal)
      rw [hout.1, hout.2]
      exact hno rfl hom hbn
    · have hd : ∀ j, in_block c o j → ¬ in_block hc ho j := by
        intro j hj hjp
        obtain ⟨e1, e2, _⟩ := hb.unique hH hj hjp
        subst e1; subst e2
        exact hch (in_block_self _ _)
      have hbo : IsBlock b c o true := by
        refine hb.transfer hset.chunk_count.symm hset.max_order.symm ?_
        intro j hj
        have := hset.outside j (hd j hj)
        exact ⟨this.1.symm, this.2.symm⟩
      obtain ⟨m1, m2⟩ := h.merged c o hbo hch hom hbn
      by_cases hth : in_block hc ho (buddy_of c o)
      · have hle : ho ≤ o := (Nat.pow_le_pow_iff_right (by decide : 1 < 2)).1 (m1 hth)
        have hin := hset.inside _ hth
        rw [hin.1, hin.2]
        rintro ⟨ef, eo⟩
        subst ef; subst eo
        have et : buddy_of c ho = hc :=
          block_eq (buddy_of_aligned hbo.aligned) hal (in_block_self _ _) hth
        have ec : c = buddy_of hc ho := by
          rw [← et]; exact (buddy_of_buddy_of hbo.aligned).symm
        have hc2 : c < b.chunk_count := by
          have := hbo.in_range
          have := Nat.two_pow_pos ho
          omega
        have := hno rfl hom (ec ▸ hc2)
        rw [← ec] at this
        exact this (hbo.uniform c (in_block_self _ _))
      · have hout := hset.outside _ hth
        rw [hout.1, hout.2]
        exact m2 hth

end Buddy

/-! ## The links after the list operations -/

theorem store_next_next (m : Nat → buddy_chunk_t) (i v j : Nat) :
    (store m i { m i with next := v } j).next = if j = i then v else (m j).next := by
  rw [store_apply]; split <;> rfl

theorem store_next_prev (m : Nat → buddy_chunk_t) (i v j : Nat) :
    (store m i { m i with next := v } j).prev = (m j).prev := by
  rw [store_apply]; split
  · next e => rw [e]
  · rfl

theorem store_prev_prev (m : Nat → buddy_chunk_t) (i v j : Nat) :
    (store m i { m i with prev := v } j).prev = if j = i then v else (m j).prev := by
  rw [store_apply]; split <;> rfl

theorem store_prev_next (m : Nat → buddy_chunk_t) (i v j : Nat) :
    (store m i { m i with prev := v } j).next = (m j).next := by
  rw [store_apply]; split
  · next e => rw [e]
  · rfl

theorem pop_links_next (a : Nat → buddy_chunk_t) (n c j : Nat) (hn : n > 1) :
    (pop_links a n c j).next = if j = (a c).prev then (a c).next else (a j).next := by
  unfold pop_links
  rw [if_pos hn]
  rw [store_prev_next, store_next_next]

theorem pop_links_prev (a : Nat → buddy_chunk_t) (n c j : Nat) (hn : n > 1) :
    (pop_links a n c j).prev = if j = (a c).next then (a c).prev else (a j).prev := by
  unfold pop_links
  rw [if_pos hn]
  rw [store_prev_prev, store_next_prev, store_next_prev, store_next_next, ite_self]

theorem pop_links_le_one (a : Nat → buddy_chunk_t) (n c : Nat) (hn : ¬ n > 1) :
    pop_links a n c = a := by
  unfold pop_links; rw [if_neg hn]

theorem push_links_some_next (a : Nat → buddy_chunk_t) (h c j : Nat) :
    (push_links a (some h) c j).next =
      if j = (a h).prev then c else if j = c then h else (a j).next := by
  unfold push_links
  rw [store_prev_next, store_next_next, store_prev_prev, store_next_prev, store_prev_next,
    store_next_next, ite_self]

theorem push_links_some_prev (a : Nat → buddy_chunk_t) (h c j : Nat) :
    (push_links a (some h) c j).prev =
      if j = h then c else if j = c then (a h).prev else (a j).prev := by
  unfold push_links
  rw [store_prev_prev, store_next_prev, store_prev_prev, store_next_prev, store_next_prev]

theorem push_links_none_next (a : Nat → buddy_chunk_t) (c j : Nat) :
    (push_links a none c j).next = if j = c then c else (a j).next := by
  unfold push_links
  rw [store_next_next, store_prev_next]

theorem push_links_none_prev (a : Nat → buddy_chunk_t) (c j : Nat) :
    (push_links a none c j).prev = if j = c then c else (a j).prev := by
  unfold push_links
  rw [store_next_prev, store_prev_prev]

namespace Buddy

theorem push_list_setBlock (b : buddy_t) (o c : Nat) : SetBlock b (push_list b o c) c o true :=
  { chunk_count := rfl
    max_order := rfl
    inside := fun j hj => by
      rw [push_list_chunk_array, if_pos (show c ≤ j ∧ j < c + 2 ^ o from hj)]; exact ⟨rfl, rfl⟩
    outside := fun j hj => by
      rw [push_list_chunk_array, if_neg (show ¬ (c ≤ j ∧ j < c + 2 ^ o) from hj)]
      exact ⟨push_links_free _ _ _ _, push_links_order _ _ _ _⟩ }

theorem mark_allocated_setBlock (b : buddy_t) (c o : Nat) :
    SetBlock b (mark_allocated b c o) c o false :=
  { chunk_count := rfl
    max_order := rfl
    inside := fun j hj => by
      rw [mark_allocated_chunk_array, if_pos (show c ≤ j ∧ j < c + 2 ^ o from hj)]; exact ⟨rfl, rfl⟩
    outside := fun j hj => by
      rw [mark_allocated_chunk_array, if_neg (show ¬ (c ≤ j ∧ j < c + 2 ^ o) from hj)]; exact ⟨rfl, rfl⟩ }

theorem pop_list_sameFO (b : buddy_t) (o c : Nat) : SameFO b (pop_list b o c) :=
  { chunk_count := rfl
    max_order := rfl
    free := fun j => by rw [pop_list_chunk_array]; exact pop_links_free _ _ _ _
    order := fun j => by rw [pop_list_chunk_array]; exact pop_links_order _ _ _ _ }

end Buddy

theorem chunk_ext {x y : buddy_chunk_t} (h1 : x.free = y.free) (h2 : x.order = y.order)
    (h3 : x.prev = y.prev) (h4 : x.next = y.next) : x = y := by
  cases x; cases y; simp_all

theorem Seg.congr {arr arr2 : Nat → buddy_chunk_t} {a b : Nat} {l : List Nat}
    (h : Seg arr a l b)
    (hn : ∀ y, y ∈ a :: l → (arr2 y).next = (arr y).next)
    (hp : ∀ y, y ∈ l ++ [b] → (arr2 y).prev = (arr y).prev) : Seg arr2 a l b := by
  induction l generalizing a with
  | nil =>
    obtain ⟨h1, h2⟩ := h
    exact ⟨(hn a (List.mem_singleton.2 rfl)).trans h1, (hp b (by simp)).trans h2⟩
  | cons x l ih =>
    obtain ⟨h1, h2, h3⟩ := h
    refine ⟨(hn a (by simp)).trans h1, (hp x (by simp)).trans h2, ih h3 ?_ ?_⟩
    · intro y hy; exact hn y (List.mem_cons_of_mem _ hy)
    · intro y hy; exact hp y (by simp at hy ⊢; tauto)

/-- Redirecting the end of a segment to another chunk `b2`. -/
theorem Seg.retarget {arr arr2 : Nat → buddy_chunk_t} {a b b2 : Nat} {l : List Nat}
    (h : Seg arr a l b) (hnd : (a :: l).Nodup)
    (hn : ∀ y, y ∈ a :: l → y ≠ (a :: l).getLast (List.cons_ne_nil a l) →
      (arr2 y).next = (arr y).next)
    (hp : ∀ y, y ∈ l → (arr2 y).prev = (arr y).prev)
    (hlast : (arr2 ((a :: l).getLast (List.cons_ne_nil a l))).next = b2)
    (hb : (arr2 b2).prev = (a :: l).getLast (List.cons_ne_nil a l)) : Seg arr2 a l b2 := by
  induction l generalizing a with
  | nil =>
    simp only [List.getLast_singleton] at hlast hb
    exact ⟨hlast, hb⟩
  | cons x l ih =>
    obtain ⟨h1, h2, h3⟩ := h
    have hl : (a :: x :: l).getLast (List.cons_ne_nil a (x :: l)) =
        (x :: l).getLast (List.cons_ne_nil x l) := List.getLast_cons (List.cons_ne_nil x l)
    rw [hl] at hlast hb hn
    have ha : a ≠ (x :: l).getLast (List.cons_ne_nil x l) := by
      intro e
      have hm : a ∈ x :: l := e ▸ List.getLast_mem _
      exact (List.nodup_cons.1 hnd).1 hm
    refine ⟨(hn a (by simp) ha).trans h1, (hp x (by simp)).trans h2,
      ih h3 (List.nodup_cons.1 hnd).2 ?_ ?_ hlast hb⟩
    · intro y hy hne; exact hn y (List.mem_cons_of_mem _ hy) hne
    · intro y hy; exact hp y (List.mem_cons_of_mem _ hy)

theorem Seg.append {arr : Nat → buddy_chunk_t} {a x b : Nat} {l1 l2 : List Nat} :
    Seg arr a (l1 ++ x :: l2) b ↔ Seg arr a l1 x ∧ Seg arr x l2 b := by
  induction l1 generalizing a with
  | nil => simp only [List.nil_append, Seg]; tauto
  | cons y l ih =>
    show Seg arr a (y :: (l ++ x :: l2)) b ↔ _
    simp only [Seg]
    rw [ih]
    tauto

/-- The last chunk of a segment points to the end, and the end points back
to it. -/
theorem Seg.last {arr : Nat → buddy_chunk_t} {a b : Nat} {l : List Nat} (h : Seg arr a l b) :
    (arr ((a :: l).getLast (List.cons_ne_nil a l))).next = b ∧
    (arr b).prev = (a :: l).getLast (List.cons_ne_nil a l) := by
  induction l generalizing a with
  | nil => simpa only [List.getLast_singleton] using h
  | cons x l ih =>
    rw [List.getLast_cons (List.cons_ne_nil x l)]
    exact ih h.2.2

theorem Seg.first {arr : Nat → buddy_chunk_t} {a b : Nat} {l : List Nat} (h : Seg arr a l b) :
    (arr a).next = (l ++ [b]).head (by simp) := by
  cases l with
  | nil => exact h.1
  | cons x l => exact h.1

theorem IsCList.frame {arr arr2 : Nat → buddy_chunk_t} {l : List Nat} {head : Option Nat}
    {len : Nat} (h : IsCList arr l head len)
    (hn : ∀ y, y ∈ l → (arr2 y).next = (arr y).next)
    (hp : ∀ y, y ∈ l → (arr2 y).prev = (arr y).prev) : IsCList arr2 l head len :=
  { nodup := h.nodup
    len_eq := h.len_eq
    head_eq := h.head_eq
    links := fun x t e => by
      subst e
      refine (h.links x t rfl).congr hn ?_
      intro y hy
      apply hp
      simp at hy ⊢; tauto }

theorem IsCList.nil_iff {arr : Nat → buddy_chunk_t} {l : List Nat} {head : Option Nat}
    {len : Nat} (h : IsCList arr l head len) : len = 0 ↔ l = [] := by
  rw [h.len_eq]; exact List.length_eq_zero

theorem size_inc_eq {n : Nat} (h : n + 1 < 2 ^ 64) : size_inc n = n + 1 :=
  Nat.mod_eq_of_lt h

theorem size_dec_eq {n : Nat} (h0 : 0 < n) (h : n < 2 ^ 64) : size_dec n = n - 1 := by
  unfold size_dec
  have e : n + (2 ^ 64 - 1) = (n - 1) + 2 ^ 64 := by omega
  rw [e, Nat.add_mod_right]
  exact Nat.mod_eq_of_lt (by omega)

/-- Appending a chunk at the tail, as `push_list` links it. -/
theorem IsCList.push {arr : Nat → buddy_chunk_t} {l : List Nat} {head : Option Nat}
    {len : Nat} (h : IsCList arr l head len) {c : Nat} (hc : c ∉ l) (hlen : len + 1 < 2 ^ 64) :
    IsCList (push_links arr head c) (l ++ [c]) (some (head.getD c)) (size_inc len) := by
  refine
    { nodup := ?_, len_eq := ?_, head_eq := ?_, links := ?_ }
  · exact List.Nodup.append h.nodup (List.nodup_singleton c) (by simpa using hc)
  · rw [size_inc_eq hlen, h.len_eq, List.length_append, List.length_singleton]
  · rw [h.head_eq]; cases l <;> rfl
  · intro x t e
    cases l with
    | nil =>
      have hh : head = none := h.head_eq
      simp only [List.nil_append, List.cons.injEq] at e
      obtain ⟨e1, e2⟩ := e
      subst e1; subst e2; subst hh
      exact ⟨by rw [push_links_none_next, if_pos rfl], by rw [push_links_none_prev, if_pos rfl]⟩
    | cons y l =>
      have hh : head = some y := h.head_eq
      simp only [List.cons_append, List.cons.injEq] at e
      obtain ⟨e1, e2⟩ := e
      subst e1; subst e2; subst hh
      have hs := h.links y l rfl
      have hlast := hs.last
      have hnd := h.nodup
      have hcy : c ≠ y := fun e => hc (e ▸ List.mem_cons_self _ _)
      have hlm : (y :: l).getLast (List.cons_ne_nil y l) ∈ y :: l := List.getLast_mem _
      have hcl : c ≠ (y :: l).getLast (List.cons_ne_nil y l) := fun e => hc (e ▸ hlm)
      rw [Seg.append]
      constructor
      · refine hs.retarget hnd ?_ ?_ ?_ ?_
        · intro z hz hne
          rw [push_links_some_next, hlast.2, if_neg hne, if_neg (fun (e : z = c) => hc (e ▸ hz))]
        · intro z hz
          have hzy : z ≠ y := fun e => (List.nodup_cons.1 hnd).1 (e ▸ hz)
          rw [push_links_some_prev, if_neg hzy,
            if_neg (fun (e : z = c) => hc (e ▸ List.mem_cons_of_mem _ hz))]
        · rw [push_links_some_next, hlast.2, if_pos rfl]
        · rw [push_links_some_prev, if_neg hcy, if_pos rfl, hlast.2]
      · exact ⟨by rw [push_links_some_next, hlast.2, if_neg hcl, if_pos rfl],
          by rw [push_links_some_prev, if_pos rfl]⟩

theorem pop_links_next_self (a : Nat → buddy_chunk_t) (n c : Nat) :
    (pop_links a n c c).next = (a c).next := by
  by_cases hn : n > 1
  · rw [pop_links_next _ _ _ _ hn, ite_self]
  · rw [pop_links_le_one _ _ _ hn]

/-- Unlinking a chunk of the list, as `pop_list` does. -/
theorem IsCList.pop {arr : Nat → buddy_chunk_t} {l : List Nat} {head : Option Nat}
    {len : Nat} (h : IsCList arr l head len) {c : Nat} (hc : c ∈ l) (hlen : len < 2 ^ 64) :
    IsCList (pop_links arr len c) (l.erase c)
      (if len > 1 then
        (if head = some c then some (pop_links arr len c c).next else head)
       else none)
      (size_dec len) := by
  have hpos : 0 < len := by rw [h.len_eq]; exact List.length_pos_of_mem hc
  have hnd := h.nodup
  refine
    { nodup := hnd.erase c, len_eq := ?_, head_eq := ?_, links := ?_ }
  · rw [size_dec_eq hpos hlen, h.len_eq, List.length_erase_of_mem hc]
  · by_cases h1 : len > 1
    · rw [if_pos h1, pop_links_next_self]
      cases l with
      | nil => exact absurd hc (List.not_mem_nil c)
      | cons y t =>
        have hh : head = some y := h.head_eq
        by_cases hcy : c = y
        · subst hcy
          rw [if_pos hh, List.erase_cons_head]
          cases t with
          | nil => rw [h.len_eq] at h1; simp at h1
          | cons x t2 => rw [(h.links c (x :: t2) rfl).1]; rfl
        · have hne : ¬ head = some c := by rw [hh]; intro e; exact hcy (Option.some.inj e).symm
          rw [if_neg hne, hh, List.erase_cons_tail (by simpa using Ne.symm hcy)]
          rfl
    · rw [if_neg h1]
      have hl1 : l.length = 1 := by rw [← h.len_eq]; omega
      obtain ⟨x, rfl⟩ := List.length_eq_one.1 hl1
      have : c = x := by simpa using hc
      subst this
      simp
  · intro x t e
    have h1 : len > 1 := by
      by_contra hle
      have hl1 : l.length = 1 := by rw [← h.len_eq]; omega
      obtain ⟨z, rfl⟩ := List.length_eq_one.1 hl1
      have : c = z := by simpa using hc
      subst this
      simp at e
    cases l with
    | nil => exact absurd hc (List.not_mem_nil c)
    | cons y t0 =>
      have hs := h.links y t0 rfl
      by_cases hcy : c = y
      · subst hcy
        rw [List.erase_cons_head] at e
        subst e
        obtain ⟨s1, s2, s3⟩ := hs
        have hlast := s3.last
        have hnd2 : (x :: t).Nodup := (List.nodup_cons.1 hnd).2
        have hcl : (c :: x :: t).getLast (List.cons_ne_nil _ _) =
            (x :: t).getLast (List.cons_ne_nil _ _) := List.getLast_cons (List.cons_ne_nil x t)
        refine s3.retarget hnd2 ?_ ?_ ?_ ?_
        · intro z _ hne
          rw [pop_links_next _ _ _ _ h1, hlast.2, if_neg hne]
        · intro z hz
          have hzx : z ≠ x := fun e => (List.nodup_cons.1 hnd2).1 (e ▸ hz)
          rw [pop_links_prev _ _ _ _ h1, s1, if_neg hzx]
        · rw [pop_links_next _ _ _ _ h1, hlast.2, if_pos rfl, s1]
        · rw [pop_links_prev _ _ _ _ h1, s1, if_pos rfl, hlast.2]
      · have hct : c ∈ t0 := by
          rcases List.mem_cons.1 hc with e | e
          · exact absurd e hcy
          · exact e
        obtain ⟨l1, l2, rfl⟩ := List.append_of_mem hct
        have hnd1 : y ∉ l1 ++ c :: l2 := (List.nodup_cons.1 hnd).1
        have hnd2 : (l1 ++ c :: l2).Nodup := (List.nodup_cons.1 hnd).2
        have hcl1 : c ∉ l1 := by
          intro hm
          have := (List.nodup_append.1 hnd2).2.2
          exact this hm (List.mem_cons_self _ _)
        have hcl2 : c ∉ l2 := by
          have := (List.nodup_append.1 hnd2).2.1
          exact (List.nodup_cons.1 this).1
        have hdisj : ∀ z, z ∈ l1 → z ∉ l2 := by
          intro z hz1 hz2
          have := (List.nodup_append.1 hnd2).2.2
          exact this hz1 (List.mem_cons_of_mem _ hz2)
        have hyl1 : y ∉ l1 := fun hm => hnd1 (List.mem_append_left _ hm)
        have hyl2 : y ∉ l2 := fun hm => hnd1 (List.mem_append_right _ (List.mem_cons_of_mem _ hm))
        have hndl1 : (y :: l1).Nodup :=
          List.nodup_cons.2 ⟨hyl1, (List.nodup_append.1 hnd2).1⟩
        have hndl2 : l2.Nodup := (List.nodup_cons.1 (List.nodup_append.1 hnd2).2.1).2
        rw [List.erase_cons_tail (by simpa using Ne.symm hcy),
          List.erase_append_right _ hcl1, List.erase_cons_head] at e
        simp only [List.cons.injEq] at e
        obtain ⟨e1, e2⟩ := e
        subst e1; subst e2
        obtain ⟨s1, s2⟩ := Seg.append.1 hs
        have hlast := s1.last
        have hlm : (y :: l1).getLast (List.cons_ne_nil _ _) ∈ y :: l1 := List.getLast_mem _
        cases l2 with
        | nil =>
          obtain ⟨n1, n2⟩ := s2
          rw [List.append_nil]
          refine s1.retarget hndl1 ?_ ?_ ?_ ?_
          · intro z _ hne
            rw [pop_links_next _ _ _ _ h1, hlast.2, if_neg hne]
          · intro z hz
            have hzy : z ≠ y := fun e => hyl1 (e ▸ hz)
            rw [pop_links_prev _ _ _ _ h1, n1, if_neg hzy]
          · rw [pop_links_next _ _ _ _ h1, hlast.2, if_pos rfl, n1]
          · rw [pop_links_prev _ _ _ _ h1, n1, if_pos rfl, hlast.2]
        | cons s l3 =>
          obtain ⟨n1, n2, n3⟩ := s2
          rw [Seg.append]
          have hsl1 : s ∉ l1 := fun hm => hdisj s hm (List.mem_cons_self _ _)
          have hsy : s ≠ y := fun e => hyl2 (e ▸ List.mem_cons_self _ _)
          constructor
          · refine s1.retarget hndl1 ?_ ?_ ?_ ?_
            · intro z _ hne
              rw [pop_links_next _ _ _ _ h1, hlast.2, if_neg hne]
            · intro z hz
              have hzs : z ≠ s := fun e => hsl1 (e ▸ hz)
              rw [pop_links_prev _ _ _ _ h1, n1, if_neg hzs]
            · rw [pop_links_next _ _ _ _ h1, hlast.2, if_pos rfl, n1]
            · rw [pop_links_prev _ _ _ _ h1, n1, if_pos rfl, hlast.2]
          · refine n3.congr ?_ ?_
            · intro z hz
              have hne : z ≠ (y :: l1).getLast (List.cons_ne_nil _ _) := by
                intro e
                rw [e] at hz
                rcases List.mem_cons.1 hlm with e2 | e2
                · rw [e2] at hz; exact hyl2 hz
                · exact hdisj _ e2 hz
              rw [pop_links_next _ _ _ _ h1, hlast.2, if_neg hne]
            · intro z hz
              have hzs : z ≠ s := by
                intro e
                rw [e] at hz
                rcases List.mem_append.1 hz with e2 | e2
                · exact (List.nodup_cons.1 hndl2).1 e2
                · exact hsy (List.mem_singleton.1 e2)
              rw [pop_links_prev _ _ _ _ h1, n1, if_neg hzs]

/-- The list operations change no descriptor outside the list and the
pushed chunk. -/
theorem push_links_other {arr : Nat → buddy_chunk_t} {l : List Nat} {head : Option Nat}
    {len : Nat} (h : IsCList arr l head len) (c j : Nat) (hj : j ∉ l) (hjc : j ≠ c) :
    push_links arr head c j = arr j := by
  apply chunk_ext (push_links_free _ _ _ _) (push_links_order _ _ _ _)
  · cases l with
    | nil =>
      rw [h.head_eq]
      show (push_links arr none c j).prev = _
      rw [push_links_none_prev, if_neg hjc]
    | cons y t =>
      rw [h.head_eq]
      show (push_links arr (some y) c j).prev = _
      have hjy : j ≠ y := fun e => hj (e ▸ List.mem_cons_self _ _)
      rw [push_links_some_prev, if_neg hjy, if_neg hjc]
  · cases l with
    | nil =>
      rw [h.head_eq]
      show (push_links arr none c j).next = _
      rw [push_links_none_next, if_neg hjc]
    | cons y t =>
      rw [h.head_eq]
      show (push_links arr (some y) c j).next = _
      have hlast := (h.links y t rfl).last
      have hjl : j ≠ (arr y).prev := by
        intro e
        rw [hlast.2] at e
        exact hj (e ▸ List.getLast_mem _)
      rw [push_links_some_next, if_neg hjl, if_neg hjc]

theorem pop_links_other {arr : Nat → buddy_chunk_t} {l : List Nat} {head : Option Nat}
    {len : Nat} (h : IsCList arr l head len) {c : Nat} (hc : c ∈ l) (j : Nat) (hj : j ∉ l) :
    pop_links arr len c j = arr j := by
  by_cases h1 : len > 1
  · have hprev : (arr c).prev ∈ l ∧ (arr c).next ∈ l := by
      cases l with
      | nil => exact absurd hc (List.not_mem_nil c)
      | cons y t0 =>
        have hs := h.links y t0 rfl
        by_cases hcy : c = y
        · subst hcy
          have hlast := hs.last
          constructor
          · rw [hlast.2]; exact List.getLast_mem _
          · cases t0 with
            | nil => rw [h.len_eq] at h1; simp at h1
            | cons x t => rw [hs.1]; simp
        · have hct : c ∈ t0 := by
            rcases List.mem_cons.1 hc with e | e
            · exact absurd e hcy
            · exact e
          obtain ⟨l1, l2, rfl⟩ := List.append_of_mem hct
          obtain ⟨s1, s2⟩ := Seg.append.1 hs
          constructor
          · rw [s1.last.2]
            have : (y :: l1).getLast (List.cons_ne_nil _ _) ∈ y :: l1 := List.getLast_mem _
            simp only [List.mem_cons, List.mem_append] at this ⊢
            tauto
          · rw [s2.first]
            have : (l2 ++ [y]).head (by simp) ∈ l2 ++ [y] := List.head_mem _
            simp only [List.mem_cons, List.mem_append, List.mem_singleton] at this ⊢
            tauto
    apply chunk_ext (pop_links_free _ _ _ _) (pop_links_order _ _ _ _)
    · rw [pop_links_prev _ _ _ _ h1, if_neg (fun (e : j = (arr c).next) => hj (e ▸ hprev.2))]
    · rw [pop_links_next _ _ _ _ h1, if_neg (fun (e : j = (arr c).prev) => hj (e ▸ hprev.1))]
  · rw [pop_links_le_one _ _ _ h1]

namespace Buddy

theorem push_list_chunk_array_in {b : buddy_t} {o c j : Nat} (hj : in_block c o j) :
    (push_list b o c).chunk_array j =
      { push_links b.chunk_array (b.lists o).head c c with free := true, order := o } := by
  rw [push_list_chunk_array, if_pos (show c ≤ j ∧ j < c + 2 ^ o from hj)]

theorem push_list_chunk_array_out {b : buddy_t} {o c j : Nat} (hj : ¬ in_block c o j) :
    (push_list b o c).chunk_array j = push_links b.chunk_array (b.lists o).head c j := by
  rw [push_list_chunk_array, if_neg (show ¬ (c ≤ j ∧ j < c + 2 ^ o) from hj)]

theorem mark_allocated_chunk_array_in {b : buddy_t} {o c j : Nat} (hj : in_block c o j) :
    (mark_allocated b c o).chunk_array j = { b.chunk_array c with free := false, order := o } := by
  rw [mark_allocated_chunk_array, if_pos (show c ≤ j ∧ j < c + 2 ^ o from hj)]

theorem mark_allocated_chunk_array_out {b : buddy_t} {o c j : Nat} (hj : ¬ in_block c o j) :
    (mark_allocated b c o).chunk_array j = b.chunk_array j := by
  rw [mark_allocated_chunk_array, if_neg (show ¬ (c ≤ j ∧ j < c + 2 ^ o) from hj)]

theorem IsBlock.lt {b : buddy_t} {c o : Nat} {f : Bool} (h : IsBlock b c o f) :
    c < b.chunk_count := by
  have := h.in_range
  have := Nat.two_pow_pos o
  omega

theorem IsBlock.self {b : buddy_t} {c o : Nat} {f : Bool} (h : IsBlock b c o f) :
    (b.chunk_array c).free = f ∧ (b.chunk_array c).order = o :=
  h.uniform c (in_block_self c o)

/-- Blocks outside the range under rewriting are the same before and after
a block inside the range is written. -/
theorem isBlock_setBlock_iff {b b2 : buddy_t} {hc hs r q : Nat} {f : Bool}
    (hp : PInvH b hc hs) (hset : SetBlock b b2 r q f)
    (hsub : ∀ j, in_block r q j → in_hole hc hs j) (hR : IsBlock b2 r q f)
    {c o : Nat} {f2 : Bool} (hc : ¬ in_hole hc hs c) :
    IsBlock b c o f2 ↔ IsBlock b2 c o f2 := by
  constructor
  · intro hb
    obtain ⟨c2, o2, f3, hb2, hin, hd⟩ := hp.cover c hb.lt hc
    obtain ⟨e1, e2, _⟩ := hb.unique hb2 (in_block_self _ _) hin
    subst e1; subst e2
    refine hb.transfer hset.chunk_count hset.max_order ?_
    intro j hj
    exact hset.outside j (fun hh => hd j hj (hsub j hh))
  · intro hb
    have hd : ∀ j, in_block c o j → ¬ in_block r q j := by
      intro j hj hjr
      obtain ⟨e1, e2, _⟩ := hb.unique hR hj hjr
      subst e1; subst e2
      exact hc (hsub _ (in_block_self _ _))
    refine hb.transfer hset.chunk_count.symm hset.max_order.symm ?_
    intro j hj
    have := hset.outside j (hd j hj)
    exact ⟨this.1.symm, this.2.symm⟩

theorem nodup_length_le {l : List Nat} {n : Nat} (hnd : l.Nodup) (hlt : ∀ x, x ∈ l → x < n) :
    l.length ≤ n := by
  have h1 : l.toFinset ⊆ Finset.range n := by
    intro x hx
    rw [List.mem_toFinset] at hx
    exact Finset.mem_range.2 (hlt x hx)
  have h2 := Finset.card_le_card h1
  rw [List.toFinset_card_of_nodup hnd, Finset.card_range] at h2
  exact h2

theorem BInvH.length_le {b : buddy_t} {ls : Nat → List Nat} {hc hs : Nat}
    (h : BInvH b ls hc hs) (o : Nat) : (b.lists o).length ≤ BUDDY_MAX_CHUNK_COUNT := by
  rw [(h.lists o).len_eq]
  refine Nat.le_trans (nodup_length_le (h.lists o).nodup ?_) h.sized
  intro x hx
  exact ((h.mem o x).1 hx).1.lt

theorem max_chunk_count_lt : BUDDY_MAX_CHUNK_COUNT + 1 < 2 ^ 64 := by decide

theorem BInvH.mem_unique {b : buddy_t} {ls : Nat → List Nat} {hc hs : Nat}
    (h : BInvH b ls hc hs) {o o2 c : Nat} (h1 : c ∈ ls o) (h2 : c ∈ ls o2) : o = o2 :=
  (((h.mem o c).1 h1).1.unique ((h.mem o2 c).1 h2).1 (in_block_self _ _)
    (in_block_self _ _)).2.1

theorem pop_list_lists (b : buddy_t) (o c o2 : Nat) :
    (pop_list b o c).lists o2 =
      if o2 = o then
        { head :=
            if (b.lists o).length > 1 then
              (if (b.lists o).head = some c then
                some (pop_links b.chunk_array (b.lists o).length c c).next
               else (b.lists o).head)
            else none
          length := size_dec (b.lists o).length }
      else b.lists o2 := by
  by_cases h : o2 = o
  · subst h
    rw [if_pos rfl]
    by_cases h1 : (b.lists o2).length > 1
    · by_cases h2 : (b.lists o2).head = some c
      · simp only [pop_list, pop_links, h1, h2, if_true, store_same]
      · simp only [pop_list, pop_links, h1, h2, if_true, if_false, store_same]
    · simp only [pop_list, pop_links, h1, if_false, store_same]
  · rw [if_neg h]
    exact store_other _ _ h

theorem push_list_lists (b : buddy_t) (o c o2 : Nat) :
    (push_list b o c).lists o2 =
      if o2 = o then
        { head := some ((b.lists o).head.getD c)
          length := size_inc (b.lists o).length }
      else b.lists o2 := by
  by_cases h : o2 = o
  · subst h
    rw [if_pos rfl]
    cases hd : (b.lists o2).head <;> simp only [push_list, hd, store_same, Option.getD]
  · rw [if_neg h]
    exact store_other _ _ h

/-- Popping a free block from its list puts the block under rewriting. -/
theorem BInvH.pop_block {b : buddy_t} {ls : Nat → List Nat} {hc hs c o hc2 hs2 : Nat}
    (h : BInvH b ls hc hs) (hmem : c ∈ ls o)
    (hunion : ∀ j, in_hole hc2 hs2 j ↔ in_hole hc hs j ∨ in_block c o j)
    (hp : PInvH b hc2 hs2) :
    BInvH (pop_list b o c) (store ls o ((ls o).erase c)) hc2 hs2 := by
  have hfo := pop_list_sameFO b o c
  have hcb := ((h.mem o c).1 hmem).1
  have hlen : (b.lists o).length < 2 ^ 64 :=
    Nat.lt_of_le_of_lt (h.length_le o) (by decide)
  refine
    { sized := h.sized, ordered := h.ordered, pinv := hp.same_fo hfo, lists := ?_, mem := ?_ }
  · intro o2
    rw [pop_list_lists, pop_list_chunk_array, store_apply]
    by_cases e : o2 = o
    · rw [if_pos e, if_pos e]
      exact (h.lists o).pop hmem hlen
    · rw [if_neg e, if_neg e]
      refine (h.lists o2).frame ?_ ?_
      · intro y hy
        rw [pop_links_other (h.lists o) hmem y (fun hy2 => e (h.mem_unique hy hy2))]
      · intro y hy
        rw [pop_links_other (h.lists o) hmem y (fun hy2 => e (h.mem_unique hy hy2))]
  · intro o2 c2
    have hiff : IsBlock (pop_list b o c) c2 o2 true ↔ IsBlock b c2 o2 true :=
      ⟨fun hh => hh.sameFO hfo.symm, fun hh => hh.sameFO hfo⟩
    rw [hiff, hunion, store_apply]
    by_cases e : o2 = o
    · subst e
      rw [if_pos rfl, (h.lists o2).nodup.mem_erase_iff, h.mem]
      constructor
      · rintro ⟨hne, hb, hnh⟩
        refine ⟨hb, fun hh => hh.elim hnh ?_⟩
        intro hin
        exact hne (block_eq hb.aligned hcb.aligned (in_block_self _ _) hin)
      · rintro ⟨hb, hn⟩
        refine ⟨?_, hb, fun hh => hn (Or.inl hh)⟩
        intro e
        subst e
        exact hn (Or.inr (in_block_self _ _))
    · rw [if_neg e, h.mem]
      constructor
      · rintro ⟨hb, hnh⟩
        refine ⟨hb, fun hh => hh.elim hnh ?_⟩
        intro hin
        exact e (hb.unique hcb (in_block_self _ _) hin).2.1
      · rintro ⟨hb, hn⟩
        exact ⟨hb, fun hh => hn (Or.inl hh)⟩

/-- Pushing a block that lies in the range under rewriting takes it out of
the range. -/
theorem BInvH.push_block {b : buddy_t} {ls : Nat → List Nat} {hc hs c o hc2 hs2 : Nat}
    (h : BInvH b ls hc hs)
    (hunion : ∀ j, in_hole hc hs j ↔ in_block c o j ∨ in_hole hc2 hs2 j)
    (hdisj : ∀ j, in_block c o j → ¬ in_hole hc2 hs2 j)
    (hal : BUDDY_ALIGN_TO_ORDER c o = c) (hr : c + 2 ^ o ≤ b.chunk_count)
    (hm : o ≤ b.max_order) (hp : PInvH (push_list b o c) hc2 hs2) :
    BInvH (push_list b o c) (store ls o (ls o ++ [c])) hc2 hs2 := by
  have hset := push_list_setBlock b o c
  have hP : IsBlock (push_list b o c) c o true :=
    { aligned := hal, in_range := hr, order_le := hm, uniform := hset.inside }
  have hsub : ∀ j, in_block c o j → in_hole hc hs j := fun j hj => (hunion j).2 (Or.inl hj)
  have hcl : ∀ o2, c ∉ ls o2 := fun o2 hh =>
    ((h.mem o2 c).1 hh).2 (hsub c (in_block_self _ _))
  have hlen : (b.lists o).length + 1 < 2 ^ 64 :=
    Nat.lt_of_le_of_lt (Nat.succ_le_succ (h.length_le o)) max_chunk_count_lt
  have hnotin : ∀ o2 y, y ∈ ls o2 → ¬ in_block c o y := fun o2 y hy hh =>
    ((h.mem o2 y).1 hy).2 (hsub y hh)
  refine
    { sized := h.sized, ordered := h.ordered, pinv := hp, lists := ?_, mem := ?_ }
  · intro o2
    rw [push_list_lists, store_apply]
    by_cases e : o2 = o
    · subst e
      rw [if_pos rfl, if_pos rfl]
      refine ((h.lists o2).push (hcl o2) hlen).frame ?_ ?_
      · intro y _
        rw [push_list_chunk_array]
        split
        · next hin =>
          have : y = c := by
            by_contra hne
            rcases List.mem_append.1 ‹y ∈ ls o2 ++ [c]› with hy | hy
            · exact hnotin o2 y hy hin
            · exact hne (List.mem_singleton.1 hy)
          rw [this]
        · rfl
      · intro y _
        rw [push_list_chunk_array]
        split
        · next hin =>
          have : y = c := by
            by_contra hne
            rcases List.mem_append.1 ‹y ∈ ls o2 ++ [c]› with hy | hy
            · exact hnotin o2 y hy hin
            · exact hne (List.mem_singleton.1 hy)
          rw [this]
        · rfl
    · rw [if_neg e, if_neg e]
      have key : ∀ y, y ∈ ls o2 → (push_list b o c).chunk_array y = b.chunk_array y := by
        intro y hy
        rw [push_list_chunk_array_out (hnotin o2 y hy)]
        refine push_links_other (h.lists o) c y (fun hy2 => e (h.mem_unique hy hy2)) ?_
        intro e2
        exact hcl o2 (e2 ▸ hy)
      refine (h.lists o2).frame ?_ ?_
      · intro y hy; rw [key y hy]
      · intro y hy; rw [key y hy]
  · intro o2 c2
    constructor
    · intro hmem
      have hcase : (o2 = o ∧ c2 = c) ∨ c2 ∈ ls o2 := by
        rw [store_apply] at hmem
        by_cases e : o2 = o
        · rw [if_pos e] at hmem
          rcases List.mem_append.1 hmem with hy | hy
          · right; rw [e]; exact hy
          · left; exact ⟨e, List.mem_singleton.1 hy⟩
        · rw [if_neg e] at hmem; right; exact hmem
      rcases hcase with ⟨e1, e2⟩ | hy
      · subst e1; subst e2
        exact ⟨hP, hdisj _ (in_block_self _ _)⟩
      · obtain ⟨hb, hnh⟩ := (h.mem o2 c2).1 hy
        refine ⟨(isBlock_setBlock_iff h.pinv hset hsub hP hnh).1 hb, ?_⟩
        intro hh
        exact hnh ((hunion c2).2 (Or.inr hh))
    · rintro ⟨hb, hnh⟩
      rw [store_apply]
      by_cases hin : in_block c o c2
      · obtain ⟨e1, e2, _⟩ := hb.unique hP (in_block_self _ _) hin
        subst e1; subst e2
        rw [if_pos rfl]
        exact List.mem_append_right _ (List.mem_singleton.2 rfl)
      · have hnh2 : ¬ in_hole hc hs c2 := by
          rw [hunion]; exact fun hh => hh.elim hin hnh
        have hb2 := (isBlock_setBlock_iff h.pinv hset hsub hP hnh2).2 hb
        have hy := (h.mem o2 c2).2 ⟨hb2, hnh2⟩
        by_cases e : o2 = o
        · rw [if_pos e]; rw [e] at hy; exact List.mem_append_left _ hy
        · rw [if_neg e]; exact hy

/-- Marking the block under rewriting as allocated. -/
theorem BInvH.mark {b : buddy_t} {ls : Nat → List Nat} {c o : Nat}
    (h : BInvH b ls c (2 ^ o))
    (hal : BUDDY_ALIGN_TO_ORDER c o = c) (hr : c + 2 ^ o ≤ b.chunk_count)
    (hm : o ≤ b.max_order) : BInvH (mark_allocated b c o) ls 0 0 := by
  have hset := mark_allocated_setBlock b c o
  have hP : IsBlock (mark_allocated b c o) c o false :=
    { aligned := hal, in_range := hr, order_le := hm, uniform := hset.inside }
  have hsub : ∀ j, in_block c o j → in_hole c (2 ^ o) j := fun j hj => hj
  refine
    { sized := h.sized
      ordered := h.ordered
      pinv := h.pinv.close hal hr hm hset (fun e => absurd e (by decide))
      lists := ?_, mem := ?_ }
  · intro o2
    show IsCList (mark_allocated b c o).chunk_array (ls o2) (b.lists o2).head
      (b.lists o2).length
    have key : ∀ y, y ∈ ls o2 → (mark_allocated b c o).chunk_array y = b.chunk_array y := by
      intro y hy
      rw [mark_allocated_chunk_array_out ((h.mem o2 y).1 hy).2]
    refine (h.lists o2).frame ?_ ?_
    · intro y hy; rw [key y hy]
    · intro y hy; rw [key y hy]
  · intro o2 c2
    rw [h.mem]
    constructor
    · rintro ⟨hb, hnh⟩
      exact ⟨(isBlock_setBlock_iff h.pinv hset hsub hP hnh).1 hb, not_in_hole_zero 0 c2⟩
    · rintro ⟨hb, _⟩
      have hnh : ¬ in_hole c (2 ^ o) c2 := by
        intro hin
        have e1 := (hP.uniform c2 hin).1
        have e2 := hb.self.1
        rw [e1] at e2
        exact absurd e2 (by decide)
      exact ⟨(isBlock_setBlock_iff h.pinv hset hsub hP hnh).2 hb, hnh⟩

theorem BInvH.pop_other {b : buddy_t} {ls : Nat → List Nat} {hc hs c o : Nat}
    (h : BInvH b ls hc hs) (hmem : c ∈ ls o) (j : Nat) (hj : j ∉ ls o) :
    (pop_list b o c).chunk_array j = b.chunk_array j := by
  rw [pop_list_chunk_array]
  exact pop_links_other (h.lists o) hmem j hj

theorem BInvH.push_other {b : buddy_t} {ls : Nat → List Nat} {hc hs : Nat}
    (h : BInvH b ls hc hs) (c o j : Nat) (hj : j ∉ ls o) (hjc : ¬ in_block c o j) :
    (push_list b o c).chunk_array j = b.chunk_array j := by
  rw [push_list_chunk_array_out hjc]
  refine push_links_other (h.lists o) c j hj ?_
  intro e
  exact hjc (e ▸ in_block_self c o)

theorem mark_allocated_other (b : buddy_t) (c o j : Nat) (hjc : ¬ in_block c o j) :
    (mark_allocated b c o).chunk_array j = b.chunk_array j := by
  rw [mark_allocated_chunk_array_out hjc]

theorem Mid.not_mem {b0 b : buddy_t} {ls : Nat → List Nat} {hc hs : Nat} {K : Nat → Prop}
    (h : Mid b0 b ls hc hs K) {j : Nat} (hj : (b0.chunk_array j).free = false) (hk : ¬ K j)
    (o : Nat) : j ∉ ls o := by
  intro hm
  have h1 := ((h.inv.mem o j).1 hm).1.self.1
  rw [h.keep j hj hk, hj] at h1
  exact absurd h1 (by decide)

theorem Mid.not_in_hole {b0 b : buddy_t} {ls : Nat → List Nat} {hc hs : Nat} {K : Nat → Prop}
    (h : Mid b0 b ls hc hs K) {j : Nat} (hj : (b0.chunk_array j).free = false) (hk : ¬ K j) :
    ¬ in_hole hc hs j := by
  intro hh
  rcases h.hole_free j hh with e | e
  · rw [hj] at e; exact absurd e (by decide)
  · exact hk e

theorem Mid.start {b : buddy_t} {ls : Nat → List Nat} (h : BInvH b ls 0 0) :
    Mid b b ls 0 0 (fun _ => False) :=
  { inv := h, chunk_count := rfl, max_order := rfl
    free_out := fun _ _ => rfl
    hole_free := fun j hj => absurd hj (not_in_hole_zero 0 j)
    k_in := fun _ hk => absurd hk id
    keep := fun _ _ _ => rfl }

/-- Starting to free an allocated block. -/
theorem Mid.open_alloc {b : buddy_t} {ls : Nat → List Nat} (h : BInvH b ls 0 0) {c o : Nat}
    (hb : IsBlock b c o false) : Mid b b ls c (2 ^ o) (in_block c o) :=
  { inv :=
      { sized := h.sized
        ordered := h.ordered
        pinv := h.pinv.open_block hb
        lists := h.lists
        mem := fun o2 c2 => by
          rw [h.mem]
          constructor
          · rintro ⟨hb2, _⟩
            refine ⟨hb2, fun hin => ?_⟩
            have e1 := (hb.uniform c2 hin).1
            rw [hb2.self.1] at e1
            exact absurd e1 (by decide)
          · rintro ⟨hb2, _⟩
            exact ⟨hb2, not_in_hole_zero 0 c2⟩ }
    chunk_count := rfl, max_order := rfl
    free_out := fun _ _ => rfl
    hole_free := fun j hj => Or.inr hj
    k_in := fun _ hk => hk
    keep := fun _ _ _ => rfl }

theorem Mid.pop_mid {b0 b : buddy_t} {ls : Nat → List Nat} {hc hs c o hc2 hs2 : Nat}
    {K : Nat → Prop} (h : Mid b0 b ls hc hs K) (hmem : c ∈ ls o)
    (hunion : ∀ j, in_hole hc2 hs2 j ↔ in_hole hc hs j ∨ in_block c o j)
    (hp : PInvH b hc2 hs2) :
    Mid b0 (pop_list b o c) (store ls o ((ls o).erase c)) hc2 hs2 K := by
  have hfo := pop_list_sameFO b o c
  obtain ⟨hcb, hcn⟩ := (h.inv.mem o c).1 hmem
  have hd : ∀ j, in_block c o j → ¬ in_hole hc hs j := by
    obtain ⟨c2, o2, f2, hb2, hin, hd⟩ := h.inv.pinv.cover c hcb.lt hcn
    obtain ⟨e1, e2, _⟩ := hcb.unique hb2 (in_block_self _ _) hin
    subst e1; subst e2
    exact hd
  refine
    { inv := h.inv.pop_block hmem hunion hp
      chunk_count := h.chunk_count, max_order := h.max_order
      free_out := ?_, hole_free := ?_, k_in := ?_, keep := ?_ }
  · intro j hj
    rw [hfo.free]
    exact h.free_out j (fun hh => hj ((hunion j).2 (Or.inl hh)))
  · intro j hj
    rcases (hunion j).1 hj with hh | hh
    · exact h.hole_free j hh
    · left
      rw [← h.free_out j (hd j hh)]
      exact (hcb.uniform j hh).1
  · intro j hk
    exact (hunion j).2 (Or.inl (h.k_in j hk))
  · intro j hj hk
    rw [h.inv.pop_other hmem j (h.not_mem hj hk o)]
    exact h.keep j hj hk

theorem Mid.push_mid {b0 b : buddy_t} {ls : Nat → List Nat} {hc hs c o hc2 hs2 : Nat}
    {K : Nat → Prop} (h : Mid b0 b ls hc hs K)
    (hunion : ∀ j, in_hole hc hs j ↔ in_block c o j ∨ in_hole hc2 hs2 j)
    (hdisj : ∀ j, in_block c o j → ¬ in_hole hc2 hs2 j)
    (hal : BUDDY_ALIGN_TO_ORDER c o = c) (hr : c + 2 ^ o ≤ b.chunk_count)
    (hm : o ≤ b.max_order) (hp : PInvH (push_list b o c) hc2 hs2)
    (hk : ∀ j, K j → in_hole hc2 hs2 j) (hfree : ∀ j, in_block c o j → ¬ K j) :
    Mid b0 (push_list b o c) (store ls o (ls o ++ [c])) hc2 hs2 K := by
  have hset := push_list_setBlock b o c
  refine
    { inv := h.inv.push_block hunion hdisj hal hr hm hp
      chunk_count := h.chunk_count, max_order := h.max_order
      free_out := ?_, hole_free := ?_, k_in := hk, keep := ?_ }
  · intro j hj
    by_cases hin : in_block c o j
    · rw [(hset.inside j hin).1]
      rcases h.hole_free j ((hunion j).2 (Or.inl hin)) with e | e
      · exact e.symm
      · exact absurd e (hfree j hin)
    · rw [(hset.outside j hin).1]
      exact h.free_out j (fun hh => ((hunion j).1 hh).elim hin hj)
  · intro j hj
    exact h.hole_free j ((hunion j).2 (Or.inr hj))
  · intro j hj hkj
    have hnh := h.not_in_hole hj hkj
    rw [h.inv.push_other c o j (h.not_mem hj hkj o)
      (fun hin => hnh ((hunion j).2 (Or.inl hin)))]
    exact h.keep j hj hkj

/-- Closing the operation by marking the block under rewriting allocated. -/
theorem Mid.mark_mid {b0 b : buddy_t} {ls : Nat → List Nat} {c o : Nat}
    (h : Mid b0 b ls c (2 ^ o) (fun _ => False))
    (hal : BUDDY_ALIGN_TO_ORDER c o = c) (hr : c + 2 ^ o ≤ b.chunk_count)
    (hm : o ≤ b.max_order) : Done b0 (mark_allocated b c o) ls (in_block c o) false := by
  have hset := mark_allocated_setBlock b c o
  refine
    { inv := h.inv.mark hal hr hm
      chunk_count := h.chunk_count, max_order := h.max_order
      free_in := fun j hj => (hset.inside j hj).1
      free_out := ?_, keep := ?_ }
  · intro j hj
    rw [(hset.outside j hj).1]
    exact h.free_out j hj
  · intro j hj hkj
    rw [mark_allocated_other b c o j hkj]
    exact h.keep j hj (fun hh => hh)

/-- Closing the operation by pushing the block under rewriting on its free
list. -/
theorem Mid.push_close {b0 b : buddy_t} {ls : Nat → List Nat} {c o : Nat} {K : Nat → Prop}
    (h : Mid b0 b ls c (2 ^ o) K)
    (hal : BUDDY_ALIGN_TO_ORDER c o = c) (hr : c + 2 ^ o ≤ b.chunk_count)
    (hm : o ≤ b.max_order)
    (hno : o < b.max_order → buddy_of c o < b.chunk_count →
      ¬ ((b.chunk_array (buddy_of c o)).free = true ∧
         (b.chunk_array (buddy_of c o)).order = o)) :
    Done b0 (push_list b o c) (store ls o (ls o ++ [c])) K true := by
  have hset := push_list_setBlock b o c
  have hp : PInvH (push_list b o c) 0 0 :=
    h.inv.pinv.close hal hr hm hset (fun _ => hno)
  have hunion : ∀ j, in_hole c (2 ^ o) j ↔ in_block c o j ∨ in_hole 0 0 j :=
    fun j => ⟨fun hh => Or.inl hh, fun hh => hh.elim id (fun e => absurd e (not_in_hole_zero 0 j))⟩
  refine
    { inv := h.inv.push_block hunion (fun j _ => not_in_hole_zero 0 j) hal hr hm hp
      chunk_count := h.chunk_count, max_order := h.max_order
      free_in := fun j hj => (hset.inside j (h.k_in j hj)).1
      free_out := ?_, keep := ?_ }
  · intro j hj
    by_cases hin : in_block c o j
    · rw [(hset.inside j hin).1]
      rcases h.hole_free j hin with e | e
      · exact e.symm
      · exact absurd e hj
    · rw [(hset.outside j hin).1]
      exact h.free_out j hin
  · intro j hj hkj
    have hnh := h.not_in_hole hj hkj
    rw [h.inv.push_other c o j (h.not_mem hj hkj o) hnh]
    exact h.keep j hj hkj

/-- Where the sum does not wrap, `CHECK_BLOCK` tests what it is written
for. -/
theorem CHECK_BLOCK_iff (b : buddy_t) (c o : Nat) (hw : no_wrap b c o) :
    CHECK_BLOCK b c o = true ↔
      o ≤ b.max_order ∧ BUDDY_ALIGN_TO_ORDER c o = c ∧ c + 2 ^ o ≤ b.chunk_count := by
  unfold no_wrap at hw
  simp only [CHECK_BLOCK, Bool.and_eq_true, decide_eq_true_eq, BUDDY_ORDER_TO_COUNT_eq] at hw ⊢
  constructor
  · rintro ⟨h1, h2, h3⟩
    rw [Nat.mod_eq_of_lt (hw h1)] at h3
    exact ⟨h1, h2, h3⟩
  · rintro ⟨h1, h2, h3⟩
    rw [Nat.mod_eq_of_lt (hw h1)]
    exact ⟨h1, h2, h3⟩

/-- The first two tests of `CHECK_BLOCK`. -/
theorem CHECK_BLOCK_fst {b : buddy_t} {c o : Nat} (h : CHECK_BLOCK b c o = true) :
    o ≤ b.max_order ∧ BUDDY_ALIGN_TO_ORDER c o = c := by
  simp only [CHECK_BLOCK, Bool.and_eq_true, decide_eq_true_eq] at h
  exact ⟨h.1, h.2.1⟩

/-- A block inside the chunk array does not wrap. -/
theorem no_wrap_of_le {b : buddy_t} {ls : Nat → List Nat} {hc hs : Nat}
    (h : BInvH b ls hc hs) {c o : Nat} (hr : c + 2 ^ o ≤ b.chunk_count) : no_wrap b c o := by
  intro _
  have h1 := h.sized
  have h2 : BUDDY_MAX_CHUNK_COUNT < 2 ^ 64 := by decide
  rw [BUDDY_ORDER_TO_COUNT_eq]
  omega

/-- A chunk of the array does not wrap, whatever the order. -/
theorem no_wrap_of_lt {b : buddy_t} {ls : Nat → List Nat} {hc hs : Nat}
    (h : BInvH b ls hc hs) {c : Nat} (hlt : c < b.chunk_count) (o : Nat) : no_wrap b c o := by
  intro ho
  have h1 := h.sized
  have h2 := h.ordered
  have h3 : BUDDY_MAX_CHUNK_COUNT = 2 ^ 29 := by decide
  have h4 : BUDDY_MAX_ORDER = 15 := by decide
  have h5 : 2 ^ o ≤ 2 ^ 15 := Nat.pow_le_pow_right (by decide) (by omega)
  rw [BUDDY_ORDER_TO_COUNT_eq]
  omega

/-- The macro accepts a block inside the chunk array. -/
theorem CHECK_BLOCK_of {b : buddy_t} {ls : Nat → List Nat} {hc hs : Nat}
    (h : BInvH b ls hc hs) {c o : Nat} (hm : o ≤ b.max_order)
    (hal : BUDDY_ALIGN_TO_ORDER c o = c) (hr : c + 2 ^ o ≤ b.chunk_count) :
    CHECK_BLOCK b c o = true :=
  (CHECK_BLOCK_iff b c o (no_wrap_of_le h hr)).2 ⟨hm, hal, hr⟩

theorem in_range_ne_fail {b : buddy_t} {ls : Nat → List Nat} {hc hs : Nat}
    (h : BInvH b ls hc hs) {c o : Nat} (hr : c + 2 ^ o ≤ b.chunk_count) : c ≠ BUDDY_FAIL := by
  have h1 := h.sized
  have h2 : BUDDY_MAX_CHUNK_COUNT < BUDDY_FAIL := by decide
  have := Nat.two_pow_pos o
  omega

theorem hole_split (c o j : Nat) :
    in_hole c (2 ^ (o + 1)) j ↔ in_block (c + 2 ^ o) o j ∨ in_hole c (2 ^ o) j := by
  unfold in_hole in_block; rw [pow_succ]; omega

theorem hole_split_upper (c o j : Nat) :
    in_hole c (2 ^ (o + 1)) j ↔ in_block c o j ∨ in_hole (c + 2 ^ o) (2 ^ o) j := by
  unfold in_hole in_block; rw [pow_succ]; omega

/-- The function `allocate_block` either fails and leaves the state
unchanged, or takes an aligned free range of order `order` out of the free
lists. -/
theorem allocate_block_spec (fuel : Nat) {b0 : buddy_t} {ls : Nat → List Nat}
    (h : BInvH b0 ls 0 0) (order : Nat) (hfuel : b0.max_order + 2 - order ≤ fuel) :
    ((allocate_block fuel b0 order).2 = BUDDY_FAIL ∧ (allocate_block fuel b0 order).1 = b0) ∨
    (∃ ls2, Mid b0 (allocate_block fuel b0 order).1 ls2 (allocate_block fuel b0 order).2
        (2 ^ order) (fun _ => False) ∧
      BUDDY_ALIGN_TO_ORDER (allocate_block fuel b0 order).2 order =
        (allocate_block fuel b0 order).2 ∧
      (allocate_block fuel b0 order).2 + 2 ^ order ≤ b0.chunk_count ∧
      order ≤ b0.max_order) := by
  induction fuel generalizing order with
  | zero =>
    left
    exact ⟨rfl, rfl⟩
  | succ fuel ih =>
    unfold allocate_block
    by_cases h1 : order > b0.max_order
    · rw [if_pos h1]; left; exact ⟨rfl, rfl⟩
    · rw [if_neg h1]
      have hle : order ≤ b0.max_order := Nat.le_of_not_lt h1
      by_cases h2 : (b0.lists order).length ≠ 0
      · rw [if_pos h2]
        right
        have hne : ls order ≠ [] := fun e => h2 ((h.lists order).nil_iff.2 e)
        obtain ⟨c, t, hct⟩ := List.exists_cons_of_ne_nil hne
        have hhead : (b0.lists order).head = some c := by
          rw [(h.lists order).head_eq, hct]; rfl
        have hmem : c ∈ ls order := by rw [hct]; exact List.mem_cons_self _ _
        have hcb := ((h.mem order c).1 hmem).1
        rw [pop_list_head_eq b0 order c hhead]
        refine ⟨_, (Mid.start h).pop_mid hmem ?_ (h.pinv.open_block hcb), hcb.aligned,
          hcb.in_range, hle⟩
        intro j
        exact ⟨fun hh => Or.inr hh, fun hh => hh.elim (fun e => absurd e (not_in_hole_zero 0 j)) id⟩
      · rw [if_neg h2]
        rcases ih (order + 1) (by omega) with ⟨e1, e2⟩ | ⟨ls2, hmid, hal, hr, hm⟩
        · left
          simp only [e1, if_true, e2, and_self]
        · right
          have hne := in_range_ne_fail hmid.inv (by rw [hmid.chunk_count]; exact hr)
          simp only [hne, if_false, BUDDY_ORDER_TO_COUNT_eq]
          have hpow : 2 ^ (order + 1) = 2 * 2 ^ order := by rw [pow_succ]; omega
          have hals := align_halves hal
          have hr2 : (allocate_block fuel b0 (order + 1)).2 + 2 ^ order + 2 ^ order ≤
              (allocate_block fuel b0 (order + 1)).1.chunk_count := by
            rw [hmid.chunk_count]; omega
          have hm2 : order ≤ (allocate_block fuel b0 (order + 1)).1.max_order := by
            rw [hmid.max_order]; exact hle
          have hp := hmid.inv.pinv.split hal (by rw [hmid.chunk_count]; exact hr)
            (by rw [hmid.max_order]; exact hm) (Or.inl ⟨rfl, rfl⟩)
            (push_list_setBlock _ order _)
          refine ⟨_, hmid.push_mid (hole_split _ _) ?_ hals.2.1 hr2 hm2 hp
            (fun j hk => absurd hk id) (fun j _ hk => hk), hals.1, by omega, hle⟩
          intro j
          unfold in_hole in_block
          omega

/-- The function `buddy_allocate` either fails and leaves the state
unchanged, or turns an aligned range of free chunks into an allocated block
of order `order`. -/
theorem buddy_allocate_spec {b0 : buddy_t} {ls : Nat → List Nat} (h : BInvH b0 ls 0 0)
    (order : Nat) :
    ((buddy_allocate b0 order).2 = BUDDY_FAIL ∧ (buddy_allocate b0 order).1 = b0) ∨
    ((buddy_allocate b0 order).2 ≠ BUDDY_FAIL ∧
     ∃ ls2, Done b0 (buddy_allocate b0 order).1 ls2
        (in_block (buddy_allocate b0 order).2 order) false ∧
      IsBlock (buddy_allocate b0 order).1 (buddy_allocate b0 order).2 order false ∧
      ∀ j, in_block (buddy_allocate b0 order).2 order j → (b0.chunk_array j).free = true) := by
  unfold buddy_allocate
  rcases allocate_block_spec (b0.max_order + 2 - order) h order (Nat.le_refl _) with
    ⟨e1, e2⟩ | ⟨ls2, hmid, hal, hr, hm⟩
  · left
    simp only [e1, if_true, e2, and_self]
  · right
    have hne := in_range_ne_fail hmid.inv (by rw [hmid.chunk_count]; exact hr)
    simp only [hne, if_false, ne_eq, not_false_eq_true, true_and]
    have hr2 : (allocate_block (b0.max_order + 2 - order) b0 order).2 + 2 ^ order ≤
        (allocate_block (b0.max_order + 2 - order) b0 order).1.chunk_count := by
      rw [hmid.chunk_count]; exact hr
    have hm2 : order ≤ (allocate_block (b0.max_order + 2 - order) b0 order).1.max_order := by
      rw [hmid.max_order]; exact hm
    refine ⟨ls2, hmid.mark_mid hal hr2 hm2, ?_, ?_⟩
    · exact
        { aligned := hal, in_range := hr2, order_le := hm2
          uniform := (mark_allocated_setBlock _ _ _).inside }
    · intro j hj
      rcases hmid.hole_free j hj with e | e
      · exact e
      · exact absurd e id

/-- The function `reserve_block` narrows the range under rewriting from the
root block down to the requested block, pushing the other halves. -/
theorem reserve_block_spec (fuel : Nat) {b0 b : buddy_t} {ls : Nat → List Nat}
    {ci order root ro : Nat} (h : Mid b0 b ls root (2 ^ ro) (fun _ => False))
    (hal : BUDDY_ALIGN_TO_ORDER root ro = root) (hr : root + 2 ^ ro ≤ b.chunk_count)
    (hm : ro ≤ b.max_order) (hci : BUDDY_ALIGN_TO_ORDER ci order = ci)
    (hin : in_block root ro ci) (hle : order ≤ ro) (hfuel : ro - order + 1 ≤ fuel) :
    ∃ ls2, Mid b0 (reserve_block fuel b ci order root ro) ls2 ci (2 ^ order)
      (fun _ => False) := by
  induction fuel generalizing b ls root ro with
  | zero => omega
  | succ fuel ih =>
    unfold reserve_block
    by_cases h1 : ro = order
    · rw [if_pos h1]
      subst h1
      have e : root = ci := block_eq hal hci hin (in_block_self _ _)
      subst e
      exact ⟨ls, h⟩
    · rw [if_neg h1]
      obtain ⟨sub, rfl⟩ : ∃ sub, ro = sub + 1 := ⟨ro - 1, by omega⟩
      simp only [Nat.add_sub_cancel, BUDDY_ORDER_TO_COUNT_eq]
      have hpow : 2 ^ (sub + 1) = 2 * 2 ^ sub := by rw [pow_succ]; omega
      have hals := align_halves hal
      have hpos := Nat.two_pow_pos sub
      by_cases h2 : ci < root + 2 ^ sub
      · rw [if_pos h2]
        have hp := h.inv.pinv.split hal hr hm (Or.inl ⟨rfl, rfl⟩)
          (push_list_setBlock b sub (root + 2 ^ sub))
        have hmid := h.push_mid (hole_split root sub)
          (by intro j; unfold in_hole in_block; omega)
          hals.2.1 (by omega) (by omega) hp (fun j hk => absurd hk id) (fun j _ hk => hk)
        exact ih hmid hals.1 (by rw [push_list_chunk_count]; omega)
          (by rw [push_list_max_order]; omega) ⟨hin.1, h2⟩ (by omega) (by omega)
      · rw [if_neg h2]
        have hp := h.inv.pinv.split hal hr hm (Or.inr ⟨rfl, rfl⟩)
          (push_list_setBlock b sub root)
        have hmid := h.push_mid (hole_split_upper root sub)
          (by intro j; unfold in_hole in_block; omega)
          hals.1 (by omega) (by omega) hp (fun j hk => absurd hk id) (fun j _ hk => hk)
        refine ih hmid hals.2.1 (by rw [push_list_chunk_count]; omega)
          (by rw [push_list_max_order]; omega) ?_ (by omega) (by omega)
        have := hin.2
        exact ⟨by omega, by omega⟩

/-- The result code of `buddy_reserve`. -/
theorem buddy_reserve_ret (b : buddy_t) (c order : Nat) :
    (buddy_reserve b c order).2 =
      if CHECK_BLOCK b c order = false then EINVAL
      else if ¬ ((b.chunk_array c).free = true ∧ order ≤ (b.chunk_array c).order) then EBUSY
      else 0 := by
  unfold buddy_reserve
  cases hchk : CHECK_BLOCK b c order
  · simp
  · cases hf : (b.chunk_array c).free
    · simp [hf]
    · by_cases ho : order ≤ (b.chunk_array c).order
      · simp [hf, ho]
      · simp [hf, ho]

/-- A failing `buddy_reserve` leaves the state unchanged. -/
theorem buddy_reserve_fail (b : buddy_t) (c order : Nat)
    (h : (buddy_reserve b c order).2 ≠ 0) : (buddy_reserve b c order).1 = b := by
  unfold buddy_reserve at h ⊢
  cases hchk : CHECK_BLOCK b c order
  · simp
  · cases hf : (b.chunk_array c).free
    · simp [hf]
    · by_cases ho : order ≤ (b.chunk_array c).order
      · simp [hchk, hf, ho] at h
      · simp [hf, ho]

/-- A successful `buddy_reserve` turns the aligned free range
`[c, c + 2^order)` into an allocated block. -/
theorem buddy_reserve_spec {b0 : buddy_t} {ls : Nat → List Nat} (h : BInvH b0 ls 0 0)
    (c order : Nat) (hw : no_wrap b0 c order) (hchk : CHECK_BLOCK b0 c order = true)
    (hfree : (b0.chunk_array c).free = true) (hord : order ≤ (b0.chunk_array c).order) :
    ∃ ls2, Done b0 (buddy_reserve b0 c order).1 ls2 (in_block c order) false ∧
      IsBlock (buddy_reserve b0 c order).1 c order false ∧
      ∀ j, in_block c order j → (b0.chunk_array j).free = true := by
  obtain ⟨hm, hal, hr⟩ := (CHECK_BLOCK_iff b0 c order hw).1 hchk
  have hc : c < b0.chunk_count := by
    have := Nat.two_pow_pos order
    omega
  have hroot := h.pinv.block_of hc
  rw [hfree] at hroot
  have hmem := (h.mem _ _).2 ⟨hroot, not_in_hole_zero 0 _⟩
  have hmid := (Mid.start h).pop_mid hmem
    (fun j => ⟨fun hh => Or.inr hh,
      fun hh => hh.elim (fun e => absurd e (not_in_hole_zero 0 j)) id⟩)
    (h.pinv.open_block hroot)
  obtain ⟨ls2, hmid2⟩ := reserve_block_spec ((b0.chunk_array c).order + 1) hmid hroot.aligned
    hroot.in_range hroot.order_le hal ⟨align_le _ _, lt_align_add _ _⟩ hord (by omega)
  have e : buddy_reserve b0 c order =
      (mark_allocated (reserve_block ((b0.chunk_array c).order + 1)
        (pop_list b0 (b0.chunk_array c).order
          (BUDDY_ALIGN_TO_ORDER c (b0.chunk_array c).order)) c order
        (BUDDY_ALIGN_TO_ORDER c (b0.chunk_array c).order) (b0.chunk_array c).order) c order,
       0) := by
    unfold buddy_reserve
    simp [hchk, hfree, hord]
  rw [e]
  have hr2 : c + 2 ^ order ≤ (reserve_block ((b0.chunk_array c).order + 1)
        (pop_list b0 (b0.chunk_array c).order
          (BUDDY_ALIGN_TO_ORDER c (b0.chunk_array c).order)) c order
        (BUDDY_ALIGN_TO_ORDER c (b0.chunk_array c).order) (b0.chunk_array c).order).chunk_count := by
    rw [hmid2.chunk_count]; exact hr
  have hm2 : order ≤ (reserve_block ((b0.chunk_array c).order + 1)
        (pop_list b0 (b0.chunk_array c).order
          (BUDDY_ALIGN_TO_ORDER c (b0.chunk_array c).order)) c order
        (BUDDY_ALIGN_TO_ORDER c (b0.chunk_array c).order) (b0.chunk_array c).order).max_order := by
    rw [hmid2.max_order]; exact hm
  refine ⟨ls2, hmid2.mark_mid hal hr2 hm2, ?_, ?_⟩
  · exact
      { aligned := hal, in_range := hr2, order_le := hm2
        uniform := (mark_allocated_setBlock _ _ _).inside }
  · intro j hj
    rcases hmid2.hole_free j hj with e | e
    · exact e
    · exact absurd e id

/-- The function `free_block` merges the range under rewriting with its free
buddies and pushes the merged block. -/
theorem free_block_spec (fuel : Nat) {b0 b : buddy_t} {ls : Nat → List Nat}
    {order c : Nat} {K : Nat → Prop} (h : Mid b0 b ls c (2 ^ order) K)
    (hal : BUDDY_ALIGN_TO_ORDER c order = c) (hr : c + 2 ^ order ≤ b.chunk_count)
    (hm : order ≤ b.max_order) (hfuel : b.max_order - order + 1 ≤ fuel) :
    ∃ ls2, Done b0 (free_block fuel b order c) ls2 K true := by
  induction fuel generalizing b ls order c with
  | zero => omega
  | succ fuel ih =>
    unfold free_block
    simp only [BUDDY_ORDER_TO_COUNT_eq]
    have hfold : (if c = BUDDY_ALIGN_TO_ORDER c (order + 1) then
        BUDDY_ALIGN_TO_ORDER c (order + 1) + 2 ^ order
        else BUDDY_ALIGN_TO_ORDER c (order + 1)) = buddy_of c order := rfl
    rw [hfold]
    by_cases hcond : order < b.max_order ∧ buddy_of c order < b.chunk_count ∧
        ((b.chunk_array (buddy_of c order)).order = order ∧
          (b.chunk_array (buddy_of c order)).free = true)
    · obtain ⟨h1, h2, h3⟩ := hcond
      simp only [h1, h2, h3, and_self, if_true]
      obtain ⟨hp, hr2, hS⟩ := h.inv.pinv.merge hal hr h1 h2 ⟨h3.2, h3.1⟩
      have hmem := (h.inv.mem order (buddy_of c order)).2 ⟨hS, buddy_of_not_in_block hal⟩
      have hmid := h.pop_mid hmem (in_parent_iff hal) hp
      exact ih hmid (align_align c (order + 1)) hr2 (by rw [pop_list_max_order]; omega)
        (by rw [pop_list_max_order]; omega)
    · have hnone : (if order < b.max_order then
          if buddy_of c order < b.chunk_count then
            if (b.chunk_array (buddy_of c order)).order = order ∧
                (b.chunk_array (buddy_of c order)).free = true then
              some (buddy_of c order)
            else none
          else none
        else none) = none := by
        split_ifs <;> first | rfl | (exfalso; apply hcond; constructor <;> [assumption; constructor <;> assumption])
      rw [hnone]
      refine ⟨_, h.push_close hal hr hm ?_⟩
      intro h1 h2 h3
      exact hcond ⟨h1, h2, h3.2, h3.1⟩

/-- A successful `buddy_free` turns the allocated block starting at `c` into
free chunks. -/
theorem buddy_free_spec {b0 : buddy_t} {ls : Nat → List Nat} (h : BInvH b0 ls 0 0)
    (c : Nat) (hc : c < b0.chunk_count) (hfree : (b0.chunk_array c).free = false)
    (hchk : CHECK_BLOCK b0 c (b0.chunk_array c).order = true) :
    (buddy_free b0 c).2 = 0 ∧
    ∃ ls2, Done b0 (buddy_free b0 c).1 ls2 (in_block c (b0.chunk_array c).order) true := by
  obtain ⟨hm, hal, hr⟩ := (CHECK_BLOCK_iff b0 c _ (no_wrap_of_lt h hc _)).1 hchk
  have hblk := h.pinv.block_of hc
  rw [hfree, hal] at hblk
  have e : buddy_free b0 c =
      (free_block (b0.max_order + 1 - (b0.chunk_array c).order) b0 (b0.chunk_array c).order c,
        0) := by
    unfold buddy_free
    simp [hc, hfree, hchk]
  rw [e]
  refine ⟨rfl, ?_⟩
  exact free_block_spec _ (Mid.open_alloc h hblk) hal hr hm (by omega)

/-- A failing `buddy_free` leaves the state unchanged. -/
theorem buddy_free_fail (b : buddy_t) (c : Nat) (h : (buddy_free b c).2 ≠ 0) :
    (buddy_free b c).1 = b := by
  unfold buddy_free at h ⊢
  by_cases h1 : c ≥ b.chunk_count
  · simp [h1]
  · cases hf : (b.chunk_array c).free
    · cases hchk : CHECK_BLOCK b c (b.chunk_array c).order
      · simp [h1, hf, hchk]
      · simp [h1, hf, hchk] at h
    · simp [h1, hf]

theorem PInvH.of_empty {b : buddy_t} {hc hc2 : Nat} (h : PInvH b hc 0) : PInvH b hc2 0 := by
  constructor
  · intro i hi _
    obtain ⟨c, o, f, hb, hin, _⟩ := h.cover i hi (not_in_hole_zero hc i)
    exact ⟨c, o, f, hb, hin, fun j _ => not_in_hole_zero hc2 j⟩
  · intro c o hb _ hom hbn
    have := h.merged c o hb (not_in_hole_zero hc c) hom hbn
    exact ⟨fun hh => absurd hh (not_in_hole_zero hc2 _), fun _ => this.2 (not_in_hole_zero hc _)⟩

theorem BInvH.of_empty_lists {b : buddy_t} {ls : Nat → List Nat} {hc hc2 : Nat}
    (h : BInvH b ls hc 0) : BInvH b ls hc2 0 :=
  { sized := h.sized
    ordered := h.ordered
    pinv := h.pinv.of_empty
    lists := h.lists
    mem := fun o c => by
      rw [h.mem]
      exact ⟨fun hh => ⟨hh.1, not_in_hole_zero hc2 c⟩, fun hh => ⟨hh.1, not_in_hole_zero hc c⟩⟩ }

/-- Seeding: the unseeded chunks are `[off, n)`; a free block is pushed at
`off`. -/
theorem PInvH.push_left {b b2 : buddy_t} {off o n : Nat} (h : PInvH b off (n - off))
    (hn : b.chunk_count = n) (hal : BUDDY_ALIGN_TO_ORDER off o = off) (hr : off + 2 ^ o ≤ n)
    (hm : o ≤ b.max_order)
    (hlow : o < b.max_order →
      BUDDY_ALIGN_TO_ORDER off (o + 1) = off ∧ n - (off + 2 ^ o) ≤ 2 ^ o)
    (hset : SetBlock b b2 off o true) : PInvH b2 (off + 2 ^ o) (n - (off + 2 ^ o)) := by
  have hpos := Nat.two_pow_pos o
  have hP : IsBlock b2 off o true :=
    { aligned := hal
      in_range := by rw [hset.chunk_count, hn]; exact hr
      order_le := by rw [hset.max_order]; exact hm
      uniform := hset.inside }
  have hunion : ∀ j, in_hole off (n - off) j ↔
      in_block off o j ∨ in_hole (off + 2 ^ o) (n - (off + 2 ^ o)) j := by
    intro j; unfold in_hole in_block; omega
  have hsub : ∀ j, in_block off o j → in_hole off (n - off) j :=
    fun j hj => (hunion j).2 (Or.inl hj)
  constructor
  · intro i hi hni
    rw [hset.chunk_count] at hi
    by_cases hip : in_block off o i
    · refine ⟨off, o, true, hP, hip, ?_⟩
      intro j; unfold in_hole in_block; omega
    · have hnh : ¬ in_hole off (n - off) i := by
        rw [hunion]; exact fun hh => hh.elim hip hni
      obtain ⟨c, o2, f, hb, hin, hd⟩ := h.cover i hi hnh
      refine ⟨c, o2, f, (isBlock_setBlock_iff h hset hsub hP ?_).1 hb, hin, ?_⟩
      · exact hd c (in_block_self _ _)
      · intro j hj hjq
        exact hd j hj ((hunion j).2 (Or.inr hjq))
  · intro c o2 hb hnc hom hbn
    rw [hset.max_order] at hom
    rw [hset.chunk_count] at hbn
    by_cases hcp : in_block off o c
    · obtain ⟨e1, e2, _⟩ := hb.unique hP (in_block_self _ _) hcp
      subst e1; subst e2
      obtain ⟨hl1, hl2⟩ := hlow hom
      rw [buddy_of_lower hl1] at hbn ⊢
      refine ⟨fun _ => hl2, fun hn2 => absurd ?_ hn2⟩
      unfold in_hole; omega
    · have hnh : ¬ in_hole off (n - off) c := by
        rw [hunion]; exact fun hh => hh.elim hcp hnc
      have hbo := (isBlock_setBlock_iff h hset hsub hP hnh).2 hb
      obtain ⟨m1, m2⟩ := h.merged c o2 hbo hnh hom hbn
      constructor
      · intro hin
        have := m1 ((hunion _).2 (Or.inr hin))
        omega
      · intro hnin
        by_cases hbp : in_block off o (buddy_of c o2)
        · rw [(hset.inside _ hbp).2, (hset.inside _ hbp).1]
          rintro ⟨_, eo⟩
          subst eo
          have et : buddy_of c o = off :=
            block_eq (buddy_of_aligned hbo.aligned) hal (in_block_self _ _) hbp
          have ec : c = buddy_of off o := by
            rw [← et]; exact (buddy_of_buddy_of hbo.aligned).symm
          rw [buddy_of_lower (hlow hom).1] at ec
          apply hnc
          have := hbo.lt
          rw [hn] at this
          unfold in_hole; omega
        · have hnh2 : ¬ in_hole off (n - off) (buddy_of c o2) := by
            rw [hunion]; exact fun hh => hh.elim hbp hnin
          rw [(hset.outside _ hbp).1, (hset.outside _ hbp).2]
          exact m2 hnh2

theorem Seeded.push_seed {b : buddy_t} {ls : Nat → List Nat} {n m off o : Nat}
    (h : Seeded b ls n m off) (hal : BUDDY_ALIGN_TO_ORDER off o = off) (hr : off + 2 ^ o ≤ n)
    (hm : o ≤ m)
    (hlow : o < m → BUDDY_ALIGN_TO_ORDER off (o + 1) = off ∧ n - (off + 2 ^ o) ≤ 2 ^ o) :
    Seeded (push_list b o off) (store ls o (ls o ++ [off])) n m (off + 2 ^ o) := by
  have hset := push_list_setBlock b o off
  have hpos := Nat.two_pow_pos o
  have hp := h.inv.pinv.push_left h.chunk_count hal hr (by rw [h.max_order]; exact hm)
    (by rw [h.max_order]; exact hlow) hset
  refine
    { inv := h.inv.push_block ?_ ?_ hal (by rw [h.chunk_count]; exact hr)
        (by rw [h.max_order]; exact hm) hp
      chunk_count := h.chunk_count, max_order := h.max_order, le := hr, all_free := ?_ }
  · intro j; unfold in_hole in_block; omega
  · intro j hj hh
    have h1 := hj.1
    have h2 := hj.2
    have h3 := hh.1
    omega
  · intro j hj
    by_cases hin : in_block off o j
    · exact (hset.inside j hin).1
    · rw [(hset.outside j hin).1]
      apply h.all_free
      unfold in_block at hin
      omega

/-- The inner loop of `buddy_init` for the order `k`. -/
theorem init_blocks_spec (k : Nat) (fuel : Nat) {b : buddy_t} {ls : Nat → List Nat}
    {n m off : Nat} (h : Seeded b ls n m off) (hk : k ≤ m)
    (hal : BUDDY_ALIGN_TO_ORDER off k = off)
    (hlow : k < m → n - off < 2 ^ k ∨
      (BUDDY_ALIGN_TO_ORDER off (k + 1) = off ∧ n - off < 2 ^ (k + 1)))
    (hfuel : n - off ≤ fuel) :
    ∃ ls2, Seeded (init_blocks k fuel b off).1 ls2 n m (init_blocks k fuel b off).2 ∧
      BUDDY_ALIGN_TO_ORDER (init_blocks k fuel b off).2 k = (init_blocks k fuel b off).2 ∧
      n - (init_blocks k fuel b off).2 < 2 ^ k := by
  have hpos := Nat.two_pow_pos k
  induction fuel generalizing b ls off with
  | zero =>
    refine ⟨ls, h, hal, ?_⟩
    show n - off < 2 ^ k
    omega
  | succ fuel ih =>
    unfold init_blocks
    simp only [BUDDY_ORDER_TO_COUNT_eq]
    by_cases h1 : off + 2 ^ k > b.chunk_count
    · rw [if_pos h1]
      refine ⟨ls, h, hal, ?_⟩
      show n - off < 2 ^ k
      rw [h.chunk_count] at h1
      omega
    · rw [if_neg h1]
      rw [h.chunk_count] at h1
      have hpow : 2 ^ (k + 1) = 2 * 2 ^ k := by rw [pow_succ]; omega
      have hlow2 : k < m →
          BUDDY_ALIGN_TO_ORDER off (k + 1) = off ∧ n - (off + 2 ^ k) ≤ 2 ^ k := by
        intro hkm
        rcases hlow hkm with e | ⟨e1, e2⟩
        · omega
        · exact ⟨e1, by omega⟩
      have hs := h.push_seed hal (by omega) hk hlow2
      refine ih hs ?_ ?_ (by omega)
      · by_cases hkm : k < m
        · exact (align_halves (hlow2 hkm).1).2.1
        · -- order `m`: the offsets are multiples of `2^m`
          rw [align_eq] at hal ⊢
          have e : off + 2 ^ k = (off / 2 ^ k + 1) * 2 ^ k := by
            rw [Nat.add_mul, Nat.one_mul, hal]
          conv_lhs => rw [e]
          rw [Nat.mul_div_cancel _ hpos]
          exact e.symm
      · intro hkm
        left
        have := (hlow2 hkm).2
        rcases hlow hkm with e | ⟨e1, e2⟩
        · omega
        · omega

/-- The outer loop of `buddy_init`. -/
theorem init_orders_spec (K : Nat) {b : buddy_t} {ls : Nat → List Nat}
    {n m off : Nat} (h : Seeded b ls n m off) (hK : K ≤ m + 1)
    (hal : BUDDY_ALIGN_TO_ORDER off K = off) (hlow : K ≤ m → n - off < 2 ^ K) :
    ∃ ls2, Seeded (init_orders K b off).1 ls2 n m n := by
  induction K generalizing b ls off with
  | zero =>
    have hle := h.le
    have : off = n := by
      have := hlow (Nat.zero_le m)
      simp at this
      omega
    subst this
    exact ⟨ls, h⟩
  | succ k ih =>
    unfold init_orders
    have hk : k ≤ m := by omega
    obtain ⟨ls2, hs, hal2, hlt⟩ := init_blocks_spec k b.chunk_count h hk
      (by
        by_cases hkm : k < m
        · exact (align_halves hal).1
        · rw [align_eq] at hal ⊢
          have hpos := Nat.two_pow_pos k
          have e : off = (off / 2 ^ (k + 1) * 2) * 2 ^ k := by
            rw [Nat.mul_assoc, Nat.mul_comm 2, ← pow_succ]; exact hal.symm
          conv_lhs => rw [e]
          rw [Nat.mul_div_cancel _ hpos]
          exact e.symm)
      (fun hkm => Or.inr ⟨hal, hlow (by omega)⟩)
      (by rw [h.chunk_count]; omega)
    exact ih hs (by omega) hal2 (fun _ => hlt)

theorem init_max_order_le (n : Nat) :
    (if highest_bit n < BUDDY_MAX_ORDER then highest_bit n else BUDDY_MAX_ORDER) ≤
      BUDDY_MAX_ORDER := by
  split_ifs with hh
  · exact Nat.le_of_lt hh
  · exact Nat.le_refl _

theorem align_zero (o : Nat) : BUDDY_ALIGN_TO_ORDER 0 o = 0 := by
  rw [align_eq, Nat.zero_div, Nat.zero_mul]

/-- After a successful `buddy_init` the invariant holds and every chunk is
free. -/
theorem buddy_init_spec (n : Nat) (array : Nat → buddy_chunk_t) (hn0 : n ≠ 0)
    (hn : n ≤ BUDDY_MAX_CHUNK_COUNT) :
    ∃ b ls, buddy_init n (some array) = .ok b ∧ BInvH b ls 0 0 ∧ b.chunk_count = n ∧
      b.max_order = (if highest_bit n < BUDDY_MAX_ORDER then highest_bit n else BUDDY_MAX_ORDER) ∧
      ∀ j, j < n → (b.chunk_array j).free = true := by
  have hcond : ¬ (n = 0 ∨ n > BUDDY_MAX_CHUNK_COUNT) := by omega
  obtain ⟨ls2, hs⟩ := @init_orders_spec
    ((if highest_bit n < BUDDY_MAX_ORDER then highest_bit n else BUDDY_MAX_ORDER) + 1)
    { chunk_count := n, chunk_array := array
      max_order := if highest_bit n < BUDDY_MAX_ORDER then highest_bit n else BUDDY_MAX_ORDER
      lists := fun _ => { head := none, length := 0 } }
    (fun _ => []) n
    (if highest_bit n < BUDDY_MAX_ORDER then highest_bit n else BUDDY_MAX_ORDER)
    0
    { inv :=
        { sized := hn
          ordered := init_max_order_le n
          pinv :=
            { cover := fun i hi hni => absurd (show in_hole 0 (n - 0) i from ⟨Nat.zero_le i, by
                simpa using hi⟩) hni
              merged := fun c o hb hnc _ _ => absurd (show in_hole 0 (n - 0) c from
                ⟨Nat.zero_le c, by simpa using hb.lt⟩) hnc }
          lists := fun o =>
            { nodup := List.nodup_nil, len_eq := rfl, head_eq := rfl
              links := fun h t e => by simp at e }
          mem := fun o c => by
            constructor
            · intro hh; simp at hh
            · rintro ⟨hb, hnc⟩
              exact absurd (show in_hole 0 (n - 0) c from
                ⟨Nat.zero_le c, by simpa using hb.lt⟩) hnc }
      chunk_count := rfl, max_order := rfl, le := Nat.zero_le n
      all_free := fun j hj => absurd hj (Nat.not_lt_zero j) }
    (Nat.le_refl _) (align_zero _) (fun hh => absurd hh (by omega))
  refine ⟨_, ls2, ?_, ?_, hs.chunk_count, hs.max_order, hs.all_free⟩
  · unfold buddy_init
    rw [if_neg hcond]
  · have := hs.inv
    rw [Nat.sub_self] at this
    exact this.of_empty_lists

/-- In a consistent state, an aligned range all of whose chunks are free
lies inside one free block: free buddies are always merged. -/
theorem PInvH.free_range {b : buddy_t} (h : PInvH b 0 0) (k : Nat) :
    ∀ x, BUDDY_ALIGN_TO_ORDER x k = x → x + 2 ^ k ≤ b.chunk_count → k ≤ b.max_order →
      (∀ j, in_block x k j → (b.chunk_array j).free = true) → k ≤ (b.chunk_array x).order := by
  induction k with
  | zero => intro x _ _ _ _; exact Nat.zero_le _
  | succ k ih =>
    intro x hal hr hm hfree
    have hpow : 2 ^ (k + 1) = 2 * 2 ^ k := by rw [pow_succ]; omega
    have hpos := Nat.two_pow_pos k
    obtain ⟨hal1, hal2, _⟩ := align_halves hal
    have h1 := ih x hal1 (by omega) (by omega)
      (fun j hj => hfree j ⟨hj.1, by have := hj.2; omega⟩)
    have h2 := ih (x + 2 ^ k) hal2 (by omega) (by omega)
      (fun j hj => hfree j ⟨by have := hj.1; omega, by have := hj.2; omega⟩)
    by_contra hlt
    have hxo : (b.chunk_array x).order = k := by omega
    have hx : x < b.chunk_count := by omega
    have hbx := h.block_of hx
    rw [hxo, hal1, hfree x (in_block_self _ _)] at hbx
    have hup : x + 2 ^ k < b.chunk_count := by omega
    have hm2 := (h.merged x k hbx (not_in_hole_zero 0 x) (by omega)
      (by rw [buddy_of_lower hal]; exact hup)).2 (not_in_hole_zero 0 _)
    rw [buddy_of_lower hal] at hm2
    have hfu : (b.chunk_array (x + 2 ^ k)).free = true :=
      hfree _ ⟨by omega, by omega⟩
    have hne : (b.chunk_array (x + 2 ^ k)).order ≠ k := fun e => hm2 ⟨hfu, e⟩
    have hgt : k + 1 ≤ (b.chunk_array (x + 2 ^ k)).order := by omega
    -- the block of the upper half then contains `x`
    have hbu := h.block_of hup
    have hinx : in_block (BUDDY_ALIGN_TO_ORDER (x + 2 ^ k) (b.chunk_array (x + 2 ^ k)).order)
        (b.chunk_array (x + 2 ^ k)).order x := by
      refine block_nested hal hbu.aligned hgt (j := x + 2 ^ k) ⟨by omega, by omega⟩
        ⟨align_le _ _, lt_align_add _ _⟩ x (in_block_self _ _)
    have := (hbu.uniform x hinx).2
    omega

theorem align_eq_iff_dvd (c o : Nat) : BUDDY_ALIGN_TO_ORDER c o = c ↔ 2 ^ o ∣ c := by
  rw [align_eq]
  constructor
  · intro h; exact Dvd.intro_left _ h
  · intro h; exact Nat.div_mul_cancel h

/-- In a consistent state, `buddy_reserve` of a well-formed block succeeds
exactly when no chunk of the block is allocated. -/
theorem PInvH.reserve_ok_iff {b : buddy_t} (h : PInvH b 0 0) {c o : Nat}
    (hm : o ≤ b.max_order) (hal : BUDDY_ALIGN_TO_ORDER c o = c)
    (hr : c + 2 ^ o ≤ b.chunk_count) :
    ((b.chunk_array c).free = true ∧ o ≤ (b.chunk_array c).order) ↔
      ∀ j, in_block c o j → (b.chunk_array j).free = true := by
  have hpos := Nat.two_pow_pos o
  constructor
  · rintro ⟨hf, ho⟩ j hj
    have hb := h.block_of (show c < b.chunk_count by omega)
    rw [hf] at hb
    exact (hb.uniform j (block_nested hal hb.aligned ho (in_block_self c o)
      ⟨align_le _ _, lt_align_add _ _⟩ j hj)).1
  · intro hall
    exact ⟨hall c (in_block_self _ _), h.free_range o c hal hr hm hall⟩

theorem buddy_init_ok {n : Nat} {array : Nat → buddy_chunk_t} {b : buddy_t}
    (h : buddy_init n (some array) = .ok b) : n ≠ 0 ∧ n ≤ BUDDY_MAX_CHUNK_COUNT := by
  unfold buddy_init at h
  by_cases hc : n = 0 ∨ n > BUDDY_MAX_CHUNK_COUNT
  · rw [if_pos hc] at h; cases h
  · omega

theorem buddy_init_inv {n : Nat} {array : Nat → buddy_chunk_t} {b : buddy_t}
    (h : buddy_init n (some array) = .ok b) :
    ∃ ls, BInvH b ls 0 0 ∧ b.chunk_count = n ∧
      b.max_order = (if highest_bit n < BUDDY_MAX_ORDER then highest_bit n else BUDDY_MAX_ORDER) ∧
      ∀ j, j < n → (b.chunk_array j).free = true := by
  obtain ⟨h0, h1⟩ := buddy_init_ok h
  obtain ⟨b2, ls, e, hinv, hrest⟩ := buddy_init_spec n array h0 h1
  rw [h] at e
  cases e
  exact ⟨ls, hinv, hrest⟩

theorem buddy_reserve_ok_iff (b : buddy_t) (c order : Nat) :
    (buddy_reserve b c order).2 = 0 ↔
      CHECK_BLOCK b c order = true ∧ (b.chunk_array c).free = true ∧
        order ≤ (b.chunk_array c).order := by
  rw [buddy_reserve_ret]
  cases hchk : CHECK_BLOCK b c order
  · simp [EINVAL]
  · by_cases hf : (b.chunk_array c).free = true ∧ order ≤ (b.chunk_array c).order
    · simp [hf]
    · simp [hf, EBUSY]

theorem buddy_free_ok_iff (b : buddy_t) (c : Nat) :
    (buddy_free b c).2 = 0 ↔
      c < b.chunk_count ∧ (b.chunk_array c).free = false ∧
        CHECK_BLOCK b c (b.chunk_array c).order = true := by
  unfold buddy_free
  by_cases h1 : c ≥ b.chunk_count
  · simp [h1, EINVAL]
  · cases hf : (b.chunk_array c).free
    · cases hchk : CHECK_BLOCK b c (b.chunk_array c).order
      · simp [h1, hf, hchk, EINVAL]
      · simp [h1, hf, hchk]; omega
    · simp [h1, hf, EINVAL]

/-- Every reachable buddy state satisfies the invariant. -/
theorem Reachable.inv {b : buddy_t} (h : Reachable b) : ∃ ls, BInvH b ls 0 0 := by
  induction h with
  | init n array b hi =>
    obtain ⟨ls, hinv, _⟩ := buddy_init_inv hi
    exact ⟨ls, hinv⟩
  | allocate b order _ ih =>
    obtain ⟨ls, hinv⟩ := ih
    rcases buddy_allocate_spec hinv order with ⟨_, e⟩ | ⟨_, ls2, hd, _⟩
    · rw [e]; exact ⟨ls, hinv⟩
    · exact ⟨ls2, hd.inv⟩
  | reserve b c order _ hw ih =>
    obtain ⟨ls, hinv⟩ := ih
    by_cases hret : (buddy_reserve b c order).2 = 0
    · obtain ⟨h1, h2, h3⟩ := (buddy_reserve_ok_iff b c order).1 hret
      obtain ⟨ls2, hd, _⟩ := buddy_reserve_spec hinv c order hw h1 h2 h3
      exact ⟨ls2, hd.inv⟩
    · rw [buddy_reserve_fail b c order hret]; exact ⟨ls, hinv⟩
  | free b c _ ih =>
    obtain ⟨ls, hinv⟩ := ih
    by_cases hret : (buddy_free b c).2 = 0
    · obtain ⟨h1, h2, h3⟩ := (buddy_free_ok_iff b c).1 hret
      obtain ⟨_, ls2, hd⟩ := buddy_free_spec hinv c h1 h2 h3
      exact ⟨ls2, hd.inv⟩
    · rw [buddy_free_fail b c hret]; exact ⟨ls, hinv⟩

theorem Done.block_to {b0 b2 : buddy_t} {ls : Nat → List Nat} {K : Nat → Prop} {f : Bool}
    (h : Done b0 b2 ls K f) {c o : Nat} (hb : IsBlock b0 c o false)
    (hd : ∀ j, in_block c o j → ¬ K j) : IsBlock b2 c o false :=
  hb.transfer h.chunk_count h.max_order (fun j hj => by
    rw [h.keep j (hb.uniform j hj).1 (hd j hj)]
    exact ⟨rfl, rfl⟩)

theorem Done.block_from {b0 b2 : buddy_t} {ls : Nat → List Nat} {K : Nat → Prop} {f : Bool}
    (h : Done b0 b2 ls K f) {c o : Nat} (hb : IsBlock b2 c o false)
    (hd : ∀ j, in_block c o j → ¬ K j) : IsBlock b0 c o false :=
  hb.transfer h.chunk_count.symm h.max_order.symm (fun j hj => by
    have hf : (b0.chunk_array j).free = false := by
      rw [← h.free_out j (hd j hj)]; exact (hb.uniform j hj).1
    rw [h.keep j hf (hd j hj)]
    exact ⟨rfl, rfl⟩)

/-- The allocated blocks after a successful allocation or reservation. -/
theorem Done.blocks_alloc {b0 b2 : buddy_t} {ls : Nat → List Nat} {c o : Nat}
    (h : Done b0 b2 ls (in_block c o) false) (hb : IsBlock b2 c o false)
    (hfree : ∀ j, in_block c o j → (b0.chunk_array j).free = true) (c2 o2 : Nat) :
    IsBlock b2 c2 o2 false ↔ IsBlock b0 c2 o2 false ∨ (c2 = c ∧ o2 = o) := by
  constructor
  · intro hb2
    by_cases hin : ∃ j, in_block c2 o2 j ∧ in_block c o j
    · obtain ⟨j, hj1, hj2⟩ := hin
      obtain ⟨e1, e2, _⟩ := hb2.unique hb hj1 hj2
      exact Or.inr ⟨e1, e2⟩
    · left
      exact h.block_from hb2 (fun j hj hk => hin ⟨j, hj, hk⟩)
  · rintro (hb0 | ⟨e1, e2⟩)
    · refine h.block_to hb0 ?_
      intro j hj hk
      have := (hb0.uniform j hj).1
      rw [hfree j hk] at this
      exact absurd this (by decide)
    · rw [e1, e2]; exact hb

/-- The allocated blocks after a successful free. -/
theorem Done.blocks_free {b0 b2 : buddy_t} {ls : Nat → List Nat} {c o : Nat}
    (h : Done b0 b2 ls (in_block c o) true) (hb : IsBlock b0 c o false) (c2 o2 : Nat) :
    IsBlock b2 c2 o2 false ↔ IsBlock b0 c2 o2 false ∧ c2 ≠ c := by
  constructor
  · intro hb2
    have hd : ∀ j, in_block c2 o2 j → ¬ in_block c o j := by
      intro j hj hk
      have := (hb2.uniform j hj).1
      rw [h.free_in j hk] at this
      exact absurd this (by decide)
    refine ⟨h.block_from hb2 hd, ?_⟩
    intro e
    exact hd c2 (in_block_self _ _) (e ▸ in_block_self c o)
  · rintro ⟨hb0, hne⟩
    refine h.block_to hb0 ?_
    intro j hj hk
    exact hne (hb0.unique hb hj hk).1

theorem Live.step {n m : Nat} {b : buddy_t} {L : List (Nat × Nat)} (h : Live n m b L)
    (op : Op) (hw : op.no_wrap m = true) :
    Live n m (Buddy.step (b, L) op).1 (Buddy.step (b, L) op).2 := by
  obtain ⟨ls, hinv⟩ := h.inv
  cases op with
  | allocate order =>
    simp only [Buddy.step]
    rcases buddy_allocate_spec hinv order with ⟨e1, e2⟩ | ⟨hne, ls2, hd, hb, hfree⟩
    · rw [if_pos e1, e2]; exact h
    · rw [if_neg hne]
      have hiff := hd.blocks_alloc hb hfree
      refine { inv := ⟨ls2, hd.inv⟩, chunk_count := hd.chunk_count.trans h.chunk_count
               max_order := hd.max_order.trans h.max_order, nodup := ?_, mem := ?_ }
      · refine List.nodup_cons.2 ⟨?_, h.nodup⟩
        intro hm
        have hb0 := (h.mem _ _).1 hm
        have := hb0.self.1
        rw [hfree _ (in_block_self _ _)] at this
        exact absurd this (by decide)
      · intro c o
        rw [hiff, List.mem_cons, h.mem, Prod.mk.injEq]
        tauto
  | reserve c order =>
    simp only [Buddy.step]
    by_cases hret : (buddy_reserve b c order).2 = 0
    · rw [if_pos hret]
      obtain ⟨h1, h2, h3⟩ := (buddy_reserve_ok_iff b c order).1 hret
      have hw2 : no_wrap b c order := by
        simp only [Op.no_wrap, decide_eq_true_eq] at hw
        intro ho
        rw [h.max_order] at ho
        exact hw ho
      obtain ⟨ls2, hd, hb, hfree⟩ := buddy_reserve_spec hinv c order hw2 h1 h2 h3
      have hiff := hd.blocks_alloc hb hfree
      refine { inv := ⟨ls2, hd.inv⟩, chunk_count := hd.chunk_count.trans h.chunk_count
               max_order := hd.max_order.trans h.max_order, nodup := ?_, mem := ?_ }
      · refine List.nodup_cons.2 ⟨?_, h.nodup⟩
        intro hm
        have hb0 := (h.mem _ _).1 hm
        have := hb0.self.1
        rw [h2] at this
        exact absurd this (by decide)
      · intro c2 o2
        rw [hiff, List.mem_cons, h.mem, Prod.mk.injEq]
        tauto
    · rw [if_neg hret, buddy_reserve_fail b c order hret]; exact h
  | free c =>
    simp only [Buddy.step]
    by_cases hret : (buddy_free b c).2 = 0
    · rw [if_pos hret]
      obtain ⟨h1, h2, h3⟩ := (buddy_free_ok_iff b c).1 hret
      obtain ⟨_, ls2, hd⟩ := buddy_free_spec hinv c h1 h2 h3
      obtain ⟨_, hal, _⟩ := (CHECK_BLOCK_iff b c _ (no_wrap_of_lt hinv h1 _)).1 h3
      have hb0 := hinv.pinv.block_of h1
      rw [h2, hal] at hb0
      have hiff := hd.blocks_free hb0
      refine { inv := ⟨ls2, hd.inv⟩, chunk_count := hd.chunk_count.trans h.chunk_count
               max_order := hd.max_order.trans h.max_order
               nodup := h.nodup.filter _, mem := ?_ }
      intro c2 o2
      rw [hiff, List.mem_filter, h.mem]
      simp only [ne_eq, decide_not, Bool.not_eq_true', decide_eq_false_iff_not]
    · rw [if_neg hret, buddy_free_fail b c hret]; exact h

theorem Live.run {n m : Nat} {b : buddy_t} {L : List (Nat × Nat)} (h : Live n m b L)
    (ops : List Op) (hops : ∀ op, op ∈ ops → op.no_wrap m = true) :
    Live n m (Buddy.run (b, L) ops).1 (Buddy.run (b, L) ops).2 := by
  induction ops generalizing b L with
  | nil => exact h
  | cons op ops ih =>
    show Live n m (Buddy.run (Buddy.step (b, L) op) ops).1
      (Buddy.run (Buddy.step (b, L) op) ops).2
    exact ih (h.step op (hops op (List.mem_cons_self _ _)))
      (fun q hq => hops q (List.mem_cons_of_mem _ hq))

/-- Reserving pairwise disjoint well-formed blocks, all of whose chunks are
free, succeeds for every block. -/
theorem replay_ok (l : List (Nat × Nat)) {b : buddy_t} {ls : Nat → List Nat}
    (hinv : BInvH b ls 0 0) (hnd : l.Nodup)
    (hvalid : ∀ p, p ∈ l → p.2 ≤ b.max_order ∧ BUDDY_ALIGN_TO_ORDER p.1 p.2 = p.1 ∧
      p.1 + 2 ^ p.2 ≤ b.chunk_count)
    (hdisj : ∀ p q, p ∈ l → q ∈ l → p ≠ q → ∀ j, in_block p.1 p.2 j → ¬ in_block q.1 q.2 j)
    (hfree : ∀ p, p ∈ l → ∀ j, in_block p.1 p.2 j → (b.chunk_array j).free = true) :
    ∀ r, r ∈ replay b l → r = 0 := by
  induction l generalizing b ls with
  | nil => intro r hr; simp [replay] at hr
  | cons p l ih =>
    obtain ⟨hm, hal, hr⟩ := hvalid p (List.mem_cons_self _ _)
    have hp := CHECK_BLOCK_of hinv hm hal hr
    have hok := (hinv.pinv.reserve_ok_iff hm hal hr).2 (hfree p (List.mem_cons_self _ _))
    have hret := (buddy_reserve_ok_iff b p.1 p.2).2 ⟨hp, hok⟩
    obtain ⟨ls2, hd, _, _⟩ := buddy_reserve_spec hinv p.1 p.2 (no_wrap_of_le hinv hr) hp
      hok.1 hok.2
    intro r hr
    rw [replay, List.mem_cons] at hr
    rcases hr with e | hr
    · rw [e]; exact hret
    · refine ih hd.inv (List.nodup_cons.1 hnd).2 ?_ ?_ ?_ r hr
      · intro q hq
        have := hvalid q (List.mem_cons_of_mem _ hq)
        rw [hd.chunk_count, hd.max_order]
        exact this
      · intro q1 q2 h1 h2
        exact hdisj q1 q2 (List.mem_cons_of_mem _ h1) (List.mem_cons_of_mem _ h2)
      · intro q hq j hj
        have hne : q ≠ p := fun e => (List.nodup_cons.1 hnd).1 (e ▸ hq)
        rw [hd.free_out j (hdisj q p (List.mem_cons_of_mem _ hq) (List.mem_cons_self _ _)
          hne j hj)]
        exact hfree q (List.mem_cons_of_mem _ hq) j hj

/-- The buddy part of the replay property: the blocks live after any
sequence of calls can be reserved, in any order, in a freshly initialised
buddy of the same size. -/
theorem replay_live {n : Nat} {array array2 : Nat → buddy_chunk_t} {b0 b1 : buddy_t}
    (h0 : buddy_init n (some array) = .ok b0) (h1 : buddy_init n (some array2) = .ok b1)
    (ops : List Op) (hops : ∀ op, op ∈ ops → op.no_wrap b0.max_order = true)
    (l : List (Nat × Nat)) (hperm : l.Perm (Buddy.run (b0, []) ops).2) :
    ∀ r, r ∈ replay b1 l → r = 0 := by
  obtain ⟨ls0, hinv0, hn0, hm0, hfree0⟩ := buddy_init_inv h0
  obtain ⟨ls1, hinv1, hn1, hm1, hfree1⟩ := buddy_init_inv h1
  have hlive0 : Live n b0.max_order b0 [] :=
    { inv := ⟨ls0, hinv0⟩, chunk_count := hn0, max_order := rfl, nodup := List.nodup_nil
      mem := fun c o => by
        constructor
        · intro hh; simp at hh
        · intro hb
          have := hb.self.1
          rw [hfree0 c (by rw [← hn0]; exact hb.lt)] at this
          exact absurd this (by decide) }
  have hlive := hlive0.run ops hops
  have hmem : ∀ p, p ∈ l → IsBlock (Buddy.run (b0, []) ops).1 p.1 p.2 false := by
    intro p hp
    exact (hlive.mem p.1 p.2).1 (hperm.mem_iff.1 hp)
  refine replay_ok l hinv1 (hperm.nodup_iff.2 hlive.nodup) ?_ ?_ ?_
  · intro p hp
    have hb := hmem p hp
    rw [hn1, hm1, ← hm0, ← hlive.max_order, ← hlive.chunk_count]
    exact ⟨hb.order_le, hb.aligned, hb.in_range⟩
  · intro p q hp hq hne j hj1 hj2
    obtain ⟨e1, e2, _⟩ := (hmem p hp).unique (hmem q hq) hj1 hj2
    exact hne (Prod.ext e1 e2)
  · intro p hp j hj
    apply hfree1
    have hb := hmem p hp
    have := hb.in_range
    rw [hlive.chunk_count] at this
    have := hj.2
    omega

end Buddy

namespace Allocator

theorem level_push_chunk_array (a : allocator_t) (L c : Nat) :
    (push_list a L c).buddy.chunk_array =
      push_links a.buddy.chunk_array (a.lists L).head c := by
  cases hd : (a.lists L).head <;>
  · simp only [push_list, push_links, hd]

theorem level_push_lists (a : allocator_t) (L c L2 : Nat) :
    (push_list a L c).lists L2 =
      if L2 = L then
        { head := some ((a.lists L).head.getD c)
          length := size_inc (a.lists L).length }
      else a.lists L2 := by
  by_cases h : L2 = L
  · subst h
    rw [if_pos rfl]
    cases hd : (a.lists L2).head <;>
    · simp only [push_list, hd, store_same, Option.getD]
  · rw [if_neg h]
    exact store_other _ _ h

theorem level_push_bitmap (a : allocator_t) (L c : Nat) :
    (push_list a L c).bitmap_array = a.bitmap_array := rfl

theorem level_push_chunk_count (a : allocator_t) (L c : Nat) :
    (push_list a L c).buddy.chunk_count = a.buddy.chunk_count := rfl

theorem level_push_max_order (a : allocator_t) (L c : Nat) :
    (push_list a L c).buddy.max_order = a.buddy.max_order := rfl

theorem level_push_buddy_lists (a : allocator_t) (L c : Nat) :
    (push_list a L c).buddy.lists = a.buddy.lists := rfl

theorem level_pop_chunk_array (a : allocator_t) (L c : Nat) :
    (pop_list a L c).buddy.chunk_array =
      pop_links a.buddy.chunk_array (a.lists L).length c := by
  unfold pop_list pop_links
  by_cases h : (a.lists L).length > 1
  · simp only [h, if_true]
    split_ifs <;> rfl
  · simp only [h, if_false]

theorem level_pop_lists (a : allocator_t) (L c L2 : Nat) :
    (pop_list a L c).lists L2 =
      if L2 = L then
        { head :=
            if (a.lists L).length > 1 then
              (if (a.lists L).head = some c then
                some (pop_links a.buddy.chunk_array (a.lists L).length c c).next
               else (a.lists L).head)
            else none
          length := size_dec (a.lists L).length }
      else a.lists L2 := by
  by_cases h : L2 = L
  · subst h
    rw [if_pos rfl]
    by_cases h1 : (a.lists L2).length > 1
    · by_cases h2 : (a.lists L2).head = some c
      · simp only [pop_list, pop_links, h1, h2, if_true, store_same]
      · simp only [pop_list, pop_links, h1, h2, if_true, if_false, store_same]
    · simp only [pop_list, pop_links, h1, if_false, store_same]
  · rw [if_neg h]
    exact store_other _ _ h

theorem level_pop_bitmap (a : allocator_t) (L c : Nat) :
    (pop_list a L c).bitmap_array = a.bitmap_array := rfl

theorem level_pop_chunk_count (a : allocator_t) (L c : Nat) :
    (pop_list a L c).buddy.chunk_count = a.buddy.chunk_count := rfl

theorem level_pop_max_order (a : allocator_t) (L c : Nat) :
    (pop_list a L c).buddy.max_order = a.buddy.max_order := rfl

theorem level_pop_buddy_lists (a : allocator_t) (L c : Nat) :
    (pop_list a L c).buddy.lists = a.buddy.lists := rfl

/-! ### Bit operations -/

theorem clear_mask_testBit (f i j : Nat) :
    (clear_mask f (2 ^ i)).testBit j = (f.testBit j && decide (j ≠ i)) := by
  unfold clear_mask
  rw [Nat.testBit_xor, Nat.testBit_and, Nat.testBit_two_pow]
  by_cases h : i = j
  · subst h; cases f.testBit i <;> simp
  · have h2 : j ≠ i := fun e => h e.symm
    cases f.testBit j <;> simp [h, h2]

theorem or_mask_testBit (f i j : Nat) :
    (f ||| 2 ^ i).testBit j = (f.testBit j || decide (j = i)) := by
  rw [Nat.testBit_or, Nat.testBit_two_pow]
  by_cases h : i = j
  · subst h; simp
  · have h2 : j ≠ i := fun e => h e.symm
    simp [h, h2]

theorem and_mask_eq_zero (f i : Nat) : f &&& 2 ^ i = 0 ↔ f.testBit i = false := by
  constructor
  · intro h
    have := congrArg (fun x => Nat.testBit x i) h
    simp only [Nat.testBit_and, Nat.testBit_two_pow, Nat.zero_testBit, decide_True,
      Bool.and_true] at this
    exact this
  · intro h
    apply Nat.eq_of_testBit_eq
    intro j
    rw [Nat.testBit_and, Nat.testBit_two_pow, Nat.zero_testBit]
    by_cases e : i = j
    · subst e; simp [h]
    · simp [e]

theorem eq_zero_iff_testBit (f : Nat) : f = 0 ↔ ∀ j, f.testBit j = false := by
  constructor
  · intro h j; rw [h, Nat.zero_testBit]
  · intro h
    apply Nat.eq_of_testBit_eq
    intro j
    rw [h j, Nat.zero_testBit]

theorem FULL_BITMAP_testBit (L j : Nat) :
    (FULL_BITMAP L).testBit j = decide (j < get_bitmap_bits L) := by
  unfold FULL_BITMAP
  exact Nat.testBit_two_pow_sub_one _ _

theorem eq_FULL_iff (f L : Nat) :
    f = FULL_BITMAP L ↔ ∀ j, f.testBit j = decide (j < get_bitmap_bits L) := by
  constructor
  · intro h j; rw [h, FULL_BITMAP_testBit]
  · intro h
    apply Nat.eq_of_testBit_eq
    intro j
    rw [h j, FULL_BITMAP_testBit]

theorem ctz_from_spec (x : Nat) : ∀ (n i : Nat), (∃ j, i ≤ j ∧ j < i + n ∧ x.testBit j = true) →
    x.testBit (ctz_from n i x) = true ∧ i ≤ ctz_from n i x ∧
      ∀ j, i ≤ j → j < ctz_from n i x → x.testBit j = false := by
  intro n
  induction n with
  | zero =>
    rintro i ⟨j, h1, h2, _⟩
    omega
  | succ n ih =>
    rintro i ⟨j, h1, h2, h3⟩
    unfold ctz_from
    by_cases hb : x.testBit i = true
    · rw [if_pos hb]
      exact ⟨hb, Nat.le_refl _, fun k hk1 hk2 => by omega⟩
    · rw [if_neg hb]
      have hji : j ≠ i := fun e => hb (e ▸ h3)
      obtain ⟨r1, r2, r3⟩ := ih (i + 1) ⟨j, by omega, by omega, h3⟩
      refine ⟨r1, by omega, fun k hk1 hk2 => ?_⟩
      by_cases hki : k = i
      · rw [hki]; simpa using hb
      · exact r3 k (by omega) hk2

/-- The lowest set bit chosen by `allocator_allocate` is a set bit below the
width of the bitmap. -/
theorem ctzll_spec {f n : Nat} (hn : n ≤ 64) (h0 : f ≠ 0)
    (hb : ∀ j, f.testBit j = true → j < n) :
    f.testBit (ctzll f) = true ∧ ctzll f < n := by
  have hex : ∃ j, f.testBit j = true := by
    by_contra hne
    apply h0
    rw [eq_zero_iff_testBit]
    intro j
    cases h : f.testBit j
    · rfl
    · exact absurd ⟨j, h⟩ hne
  obtain ⟨j, hj⟩ := hex
  have hjn := hb j hj
  obtain ⟨r1, _, _⟩ := ctz_from_spec f 64 0 ⟨j, Nat.zero_le _, by omega, hj⟩
  exact ⟨r1, hb _ r1⟩

/-! ### Levels -/

theorem get_bitmap_bits_le (L : Nat) : get_bitmap_bits L ≤ 61 := by
  have h : L % 4 < 4 := Nat.mod_lt _ (by decide)
  unfold get_bitmap_bits
  interval_cases (L % 4) <;> decide

theorem get_bitmap_bits_pos (L : Nat) : 0 < get_bitmap_bits L := by
  have h : L % 4 < 4 := Nat.mod_lt _ (by decide)
  unfold get_bitmap_bits
  interval_cases (L % 4) <;> decide

theorem level_size_pos : ∀ L, L < 64 → 0 < allocator_level_size L := by decide!

theorem level_bits_fit :
    ∀ L, L < 64 → get_bitmap_bits L * allocator_level_size L ≤ 2 ^ (L / 4) * 512 := by decide!

theorem size_to_level_le (size : Nat) (h : 0 ≤ allocator_size_to_level size) :
    (allocator_size_to_level size).toNat ≤ 63 := by
  unfold allocator_size_to_level at h ⊢
  by_cases h1 : size < 8
  · simp only [h1, if_true]; decide
  · simp only [h1, if_false] at h ⊢
    split_ifs at h ⊢ with h2
    · simp only [Int.toNat_ofNat]
      exact h2
    · have : ∀ n : Nat, 0 ≤ Int.neg (n : Int) → (Int.neg (n : Int)).toNat ≤ 63 := by
        intro n hn
        have : (Int.neg (n : Int)) = -(n : Int) := rfl
        rw [this] at hn ⊢
        omega
      exact this _ h
    · have : ∀ n : Nat, 0 ≤ Int.neg (n : Int) → (Int.neg (n : Int)).toNat ≤ 63 := by
        intro n hn
        have : (Int.neg (n : Int)) = -(n : Int) := rfl
        rw [this] at hn ⊢
        omega
      exact this _ h

end Allocator

namespace Buddy

/-- Rewriting the links of allocated chunks keeps the buddy invariant. -/
theorem BInvH.relink {b : buddy_t} {ls : Nat → List Nat} (h : BInvH b ls 0 0)
    (arr : Nat → buddy_chunk_t)
    (hf : ∀ j, (arr j).free = (b.chunk_array j).free)
    (ho : ∀ j, (arr j).order = (b.chunk_array j).order)
    (hk : ∀ j, (b.chunk_array j).free = true → arr j = b.chunk_array j) :
    BInvH { b with chunk_array := arr } ls 0 0 := by
  have hs : SameFO b { b with chunk_array := arr } :=
    { chunk_count := rfl, max_order := rfl, free := hf, order := ho }
  refine { sized := h.sized, ordered := h.ordered, pinv := h.pinv.same_fo hs, lists := ?_, mem := ?_ }
  · intro o
    refine (h.lists o).frame ?_ ?_
    · intro y hy
      have := ((h.mem o y).1 hy).1.self.1
      show (arr y).next = _
      rw [hk y this]
    · intro y hy
      have := ((h.mem o y).1 hy).1.self.1
      show (arr y).prev = _
      rw [hk y this]
  · intro o c
    rw [h.mem o c]
    constructor
    · rintro ⟨h1, h2⟩; exact ⟨h1.sameFO hs, h2⟩
    · rintro ⟨h1, h2⟩; exact ⟨h1.sameFO hs.symm, h2⟩

end Buddy

namespace Allocator
open Buddy

theorem level_push_buddy (a : allocator_t) (L c : Nat) :
    (push_list a L c).buddy =
      { a.buddy with chunk_array := push_links a.buddy.chunk_array (a.lists L).head c } := by
  cases hd : (a.lists L).head <;>
  · simp only [push_list, push_links, hd]

theorem level_pop_buddy (a : allocator_t) (L c : Nat) :
    (pop_list a L c).buddy =
      { a.buddy with chunk_array := pop_links a.buddy.chunk_array (a.lists L).length c } := by
  unfold pop_list pop_links
  by_cases h : (a.lists L).length > 1
  · simp only [h, if_true]
    split_ifs <;> rfl
  · simp only [h, if_false]

theorem ALists.length_lt {a : allocator_t} {ls lls : Nat → List Nat} {M : Nat → Nat → Prop}
    (h : ALists a ls lls M) (L : Nat) : (a.lists L).length + 1 < 2 ^ 64 := by
  have h1 : (lls L).length ≤ a.buddy.chunk_count :=
    nodup_length_le (h.llists L).nodup (fun x hx => (h.mfree x L ((h.lmem L x).1 hx)).1)
  have h2 := (h.llists L).len_eq
  have h3 := h.binv.sized
  have h4 := max_chunk_count_lt
  omega

theorem ALists.congr_lists {a : allocator_t} {ls lls lls2 : Nat → List Nat}
    {M M2 : Nat → Nat → Prop} (h : ALists a ls lls M) (hl : ∀ L, lls2 L = lls L)
    (hm : ∀ c L, M2 c L ↔ M c L) : ALists a ls lls2 M2 :=
  { binv := h.binv
    llists := fun L => by rw [hl L]; exact h.llists L
    lmem := fun L c => by rw [hl L, hm c L]; exact h.lmem L c
    mfree := fun c L hc => h.mfree c L ((hm c L).1 hc)
    munique := fun c L L2 h1 h2 => h.munique c L L2 ((hm c L).1 h1) ((hm c L2).1 h2) }

/-- The bitmaps play no part in the list layer. -/
theorem ALists.bitmap {a : allocator_t} {ls lls : Nat → List Nat} {M : Nat → Nat → Prop}
    (h : ALists a ls lls M) (bm : Nat → allocator_bitmap_t) :
    ALists { a with bitmap_array := bm } ls lls M :=
  { binv := h.binv, llists := h.llists, lmem := h.lmem, mfree := h.mfree
    munique := h.munique }

/-- A buddy operation that keeps the descriptors of the list members keeps the
list layer. -/
theorem ALists.buddy_done {a : allocator_t} {ls lls : Nat → List Nat}
    {M : Nat → Nat → Prop} (h : ALists a ls lls M) {b2 : buddy_t} {ls2 : Nat → List Nat}
    {K : Nat → Prop} {f : Bool} (hd : Done a.buddy b2 ls2 K f)
    (hk : ∀ c L, M c L → ¬ K c) : ALists { a with buddy := b2 } ls2 lls M := by
  have keep : ∀ c L, M c L → b2.chunk_array c = a.buddy.chunk_array c :=
    fun c L hm => hd.keep c (h.mfree c L hm).2 (hk c L hm)
  refine { binv := hd.inv, llists := ?_, lmem := h.lmem, mfree := ?_, munique := h.munique }
  · intro L
    refine (h.llists L).frame ?_ ?_
    · intro y hy
      show (b2.chunk_array y).next = _
      rw [keep y L ((h.lmem L y).1 hy)]
    · intro y hy
      show (b2.chunk_array y).prev = _
      rw [keep y L ((h.lmem L y).1 hy)]
  · intro c L hm
    refine ⟨?_, ?_⟩
    · show c < b2.chunk_count
      rw [hd.chunk_count]; exact (h.mfree c L hm).1
    · show (b2.chunk_array c).free = false
      rw [keep c L hm]; exact (h.mfree c L hm).2

/-- Pushing an allocated chunk that is in no list onto the list of level `L`. -/
theorem ALists.push_level {a : allocator_t} {ls lls : Nat → List Nat} {M : Nat → Nat → Prop}
    (h : ALists a ls lls M) {c : Nat} (L : Nat) (hc : c < a.buddy.chunk_count)
    (hfree : (a.buddy.chunk_array c).free = false) (hn : ∀ L2, ¬ M c L2) :
    ALists (push_list a L c) ls (fun L2 => if L2 = L then lls L ++ [c] else lls L2)
      (fun c2 L2 => M c2 L2 ∨ (c2 = c ∧ L2 = L)) := by
  have hcl : ∀ L2, c ∉ lls L2 := fun L2 hm => hn L2 ((h.lmem L2 c).1 hm)
  have hother : ∀ j, (a.buddy.chunk_array j).free = true →
      push_links a.buddy.chunk_array (a.lists L).head c j = a.buddy.chunk_array j := by
    intro j hj
    refine push_links_other (h.llists L) c j ?_ ?_
    · intro hm
      have := (h.mfree j L ((h.lmem L j).1 hm)).2
      rw [hj] at this; exact absurd this (by decide)
    · intro e; rw [e, hfree] at hj; exact absurd hj (by decide)
  refine { binv := ?_, llists := ?_, lmem := ?_, mfree := ?_, munique := ?_ }
  · rw [level_push_buddy]
    exact h.binv.relink _ (fun j => push_links_free _ _ _ _) (fun j => push_links_order _ _ _ _)
      hother
  · intro L2
    rw [level_push_chunk_array, level_push_lists]
    by_cases e : L2 = L
    · subst e
      simp only [if_true]
      exact (h.llists L2).push (hcl L2) (h.length_lt L2)
    · simp only [if_neg e]
      refine (h.llists L2).frame ?_ ?_
      · intro y hy
        rw [push_links_other (h.llists L) c y ?_ ?_]
        · intro hm
          exact e (h.munique y L2 L ((h.lmem L2 y).1 hy) ((h.lmem L y).1 hm))
        · intro e2; rw [e2] at hy; exact hcl L2 hy
      · intro y hy
        rw [push_links_other (h.llists L) c y ?_ ?_]
        · intro hm
          exact e (h.munique y L2 L ((h.lmem L2 y).1 hy) ((h.lmem L y).1 hm))
        · intro e2; rw [e2] at hy; exact hcl L2 hy
  · intro L2 c2
    by_cases e : L2 = L
    · subst e
      simp only [if_true, List.mem_append, List.mem_singleton, and_true]
      rw [h.lmem L2 c2]
    · simp only [if_neg e, e, and_false, or_false]
      exact h.lmem L2 c2
  · rintro c2 L2 (hm | ⟨e1, e2⟩)
    · refine ⟨(h.mfree c2 L2 hm).1, ?_⟩
      rw [level_push_chunk_array, push_links_free]
      exact (h.mfree c2 L2 hm).2
    · subst e1
      refine ⟨hc, ?_⟩
      rw [level_push_chunk_array, push_links_free]
      exact hfree
  · rintro c2 L2 L3 (hm | ⟨e1, e2⟩) (hm2 | ⟨e3, e4⟩)
    · exact h.munique c2 L2 L3 hm hm2
    · subst e3; exact absurd hm (hn L2)
    · subst e1; exact absurd hm2 (hn L3)
    · rw [e2, e4]

/-- Popping a member of the list of level `L`. -/
theorem ALists.pop_level {a : allocator_t} {ls lls : Nat → List Nat} {M : Nat → Nat → Prop}
    (h : ALists a ls lls M) {c L : Nat} (hm : M c L) :
    ALists (pop_list a L c) ls (fun L2 => if L2 = L then (lls L).erase c else lls L2)
      (fun c2 L2 => M c2 L2 ∧ ¬ (c2 = c ∧ L2 = L)) := by
  have hcl : c ∈ lls L := (h.lmem L c).2 hm
  have hlen : (a.lists L).length < 2 ^ 64 := by have := h.length_lt L; omega
  have hother : ∀ j, (a.buddy.chunk_array j).free = true →
      pop_links a.buddy.chunk_array (a.lists L).length c j = a.buddy.chunk_array j := by
    intro j hj
    refine pop_links_other (h.llists L) hcl j ?_
    intro hm2
    have := (h.mfree j L ((h.lmem L j).1 hm2)).2
    rw [hj] at this; exact absurd this (by decide)
  refine { binv := ?_, llists := ?_, lmem := ?_, mfree := ?_, munique := ?_ }
  · rw [level_pop_buddy]
    exact h.binv.relink _ (fun j => pop_links_free _ _ _ _) (fun j => pop_links_order _ _ _ _)
      hother
  · intro L2
    rw [level_pop_chunk_array, level_pop_lists]
    by_cases e : L2 = L
    · subst e
      simp only [if_true]
      exact (h.llists L2).pop hcl hlen
    · simp only [if_neg e]
      refine (h.llists L2).frame ?_ ?_
      · intro y hy
        rw [pop_links_other (h.llists L) hcl y ?_]
        intro hm2
        exact e (h.munique y L2 L ((h.lmem L2 y).1 hy) ((h.lmem L y).1 hm2))
      · intro y hy
        rw [pop_links_other (h.llists L) hcl y ?_]
        intro hm2
        exact e (h.munique y L2 L ((h.lmem L2 y).1 hy) ((h.lmem L y).1 hm2))
  · intro L2 c2
    by_cases e : L2 = L
    · subst e
      simp only [if_true, and_true]
      rw [(h.llists L2).nodup.mem_erase_iff, h.lmem L2 c2]
      exact And.comm
    · simp only [if_neg e, e, and_false, not_false_eq_true, and_true]
      exact h.lmem L2 c2
  · rintro c2 L2 ⟨hm2, _⟩
    refine ⟨(h.mfree c2 L2 hm2).1, ?_⟩
    rw [level_pop_chunk_array, pop_links_free]
    exact (h.mfree c2 L2 hm2).2
  · rintro c2 L2 L3 ⟨hm2, _⟩ ⟨hm3, _⟩
    exact h.munique c2 L2 L3 hm2 hm3

theorem AInv.t_unique {a : allocator_t} {ls lls : Nat → List Nat} {T : Nat → Nat → Prop}
    (h : AInv a ls lls T) {c L L2 : Nat} (h1 : T c L) (h2 : T c L2) : L = L2 := by
  have e1 := (h.tblock c L h1).self.2
  have e2 := (h.tblock c L2 h2).self.2
  have e3 := (h.tbitmap c L h1).2
  have e4 := (h.tbitmap c L2 h2).2
  omega

theorem AInv.t_disjoint {a : allocator_t} {ls lls : Nat → List Nat} {T : Nat → Nat → Prop}
    (h : AInv a ls lls T) {c L c2 L2 j : Nat} (h1 : T c L) (h2 : T c2 L2)
    (hj1 : in_block c (L / 4) j) (hj2 : in_block c2 (L2 / 4) j) : c = c2 ∧ L = L2 := by
  have e := (h.tblock c L h1).unique (h.tblock c2 L2 h2) hj1 hj2
  have e1 := e.1
  subst e1
  exact ⟨rfl, h.t_unique h1 h2⟩

/-- A tiny block and an allocated block that share a chunk coincide. -/
theorem AInv.t_block_eq {a : allocator_t} {ls lls : Nat → List Nat} {T : Nat → Nat → Prop}
    (h : AInv a ls lls T) {c L c2 o2 j : Nat} {f : Bool} (h1 : T c L)
    (h2 : IsBlock a.buddy c2 o2 f) (hj1 : in_block c (L / 4) j) (hj2 : in_block c2 o2 j) :
    c2 = c ∧ o2 = L / 4 ∧ f = false := by
  have e := (h.tblock c L h1).unique h2 hj1 hj2
  exact ⟨e.1.symm, e.2.1.symm, e.2.2.symm⟩

/-- A buddy operation away from the tiny blocks keeps the slab invariant. -/
theorem AInv.buddy_op {a : allocator_t} {ls lls : Nat → List Nat} {T : Nat → Nat → Prop}
    (h : AInv a ls lls T) {b2 : buddy_t} {ls2 : Nat → List Nat} {K : Nat → Prop} {f : Bool}
    (hd : Done a.buddy b2 ls2 K f)
    (hk : ∀ c L, T c L → ∀ j, in_block c (L / 4) j → ¬ K j) :
    AInv { a with buddy := b2 } ls2 lls T :=
  { lists := h.lists.buddy_done hd (fun c L hm => hk c L hm.1 c (in_block_self _ _))
    tlevel := h.tlevel
    tblock := fun c L hT => hd.block_to (h.tblock c L hT) (hk c L hT)
    tbitmap := h.tbitmap
    tfrees := h.tfrees }

/-- Writing the bitmap of a chunk that is not a tiny block keeps the slab
invariant. -/
theorem AInv.bitmap_other {a : allocator_t} {ls lls : Nat → List Nat}
    {T : Nat → Nat → Prop} (h : AInv a ls lls T) (c : Nat) (v : allocator_bitmap_t)
    (hc : ∀ L, ¬ T c L) :
    AInv { a with bitmap_array := store a.bitmap_array c v } ls lls T := by
  have hne : ∀ c2 L, T c2 L → store a.bitmap_array c v c2 = a.bitmap_array c2 := by
    intro c2 L hT
    apply store_other
    intro e; rw [e] at hT; exact hc L hT
  refine { lists := ?_, tlevel := h.tlevel, tblock := h.tblock, tbitmap := ?_, tfrees := ?_ }
  · refine (h.lists.bitmap _).congr_lists (fun _ => rfl) ?_
    intro c2 L
    constructor
    · rintro ⟨h1, h2⟩
      refine ⟨h1, ?_⟩
      have := hne c2 L h1
      simp only [this] at h2
      exact h2
    · rintro ⟨h1, h2⟩
      refine ⟨h1, ?_⟩
      have := hne c2 L h1
      simp only [this]
      exact h2
  · intro c2 L hT
    have := hne c2 L hT
    simp only [this]
    exact h.tbitmap c2 L hT
  · intro c2 L hT
    have := hne c2 L hT
    simp only [this]
    exact h.tfrees c2 L hT

theorem FULL_BITMAP_ne_zero (L : Nat) : FULL_BITMAP L ≠ 0 := by
  intro h
  have h1 := FULL_BITMAP_testBit L 0
  rw [h, Nat.zero_testBit] at h1
  have := get_bitmap_bits_pos L
  simp [this] at h1

/-- A block fresh from the buddy becomes a tiny block of level `L`: the
effect of `push_list` followed by `init_bitmap`. -/
theorem AInv.new_block {a : allocator_t} {ls lls : Nat → List Nat} {T : Nat → Nat → Prop}
    (h : AInv a ls lls T) {L c : Nat} (hL : L < 64) {b2 : buddy_t} {ls2 : Nat → List Nat}
    (hd : Done a.buddy b2 ls2 (in_block c (L / 4)) false)
    (hb : IsBlock b2 c (L / 4) false)
    (hfree : ∀ j, in_block c (L / 4) j → (a.buddy.chunk_array j).free = true) :
    ∃ lls2, AInv (init_bitmap (push_list { a with buddy := b2 } L c) c L) ls2 lls2
        (fun c2 L2 => T c2 L2 ∨ (c2 = c ∧ L2 = L)) ∧
      SameFO b2 (init_bitmap (push_list { a with buddy := b2 } L c) c L).buddy := by
  have hnt : ∀ c2 L2, T c2 L2 → ∀ j, in_block c2 (L2 / 4) j → ¬ in_block c (L / 4) j := by
    intro c2 L2 hT j hj hk
    have := ((h.tblock c2 L2 hT).uniform j hj).1
    rw [hfree j hk] at this
    exact absurd this (by decide)
  have hcT : ∀ L2, ¬ T c L2 := fun L2 hT =>
    hnt c L2 hT c (in_block_self _ _) (in_block_self _ _)
  have h1 := h.buddy_op hd hnt
  have h2 := h1.lists.push_level L hb.lt hb.self.1 (fun L2 hm => hcT L2 hm.1)
  have hfo : SameFO b2 (init_bitmap (push_list { a with buddy := b2 } L c) c L).buddy :=
    { chunk_count := rfl, max_order := rfl
      free := fun j => by
        show ((push_list { a with buddy := b2 } L c).buddy.chunk_array j).free = _
        rw [level_push_chunk_array, push_links_free]
      order := fun j => by
        show ((push_list { a with buddy := b2 } L c).buddy.chunk_array j).order = _
        rw [level_push_chunk_array, push_links_order] }
  refine ⟨fun L2 => if L2 = L then lls L ++ [c] else lls L2, ?_, hfo⟩
  have hbm : ∀ c2, c2 ≠ c →
      (init_bitmap (push_list { a with buddy := b2 } L c) c L).bitmap_array c2 =
        a.bitmap_array c2 := fun c2 hne => store_other _ _ hne
  have hbc : (init_bitmap (push_list { a with buddy := b2 } L c) c L).bitmap_array c =
      { tiny := true, index_in_group := L % 4, frees := FULL_BITMAP L } := store_same _ _ _
  refine { lists := ?_, tlevel := ?_, tblock := ?_, tbitmap := ?_, tfrees := ?_ }
  · refine (h2.bitmap _).congr_lists (fun _ => rfl) ?_
    intro c2 L2
    by_cases e : c2 = c
    · subst e
      show (_ ∧ ((init_bitmap (push_list { a with buddy := b2 } L c2) c2 L).bitmap_array
        c2).frees ≠ 0) ↔ _
      rw [hbc]
      have := FULL_BITMAP_ne_zero L
      have := hcT L2
      tauto
    · show (_ ∧ ((init_bitmap (push_list { a with buddy := b2 } L c) c L).bitmap_array
        c2).frees ≠ 0) ↔ _
      rw [hbm c2 e]
      constructor
      · rintro ⟨h3 | h3, h4⟩
        · exact Or.inl ⟨h3, h4⟩
        · exact absurd h3.1 e
      · rintro (⟨h3, h4⟩ | h3)
        · exact ⟨Or.inl h3, h4⟩
        · exact absurd h3.1 e
  · rintro c2 L2 (hT | ⟨_, e⟩)
    · exact h.tlevel c2 L2 hT
    · rw [e]; exact hL
  · rintro c2 L2 (hT | ⟨e1, e2⟩)
    · exact (h1.tblock c2 L2 hT).sameFO hfo
    · rw [e1, e2]; exact hb.sameFO hfo
  · rintro c2 L2 (hT | ⟨e1, e2⟩)
    · have hne : c2 ≠ c := fun e => hcT L2 (e ▸ hT)
      rw [hbm c2 hne]; exact h.tbitmap c2 L2 hT
    · rw [e1, e2, hbc]; exact ⟨rfl, rfl⟩
  · rintro c2 L2 (hT | ⟨e1, e2⟩) j hj
    · have hne : c2 ≠ c := fun e => hcT L2 (e ▸ hT)
      rw [hbm c2 hne] at hj; exact h.tfrees c2 L2 hT j hj
    · rw [e1, hbc] at hj
      rw [e2]
      simp only [FULL_BITMAP_testBit, decide_eq_true_eq] at hj
      exact hj

theorem take_piece_bitmap (a : allocator_t) (L c mask : Nat) :
    (take_piece a L c mask).bitmap_array =
      store a.bitmap_array c
        { a.bitmap_array c with frees := clear_mask (a.bitmap_array c).frees mask } := by
  unfold take_piece
  simp only
  split_ifs <;> rfl

theorem take_piece_sameFO (a : allocator_t) (L c mask : Nat) :
    SameFO a.buddy (take_piece a L c mask).buddy := by
  unfold take_piece
  simp only
  split_ifs
  · exact { chunk_count := rfl, max_order := rfl
            free := fun j => by rw [level_pop_chunk_array, pop_links_free]
            order := fun j => by rw [level_pop_chunk_array, pop_links_order] }
  · exact SameFO.refl _

/-- Taking a free piece of a tiny block: the effect of clearing the bit and
popping the block when no piece is left. -/
theorem AInv.take {a : allocator_t} {ls lls : Nat → List Nat} {T : Nat → Nat → Prop}
    (h : AInv a ls lls T) {c L i : Nat} (hT : T c L)
    (hbit : (a.bitmap_array c).frees.testBit i = true) :
    ∃ lls2, AInv (take_piece a L c (2 ^ i)) ls lls2 T := by
  have hfo := take_piece_sameFO a L c (2 ^ i)
  have hbm := take_piece_bitmap a L c (2 ^ i)
  have hf0 : (a.bitmap_array c).frees ≠ 0 := by
    intro e; rw [e, Nat.zero_testBit] at hbit; exact absurd hbit (by decide)
  have hbo : ∀ c2, c2 ≠ c → (take_piece a L c (2 ^ i)).bitmap_array c2 = a.bitmap_array c2 := by
    intro c2 hne; rw [hbm]; exact store_other _ _ hne
  have hbc : (take_piece a L c (2 ^ i)).bitmap_array c =
      { a.bitmap_array c with frees := clear_mask (a.bitmap_array c).frees (2 ^ i) } := by
    rw [hbm]; exact store_same _ _ _
  have hrest : ∀ lls2, ALists (take_piece a L c (2 ^ i)) ls lls2
      (fun c2 L2 => T c2 L2 ∧ ((take_piece a L c (2 ^ i)).bitmap_array c2).frees ≠ 0) →
      AInv (take_piece a L c (2 ^ i)) ls lls2 T := by
    intro lls2 hl
    refine { lists := hl, tlevel := h.tlevel
             tblock := fun c2 L2 hT2 => (h.tblock c2 L2 hT2).sameFO hfo
             tbitmap := ?_, tfrees := ?_ }
    · intro c2 L2 hT2
      by_cases e : c2 = c
      · subst e; rw [hbc]; exact h.tbitmap c2 L2 hT2
      · rw [hbo c2 e]; exact h.tbitmap c2 L2 hT2
    · intro c2 L2 hT2 j hj
      by_cases e : c2 = c
      · subst e
        rw [hbc] at hj
        simp only [clear_mask_testBit, Bool.and_eq_true] at hj
        exact h.tfrees c2 L2 hT2 j hj.1
      · rw [hbo c2 e] at hj; exact h.tfrees c2 L2 hT2 j hj
  by_cases hz : clear_mask (a.bitmap_array c).frees (2 ^ i) = 0
  · have heq : take_piece a L c (2 ^ i) =
        pop_list
          { a with
            bitmap_array :=
              store a.bitmap_array c
                { a.bitmap_array c with
                  frees := clear_mask (a.bitmap_array c).frees (2 ^ i) } }
          L c := by
      unfold take_piece
      simp only [store_same, hz, if_true]
    have h1 := (h.lists.bitmap (store a.bitmap_array c
      { a.bitmap_array c with frees := clear_mask (a.bitmap_array c).frees (2 ^ i) })).pop_level
      (show T c L ∧ (a.bitmap_array c).frees ≠ 0 from ⟨hT, hf0⟩)
    rw [← heq] at h1
    refine ⟨_, hrest _ (h1.congr_lists (fun _ => rfl) ?_)⟩
    intro c2 L2
    by_cases e : c2 = c
    · subst e
      rw [hbc]
      constructor
      · rintro ⟨_, h4⟩; exact absurd hz h4
      · rintro ⟨⟨h3, _⟩, h4⟩
        exact absurd ⟨rfl, h.t_unique h3 hT⟩ h4
    · rw [hbo c2 e]
      constructor
      · rintro ⟨h3, h4⟩; exact ⟨⟨h3, h4⟩, fun h5 => e h5.1⟩
      · rintro ⟨h3, _⟩; exact h3
  · have heq : take_piece a L c (2 ^ i) =
        { a with
          bitmap_array :=
            store a.bitmap_array c
              { a.bitmap_array c with
                frees := clear_mask (a.bitmap_array c).frees (2 ^ i) } } := by
      unfold take_piece
      simp only [store_same, hz, if_false]
    have h1 := h.lists.bitmap (store a.bitmap_array c
      { a.bitmap_array c with frees := clear_mask (a.bitmap_array c).frees (2 ^ i) })
    rw [← heq] at h1
    refine ⟨_, hrest _ (h1.congr_lists (fun _ => rfl) ?_)⟩
    intro c2 L2
    by_cases e : c2 = c
    · subst e
      rw [hbc]
      constructor
      · rintro ⟨h3, _⟩; exact ⟨h3, hf0⟩
      · rintro ⟨h3, _⟩; exact ⟨h3, hz⟩
    · rw [hbo c2 e]

end Allocator

namespace Buddy

theorem Done.eff {b0 b2 : buddy_t} {ls : Nat → List Nat} {K : Nat → Prop} {f : Bool}
    (h : Done b0 b2 ls K f) : Eff b0 b2 K f :=
  { chunk_count := h.chunk_count, max_order := h.max_order, free_in := h.free_in
    free_out := h.free_out
    order_out := fun j hj hk => by rw [h.keep j hj hk] }

theorem Eff.of_sameFO {b0 b2 : buddy_t} (h : SameFO b0 b2) (f : Bool) :
    Eff b0 b2 (fun _ => False) f :=
  { chunk_count := h.chunk_count, max_order := h.max_order
    free_in := fun _ hk => absurd hk (fun x => x)
    free_out := fun j _ => h.free j
    order_out := fun j _ _ => h.order j }

theorem Eff.sameFO_left {b0 b1 b2 : buddy_t} {K : Nat → Prop} {f : Bool}
    (hs : SameFO b0 b1) (h : Eff b1 b2 K f) : Eff b0 b2 K f :=
  { chunk_count := h.chunk_count.trans hs.chunk_count
    max_order := h.max_order.trans hs.max_order
    free_in := h.free_in
    free_out := fun j hk => (h.free_out j hk).trans (hs.free j)
    order_out := fun j hj hk =>
      (h.order_out j ((hs.free j).trans hj) hk).trans (hs.order j) }

theorem Eff.sameFO_right {b0 b1 b2 : buddy_t} {K : Nat → Prop} {f : Bool}
    (h : Eff b0 b1 K f) (hs : SameFO b1 b2) : Eff b0 b2 K f :=
  { chunk_count := hs.chunk_count.trans h.chunk_count
    max_order := hs.max_order.trans h.max_order
    free_in := fun j hk => (hs.free j).trans (h.free_in j hk)
    free_out := fun j hk => (hs.free j).trans (h.free_out j hk)
    order_out := fun j hj hk => (hs.order j).trans (h.order_out j hj hk) }

theorem Eff.keeps_block {b0 b2 : buddy_t} {K : Nat → Prop} {f : Bool} (h : Eff b0 b2 K f)
    {c o : Nat} (hb : IsBlock b0 c o false) (hd : ∀ j, in_block c o j → ¬ K j) :
    IsBlock b2 c o false :=
  hb.transfer h.chunk_count h.max_order (fun j hj =>
    ⟨h.free_out j (hd j hj), h.order_out j (hb.uniform j hj).1 (hd j hj)⟩)

theorem Eff.kept_block {b0 b2 : buddy_t} {K : Nat → Prop} {f : Bool} (h : Eff b0 b2 K f)
    {c o : Nat} (hb : IsBlock b2 c o false) (hd : ∀ j, in_block c o j → ¬ K j) :
    IsBlock b0 c o false :=
  hb.transfer h.chunk_count.symm h.max_order.symm (fun j hj => by
    have hf : (b0.chunk_array j).free = false := by
      rw [← h.free_out j (hd j hj)]; exact (hb.uniform j hj).1
    exact ⟨(h.free_out j (hd j hj)).symm, (h.order_out j hf (hd j hj)).symm⟩)

end Buddy

namespace Allocator
open Buddy

theorem set_piece_bitmap (a : allocator_t) (L c mask : Nat) :
    (set_piece a L c mask).bitmap_array =
      store a.bitmap_array c
        { a.bitmap_array c with frees := (a.bitmap_array c).frees ||| mask } := by
  unfold set_piece
  simp only
  split_ifs <;> rfl

theorem set_piece_sameFO (a : allocator_t) (L c mask : Nat) :
    SameFO a.buddy (set_piece a L c mask).buddy := by
  unfold set_piece
  simp only
  split_ifs
  · exact { chunk_count := rfl, max_order := rfl
            free := fun j => by
              show ((push_list a L c).buddy.chunk_array j).free = _
              rw [level_push_chunk_array, push_links_free]
            order := fun j => by
              show ((push_list a L c).buddy.chunk_array j).order = _
              rw [level_push_chunk_array, push_links_order] }
  · exact SameFO.refl _

/-- Giving back a piece of a tiny block: the effect of pushing the block when
it had no free piece and setting the bit. -/
theorem AInv.set_bit {a : allocator_t} {ls lls : Nat → List Nat} {T : Nat → Nat → Prop}
    (h : AInv a ls lls T) {c L i : Nat} (hT : T c L) (hi : i < get_bitmap_bits L) :
    ∃ lls2, AInv (set_piece a L c (2 ^ i)) ls lls2 T := by
  have hfo := set_piece_sameFO a L c (2 ^ i)
  have hbm := set_piece_bitmap a L c (2 ^ i)
  have hbo : ∀ c2, c2 ≠ c → (set_piece a L c (2 ^ i)).bitmap_array c2 = a.bitmap_array c2 := by
    intro c2 hne; rw [hbm]; exact store_other _ _ hne
  have hbc : (set_piece a L c (2 ^ i)).bitmap_array c =
      { a.bitmap_array c with frees := (a.bitmap_array c).frees ||| 2 ^ i } := by
    rw [hbm]; exact store_same _ _ _
  have hnz : (a.bitmap_array c).frees ||| 2 ^ i ≠ 0 := by
    intro e
    have := or_mask_testBit (a.bitmap_array c).frees i i
    rw [e, Nat.zero_testBit] at this
    simp at this
  have hrest : ∀ lls2, ALists (set_piece a L c (2 ^ i)) ls lls2
      (fun c2 L2 => T c2 L2 ∧ ((set_piece a L c (2 ^ i)).bitmap_array c2).frees ≠ 0) →
      AInv (set_piece a L c (2 ^ i)) ls lls2 T := by
    intro lls2 hl
    refine { lists := hl, tlevel := h.tlevel
             tblock := fun c2 L2 hT2 => (h.tblock c2 L2 hT2).sameFO hfo
             tbitmap := ?_, tfrees := ?_ }
    · intro c2 L2 hT2
      by_cases e : c2 = c
      · subst e; rw [hbc]; exact h.tbitmap c2 L2 hT2
      · rw [hbo c2 e]; exact h.tbitmap c2 L2 hT2
    · intro c2 L2 hT2 j hj
      by_cases e : c2 = c
      · subst e
        rw [hbc] at hj
        simp only [or_mask_testBit, Bool.or_eq_true, decide_eq_true_eq] at hj
        rcases hj with hj | hj
        · exact h.tfrees c2 L2 hT2 j hj
        · rw [hj, h.t_unique hT2 hT]; exact hi
      · rw [hbo c2 e] at hj; exact h.tfrees c2 L2 hT2 j hj
  by_cases hz : (a.bitmap_array c).frees = 0
  · have heq : set_piece a L c (2 ^ i) =
        { push_list a L c with
          bitmap_array :=
            store a.bitmap_array c
              { a.bitmap_array c with frees := (a.bitmap_array c).frees ||| 2 ^ i } } := by
      unfold set_piece
      dsimp only
      rw [if_pos hz]
      rfl
    have hb := h.tblock c L hT
    have h1 := (h.lists.push_level L hb.lt hb.self.1 (fun L2 hm => hm.2 hz)).bitmap
      (store a.bitmap_array c
        { a.bitmap_array c with frees := (a.bitmap_array c).frees ||| 2 ^ i })
    rw [← heq] at h1
    refine ⟨_, hrest _ (h1.congr_lists (fun _ => rfl) ?_)⟩
    intro c2 L2
    by_cases e : c2 = c
    · subst e
      rw [hbc]
      constructor
      · rintro ⟨h3, _⟩; exact Or.inr ⟨rfl, h.t_unique h3 hT⟩
      · rintro (⟨_, h4⟩ | ⟨_, h4⟩)
        · exact absurd hz h4
        · rw [h4]; exact ⟨hT, hnz⟩
    · rw [hbo c2 e]
      constructor
      · rintro h3; exact Or.inl h3
      · rintro (h3 | h3)
        · exact h3
        · exact absurd h3.1 e
  · have heq : set_piece a L c (2 ^ i) =
        { a with
          bitmap_array :=
            store a.bitmap_array c
              { a.bitmap_array c with frees := (a.bitmap_array c).frees ||| 2 ^ i } } := by
      unfold set_piece
      dsimp only
      rw [if_neg hz]
    have h1 := h.lists.bitmap (store a.bitmap_array c
        { a.bitmap_array c with frees := (a.bitmap_array c).frees ||| 2 ^ i })
    rw [← heq] at h1
    refine ⟨_, hrest _ (h1.congr_lists (fun _ => rfl) ?_)⟩
    intro c2 L2
    by_cases e : c2 = c
    · subst e
      rw [hbc]
      constructor
      · rintro ⟨h3, _⟩; exact ⟨h3, hz⟩
      · rintro ⟨h3, _⟩; exact ⟨h3, hnz⟩
    · rw [hbo c2 e]

/-- Returning a tiny block with a free piece to the buddy: the effect of
`pop_list` followed by `buddy_free`. -/
theorem AInv.release {a : allocator_t} {ls lls : Nat → List Nat} {T : Nat → Nat → Prop}
    (h : AInv a ls lls T) {c L : Nat} (hT : T c L) (hnz : (a.bitmap_array c).frees ≠ 0) :
    ∃ ls2 lls2,
      AInv { pop_list a L c with buddy := (buddy_free (pop_list a L c).buddy c).1 } ls2 lls2
        (fun c2 L2 => T c2 L2 ∧ ¬ (c2 = c ∧ L2 = L)) ∧
      Eff a.buddy (buddy_free (pop_list a L c).buddy c).1 (in_block c (L / 4)) true := by
  have hfo : SameFO a.buddy (pop_list a L c).buddy :=
    { chunk_count := rfl, max_order := rfl
      free := fun j => by rw [level_pop_chunk_array, pop_links_free]
      order := fun j => by rw [level_pop_chunk_array, pop_links_order] }
  have h1 := h.lists.pop_level (show T c L ∧ (a.bitmap_array c).frees ≠ 0 from ⟨hT, hnz⟩)
  have h3 : AInv (pop_list a L c) ls (fun L2 => if L2 = L then (lls L).erase c else lls L2)
      (fun c2 L2 => T c2 L2 ∧ ¬ (c2 = c ∧ L2 = L)) :=
    { lists := h1.congr_lists (fun _ => rfl) (fun c2 L2 => by
        show (_ ∧ (a.bitmap_array c2).frees ≠ 0) ↔ _
        tauto)
      tlevel := fun c2 L2 hT2 => h.tlevel c2 L2 hT2.1
      tblock := fun c2 L2 hT2 => (h.tblock c2 L2 hT2.1).sameFO hfo
      tbitmap := fun c2 L2 hT2 => h.tbitmap c2 L2 hT2.1
      tfrees := fun c2 L2 hT2 => h.tfrees c2 L2 hT2.1 }
  have hb : IsBlock (pop_list a L c).buddy c (L / 4) false := (h.tblock c L hT).sameFO hfo
  have hord := hb.self.2
  have hchk : CHECK_BLOCK (pop_list a L c).buddy c
      ((pop_list a L c).buddy.chunk_array c).order = true := by
    rw [hord]
    exact CHECK_BLOCK_of h3.lists.binv hb.order_le hb.aligned hb.in_range
  obtain ⟨_, ls2, hd⟩ := buddy_free_spec h3.lists.binv c hb.lt hb.self.1 hchk
  rw [hord] at hd
  refine ⟨ls2, _, h3.buddy_op hd ?_, Eff.sameFO_left hfo hd.eff⟩
  rintro c2 L2 ⟨hT2, hne⟩ j hj hk
  exact hne (h.t_disjoint hT2 hT hj hk)

theorem piece_fits {L i : Nat} (hL : L < 64) (hi : i < get_bitmap_bits L) :
    i * allocator_level_size L + allocator_level_size L ≤ 2 ^ (L / 4) * 512 := by
  have h1 := level_bits_fit L hL
  have h2 : (i + 1) * allocator_level_size L ≤ get_bitmap_bits L * allocator_level_size L :=
    Nat.mul_le_mul_right _ hi
  rw [Nat.add_mul, Nat.one_mul] at h2
  omega

theorem piece_div {L i x : Nat} (hL : L < 64)
    (h1 : i * allocator_level_size L ≤ x)
    (h2 : x < i * allocator_level_size L + allocator_level_size L) :
    x / allocator_level_size L = i := by
  have hp := level_size_pos L hL
  apply Nat.div_eq_of_lt_le
  · rw [Nat.mul_comm] at h1; rw [Nat.mul_comm]; exact h1
  · rw [Nat.succ_mul]; exact h2

theorem entry_order_tiny {p : Nat × Nat} (h : ¬ allocator_size_to_level p.2 < 0) :
    entry_order p = (allocator_size_to_level p.2).toNat / 4 := by
  unfold entry_order
  rw [if_neg h]
  rfl

theorem entry_size_tiny {p : Nat × Nat} (h : ¬ allocator_size_to_level p.2 < 0) :
    entry_size p = allocator_level_size (allocator_size_to_level p.2).toNat := by
  unfold entry_size
  rw [if_neg h]

theorem entry_size_direct {p : Nat × Nat} (h : allocator_size_to_level p.2 < 0) :
    entry_size p = 2 ^ entry_order p * 512 := by
  unfold entry_size
  rw [if_pos h]
  rfl

/-- Decoding the address of piece `i` of the block at chunk `c`. -/
theorem entry_decode {x size c i : Nat} (h : ¬ allocator_size_to_level size < 0)
    (hal : BUDDY_ALIGN_TO_ORDER c ((allocator_size_to_level size).toNat / 4) = c)
    (hi : i < get_bitmap_bits (allocator_size_to_level size).toNat)
    (h1 : c * 512 + i * allocator_level_size (allocator_size_to_level size).toNat ≤ x)
    (h2 : x < c * 512 + i * allocator_level_size (allocator_size_to_level size).toNat +
      allocator_level_size (allocator_size_to_level size).toNat) :
    entry_chunk (x, size) = c ∧ entry_bit (x, size) = i := by
  have hL := size_to_level_le size (by omega)
  have hfit := piece_fits (show (allocator_size_to_level size).toNat < 64 by omega) hi
  have hc : entry_chunk (x, size) = c := by
    unfold entry_chunk
    rw [entry_order_tiny h]
    apply (in_block_iff hal _).1
    show c ≤ x / 512 ∧ x / 512 < c + 2 ^ ((allocator_size_to_level size).toNat / 4)
    constructor
    · omega
    · omega
  refine ⟨hc, ?_⟩
  unfold entry_bit
  rw [hc]
  show (x - c * 512) / allocator_level_size (allocator_size_to_level size).toNat = i
  apply piece_div (by omega)
  · omega
  · omega

/-- The bytes of a live allocation lie in its buddy block. -/
theorem Valid.range_block {a : allocator_t} {ls lls : Nat → List Nat}
    {T : Nat → Nat → Prop} (h : AInv a ls lls T) {p : Nat × Nat} (hv : Valid a T p)
    {addr : Nat} (h1 : p.1 ≤ addr) (h2 : addr < p.1 + entry_size p) :
    in_block (entry_chunk p) (entry_order p) (addr / 512) := by
  obtain ⟨hb, hrest⟩ := hv
  by_cases hl : allocator_size_to_level p.2 < 0
  · rw [if_pos hl] at hrest
    rw [entry_size_direct hl] at h2
    have e : p.1 = entry_chunk p * 512 := hrest.1
    show entry_chunk p ≤ addr / 512 ∧ addr / 512 < entry_chunk p + 2 ^ entry_order p
    constructor
    · omega
    · have : addr < (entry_chunk p + 2 ^ entry_order p) * 512 := by
        rw [Nat.add_mul]; omega
      omega
  · rw [if_neg hl] at hrest
    obtain ⟨hT, hi, _, e⟩ := hrest
    rw [entry_size_tiny hl] at h2
    have hfit := piece_fits (h.tlevel _ _ hT) hi
    rw [entry_order_tiny hl]
    have e2 : p.1 = entry_chunk p * 512 +
        entry_bit p * allocator_level_size (allocator_size_to_level p.2).toNat := e
    show entry_chunk p ≤ addr / 512 ∧
      addr / 512 < entry_chunk p + 2 ^ ((allocator_size_to_level p.2).toNat / 4)
    constructor
    · omega
    · have : addr < (entry_chunk p + 2 ^ ((allocator_size_to_level p.2).toNat / 4)) * 512 := by
        rw [Nat.add_mul]; omega
      omega

theorem Valid.chunk_in {a : allocator_t} {ls lls : Nat → List Nat}
    {T : Nat → Nat → Prop} (h : AInv a ls lls T) {p : Nat × Nat} (hv : Valid a T p) :
    in_block (entry_chunk p) (entry_order p) (p.1 / 512) := by
  refine hv.range_block h (Nat.le_refl _) ?_
  have : 0 < entry_size p := by
    by_cases hl : allocator_size_to_level p.2 < 0
    · rw [entry_size_direct hl]
      have := Nat.two_pow_pos (entry_order p)
      omega
    · rw [entry_size_tiny hl]
      have hv2 := hv.2
      rw [if_neg hl] at hv2
      exact level_size_pos _ (h.tlevel _ _ hv2.1)
  omega

/-- The pieces with a given address are unique. -/
theorem nodup_fst_inj {E : List (Nat × Nat)} (h : (E.map Prod.fst).Nodup) {p q : Nat × Nat}
    (hp : p ∈ E) (hq : q ∈ E) (e : p.1 = q.1) : p = q :=
  List.inj_on_of_nodup_map h hp hq e

/-- A live allocation stays live when its block and its piece are left
alone. -/
theorem Valid.keep {a a2 : allocator_t} {T T2 : Nat → Nat → Prop} {p : Nat × Nat}
    (hv : Valid a T p) {K : Nat → Prop} {f : Bool} (heff : Eff a.buddy a2.buddy K f)
    (hK : ∀ j, in_block (entry_chunk p) (entry_order p) j → ¬ K j)
    (hT1 : ∀ L, T (entry_chunk p) L → T2 (entry_chunk p) L)
    (hT2 : ∀ L, T2 (entry_chunk p) L → T (entry_chunk p) L)
    (hbit : ¬ allocator_size_to_level p.2 < 0 →
      (a2.bitmap_array (entry_chunk p)).frees.testBit (entry_bit p) = false) :
    Valid a2 T2 p := by
  obtain ⟨hb, hrest⟩ := hv
  refine ⟨heff.keeps_block hb hK, ?_⟩
  by_cases hl : allocator_size_to_level p.2 < 0
  · rw [if_pos hl] at hrest ⊢
    exact ⟨hrest.1, fun L hT => hrest.2 L (hT2 L hT)⟩
  · rw [if_neg hl] at hrest ⊢
    exact ⟨hT1 _ hrest.1, hrest.2.1, hbit hl, hrest.2.2.2⟩

/-- Adding an allocation: the chunks `K` of a new block were free, the tiny
blocks and the allocated pieces of the old state are kept. -/
theorem Live.add {a a2 : allocator_t} {ls lls ls2 lls2 : Nat → List Nat}
    {T T2 : Nat → Nat → Prop} {E : List (Nat × Nat)} {p : Nat × Nat} (h : Live a ls lls T E)
    (h2 : AInv a2 ls2 lls2 T2) {K : Nat → Prop} (heff : Eff a.buddy a2.buddy K false)
    (hK : ∀ j, K j → (a.buddy.chunk_array j).free = true)
    (hT1 : ∀ c L, T c L → T2 c L) (hT2 : ∀ c L, T2 c L → T c L ∨ K c)
    (hbit : ∀ c L i, T c L → (a.bitmap_array c).frees.testBit i = false →
      (c, i) ≠ (entry_chunk p, entry_bit p) →
      (a2.bitmap_array c).frees.testBit i = false)
    (hp : Valid a2 T2 p)
    (hnew : ∀ q, q ∈ E → (entry_chunk q, entry_bit q) = (entry_chunk p, entry_bit p) →
      ¬ allocator_size_to_level q.2 < 0 → False)
    (hnd : p.1 ∉ E.map Prod.fst) :
    Live a2 ls2 lls2 T2 (p :: E) := by
  refine { inv := h2, nodup := ?_, valid := ?_ }
  · rw [List.map_cons]
    exact List.nodup_cons.2 ⟨hnd, h.nodup⟩
  · intro q hq
    rcases List.mem_cons.1 hq with e | hq
    · rw [e]; exact hp
    · have hv := h.valid q hq
      have hfree : ∀ j, in_block (entry_chunk q) (entry_order q) j → ¬ K j := by
        intro j hj hk
        have := (hv.1.uniform j hj).1
        rw [hK j hk] at this
        exact absurd this (by decide)
      refine hv.keep heff hfree (fun L => hT1 _ L) ?_ ?_
      · intro L hT
        rcases hT2 _ L hT with h3 | h3
        · exact h3
        · exact absurd h3 (hfree (entry_chunk q) (in_block_self _ _))
      · intro hl
        have hv2 := hv.2
        rw [if_neg hl] at hv2
        exact hbit _ _ _ hv2.1 hv2.2.2.1 (fun e => hnew q hq e hl)

/-- The direct blocks keep `tiny = 0` when an allocation is added. -/
theorem Direct.add_direct {a a2 : allocator_t} {T T2 : Nat → Nat → Prop} (h : Direct a T)
    {K : Nat → Prop} (heff : Eff a.buddy a2.buddy K false)
    (hT1 : ∀ c L, T c L → T2 c L)
    (hnew : ∀ c o, IsBlock a2.buddy c o false → (∃ j, in_block c o j ∧ K j) →
      (∃ L, T2 c L) ∨ (a2.bitmap_array c).tiny = false)
    (hbm : ∀ c, (a.bitmap_array c).tiny = false → ¬ K c →
      (∃ L, T2 c L) ∨ (a2.bitmap_array c).tiny = false) :
    Direct a2 T2 := by
  intro c o hb
  by_cases hk : ∃ j, in_block c o j ∧ K j
  · exact hnew c o hb hk
  · have hb0 := heff.kept_block hb (fun j hj hkj => hk ⟨j, hj, hkj⟩)
    rcases h c o hb0 with ⟨L, hT⟩ | ht
    · exact Or.inl ⟨L, hT1 c L hT⟩
    · exact hbm c ht (fun hkc => hk ⟨c, in_block_self _ _, hkc⟩)

/-- The list stays exact when an allocation is added. -/
theorem Exact.add_exact {a a2 : allocator_t} {T T2 : Nat → Nat → Prop} {E : List (Nat × Nat)}
    (h : Exact a T E) {K : Nat → Prop} (heff : Eff a.buddy a2.buddy K false)
    {p : Nat × Nat} (hK : ∀ j, K j → in_block (entry_chunk p) (entry_order p) j)
    (hbits : ∀ c L i, T2 c L → i < get_bitmap_bits L →
      (a2.bitmap_array c).frees.testBit i = false →
      (T c L ∧ (a.bitmap_array c).frees.testBit i = false) ∨
      (0 ≤ allocator_size_to_level p.2 ∧ entry_chunk p = c ∧ entry_bit p = i)) :
    Exact a2 T2 (p :: E) := by
  refine { chunks := ?_, pieces := ?_ }
  · intro j hj hf
    by_cases hk : K j
    · exact ⟨p, List.mem_cons_self _ _, hK j hk⟩
    · rw [heff.free_out j hk] at hf
      rw [heff.chunk_count] at hj
      obtain ⟨q, hq, hin⟩ := h.chunks j hj hf
      exact ⟨q, List.mem_cons_of_mem _ hq, hin⟩
  · intro c L hT i hi hbit
    rcases hbits c L i hT hi hbit with ⟨h1, h2⟩ | h1
    · obtain ⟨q, hq, hrest⟩ := h.pieces c L h1 i hi h2
      exact ⟨q, List.mem_cons_of_mem _ hq, hrest⟩
    · exact ⟨p, List.mem_cons_self _ _, h1⟩

/-- No live allocation has an address in a free chunk. -/
theorem Live.addr_allocated {a : allocator_t} {ls lls : Nat → List Nat}
    {T : Nat → Nat → Prop} {E : List (Nat × Nat)} (h : Live a ls lls T E) {q : Nat × Nat}
    (hq : q ∈ E) : (a.buddy.chunk_array (q.1 / 512)).free = false :=
  ((h.valid q hq).1.uniform _ ((h.valid q hq).chunk_in h.inv)).1

/-- The effect of taking piece `i` of a block fresh from the buddy. -/
theorem take_new_bitmap (a : allocator_t) (b2 : buddy_t) (L c i : Nat) :
    (take_piece (init_bitmap (push_list { a with buddy := b2 } L c) c L) L c
      (2 ^ i)).bitmap_array =
    store a.bitmap_array c
      { tiny := true, index_in_group := L % 4, frees := clear_mask (FULL_BITMAP L) (2 ^ i) } := by
  have e : (init_bitmap (push_list { a with buddy := b2 } L c) c L).bitmap_array c =
      { tiny := true, index_in_group := L % 4, frees := FULL_BITMAP L } := store_same _ _ _
  rw [take_piece_bitmap, e]
  show store (store a.bitmap_array c _) c _ = _
  rw [store_store]

/-- Taking a free piece of an existing tiny block adds the allocation that
starts at this piece. -/
theorem Live.take_old {a : allocator_t} {ls lls : Nat → List Nat} {T : Nat → Nat → Prop}
    {E : List (Nat × Nat)} (h : Live a ls lls T E) {size c i : Nat}
    (hl : ¬ allocator_size_to_level size < 0)
    (hT : T c (allocator_size_to_level size).toNat)
    (hbit : (a.bitmap_array c).frees.testBit i = true) :
    Added a T E (take_piece a (allocator_size_to_level size).toNat c (2 ^ i))
      (c * 512 + i * allocator_level_size (allocator_size_to_level size).toNat, size) := by
  have hb := h.inv.tblock c _ hT
  have hi := h.inv.tfrees c _ hT i hbit
  have hL := h.inv.tlevel c _ hT
  have hlp := level_size_pos _ hL
  obtain ⟨hec, heb⟩ := entry_decode (x := c * 512 +
    i * allocator_level_size (allocator_size_to_level size).toNat) hl hb.aligned hi
    (Nat.le_refl _) (by omega)
  have heo : entry_order (c * 512 +
      i * allocator_level_size (allocator_size_to_level size).toNat, size) =
      (allocator_size_to_level size).toNat / 4 := entry_order_tiny hl
  obtain ⟨lls2, h2⟩ := h.inv.take hT hbit
  have hfo := take_piece_sameFO a (allocator_size_to_level size).toNat c (2 ^ i)
  have heff := Eff.of_sameFO hfo false
  have hbm := take_piece_bitmap a (allocator_size_to_level size).toNat c (2 ^ i)
  have hbo : ∀ c2, c2 ≠ c →
      (take_piece a (allocator_size_to_level size).toNat c (2 ^ i)).bitmap_array c2 =
        a.bitmap_array c2 := by
    intro c2 hne; rw [hbm]; exact store_other _ _ hne
  have hbc : (take_piece a (allocator_size_to_level size).toNat c (2 ^ i)).bitmap_array c =
      { a.bitmap_array c with frees := clear_mask (a.bitmap_array c).frees (2 ^ i) } := by
    rw [hbm]; exact store_same _ _ _
  have hv : Valid (take_piece a (allocator_size_to_level size).toNat c (2 ^ i)) T
      (c * 512 + i * allocator_level_size (allocator_size_to_level size).toNat, size) := by
    refine ⟨?_, ?_⟩
    · rw [hec, heo]; exact h2.tblock c _ hT
    · rw [if_neg hl, hec, heb]
      refine ⟨hT, hi, ?_, rfl⟩
      rw [hbc]
      simp [clear_mask_testBit]
  have hnew : ∀ q, q ∈ E → (entry_chunk q, entry_bit q) =
      (entry_chunk (c * 512 + i * allocator_level_size (allocator_size_to_level size).toNat,
        size),
       entry_bit (c * 512 + i * allocator_level_size (allocator_size_to_level size).toNat,
        size)) →
      ¬ allocator_size_to_level q.2 < 0 → False := by
    intro q hq e hlq
    rw [hec, heb] at e
    have hvq := (h.valid q hq).2
    rw [if_neg hlq] at hvq
    have e1 : entry_chunk q = c := congrArg Prod.fst e
    have e2 : entry_bit q = i := congrArg Prod.snd e
    have := hvq.2.2.1
    rw [e1, e2, hbit] at this
    exact absurd this (by decide)
  refine ⟨ls, lls2, T, ?_, ?_, ?_, hfo.chunk_count, hfo.max_order⟩
  · refine h.add h2 heff (fun _ hk => absurd hk (fun x => x)) (fun _ _ x => x)
      (fun _ _ x => Or.inl x) ?_ hv hnew ?_
    · intro c2 L2 i2 hT2 hb2 hne
      by_cases e : c2 = c
      · subst e
        rw [hbc]
        simp [clear_mask_testBit, hb2]
      · rw [hbo c2 e]; exact hb2
    · intro hmem
      obtain ⟨q, hq, e⟩ := List.mem_map.1 hmem
      have hvq := h.valid q hq
      have hin := hvq.chunk_in h.inv
      have hin2 := hv.chunk_in h2
      rw [hec, heo] at hin2
      rw [e] at hin
      obtain ⟨e1, e2, _⟩ := h.inv.t_block_eq hT hvq.1 hin2 hin
      by_cases hlq : allocator_size_to_level q.2 < 0
      · have := hvq.2
        rw [if_pos hlq] at this
        exact this.2 _ (e1 ▸ hT)
      · have hvq2 := hvq.2
        rw [if_neg hlq] at hvq2
        have hLq := h.inv.t_unique (e1 ▸ hvq2.1) hT
        have e3 := hvq2.2.2.2
        rw [e, e1, hLq] at e3
        have e4 : entry_bit q = i := by
          have : i * allocator_level_size (allocator_size_to_level size).toNat =
              entry_bit q * allocator_level_size (allocator_size_to_level size).toNat := by
            have e5 : c * 512 + i * allocator_level_size (allocator_size_to_level size).toNat =
              c * 512 + entry_bit q *
                allocator_level_size (allocator_size_to_level size).toNat := e3
            omega
          exact (Nat.eq_of_mul_eq_mul_right hlp this).symm
        refine hnew q hq ?_ hlq
        rw [hec, heb, e1, e4]
  · intro hd
    refine hd.add_direct heff (fun _ _ x => x) ?_ ?_
    · rintro c2 o2 _ ⟨j, _, hk⟩; exact absurd hk (fun x => x)
    · intro c2 ht _
      by_cases e : c2 = c
      · subst e; exact Or.inl ⟨_, hT⟩
      · right; rw [hbo c2 e]; exact ht
  · intro hx
    refine hx.add_exact heff (fun _ hk => absurd hk (fun x => x)) ?_
    intro c2 L2 i2 hT2 hi2 hb2
    by_cases e : c2 = c
    · subst e
      rw [hbc] at hb2
      by_cases e2 : i2 = i
      · right
        refine ⟨?_, hec, by rw [heb, e2]⟩
        show 0 ≤ allocator_size_to_level size
        omega
      · left
        refine ⟨hT2, ?_⟩
        simpa [clear_mask_testBit, e2] using hb2
    · left
      rw [hbo c2 e] at hb2
      exact ⟨hT2, hb2⟩

/-- Taking piece `i` of a block fresh from the buddy adds the allocation that
starts at this piece. -/
theorem Live.take_new {a : allocator_t} {ls lls : Nat → List Nat} {T : Nat → Nat → Prop}
    {E : List (Nat × Nat)} (h : Live a ls lls T E) {size c i : Nat}
    (hl : ¬ allocator_size_to_level size < 0) {b2 : buddy_t} {ls2 : Nat → List Nat}
    (hd : Done a.buddy b2 ls2 (in_block c ((allocator_size_to_level size).toNat / 4)) false)
    (hb : IsBlock b2 c ((allocator_size_to_level size).toNat / 4) false)
    (hfree : ∀ j, in_block c ((allocator_size_to_level size).toNat / 4) j →
      (a.buddy.chunk_array j).free = true)
    (hi : i < get_bitmap_bits (allocator_size_to_level size).toNat) :
    Added a T E
      (take_piece (init_bitmap (push_list { a with buddy := b2 }
        (allocator_size_to_level size).toNat c) c (allocator_size_to_level size).toNat)
        (allocator_size_to_level size).toNat c (2 ^ i))
      (c * 512 + i * allocator_level_size (allocator_size_to_level size).toNat, size) := by
  have hL : (allocator_size_to_level size).toNat < 64 := by
    have := size_to_level_le size (by omega); omega
  have hlp := level_size_pos _ hL
  obtain ⟨hec, heb⟩ := entry_decode (x := c * 512 +
    i * allocator_level_size (allocator_size_to_level size).toNat) hl hb.aligned hi
    (Nat.le_refl _) (by omega)
  have heo : entry_order (c * 512 +
      i * allocator_level_size (allocator_size_to_level size).toNat, size) =
      (allocator_size_to_level size).toNat / 4 := entry_order_tiny hl
  obtain ⟨lls1, h1, hfo1⟩ := h.inv.new_block hL hd hb hfree
  have hT : (fun c2 L2 => T c2 L2 ∨ (c2 = c ∧ L2 = (allocator_size_to_level size).toNat)) c
      (allocator_size_to_level size).toNat := Or.inr ⟨rfl, rfl⟩
  have hbit1 : ((init_bitmap (push_list { a with buddy := b2 }
      (allocator_size_to_level size).toNat c) c
      (allocator_size_to_level size).toNat).bitmap_array c).frees.testBit i = true := by
    have e : (init_bitmap (push_list { a with buddy := b2 }
        (allocator_size_to_level size).toNat c) c
        (allocator_size_to_level size).toNat).bitmap_array c =
        { tiny := true, index_in_group := (allocator_size_to_level size).toNat % 4
          frees := FULL_BITMAP (allocator_size_to_level size).toNat } := store_same _ _ _
    rw [e]
    simp [FULL_BITMAP_testBit, hi]
  obtain ⟨lls2, h2⟩ := h1.take hT hbit1
  have hfo2 := take_piece_sameFO (init_bitmap (push_list { a with buddy := b2 }
      (allocator_size_to_level size).toNat c) c (allocator_size_to_level size).toNat)
      (allocator_size_to_level size).toNat c (2 ^ i)
  have heff := (hd.eff.sameFO_right hfo1).sameFO_right hfo2
  have hbm := take_new_bitmap a b2 (allocator_size_to_level size).toNat c i
  have hbo : ∀ c2, c2 ≠ c →
      (take_piece (init_bitmap (push_list { a with buddy := b2 }
        (allocator_size_to_level size).toNat c) c (allocator_size_to_level size).toNat)
        (allocator_size_to_level size).toNat c (2 ^ i)).bitmap_array c2 =
        a.bitmap_array c2 := by
    intro c2 hne; rw [hbm]; exact store_other _ _ hne
  have hbc : (take_piece (init_bitmap (push_list { a with buddy := b2 }
        (allocator_size_to_level size).toNat c) c (allocator_size_to_level size).toNat)
        (allocator_size_to_level size).toNat c (2 ^ i)).bitmap_array c =
      { tiny := true, index_in_group := (allocator_size_to_level size).toNat % 4
        frees := clear_mask (FULL_BITMAP (allocator_size_to_level size).toNat) (2 ^ i) } := by
    rw [hbm]; exact store_same _ _ _
  have hcfree : (a.buddy.chunk_array c).free = true := hfree c (in_block_self _ _)
  have hnotT : ∀ c2 L2, T c2 L2 → c2 ≠ c := by
    intro c2 L2 hT2 e
    have := (h.inv.tblock c2 L2 hT2).self.1
    rw [e, hcfree] at this
    exact absurd this (by decide)
  have hv : Valid (take_piece (init_bitmap (push_list { a with buddy := b2 }
        (allocator_size_to_level size).toNat c) c (allocator_size_to_level size).toNat)
        (allocator_size_to_level size).toNat c (2 ^ i))
      (fun c2 L2 => T c2 L2 ∨ (c2 = c ∧ L2 = (allocator_size_to_level size).toNat))
      (c * 512 + i * allocator_level_size (allocator_size_to_level size).toNat, size) := by
    refine ⟨?_, ?_⟩
    · rw [hec, heo]; exact h2.tblock c _ hT
    · rw [if_neg hl, hec, heb]
      refine ⟨hT, hi, ?_, rfl⟩
      rw [hbc]
      simp [clear_mask_testBit]
  have hin2 := hv.chunk_in h2
  rw [hec, heo] at hin2
  refine ⟨ls2, lls2,
    fun c2 L2 => T c2 L2 ∨ (c2 = c ∧ L2 = (allocator_size_to_level size).toNat),
    ?_, ?_, ?_, heff.chunk_count, heff.max_order⟩
  · refine h.add h2 heff hfree (fun _ _ x => Or.inl x) ?_ ?_ hv ?_ ?_
    · rintro c2 L2 (hT2 | ⟨e, _⟩)
      · exact Or.inl hT2
      · right; rw [e]; exact in_block_self _ _
    · intro c2 L2 i2 hT2 hb2 _
      rw [hbo c2 (hnotT c2 L2 hT2)]; exact hb2
    · intro q hq e hlq
      rw [hec] at e
      have e1 : entry_chunk q = c := congrArg Prod.fst e
      have := (h.valid q hq).1.self.1
      rw [e1, hcfree] at this
      exact absurd this (by decide)
    · intro hmem
      obtain ⟨q, hq, e⟩ := List.mem_map.1 hmem
      have := h.addr_allocated hq
      rw [e, hfree _ hin2] at this
      exact absurd this (by decide)
  · intro hdir
    refine hdir.add_direct heff (fun _ _ x => Or.inl x) ?_ ?_
    · rintro c2 o2 hb2 ⟨j, hj, hk⟩
      have e := (hb2.unique (h2.tblock c _ hT) hj hk).1
      left
      exact ⟨_, Or.inr ⟨e, rfl⟩⟩
    · intro c2 ht hk
      right
      have hne : c2 ≠ c := fun e => hk (e ▸ in_block_self _ _)
      rw [hbo c2 hne]; exact ht
  · intro hx
    refine hx.add_exact heff ?_ ?_
    · intro j hk; rw [hec, heo]; exact hk
    · intro c2 L2 i2 hT2 hi2 hb2
      by_cases e : c2 = c
      · subst e
        have hL2 : L2 = (allocator_size_to_level size).toNat := h2.t_unique hT2 hT
        subst hL2
        rw [hbc] at hb2
        right
        refine ⟨by show 0 ≤ allocator_size_to_level size; omega, hec, ?_⟩
        rw [heb]
        by_contra hne
        have hne2 : i2 ≠ i := fun e => hne e.symm
        simp [clear_mask_testBit, FULL_BITMAP_testBit, hi2, hne2] at hb2
      · left
        rw [hbo c2 e] at hb2
        rcases hT2 with hT2 | ⟨e2, _⟩
        · exact ⟨hT2, hb2⟩
        · exact absurd e2 e

end Allocator

theorem store_self {α : Type} (a : Nat → α) (i : Nat) : store a i (a i) = a := by
  funext j
  rw [store_apply]
  split_ifs with h
  · rw [h]
  · rfl

namespace Allocator
open Buddy

theorem entry_order_direct {p : Nat × Nat} (h : allocator_size_to_level p.2 < 0) :
    entry_order p = (-(allocator_size_to_level p.2)).toNat := by
  unfold entry_order
  rw [if_pos h]

/-- A block taken from the buddy for a direct allocation adds the allocation
that starts at this block. -/
theorem Live.take_direct {a : allocator_t} {ls lls : Nat → List Nat} {T : Nat → Nat → Prop}
    {E : List (Nat × Nat)} (h : Live a ls lls T E) {size c : Nat}
    (hl : allocator_size_to_level size < 0) {b2 : buddy_t} {ls2 : Nat → List Nat}
    (hd : Done a.buddy b2 ls2 (in_block c (-(allocator_size_to_level size)).toNat) false)
    (hb : IsBlock b2 c (-(allocator_size_to_level size)).toNat false)
    (hfree : ∀ j, in_block c (-(allocator_size_to_level size)).toNat j →
      (a.buddy.chunk_array j).free = true)
    (v : allocator_bitmap_t) :
    ∃ ls3 lls3 T3,
      Live { a with buddy := b2, bitmap_array := store a.bitmap_array c v } ls3 lls3 T3
        ((c * 512, size) :: E) ∧
      (v.tiny = false → Direct a T →
        Direct { a with buddy := b2, bitmap_array := store a.bitmap_array c v } T3) ∧
      (Exact a T E →
        Exact { a with buddy := b2, bitmap_array := store a.bitmap_array c v } T3
          ((c * 512, size) :: E)) ∧
      b2.chunk_count = a.buddy.chunk_count ∧ b2.max_order = a.buddy.max_order := by
  have heo : entry_order (c * 512, size) = (-(allocator_size_to_level size)).toNat :=
    entry_order_direct hl
  have hec : entry_chunk (c * 512, size) = c := by
    unfold entry_chunk
    rw [heo]
    show BUDDY_ALIGN_TO_ORDER (c * 512 / 512) _ = c
    rw [Nat.mul_div_cancel _ (by decide : 0 < 512)]
    exact hb.aligned
  have hcfree : (a.buddy.chunk_array c).free = true := hfree c (in_block_self _ _)
  have hnotT : ∀ c2 L2, T c2 L2 → c2 ≠ c := by
    intro c2 L2 hT2 e
    have := (h.inv.tblock c2 L2 hT2).self.1
    rw [e, hcfree] at this
    exact absurd this (by decide)
  have hnt : ∀ c2 L2, T c2 L2 → ∀ j, in_block c2 (L2 / 4) j →
      ¬ in_block c (-(allocator_size_to_level size)).toNat j := by
    intro c2 L2 hT2 j hj hk
    have := ((h.inv.tblock c2 L2 hT2).uniform j hj).1
    rw [hfree j hk] at this
    exact absurd this (by decide)
  have h2 : AInv { a with buddy := b2, bitmap_array := store a.bitmap_array c v } ls2 lls T :=
    (h.inv.buddy_op hd hnt).bitmap_other c v (fun L hT => hnotT c L hT rfl)
  have heff : Eff a.buddy
      ({ a with buddy := b2, bitmap_array := store a.bitmap_array c v } : allocator_t).buddy
      (in_block c (-(allocator_size_to_level size)).toNat) false := hd.eff
  have hbo : ∀ c2, c2 ≠ c →
      ({ a with buddy := b2, bitmap_array := store a.bitmap_array c v } :
        allocator_t).bitmap_array c2 = a.bitmap_array c2 :=
    fun c2 hne => store_other _ _ hne
  have hv : Valid { a with buddy := b2, bitmap_array := store a.bitmap_array c v } T
      (c * 512, size) := by
    refine ⟨?_, ?_⟩
    · rw [hec, heo]; exact hb
    · rw [if_pos hl, hec]
      exact ⟨rfl, fun L hT => hnotT c L hT rfl⟩
  refine ⟨ls2, lls, T, ?_, ?_, ?_, hd.chunk_count, hd.max_order⟩
  · refine h.add h2 heff hfree (fun _ _ x => x) (fun _ _ x => Or.inl x) ?_ hv ?_ ?_
    · intro c2 L2 i2 hT2 hb2 _
      rw [hbo c2 (hnotT c2 L2 hT2)]; exact hb2
    · intro q hq e hlq
      rw [hec] at e
      have e1 : entry_chunk q = c := congrArg Prod.fst e
      have := (h.valid q hq).1.self.1
      rw [e1, hcfree] at this
      exact absurd this (by decide)
    · intro hmem
      obtain ⟨q, hq, e⟩ := List.mem_map.1 hmem
      have := h.addr_allocated hq
      rw [e] at this
      have e2 : (c * 512, size).1 / 512 = c := Nat.mul_div_cancel _ (by decide : 0 < 512)
      rw [e2, hcfree] at this
      exact absurd this (by decide)
  · intro htiny hdir
    refine hdir.add_direct heff (fun _ _ x => x) ?_ ?_
    · rintro c2 o2 hb2 ⟨j, hj, hk⟩
      have e := (hb2.unique hb hj hk).1
      right
      rw [e]
      show (store a.bitmap_array c v c).tiny = false
      rw [store_same]
      exact htiny
    · intro c2 ht hk
      right
      have hne : c2 ≠ c := fun e => hk (e ▸ in_block_self _ _)
      rw [hbo c2 hne]; exact ht
  · intro hx
    refine hx.add_exact heff ?_ ?_
    · intro j hk; rw [hec, heo]; exact hk
    · intro c2 L2 i2 hT2 hi2 hb2
      left
      rw [hbo c2 (hnotT c2 L2 hT2)] at hb2
      exact ⟨hT2, hb2⟩

theorem max_chunk_count_eq : BUDDY_MAX_CHUNK_COUNT = 536870912 := by decide

/-- The address of a piece of a block of the buddy is not `ALLOCATOR_FAIL`. -/
theorem piece_ne_fail {b : buddy_t} {ls : Nat → List Nat} (hinv : BInvH b ls 0 0)
    {c o : Nat} {f : Bool} (hb : IsBlock b c o f) {x : Nat} (hx : x < 2 ^ o * 512) :
    c * 512 + x ≠ ALLOCATOR_FAIL := by
  have h1 := hinv.sized
  have h2 := hb.in_range
  have h3 := max_chunk_count_eq
  have h4 : (c + 2 ^ o) * 512 ≤ 536870912 * 512 := Nat.mul_le_mul_right _ (by omega)
  rw [Nat.add_mul] at h4
  have h5 : ALLOCATOR_FAIL = 18446744073709551615 := by decide
  omega

theorem allocate_direct_eq (a : allocator_t) (size : Nat)
    (hl : allocator_size_to_level size < 0) :
    allocator_allocate a size =
      if (buddy_allocate a.buddy (-(allocator_size_to_level size)).toNat).2 = BUDDY_FAIL then
        ({ a with buddy := (buddy_allocate a.buddy (-(allocator_size_to_level size)).toNat).1 },
         ALLOCATOR_FAIL)
      else
        ({ a with
           buddy := (buddy_allocate a.buddy (-(allocator_size_to_level size)).toNat).1
           bitmap_array := store a.bitmap_array
             (buddy_allocate a.buddy (-(allocator_size_to_level size)).toNat).2
             { a.bitmap_array
                 (buddy_allocate a.buddy (-(allocator_size_to_level size)).toNat).2 with
               tiny := false } },
         (buddy_allocate a.buddy (-(allocator_size_to_level size)).toNat).2 * 512) := by
  unfold allocator_allocate
  simp only [hl, if_true]
  rfl

theorem allocate_new_fail_eq (a : allocator_t) (size : Nat)
    (hl : ¬ allocator_size_to_level size < 0)
    (hlen : (a.lists (allocator_size_to_level size).toNat).length = 0)
    (hf : (buddy_allocate a.buddy ((allocator_size_to_level size).toNat / 4)).2 = BUDDY_FAIL) :
    allocator_allocate a size =
      ({ a with
         buddy := (buddy_allocate a.buddy ((allocator_size_to_level size).toNat / 4)).1 },
       ALLOCATOR_FAIL) := by
  unfold allocator_allocate
  simp only [hl, if_false, hlen, if_true, ALLOCATOR_LEVEL_TO_ORDER, hf]

theorem allocate_new_eq (a : allocator_t) (size : Nat)
    (hl : ¬ allocator_size_to_level size < 0)
    (hlen : (a.lists (allocator_size_to_level size).toNat).length = 0)
    (hf : (buddy_allocate a.buddy ((allocator_size_to_level size).toNat / 4)).2 ≠ BUDDY_FAIL) :
    allocator_allocate a size =
      (take_piece
        (init_bitmap (push_list
          { a with
            buddy := (buddy_allocate a.buddy ((allocator_size_to_level size).toNat / 4)).1 }
          (allocator_size_to_level size).toNat
          (buddy_allocate a.buddy ((allocator_size_to_level size).toNat / 4)).2)
          (buddy_allocate a.buddy ((allocator_size_to_level size).toNat / 4)).2
          (allocator_size_to_level size).toNat)
        (allocator_size_to_level size).toNat
        (buddy_allocate a.buddy ((allocator_size_to_level size).toNat / 4)).2
        (2 ^ ctzll (FULL_BITMAP (allocator_size_to_level size).toNat)),
       (buddy_allocate a.buddy ((allocator_size_to_level size).toNat / 4)).2 * 512 +
         ctzll (FULL_BITMAP (allocator_size_to_level size).toNat) *
           allocator_level_size (allocator_size_to_level size).toNat) := by
  unfold allocator_allocate
  simp only [hl, if_false, hlen, if_true, ALLOCATOR_LEVEL_TO_ORDER, hf, init_bitmap, store_same]
  rfl

theorem allocate_old_eq (a : allocator_t) (size : Nat)
    (hl : ¬ allocator_size_to_level size < 0)
    (hlen : (a.lists (allocator_size_to_level size).toNat).length ≠ 0) :
    allocator_allocate a size =
      (take_piece a (allocator_size_to_level size).toNat
        ((a.lists (allocator_size_to_level size).toNat).head.getD 0)
        (2 ^ ctzll (a.bitmap_array
          ((a.lists (allocator_size_to_level size).toNat).head.getD 0)).frees),
       (a.lists (allocator_size_to_level size).toNat).head.getD 0 * 512 +
         ctzll (a.bitmap_array
           ((a.lists (allocator_size_to_level size).toNat).head.getD 0)).frees *
           allocator_level_size (allocator_size_to_level size).toNat) := by
  unfold allocator_allocate
  simp only [hl, if_false, hlen]
  rfl

/-- The function `allocator_allocate` either fails and leaves the state as it
is, or returns an address other than `ALLOCATOR_FAIL` and adds the allocation
`(address, size)`. -/
theorem allocate_added {a : allocator_t} {ls lls : Nat → List Nat} {T : Nat → Nat → Prop}
    {E : List (Nat × Nat)} (h : Live a ls lls T E) (size : Nat) :
    ((allocator_allocate a size).2 = ALLOCATOR_FAIL ∧ (allocator_allocate a size).1 = a) ∨
    ((allocator_allocate a size).2 ≠ ALLOCATOR_FAIL ∧
      Added a T E (allocator_allocate a size).1 ((allocator_allocate a size).2, size)) := by
  have hinv := h.inv.lists.binv
  by_cases hl : allocator_size_to_level size < 0
  · rw [allocate_direct_eq a size hl]
    rcases buddy_allocate_spec hinv (-(allocator_size_to_level size)).toNat with
      ⟨e1, e2⟩ | ⟨hne, ls2, hd, hb, hfree⟩
    · left
      rw [if_pos e1, e2]
      exact ⟨rfl, rfl⟩
    · right
      rw [if_neg hne]
      refine ⟨?_, ?_⟩
      · have hpos := Nat.two_pow_pos (-(allocator_size_to_level size)).toNat
        have := piece_ne_fail hd.inv hb (x := 0) (by omega)
        rw [Nat.add_zero] at this
        refine fun e => this ?_
        rw [← e]
      · obtain ⟨ls3, lls3, T3, h3, h4, h5, h6, h7⟩ := h.take_direct hl hd hb hfree
          { a.bitmap_array
              (buddy_allocate a.buddy (-(allocator_size_to_level size)).toNat).2 with
            tiny := false }
        exact ⟨ls3, lls3, T3, h3, h4 rfl, h5, h6, h7⟩
  · have hL : (allocator_size_to_level size).toNat < 64 := by
      have := size_to_level_le size (by omega); omega
    have hlp := level_size_pos _ hL
    by_cases hlen : (a.lists (allocator_size_to_level size).toNat).length = 0
    · rcases buddy_allocate_spec hinv ((allocator_size_to_level size).toNat / 4) with
        ⟨e1, e2⟩ | ⟨hne, ls2, hd, hb, hfree⟩
      · left
        rw [allocate_new_fail_eq a size hl hlen e1, e2]
        exact ⟨rfl, rfl⟩
      · right
        rw [allocate_new_eq a size hl hlen hne]
        obtain ⟨_, hi⟩ := ctzll_spec (f := FULL_BITMAP (allocator_size_to_level size).toNat)
          (n := get_bitmap_bits (allocator_size_to_level size).toNat)
          (by have := get_bitmap_bits_le (allocator_size_to_level size).toNat; omega)
          (FULL_BITMAP_ne_zero _)
          (fun j hj => by simpa [FULL_BITMAP_testBit] using hj)
        refine ⟨?_, h.take_new hl hd hb hfree hi⟩
        have hfit := piece_fits hL hi
        exact piece_ne_fail hd.inv hb (by omega)
    · right
      rw [allocate_old_eq a size hl hlen]
      have hl2 := h.inv.lists.llists (allocator_size_to_level size).toNat
      have hne : lls (allocator_size_to_level size).toNat ≠ [] :=
        fun e => hlen (hl2.nil_iff.2 e)
      obtain ⟨c, t, hct⟩ := List.exists_cons_of_ne_nil hne
      have hhead : (a.lists (allocator_size_to_level size).toNat).head = some c := by
        rw [hl2.head_eq, hct]; rfl
      rw [hhead]
      simp only [Option.getD_some]
      have hmem : c ∈ lls (allocator_size_to_level size).toNat := by
        rw [hct]; exact List.mem_cons_self _ _
      obtain ⟨hT, hnz⟩ := (h.inv.lists.lmem _ c).1 hmem
      obtain ⟨hbit, hi⟩ := ctzll_spec
        (n := get_bitmap_bits (allocator_size_to_level size).toNat)
        (by have := get_bitmap_bits_le (allocator_size_to_level size).toNat; omega)
        hnz (h.inv.tfrees c _ hT)
      refine ⟨?_, h.take_old hl hT hbit⟩
      have hfit := piece_fits hL hi
      exact piece_ne_fail hinv (h.inv.tblock c _ hT) (by omega)

/-- The usable size of a live allocation is the size of its piece or
block. -/
theorem usable_size_valid (strict : Bool) {a : allocator_t} {ls lls : Nat → List Nat}
    {T : Nat → Nat → Prop} (hinv : AInv a ls lls T) (hdir : Direct a T) {q : Nat × Nat}
    (hv : Valid a T q) : allocator_usable_size strict a q.1 = entry_size q := by
  have hin := hv.chunk_in hinv
  have hb := hv.1
  have hu := hb.uniform _ hin
  have hlt : q.1 / 512 < a.buddy.chunk_count := by
    have := hb.in_range
    have := hin.2
    omega
  have hal : BUDDY_ALIGN_TO_ORDER (q.1 / 512) (entry_order q) = entry_chunk q :=
    (in_block_iff hb.aligned _).1 hin
  unfold allocator_usable_size
  have h1 : ¬ (q.1 / ALLOCATOR_CHUNK_SIZE ≥ a.buddy.chunk_count) := by
    show ¬ (q.1 / 512 ≥ a.buddy.chunk_count)
    omega
  have h2 : (a.buddy.chunk_array (q.1 / ALLOCATOR_CHUNK_SIZE)).free = false := hu.1
  have h3 : (a.buddy.chunk_array (q.1 / ALLOCATOR_CHUNK_SIZE)).order = entry_order q := hu.2
  have h4 : BUDDY_ALIGN_TO_ORDER (q.1 / ALLOCATOR_CHUNK_SIZE) (entry_order q) =
      entry_chunk q := hal
  simp only [h1, if_false, h2, h3, h4, Bool.false_eq_true]
  by_cases hl : allocator_size_to_level q.2 < 0
  · have hv2 := hv.2
    rw [if_pos hl] at hv2
    have ht : (a.bitmap_array (entry_chunk q)).tiny = false := by
      rcases hdir _ _ hb with ⟨L, hT⟩ | ht
      · exact absurd hT (hv2.2 L)
      · exact ht
    rw [entry_size_direct hl]
    simp only [ht, Bool.not_false, if_true, BUDDY_ORDER_TO_COUNT_eq]
    rw [if_neg]
    · rfl
    · rintro ⟨_, hne⟩
      exact hne hv2.1
  · have hv2 := hv.2
    rw [if_neg hl] at hv2
    have ht := hinv.tbitmap _ _ hv2.1
    rw [entry_size_tiny hl]
    simp only [ht.1, Bool.not_true, Bool.false_eq_true, if_false, ht.2]
    rw [entry_order_tiny hl]
    congr 1
    omega

/-- Removing allocations: the chunks `K` of a block become free, and the
remaining allocations keep their blocks and their pieces. -/
theorem Live.remove {a a2 : allocator_t} {ls lls ls2 lls2 : Nat → List Nat}
    {T T2 : Nat → Nat → Prop} {E E2 : List (Nat × Nat)} (h : Live a ls lls T E)
    (h2 : AInv a2 ls2 lls2 T2) {K : Nat → Prop} {f : Bool} (heff : Eff a.buddy a2.buddy K f)
    (hsub : E2.Sublist E)
    (hK : ∀ q, q ∈ E2 → ∀ j, in_block (entry_chunk q) (entry_order q) j → ¬ K j)
    (hT : ∀ q, q ∈ E2 → ∀ L, T2 (entry_chunk q) L ↔ T (entry_chunk q) L)
    (hbit : ∀ q, q ∈ E2 → ¬ allocator_size_to_level q.2 < 0 →
      (a2.bitmap_array (entry_chunk q)).frees.testBit (entry_bit q) = false) :
    Live a2 ls2 lls2 T2 E2 :=
  { inv := h2
    nodup := (hsub.map Prod.fst).nodup h.nodup
    valid := fun q hq =>
      (h.valid q (hsub.subset hq)).keep heff (hK q hq) (fun L => (hT q hq L).2)
        (fun L => (hT q hq L).1) (hbit q hq) }

/-- The direct blocks keep `tiny = 0` when a block is freed. -/
theorem Direct.remove_direct {a a2 : allocator_t} {T T2 : Nat → Nat → Prop} (h : Direct a T)
    {K : Nat → Prop} (heff : Eff a.buddy a2.buddy K true)
    (hT : ∀ c L, T c L → T2 c L ∨ K c)
    (hbm : ∀ c, ¬ K c → (a.bitmap_array c).tiny = false → (a2.bitmap_array c).tiny = false) :
    Direct a2 T2 := by
  intro c o hb
  have hk : ∀ j, in_block c o j → ¬ K j := by
    intro j hj hkj
    have := (hb.uniform j hj).1
    rw [heff.free_in j hkj] at this
    exact absurd this (by decide)
  have hb0 := heff.kept_block hb hk
  rcases h c o hb0 with ⟨L, hT0⟩ | ht
  · rcases hT c L hT0 with h1 | h1
    · exact Or.inl ⟨L, h1⟩
    · exact absurd h1 (hk c (in_block_self _ _))
  · exact Or.inr (hbm c (hk c (in_block_self _ _)) ht)

theorem get_bit_index_eq (strict : Bool) (addr c L : Nat) :
    get_bit_index strict addr c L =
      if (addr - c * 512) / allocator_level_size L ≥ get_bitmap_bits L ∨
          (strict = true ∧
            (addr - c * 512) / allocator_level_size L * allocator_level_size L ≠
              addr - c * 512) then
        -(22 : Int)
      else (((addr - c * 512) / allocator_level_size L : Nat) : Int) := rfl

theorem give_piece_bitmap (a : allocator_t) (L c mask : Nat) :
    (give_piece a L c mask).bitmap_array =
      store a.bitmap_array c
        { a.bitmap_array c with frees := (a.bitmap_array c).frees ||| mask } := by
  unfold give_piece
  simp only
  split_ifs
  · exact set_piece_bitmap a L c mask
  · exact set_piece_bitmap a L c mask

theorem mem_remaining (strict : Bool) {a : allocator_t} {ls lls : Nat → List Nat}
    {T : Nat → Nat → Prop} {E : List (Nat × Nat)} (h : Live a ls lls T E)
    (hdir : Direct a T) (addr : Nat) (q : Nat × Nat) :
    q ∈ remaining strict a addr E ↔
      q ∈ E ∧ ¬ (q.1 ≤ addr ∧ addr < q.1 + entry_size q) := by
  unfold remaining
  rw [List.mem_filter]
  constructor
  · rintro ⟨hq, hp⟩
    refine ⟨hq, ?_⟩
    rw [usable_size_valid strict h.inv hdir (h.valid q hq)] at hp
    simp only [Bool.not_eq_true', Bool.and_eq_false_imp, decide_eq_true_eq,
      decide_eq_false_iff_not] at hp
    rintro ⟨h3, h4⟩
    exact hp h3 h4
  · rintro ⟨hq, hp⟩
    refine ⟨hq, ?_⟩
    rw [usable_size_valid strict h.inv hdir (h.valid q hq)]
    simp only [Bool.not_eq_true', Bool.and_eq_false_imp, decide_eq_true_eq,
      decide_eq_false_iff_not]
    intro h3 h4
    exact hp ⟨h3, h4⟩

theorem free_direct_eq (strict : Bool) (a : allocator_t) (addr : Nat)
    (h1 : addr / 512 < a.buddy.chunk_count)
    (h2 : (a.buddy.chunk_array (addr / 512)).free = false)
    (ht : (a.bitmap_array (BUDDY_ALIGN_TO_ORDER (addr / 512)
      (a.buddy.chunk_array (addr / 512)).order)).tiny = false) :
    allocator_free strict a addr =
      if strict = true ∧ addr ≠ BUDDY_ALIGN_TO_ORDER (addr / 512)
          (a.buddy.chunk_array (addr / 512)).order * 512 then (a, EINVAL)
      else
        ({ a with buddy := (buddy_free a.buddy (BUDDY_ALIGN_TO_ORDER (addr / 512)
            (a.buddy.chunk_array (addr / 512)).order)).1 },
         (buddy_free a.buddy (BUDDY_ALIGN_TO_ORDER (addr / 512)
            (a.buddy.chunk_array (addr / 512)).order)).2) := by
  have h1b : ¬ (addr / ALLOCATOR_CHUNK_SIZE ≥ a.buddy.chunk_count) := by
    show ¬ (addr / 512 ≥ a.buddy.chunk_count); omega
  have h2b : (a.buddy.chunk_array (addr / ALLOCATOR_CHUNK_SIZE)).free = false := h2
  have htb : (a.bitmap_array (BUDDY_ALIGN_TO_ORDER (addr / ALLOCATOR_CHUNK_SIZE)
      (a.buddy.chunk_array (addr / ALLOCATOR_CHUNK_SIZE)).order)).tiny = false := ht
  unfold allocator_free
  simp only [h1b, if_false, h2b, Bool.false_eq_true, htb, Bool.not_false, if_true]
  rfl

theorem free_tiny_eq (strict : Bool) (a : allocator_t) (addr : Nat)
    (h1 : addr / 512 < a.buddy.chunk_count)
    (h2 : (a.buddy.chunk_array (addr / 512)).free = false)
    (ht : (a.bitmap_array (BUDDY_ALIGN_TO_ORDER (addr / 512)
      (a.buddy.chunk_array (addr / 512)).order)).tiny = true) :
    allocator_free strict a addr =
      if get_bit_index strict addr
          (BUDDY_ALIGN_TO_ORDER (addr / 512) (a.buddy.chunk_array (addr / 512)).order)
          ((a.buddy.chunk_array (addr / 512)).order * 4 +
            (a.bitmap_array (BUDDY_ALIGN_TO_ORDER (addr / 512)
              (a.buddy.chunk_array (addr / 512)).order)).index_in_group) < 0 then
        (a, (-(get_bit_index strict addr
          (BUDDY_ALIGN_TO_ORDER (addr / 512) (a.buddy.chunk_array (addr / 512)).order)
          ((a.buddy.chunk_array (addr / 512)).order * 4 +
            (a.bitmap_array (BUDDY_ALIGN_TO_ORDER (addr / 512)
              (a.buddy.chunk_array (addr / 512)).order)).index_in_group))).toNat)
      else if (a.bitmap_array (BUDDY_ALIGN_TO_ORDER (addr / 512)
              (a.buddy.chunk_array (addr / 512)).order)).frees &&&
            2 ^ (get_bit_index strict addr
              (BUDDY_ALIGN_TO_ORDER (addr / 512) (a.buddy.chunk_array (addr / 512)).order)
              ((a.buddy.chunk_array (addr / 512)).order * 4 +
                (a.bitmap_array (BUDDY_ALIGN_TO_ORDER (addr / 512)
                  (a.buddy.chunk_array (addr / 512)).order)).index_in_group)).toNat ≠ 0 then
        (a, EINVAL)
      else
        (give_piece a
          ((a.buddy.chunk_array (addr / 512)).order * 4 +
            (a.bitmap_array (BUDDY_ALIGN_TO_ORDER (addr / 512)
              (a.buddy.chunk_array (addr / 512)).order)).index_in_group)
          (BUDDY_ALIGN_TO_ORDER (addr / 512) (a.buddy.chunk_array (addr / 512)).order)
          (2 ^ (get_bit_index strict addr
              (BUDDY_ALIGN_TO_ORDER (addr / 512) (a.buddy.chunk_array (addr / 512)).order)
              ((a.buddy.chunk_array (addr / 512)).order * 4 +
                (a.bitmap_array (BUDDY_ALIGN_TO_ORDER (addr / 512)
                  (a.buddy.chunk_array (addr / 512)).order)).index_in_group)).toNat), 0) := by
  have h1b : ¬ (addr / ALLOCATOR_CHUNK_SIZE ≥ a.buddy.chunk_count) := by
    show ¬ (addr / 512 ≥ a.buddy.chunk_count); omega
  have h2b : (a.buddy.chunk_array (addr / ALLOCATOR_CHUNK_SIZE)).free = false := h2
  have htb : (a.bitmap_array (BUDDY_ALIGN_TO_ORDER (addr / ALLOCATOR_CHUNK_SIZE)
      (a.buddy.chunk_array (addr / ALLOCATOR_CHUNK_SIZE)).order)).tiny = true := ht
  unfold allocator_free
  simp only [h1b, if_false, h2b, Bool.false_eq_true, htb, Bool.not_true]
  rfl

theorem free_error_eq (strict : Bool) (a : allocator_t) (addr : Nat)
    (h : ¬ addr / 512 < a.buddy.chunk_count ∨
      (a.buddy.chunk_array (addr / 512)).free = true) :
    allocator_free strict a addr = (a, EINVAL) := by
  unfold allocator_free
  by_cases h1 : addr / ALLOCATOR_CHUNK_SIZE ≥ a.buddy.chunk_count
  · simp only [h1, if_true]
  · have h2 : (a.buddy.chunk_array (addr / ALLOCATOR_CHUNK_SIZE)).free = true := by
      rcases h with h | h
      · exact absurd (show addr / 512 < a.buddy.chunk_count from Nat.lt_of_not_le h1) h
      · exact h
    simp only [h1, if_false, h2, if_true]

theorem give_piece_full_eq (a : allocator_t) (L c mask : Nat)
    (h : ((set_piece a L c mask).bitmap_array c).frees = FULL_BITMAP L) :
    give_piece a L c mask =
      { pop_list (set_piece a L c mask) L c with
        buddy := (buddy_free (pop_list (set_piece a L c mask) L c).buddy c).1 } := by
  unfold give_piece
  simp only [h, if_true]

theorem give_piece_part_eq (a : allocator_t) (L c mask : Nat)
    (h : ((set_piece a L c mask).bitmap_array c).frees ≠ FULL_BITMAP L) :
    give_piece a L c mask = set_piece a L c mask := by
  unfold give_piece
  simp only [h, if_false]

/-- The piece that holds `addr` in a block of level `L` at chunk `c`. -/
theorem piece_of_addr {L c addr : Nat} (hL : L < 64) (hc : c * 512 ≤ addr) :
    c * 512 + (addr - c * 512) / allocator_level_size L * allocator_level_size L ≤ addr ∧
    addr < c * 512 + (addr - c * 512) / allocator_level_size L * allocator_level_size L +
      allocator_level_size L := by
  have hp := level_size_pos L hL
  have h1 := Nat.div_mul_le_self (addr - c * 512) (allocator_level_size L)
  have h2 := Nat.lt_div_mul_add (a := addr - c * 512) hp
  omega

/-- Freeing a direct block removes the allocation of this block. -/
theorem Live.free_direct {a : allocator_t} {ls lls : Nat → List Nat} {T : Nat → Nat → Prop}
    {E E2 : List (Nat × Nat)} (h : Live a ls lls T E) (hdir : Direct a T) {c o addr : Nat}
    (hb : IsBlock a.buddy c o false) (ht : (a.bitmap_array c).tiny = false)
    (hin : in_block c o (addr / 512)) (hsub : E2.Sublist E)
    (hrem : ∀ q, q ∈ E2 → ¬ (q.1 ≤ addr ∧ addr < q.1 + entry_size q)) :
    (buddy_free a.buddy c).2 = 0 ∧
    ∃ ls2 lls2 T2, Live { a with buddy := (buddy_free a.buddy c).1 } ls2 lls2 T2 E2 ∧
      Direct { a with buddy := (buddy_free a.buddy c).1 } T2 ∧
      (buddy_free a.buddy c).1.chunk_count = a.buddy.chunk_count ∧
      (buddy_free a.buddy c).1.max_order = a.buddy.max_order := by
  have hinv := h.inv.lists.binv
  have hchk : CHECK_BLOCK a.buddy c (a.buddy.chunk_array c).order = true := by
    rw [hb.self.2]
    exact CHECK_BLOCK_of hinv hb.order_le hb.aligned hb.in_range
  obtain ⟨hret, ls2, hd⟩ := buddy_free_spec hinv c hb.lt hb.self.1 hchk
  rw [hb.self.2] at hd
  have hnotT : ∀ L, ¬ T c L := by
    intro L hT
    have := (h.inv.tbitmap c L hT).1
    rw [ht] at this
    exact absurd this (by decide)
  have hKT : ∀ c2 L2, T c2 L2 → ∀ j, in_block c2 (L2 / 4) j → ¬ in_block c o j := by
    intro c2 L2 hT2 j hj hk
    have e := (h.inv.t_block_eq hT2 hb hj hk).1
    exact hnotT L2 (e ▸ hT2)
  have h2 := h.inv.buddy_op hd hKT
  have hcaddr : c * 512 ≤ addr ∧ addr < (c + 2 ^ o) * 512 := by
    have h3 : c ≤ addr / 512 := hin.1
    have h4 : addr / 512 < c + 2 ^ o := hin.2
    constructor
    · omega
    · omega
  refine ⟨hret, ls2, lls, T, ?_, ?_, hd.chunk_count, hd.max_order⟩
  · refine h.remove h2 hd.eff hsub ?_ (fun _ _ _ => Iff.rfl) ?_
    · intro q hq j hj hk
      have hvq := h.valid q (hsub.subset hq)
      obtain ⟨e1, e2, _⟩ := hvq.1.unique hb hj hk
      by_cases hl : allocator_size_to_level q.2 < 0
      · have hv2 := hvq.2
        rw [if_pos hl] at hv2
        apply hrem q hq
        have e3 : q.1 = c * 512 := by rw [← e1]; exact hv2.1
        rw [entry_size_direct hl, e2, e3]
        rw [Nat.add_mul] at hcaddr
        exact ⟨hcaddr.1, hcaddr.2⟩
      · have hv2 := hvq.2
        rw [if_neg hl] at hv2
        exact hnotT _ (e1 ▸ hv2.1)
    · intro q hq hl
      have hv2 := (h.valid q (hsub.subset hq)).2
      rw [if_neg hl] at hv2
      exact hv2.2.2.1
  · exact hdir.remove_direct hd.eff (fun _ _ x => Or.inl x) (fun _ _ x => x)

/-- Freeing a piece of a tiny block removes the allocation of this piece. -/
theorem Live.free_tiny {a : allocator_t} {ls lls : Nat → List Nat} {T : Nat → Nat → Prop}
    {E E2 : List (Nat × Nat)} (h : Live a ls lls T E) (hdir : Direct a T) {c L i : Nat}
    (hT : T c L) (hi : i < get_bitmap_bits L) (hsub : E2.Sublist E)
    (hrem : ∀ q, q ∈ E2 → ¬ allocator_size_to_level q.2 < 0 →
      ¬ (entry_chunk q = c ∧ entry_bit q = i)) :
    ∃ ls2 lls2 T2, Live (give_piece a L c (2 ^ i)) ls2 lls2 T2 E2 ∧
      Direct (give_piece a L c (2 ^ i)) T2 ∧
      (give_piece a L c (2 ^ i)).buddy.chunk_count = a.buddy.chunk_count ∧
      (give_piece a L c (2 ^ i)).buddy.max_order = a.buddy.max_order := by
  obtain ⟨lls1, hs1⟩ := h.inv.set_bit hT hi
  have hfo1 := set_piece_sameFO a L c (2 ^ i)
  have hbm1 := set_piece_bitmap a L c (2 ^ i)
  have hbo : ∀ c2, c2 ≠ c → (set_piece a L c (2 ^ i)).bitmap_array c2 = a.bitmap_array c2 := by
    intro c2 hne; rw [hbm1]; exact store_other _ _ hne
  have hbc : (set_piece a L c (2 ^ i)).bitmap_array c =
      { a.bitmap_array c with frees := (a.bitmap_array c).frees ||| 2 ^ i } := by
    rw [hbm1]; exact store_same _ _ _
  have hkept : ∀ q, q ∈ E2 → ¬ allocator_size_to_level q.2 < 0 →
      ((set_piece a L c (2 ^ i)).bitmap_array (entry_chunk q)).frees.testBit (entry_bit q) =
        false := by
    intro q hq hl
    have hv2 := (h.valid q (hsub.subset hq)).2
    rw [if_neg hl] at hv2
    by_cases e : entry_chunk q = c
    · rw [e, hbc]
      have hne : entry_bit q ≠ i := fun e2 => hrem q hq hl ⟨e, e2⟩
      have := hv2.2.2.1
      rw [e] at this
      show ((a.bitmap_array c).frees ||| 2 ^ i).testBit (entry_bit q) = false
      rw [or_mask_testBit, this]
      simp [hne]
    · rw [hbo _ e]; exact hv2.2.2.1
  by_cases hfull : ((set_piece a L c (2 ^ i)).bitmap_array c).frees = FULL_BITMAP L
  · rw [give_piece_full_eq a L c (2 ^ i) hfull]
    have hnz : ((set_piece a L c (2 ^ i)).bitmap_array c).frees ≠ 0 := by
      rw [hfull]; exact FULL_BITMAP_ne_zero L
    obtain ⟨ls2, lls2, hs3, heff3⟩ := hs1.release hT hnz
    have heff := Eff.sameFO_left hfo1 heff3
    have hK : ∀ q, q ∈ E2 → ∀ j, in_block (entry_chunk q) (entry_order q) j →
        ¬ in_block c (L / 4) j := by
      intro q hq j hj hk
      have hvq := h.valid q (hsub.subset hq)
      obtain ⟨e1, e2, _⟩ := h.inv.t_block_eq hT hvq.1 hk hj
      by_cases hl : allocator_size_to_level q.2 < 0
      · have hv2 := hvq.2
        rw [if_pos hl] at hv2
        exact hv2.2 L (e1 ▸ hT)
      · have hv2 := hvq.2
        rw [if_neg hl] at hv2
        have hLq := h.inv.t_unique hv2.1 (e1 ▸ hT)
        have h5 := hkept q hq hl
        rw [e1, hfull, FULL_BITMAP_testBit, ← hLq] at h5
        have := hv2.2.1
        simp [this] at h5
    have hne : ∀ q, q ∈ E2 → entry_chunk q ≠ c := by
      intro q hq e
      exact hK q hq c (e ▸ in_block_self _ _) (in_block_self _ _)
    refine ⟨ls2, lls2, fun c2 L2 => T c2 L2 ∧ ¬ (c2 = c ∧ L2 = L), ?_, ?_,
      heff.chunk_count, heff.max_order⟩
    · refine h.remove hs3 heff hsub hK ?_ ?_
      · intro q hq L2
        constructor
        · rintro ⟨h3, _⟩; exact h3
        · intro h3; exact ⟨h3, fun h4 => hne q hq h4.1⟩
      · intro q hq hl
        exact hkept q hq hl
    · refine hdir.remove_direct heff ?_ ?_
      · intro c2 L2 hT2
        by_cases e : c2 = c ∧ L2 = L
        · right; rw [e.1]; exact in_block_self _ _
        · exact Or.inl ⟨hT2, e⟩
      · intro c2 hk ht
        have hne2 : c2 ≠ c := fun e => hk (e ▸ in_block_self _ _)
        show ((set_piece a L c (2 ^ i)).bitmap_array c2).tiny = false
        rw [hbo c2 hne2]; exact ht
  · rw [give_piece_part_eq a L c (2 ^ i) hfull]
    refine ⟨ls, lls1, T, ?_, ?_, hfo1.chunk_count, hfo1.max_order⟩
    · exact h.remove hs1 (Eff.of_sameFO hfo1 true) hsub (fun _ _ _ _ hk => hk)
        (fun _ _ _ => Iff.rfl) hkept
    · refine hdir.remove_direct (Eff.of_sameFO hfo1 true) (fun _ _ x => Or.inl x) ?_
      intro c2 _ ht
      by_cases e : c2 = c
      · rw [e, hbc]; rw [e] at ht; exact ht
      · rw [hbo c2 e]; exact ht

/-- The function `allocator_free` either fails and leaves the state as it is,
or returns `0` and removes the allocations whose range holds `addr`. -/
theorem free_removed (strict : Bool) {a : allocator_t} {ls lls : Nat → List Nat}
    {T : Nat → Nat → Prop} {E : List (Nat × Nat)} (h : Live a ls lls T E)
    (hdir : Direct a T) (addr : Nat) :
    ((allocator_free strict a addr).2 ≠ 0 ∧ (allocator_free strict a addr).1 = a) ∨
    ((allocator_free strict a addr).2 = 0 ∧
      ∃ ls2 lls2 T2,
        Live (allocator_free strict a addr).1 ls2 lls2 T2 (remaining strict a addr E) ∧
        Direct (allocator_free strict a addr).1 T2 ∧
        (allocator_free strict a addr).1.buddy.chunk_count = a.buddy.chunk_count ∧
        (allocator_free strict a addr).1.buddy.max_order = a.buddy.max_order) := by
  have hinv := h.inv.lists.binv
  have hsub : (remaining strict a addr E).Sublist E := List.filter_sublist _
  have hrem := mem_remaining strict h hdir addr
  by_cases h1 : addr / 512 < a.buddy.chunk_count
  swap
  · left
    rw [free_error_eq strict a addr (Or.inl h1)]
    exact ⟨(by decide : EINVAL ≠ 0), rfl⟩
  by_cases h2 : (a.buddy.chunk_array (addr / 512)).free = true
  · left
    rw [free_error_eq strict a addr (Or.inr h2)]
    exact ⟨(by decide : EINVAL ≠ 0), rfl⟩
  have h2f : (a.buddy.chunk_array (addr / 512)).free = false := by
    cases hf : (a.buddy.chunk_array (addr / 512)).free
    · rfl
    · exact absurd hf h2
  have hb := hinv.pinv.block_of h1
  rw [h2f] at hb
  have hin : in_block (BUDDY_ALIGN_TO_ORDER (addr / 512) (a.buddy.chunk_array (addr / 512)).order)
      (a.buddy.chunk_array (addr / 512)).order (addr / 512) :=
    (in_block_iff hb.aligned _).2 rfl
  have hcaddr : BUDDY_ALIGN_TO_ORDER (addr / 512) (a.buddy.chunk_array (addr / 512)).order *
      512 ≤ addr := by
    have h3 := hin.1
    omega
  by_cases ht : (a.bitmap_array (BUDDY_ALIGN_TO_ORDER (addr / 512)
      (a.buddy.chunk_array (addr / 512)).order)).tiny = true
  · rcases hdir _ _ hb with ⟨L, hT⟩ | ht2
    swap
    · rw [ht] at ht2; exact absurd ht2 (by decide)
    have hL := h.inv.tlevel _ _ hT
    have hlev : (a.buddy.chunk_array (addr / 512)).order * 4 +
        (a.bitmap_array (BUDDY_ALIGN_TO_ORDER (addr / 512)
          (a.buddy.chunk_array (addr / 512)).order)).index_in_group = L := by
      have e1 := (h.inv.tblock _ _ hT).self.2
      have e2 := hb.self.2
      have e3 := (h.inv.tbitmap _ _ hT).2
      rw [e3]
      omega
    rw [free_tiny_eq strict a addr h1 h2f ht, hlev, get_bit_index_eq]
    by_cases hbad : (addr - BUDDY_ALIGN_TO_ORDER (addr / 512)
          (a.buddy.chunk_array (addr / 512)).order * 512) / allocator_level_size L ≥
          get_bitmap_bits L ∨
        (strict = true ∧
          (addr - BUDDY_ALIGN_TO_ORDER (addr / 512)
            (a.buddy.chunk_array (addr / 512)).order * 512) / allocator_level_size L *
              allocator_level_size L ≠
            addr - BUDDY_ALIGN_TO_ORDER (addr / 512)
              (a.buddy.chunk_array (addr / 512)).order * 512)
    · left
      rw [if_pos hbad, if_pos (by decide)]
      exact ⟨(by decide : (-(-(22 : Int))).toNat ≠ 0), rfl⟩
    · rw [if_neg hbad, if_neg (not_lt.2 (Nat.cast_nonneg _))]
      simp only [Int.toNat_ofNat]
      by_cases hset : (a.bitmap_array (BUDDY_ALIGN_TO_ORDER (addr / 512)
            (a.buddy.chunk_array (addr / 512)).order)).frees &&&
          2 ^ ((addr - BUDDY_ALIGN_TO_ORDER (addr / 512)
            (a.buddy.chunk_array (addr / 512)).order * 512) / allocator_level_size L) ≠ 0
      · left
        rw [if_pos hset]
        exact ⟨(by decide : EINVAL ≠ 0), rfl⟩
      · right
        rw [if_neg hset]
        have hi : (addr - BUDDY_ALIGN_TO_ORDER (addr / 512)
            (a.buddy.chunk_array (addr / 512)).order * 512) / allocator_level_size L <
            get_bitmap_bits L := by
          by_contra hge
          exact hbad (Or.inl (Nat.le_of_not_lt hge))
        refine ⟨rfl, h.free_tiny hdir hT hi hsub ?_⟩
        intro q hq hl ⟨e1, e2⟩
        have hq2 := (hrem q).1 hq
        have hv2 := (h.valid q hq2.1).2
        rw [if_neg hl] at hv2
        have hLq := h.inv.t_unique hv2.1 (e1 ▸ hT)
        apply hq2.2
        rw [entry_size_tiny hl, hLq]
        have e3 : q.1 = BUDDY_ALIGN_TO_ORDER (addr / 512)
            (a.buddy.chunk_array (addr / 512)).order * 512 +
            (addr - BUDDY_ALIGN_TO_ORDER (addr / 512)
              (a.buddy.chunk_array (addr / 512)).order * 512) / allocator_level_size L *
              allocator_level_size L := by
          rw [← e2, ← e1, ← hLq]; exact hv2.2.2.2
        rw [e3]
        exact piece_of_addr hL hcaddr
  · have htf : (a.bitmap_array (BUDDY_ALIGN_TO_ORDER (addr / 512)
        (a.buddy.chunk_array (addr / 512)).order)).tiny = false := by
      cases hf : (a.bitmap_array (BUDDY_ALIGN_TO_ORDER (addr / 512)
        (a.buddy.chunk_array (addr / 512)).order)).tiny
      · rfl
      · exact absurd hf ht
    rw [free_direct_eq strict a addr h1 h2f htf]
    by_cases hs : strict = true ∧ addr ≠ BUDDY_ALIGN_TO_ORDER (addr / 512)
        (a.buddy.chunk_array (addr / 512)).order * 512
    · left
      rw [if_pos hs]
      exact ⟨(by decide : EINVAL ≠ 0), rfl⟩
    · right
      rw [if_neg hs]
      exact h.free_direct hdir hb htf hin hsub (fun q hq => ((hrem q).1 hq).2)

theorem reserve_direct_eq (strict : Bool) (a : allocator_t) (addr size : Nat)
    (h1 : addr / 512 < a.buddy.chunk_count) (hl : allocator_size_to_level size < 0)
    (hs : addr = addr / 512 * 512) :
    allocator_reserve strict a addr size =
      ({ a with
         buddy := (buddy_reserve a.buddy (addr / 512)
           (-(allocator_size_to_level size)).toNat).1 },
       (buddy_reserve a.buddy (addr / 512) (-(allocator_size_to_level size)).toNat).2) := by
  have h1b : ¬ (addr / ALLOCATOR_CHUNK_SIZE ≥ a.buddy.chunk_count) := by
    show ¬ (addr / 512 ≥ a.buddy.chunk_count); omega
  have h2 : ¬ (strict = true ∧ addr ≠ addr / ALLOCATOR_CHUNK_SIZE * ALLOCATOR_CHUNK_SIZE) := by
    rintro ⟨_, hne⟩
    exact hne hs
  unfold allocator_reserve
  simp only [h1b, if_false, hl, if_true, h2]
  rfl

theorem reserve_new_eq (strict : Bool) (a : allocator_t) (addr size : Nat)
    (h1 : addr / 512 < a.buddy.chunk_count) (hl : ¬ allocator_size_to_level size < 0)
    (hbit : entry_bit (addr, size) < get_bitmap_bits (allocator_size_to_level size).toNat)
    (hs : entry_bit (addr, size) * allocator_level_size (allocator_size_to_level size).toNat =
      addr - entry_chunk (addr, size) * 512)
    (hfree : (a.buddy.chunk_array (entry_chunk (addr, size))).free = true)
    (hret : (buddy_reserve a.buddy (entry_chunk (addr, size))
      ((allocator_size_to_level size).toNat / 4)).2 = 0) :
    allocator_reserve strict a addr size =
      (take_piece
        (init_bitmap (push_list
          { a with
            buddy := (buddy_reserve a.buddy (entry_chunk (addr, size))
              ((allocator_size_to_level size).toNat / 4)).1 }
          (allocator_size_to_level size).toNat (entry_chunk (addr, size)))
          (entry_chunk (addr, size)) (allocator_size_to_level size).toNat)
        (allocator_size_to_level size).toNat (entry_chunk (addr, size))
        (2 ^ entry_bit (addr, size)), 0) := by
  have h1b : ¬ (addr / ALLOCATOR_CHUNK_SIZE ≥ a.buddy.chunk_count) := by
    show ¬ (addr / 512 ≥ a.buddy.chunk_count); omega
  have hec : BUDDY_ALIGN_TO_ORDER (addr / ALLOCATOR_CHUNK_SIZE)
      ((allocator_size_to_level size).toNat / 4) = entry_chunk (addr, size) := by
    unfold entry_chunk entry_order
    rw [if_neg hl]
    rfl
  have hgb : get_bit_index strict addr (entry_chunk (addr, size))
      (allocator_size_to_level size).toNat = (entry_bit (addr, size) : Int) := by
    rw [get_bit_index_eq]
    have e : (addr - entry_chunk (addr, size) * 512) /
        allocator_level_size (allocator_size_to_level size).toNat = entry_bit (addr, size) := rfl
    rw [e, if_neg]
    rintro (h3 | ⟨_, h3⟩)
    · omega
    · exact h3 hs
  have hlo : ALLOCATOR_LEVEL_TO_ORDER (allocator_size_to_level size).toNat =
      (allocator_size_to_level size).toNat / 4 := rfl
  unfold allocator_reserve
  simp only [h1b, if_false, hl, hlo, hec, hgb, hfree, if_true, hret, ne_eq,
    not_true_eq_false, Int.toNat_ofNat]
  rw [if_neg (not_lt.2 (Nat.cast_nonneg _))]

theorem reserve_old_eq (strict : Bool) (a : allocator_t) (addr size : Nat)
    (h1 : addr / 512 < a.buddy.chunk_count) (hl : ¬ allocator_size_to_level size < 0)
    (hbit : entry_bit (addr, size) < get_bitmap_bits (allocator_size_to_level size).toNat)
    (hs : entry_bit (addr, size) * allocator_level_size (allocator_size_to_level size).toNat =
      addr - entry_chunk (addr, size) * 512)
    (hfree : (a.buddy.chunk_array (entry_chunk (addr, size))).free = false)
    (ho : (a.buddy.chunk_array (entry_chunk (addr, size))).order =
      (allocator_size_to_level size).toNat / 4)
    (ht : (a.bitmap_array (entry_chunk (addr, size))).tiny = true)
    (hidx : (a.bitmap_array (entry_chunk (addr, size))).index_in_group =
      (allocator_size_to_level size).toNat % 4)
    (hset : (a.bitmap_array (entry_chunk (addr, size))).frees.testBit
      (entry_bit (addr, size)) = true) :
    allocator_reserve strict a addr size =
      (take_piece a (allocator_size_to_level size).toNat (entry_chunk (addr, size))
        (2 ^ entry_bit (addr, size)), 0) := by
  have h1b : ¬ (addr / ALLOCATOR_CHUNK_SIZE ≥ a.buddy.chunk_count) := by
    show ¬ (addr / 512 ≥ a.buddy.chunk_count); omega
  have hec : BUDDY_ALIGN_TO_ORDER (addr / ALLOCATOR_CHUNK_SIZE)
      ((allocator_size_to_level size).toNat / 4) = entry_chunk (addr, size) := by
    unfold entry_chunk entry_order
    rw [if_neg hl]
    rfl
  have hgb : get_bit_index strict addr (entry_chunk (addr, size))
      (allocator_size_to_level size).toNat = (entry_bit (addr, size) : Int) := by
    rw [get_bit_index_eq]
    have e : (addr - entry_chunk (addr, size) * 512) /
        allocator_level_size (allocator_size_to_level size).toNat = entry_bit (addr, size) := rfl
    rw [e, if_neg]
    rintro (h3 | ⟨_, h3⟩)
    · omega
    · exact h3 hs
  have hlo : ALLOCATOR_LEVEL_TO_ORDER (allocator_size_to_level size).toNat =
      (allocator_size_to_level size).toNat / 4 := rfl
  have hmask : ¬ ((a.bitmap_array (entry_chunk (addr, size))).frees &&&
      2 ^ entry_bit (addr, size) = 0) := by
    rw [and_mask_eq_zero, hset]
    decide
  have hlev : (allocator_size_to_level size).toNat / 4 * 4 +
      (allocator_size_to_level size).toNat % 4 = (allocator_size_to_level size).toNat := by
    omega
  unfold allocator_reserve
  simp only [h1b, if_false, hl, hlo, hec, hgb, hfree, ho, ht, hidx, hlev, hmask,
    Int.toNat_ofNat, Bool.false_eq_true, and_self, not_true_eq_false, ne_eq, or_self]
  rw [if_neg (not_lt.2 (Nat.cast_nonneg _))]

/-- Replaying one live allocation `p` of a state `A` on a state `s` whose
allocations `D` are other live allocations of `A`: `allocator_reserve` returns
`0` and adds `p`. -/
theorem reserve_replayed (strict : Bool) {A s : allocator_t}
    {lsA llsA ls lls : Nat → List Nat} {TA Ts : Nat → Nat → Prop} {E D : List (Nat × Nat)}
    (hA : Live A lsA llsA TA E) (hs : Live s ls lls Ts D) (hx : Exact s Ts D)
    (hn : s.buddy.chunk_count = A.buddy.chunk_count)
    (hm : s.buddy.max_order = A.buddy.max_order)
    (hD : ∀ q, q ∈ D → q ∈ E) {p : Nat × Nat} (hp : p ∈ E) (hpD : p ∉ D) :
    (allocator_reserve strict s p.1 p.2).2 = 0 ∧
    ∃ ls2 lls2 T2, Live (allocator_reserve strict s p.1 p.2).1 ls2 lls2 T2 (p :: D) ∧
      Exact (allocator_reserve strict s p.1 p.2).1 T2 (p :: D) ∧
      (allocator_reserve strict s p.1 p.2).1.buddy.chunk_count = A.buddy.chunk_count ∧
      (allocator_reserve strict s p.1 p.2).1.buddy.max_order = A.buddy.max_order := by
  have hvp := hA.valid p hp
  have hbA := hvp.1
  have hinp := hvp.chunk_in hA.inv
  have h1 : p.1 / 512 < s.buddy.chunk_count := by
    have := hinp.2
    have := hbA.in_range
    omega
  have hsame : ∀ q, q ∈ D → ∀ j, in_block (entry_chunk q) (entry_order q) j →
      in_block (entry_chunk p) (entry_order p) j →
      entry_chunk q = entry_chunk p ∧ entry_order q = entry_order p := by
    intro q hq j hj1 hj2
    have e := (hA.valid q (hD q hq)).1.unique hbA hj1 hj2
    exact ⟨e.1, e.2.1⟩
  have hother : ∀ q, q ∈ D → q.1 ≠ p.1 := by
    intro q hq e
    have := nodup_fst_inj hA.nodup (hD q hq) hp e
    exact hpD (this ▸ hq)
  have hsinv := hs.inv.lists.binv
  obtain ⟨hmo, hal, hr⟩ : entry_order p ≤ s.buddy.max_order ∧
      BUDDY_ALIGN_TO_ORDER (entry_chunk p) (entry_order p) = entry_chunk p ∧
      entry_chunk p + 2 ^ entry_order p ≤ s.buddy.chunk_count := by
    rw [hm, hn]
    exact ⟨hbA.order_le, hbA.aligned, hbA.in_range⟩
  have hchk : CHECK_BLOCK s.buddy (entry_chunk p) (entry_order p) = true :=
    CHECK_BLOCK_of hsinv hmo hal hr
  have hlt : ∀ j, in_block (entry_chunk p) (entry_order p) j → j < s.buddy.chunk_count := by
    intro j hj
    have := hj.2
    omega
  by_cases hl : allocator_size_to_level p.2 < 0
  · have hv2 := hvp.2
    rw [if_pos hl] at hv2
    have he : p.1 = entry_chunk p * 512 := hv2.1
    have hdiv : p.1 / 512 = entry_chunk p := by omega
    have heo := entry_order_direct hl
    have hfree_all : ∀ j, in_block (entry_chunk p) (entry_order p) j →
        (s.buddy.chunk_array j).free = true := by
      intro j hj
      by_contra hne
      have hf : (s.buddy.chunk_array j).free = false := by
        cases h3 : (s.buddy.chunk_array j).free
        · rfl
        · exact absurd h3 hne
      obtain ⟨q, hq, hjq⟩ := hx.chunks j (hlt j hj) hf
      obtain ⟨e1, e2⟩ := hsame q hq j hjq hj
      have hvq := hA.valid q (hD q hq)
      by_cases hlq : allocator_size_to_level q.2 < 0
      · have hvq2 := hvq.2
        rw [if_pos hlq] at hvq2
        apply hother q hq
        rw [he, ← e1]
        exact hvq2.1
      · have hvq2 := hvq.2
        rw [if_neg hlq] at hvq2
        exact hv2.2 _ (e1 ▸ hvq2.1)
    have hok := (hsinv.pinv.reserve_ok_iff hmo hal hr).2 hfree_all
    obtain ⟨ls2, hd, hb, _⟩ :=
        buddy_reserve_spec hsinv _ _ (no_wrap_of_le hsinv hr) hchk hok.1 hok.2
    have hret := (buddy_reserve_ok_iff s.buddy (entry_chunk p) (entry_order p)).2 ⟨hchk, hok⟩
    rw [reserve_direct_eq strict s p.1 p.2 h1 hl (by omega), hdiv, ← heo]
    refine ⟨hret, ?_⟩
    rw [heo] at hd hb hfree_all
    obtain ⟨ls3, lls3, T3, h3, _, h5, h6, h7⟩ := hs.take_direct hl hd hb hfree_all
      (s.bitmap_array (entry_chunk p))
    rw [store_self] at h3 h5
    have hpe : (entry_chunk p * 512, p.2) = p := Prod.ext he.symm rfl
    rw [hpe] at h3 h5
    rw [← heo] at h3 h5 h6 h7
    exact ⟨ls3, lls3, T3, h3, h5 hx, h6.trans hn, h7.trans hm⟩
  · have hv2 := hvp.2
    rw [if_neg hl] at hv2
    obtain ⟨hTA, hi, _, he⟩ := hv2
    have heo := entry_order_tiny hl
    have hseq : entry_bit p * allocator_level_size (allocator_size_to_level p.2).toNat =
        p.1 - entry_chunk p * 512 := by
      have he2 : p.1 = entry_chunk p * 512 +
          entry_bit p * allocator_level_size (allocator_size_to_level p.2).toNat := he
      omega
    have hpe : (entry_chunk p * 512 +
        entry_bit p * allocator_level_size (allocator_size_to_level p.2).toNat, p.2) = p :=
      Prod.ext he.symm rfl
    by_cases hf : (s.buddy.chunk_array (entry_chunk p)).free = true
    · have hfree_all : ∀ j, in_block (entry_chunk p) (entry_order p) j →
          (s.buddy.chunk_array j).free = true := by
        intro j hj
        by_contra hne
        have hf2 : (s.buddy.chunk_array j).free = false := by
          cases h3 : (s.buddy.chunk_array j).free
          · rfl
          · exact absurd h3 hne
        obtain ⟨q, hq, hjq⟩ := hx.chunks j (hlt j hj) hf2
        obtain ⟨e1, e2⟩ := hsame q hq j hjq hj
        have := (hs.valid q hq).1.self.1
        rw [e1, hf] at this
        exact absurd this (by decide)
      have hok := (hsinv.pinv.reserve_ok_iff hmo hal hr).2 hfree_all
      obtain ⟨ls2, hd, hb, _⟩ :=
        buddy_reserve_spec hsinv _ _ (no_wrap_of_le hsinv hr) hchk hok.1 hok.2
      have hret := (buddy_reserve_ok_iff s.buddy (entry_chunk p) (entry_order p)).2
        ⟨hchk, hok⟩
      rw [heo] at hd hb hfree_all hret
      rw [reserve_new_eq strict s p.1 p.2 h1 hl hi hseq hf hret]
      refine ⟨rfl, ?_⟩
      obtain ⟨ls3, lls3, T3, h3, _, h5, h6, h7⟩ := hs.take_new hl hd hb hfree_all hi
      rw [hpe] at h3 h5
      exact ⟨ls3, lls3, T3, h3, h5 hx, h6.trans hn, h7.trans hm⟩
    · have hff : (s.buddy.chunk_array (entry_chunk p)).free = false := by
        cases h3 : (s.buddy.chunk_array (entry_chunk p)).free
        · rfl
        · exact absurd h3 hf
      have hself := in_block_self (entry_chunk p) (entry_order p)
      obtain ⟨q, hq, hjq⟩ := hx.chunks _ (hlt _ hself) hff
      obtain ⟨e1, e2⟩ := hsame q hq _ hjq hself
      have hvq := hA.valid q (hD q hq)
      have hlq : ¬ allocator_size_to_level q.2 < 0 := by
        intro hlq
        have hvq2 := hvq.2
        rw [if_pos hlq] at hvq2
        exact hvq2.2 _ (e1 ▸ hTA)
      have hvq2 := hvq.2
      rw [if_neg hlq] at hvq2
      have hLq := hA.inv.t_unique hvq2.1 (e1 ▸ hTA)
      have hsq := (hs.valid q hq).2
      rw [if_neg hlq, e1, hLq] at hsq
      have hTs := hsq.1
      have ho := (hs.inv.tblock _ _ hTs).self.2
      have htb := hs.inv.tbitmap _ _ hTs
      have hset : (s.bitmap_array (entry_chunk p)).frees.testBit (entry_bit p) = true := by
        by_contra hne
        have hclr : (s.bitmap_array (entry_chunk p)).frees.testBit (entry_bit p) = false := by
          cases h3 : (s.bitmap_array (entry_chunk p)).frees.testBit (entry_bit p)
          · rfl
          · exact absurd h3 hne
        obtain ⟨q2, hq2, hl2, e3, e4⟩ := hx.pieces _ _ hTs _ hi hclr
        have hvq3 := (hA.valid q2 (hD q2 hq2)).2
        rw [if_neg (by omega)] at hvq3
        have hL2 := hA.inv.t_unique hvq3.1 (e3 ▸ hTA)
        apply hother q2 hq2
        rw [he, ← e3, ← e4, ← hL2]
        exact hvq3.2.2.2
      rw [reserve_old_eq strict s p.1 p.2 h1 hl hi hseq hff ho htb.1 htb.2 hset]
      refine ⟨rfl, ?_⟩
      obtain ⟨ls3, lls3, T3, h3, _, h5, h6, h7⟩ := hs.take_old hl hTs hset
      rw [hpe] at h3 h5
      exact ⟨ls3, lls3, T3, h3, h5 hx, h6.trans hn, h7.trans hm⟩

theorem allocator_init_buddy {size : Nat} {cm : Nat → buddy_chunk_t}
    {bm : Nat → allocator_bitmap_t} {a : allocator_t}
    (h : allocator_init size (some cm) (some bm) = .ok a) :
    buddy_init (size / 512) (some cm) = .ok a.buddy ∧
      a.lists = (fun _ => { head := none, length := 0 }) := by
  unfold allocator_init at h
  simp only at h
  split_ifs at h with hc
  cases hb : buddy_init (size / ALLOCATOR_CHUNK_SIZE) (some cm) with
  | error e =>
    rw [hb] at h
    simp at h
  | ok b =>
    rw [hb] at h
    simp only [Except.ok.injEq] at h
    subst h
    exact ⟨hb, rfl⟩

/-- A fresh allocator satisfies the slab invariant with no tiny block and no
live allocation. -/
theorem allocator_init_live {size : Nat} {cm : Nat → buddy_chunk_t}
    {bm : Nat → allocator_bitmap_t} {a : allocator_t}
    (h : allocator_init size (some cm) (some bm) = .ok a) :
    ∃ ls lls, Live a ls lls (fun _ _ => False) [] ∧ Direct a (fun _ _ => False) ∧
      Exact a (fun _ _ => False) [] ∧ a.buddy.chunk_count = size / 512 ∧
      a.buddy.max_order =
        (if highest_bit (size / 512) < BUDDY_MAX_ORDER then highest_bit (size / 512)
         else BUDDY_MAX_ORDER) := by
  obtain ⟨hb, hlists⟩ := allocator_init_buddy h
  obtain ⟨ls, hinv, hn, hm, hfree⟩ := buddy_init_inv hb
  have hallfree : ∀ c o, ¬ IsBlock a.buddy c o false := by
    intro c o hblk
    have h1 := hblk.self.1
    rw [hfree c (by have := hblk.lt; omega)] at h1
    exact absurd h1 (by decide)
  refine ⟨ls, fun _ => [], ?_, ?_, ?_, hn, hm⟩
  · refine { inv := ?_, nodup := List.nodup_nil, valid := fun p hp => absurd hp (List.not_mem_nil _) }
    refine { lists := ?_, tlevel := fun _ _ hT => absurd hT (fun x => x)
             tblock := fun _ _ hT => absurd hT (fun x => x)
             tbitmap := fun _ _ hT => absurd hT (fun x => x)
             tfrees := fun _ _ hT => absurd hT (fun x => x) }
    refine { binv := hinv, llists := ?_, lmem := ?_
             mfree := fun _ _ hT => absurd hT.1 (fun x => x)
             munique := fun _ _ _ hT => absurd hT.1 (fun x => x) }
    · intro L
      rw [hlists]
      exact { nodup := List.nodup_nil, len_eq := rfl, head_eq := rfl
              links := fun _ _ e => absurd e (by simp) }
    · intro L c
      simp
  · intro c o hblk
    exact absurd hblk (hallfree c o)
  · refine { chunks := ?_, pieces := fun _ _ hT => absurd hT (fun x => x) }
    intro j hj hf
    rw [hfree j (by omega)] at hf
    exact absurd hf (by decide)

theorem Src.step_src (strict : Bool) {n m : Nat} {a : allocator_t} {E : List (Nat × Nat)}
    (h : Src n m a E) (op : Op) (hop : op.is_reserve = false) :
    Src n m (Allocator.step strict (a, E) op).1 (Allocator.step strict (a, E) op).2 := by
  obtain ⟨ls, lls, T, hl, hd, hn, hm⟩ := h
  cases op with
  | allocate size =>
    simp only [Allocator.step]
    rcases allocate_added hl size with ⟨e1, e2⟩ | ⟨hne, ls2, lls2, T2, h1, h2, _, h4, h5⟩
    · rw [if_pos e1, e2]
      exact ⟨ls, lls, T, hl, hd, hn, hm⟩
    · rw [if_neg hne]
      exact ⟨ls2, lls2, T2, h1, h2 hd, h4.trans hn, h5.trans hm⟩
  | reserve addr size => simp [Op.is_reserve] at hop
  | free addr =>
    simp only [Allocator.step]
    rcases free_removed strict hl hd addr with ⟨hne, e2⟩ | ⟨e1, ls2, lls2, T2, h1, h2, h4, h5⟩
    · rw [if_neg hne, e2]
      exact ⟨ls, lls, T, hl, hd, hn, hm⟩
    · rw [if_pos e1]
      exact ⟨ls2, lls2, T2, h1, h2, h4.trans hn, h5.trans hm⟩

theorem Src.run_src (strict : Bool) {n m : Nat} (ops : List Op)
    (hops : ∀ op, op ∈ ops → op.is_reserve = false) :
    ∀ (s : allocator_t × List (Nat × Nat)), Src n m s.1 s.2 →
      Src n m (Allocator.run strict s ops).1 (Allocator.run strict s ops).2 := by
  induction ops with
  | nil => intro s hs; exact hs
  | cons op ops ih =>
    intro s hs
    show Src n m (Allocator.run strict (Allocator.step strict s op) ops).1
      (Allocator.run strict (Allocator.step strict s op) ops).2
    exact ih (fun o ho => hops o (List.mem_cons_of_mem _ ho)) _
      (hs.step_src strict op (hops op (List.mem_cons_self _ _)))

/-- Replaying live allocations of the state `A` that are not yet in the
state `s`: every `allocator_reserve` returns `0`. -/
theorem replay_zero (strict : Bool) {A : allocator_t} {lsA llsA : Nat → List Nat}
    {TA : Nat → Nat → Prop} {E : List (Nat × Nat)} (hA : Live A lsA llsA TA E) :
    ∀ (l : List (Nat × Nat)) (s : allocator_t) (ls lls : Nat → List Nat)
      (Ts : Nat → Nat → Prop) (D : List (Nat × Nat)),
      Live s ls lls Ts D → Exact s Ts D →
      s.buddy.chunk_count = A.buddy.chunk_count → s.buddy.max_order = A.buddy.max_order →
      (∀ q, q ∈ D → q ∈ E) → (∀ p, p ∈ l → p ∈ E ∧ p ∉ D) → l.Nodup →
      ∀ r, r ∈ replay strict s l → r = 0 := by
  intro l
  induction l with
  | nil => intro s ls lls Ts D _ _ _ _ _ _ _ r hr; simp [replay] at hr
  | cons p l ih =>
    intro s ls lls Ts D hs hx hn hm hD hl hnd r hr
    obtain ⟨hpE, hpD⟩ := hl p (List.mem_cons_self _ _)
    obtain ⟨hret, ls2, lls2, T2, h1, h2, h3, h4⟩ :=
      reserve_replayed strict hA hs hx hn hm hD hpE hpD
    simp only [replay, List.mem_cons] at hr
    rcases hr with hr | hr
    · rw [hr]; exact hret
    · refine ih _ ls2 lls2 T2 (p :: D) h1 h2 h3 h4 ?_ ?_ (List.nodup_cons.1 hnd).2 r hr
      · intro q hq
        rcases List.mem_cons.1 hq with e | hq
        · rw [e]; exact hpE
        · exact hD q hq
      · intro q hq
        obtain ⟨hqE, hqD⟩ := hl q (List.mem_cons_of_mem _ hq)
        refine ⟨hqE, ?_⟩
        intro hmem
        rcases List.mem_cons.1 hmem with e | hmem
        · rw [e] at hq
          exact (List.nodup_cons.1 hnd).1 hq
        · exact hqD hmem

end Allocator

/-! ## The claims -/

set_option maxRecDepth 1000000 in
/-- The evaluation of the thirteen calls `corrupt_ops` on a fresh allocator of
8192 chunks with zeroed metadata, and of an `allocator_allocate (8192)`, an
`allocator_free` and an `allocator_reserve` after them.  All thirteen calls
return `0`; then the block at chunk 4096 is an allocated tiny block of level
41 whose free pieces are `1 .. 50`.  `allocator_allocate (8192)` returns
`block_addr 4 + 8192`, whose usable size is `10240`; `allocator_free` of this
address returns `0` and leaves the pieces `0, 2 .. 50` free; and
`allocator_reserve` of this address with size `8192` returns `EBUSY`.  The
usable size of `block_addr 4 + 10240` after the allocation is `10240` too,
and `allocator_free` of that address, in place of the returned one, returns
`0` and leaves the pieces `1 .. 50` free. -/
theorem corrupt_eval :
    ((Allocator.from_init false (8192 * 512) zero_chunks zero_bitmaps
        Allocator.corrupt_ops).map
      (fun r => (r.2, [(r.1.buddy.chunk_array 4096).free, (r.1.bitmap_array 4096).tiny],
        [(r.1.buddy.chunk_array 4096).order, (r.1.bitmap_array 4096).index_in_group,
         (r.1.bitmap_array 4096).frees])) =
      some ([0, 0, 0, 0, 0, 0, 0, 0, 0, 0, 0, 0, 0], [false, true], [10, 1, 2 ^ 51 - 2])) ∧
    ((Allocator.from_init false (8192 * 512) zero_chunks zero_bitmaps
        (Allocator.corrupt_ops ++ [.allocate 8192])).map
      (fun r => (r.2, Allocator.allocator_usable_size false r.1 (Allocator.block_addr 4 + 8192),
        Allocator.allocator_usable_size false r.1 (Allocator.block_addr 4))) =
      some ([0, 0, 0, 0, 0, 0, 0, 0, 0, 0, 0, 0, 0, Allocator.block_addr 4 + 8192],
        10240, 10240)) ∧
    ((Allocator.from_init false (8192 * 512) zero_chunks zero_bitmaps
        (Allocator.corrupt_ops ++
          [.allocate 8192, .free (Allocator.block_addr 4 + 8192)])).map
      (fun r => (r.2, [(r.1.buddy.chunk_array 4096).free, (r.1.bitmap_array 4096).tiny],
        [(r.1.buddy.chunk_array 4096).order, (r.1.bitmap_array 4096).index_in_group,
         (r.1.bitmap_array 4096).frees])) =
      some ([0, 0, 0, 0, 0, 0, 0, 0, 0, 0, 0, 0, 0, Allocator.block_addr 4 + 8192, 0],
        [false, true], [10, 1, 2 ^ 51 - 3])) ∧
    ((Allocator.from_init false (8192 * 512) zero_chunks zero_bitmaps
        (Allocator.corrupt_ops ++
          [.allocate 8192, .free (Allocator.block_addr 4 + 8192),
           .reserve (Allocator.block_addr 4 + 8192) 8192])).map
      (fun r => r.2) =
      some [0, 0, 0, 0, 0, 0, 0, 0, 0, 0, 0, 0, 0, Allocator.block_addr 4 + 8192, 0,
        EBUSY]) ∧
    ((Allocator.from_init false (8192 * 512) zero_chunks zero_bitmaps
        (Allocator.corrupt_ops ++ [.allocate 8192])).map
      (fun r => Allocator.allocator_usable_size false r.1 (Allocator.block_addr 4 + 10240)) =
      some 10240) ∧
    ((Allocator.from_init false (8192 * 512) zero_chunks zero_bitmaps
        (Allocator.corrupt_ops ++
          [.allocate 8192, .free (Allocator.block_addr 4 + 10240)])).map
      (fun r => (r.2, [(r.1.buddy.chunk_array 4096).free, (r.1.bitmap_array 4096).tiny],
        [(r.1.buddy.chunk_array 4096).order, (r.1.bitmap_array 4096).index_in_group,
         (r.1.bitmap_array 4096).frees])) =
      some ([0, 0, 0, 0, 0, 0, 0, 0, 0, 0, 0, 0, 0, Allocator.block_addr 4 + 8192, 0],
        [false, true], [10, 1, 2 ^ 51 - 2])) := by
  decide!

set_option maxRecDepth 1000000 in
/-- C1 (code defect): the ranges of the live allocations are not pairwise
disjoint in every reachable state.  On a fresh allocator of 1024 chunks with
zeroed metadata, in either address mode, the calls `allocate (8)` (returns
`0`), `free (0)`, `reserve (0, 458753)` and `reserve (0, 8192)` all succeed:
the direct reservation of the whole space leaves the stale bitmap of chunk 0
in place, so the second reservation takes a piece of the same block.  Both
allocations are live at address `0`, where the usable size is `8192`. -/
theorem allocate_reserve_overlap : ∀ strict : Bool,
    Allocator.live_from_init strict (1024 * 512) zero_chunks zero_bitmaps
      [.allocate 8, .free 0, .reserve 0 458753, .reserve 0 8192] =
      some [(0, 8192), (0, 458753)] ∧
    (Allocator.from_init strict (1024 * 512) zero_chunks zero_bitmaps
      [.allocate 8, .free 0, .reserve 0 458753, .reserve 0 8192]).map
      (fun r => (r.2, Allocator.allocator_usable_size strict r.1 0)) =
      some ([0, 0, 0, 0], 8192) := by
  decide!

/-- C2 (code defect): after the thirteen successful calls `corrupt_ops` on a
fresh allocator of 8192 chunks, `allocator_allocate (8192)` returns
`block_addr 4 + 8192`, which is not `ALLOCATOR_FAIL`, and the usable size of
this address is `10240`, although `allocator_size_to_level 8192 = 40` and
`allocator_level_size 40 = 8192`.  The usable size at `block_addr 4`, reserved
before with size `10240`, is `10240` as well, so the two allocations
overlap. -/
theorem allocate_usable_size_mismatch :
    (Allocator.from_init false (8192 * 512) zero_chunks zero_bitmaps
        (Allocator.corrupt_ops ++ [.allocate 8192])).map
      (fun r => (r.2, Allocator.allocator_usable_size false r.1 (Allocator.block_addr 4 + 8192),
        Allocator.allocator_usable_size false r.1 (Allocator.block_addr 4))) =
      some ([0, 0, 0, 0, 0, 0, 0, 0, 0, 0, 0, 0, 0, Allocator.block_addr 4 + 8192],
        10240, 10240) ∧
    Allocator.block_addr 4 + 8192 ≠ ALLOCATOR_FAIL ∧
    allocator_size_to_level 8192 = 40 ∧ allocator_level_size 40 = 8192 :=
  ⟨corrupt_eval.2.1, by decide, by decide, by decide⟩

/-- C3: for every level `L` in `0..63` (`ALLOCATOR_MAX_LEVEL = 63`),
`allocator_size_to_level (allocator_level_size L) = L`. -/
theorem size_to_level_level_size (L : Nat) (h : L ≤ ALLOCATOR_MAX_LEVEL) :
    allocator_size_to_level (allocator_level_size L) = (L : Int) := by
  have key : ∀ k, k < 64 → allocator_size_to_level (allocator_level_size k) = (k : Int) := by
    decide!
  exact key L (Nat.lt_succ_of_le h)

theorem size_to_level_level_size_witness :
    63 ≤ ALLOCATOR_MAX_LEVEL ∧
      allocator_size_to_level (allocator_level_size 63) = ((63 : Nat) : Int) :=
  ⟨by decide, size_to_level_level_size 63 (by decide)⟩

set_option maxRecDepth 1000000 in
/-- C4 (code defect): freeing every successful allocation does not always
bring the free lists back to those of `init`.  On a fresh allocator of 1024
chunks whose bitmap array has the prior contents `stale_bitmaps`, the free
lists hold the single block of order 10 at chunk 0; `reserve (0, 458753)` and
`free (0)` both return `0`, and afterwards every free list is empty: the
direct block is treated as a tiny block and is never returned to the
buddy. -/
theorem free_all_not_coalesced : ∀ strict : Bool,
    (Allocator.from_init strict (1024 * 512) zero_chunks stale_bitmaps []).map
      (fun r => Buddy.free_blocks r.1.buddy) =
      some [[], [], [], [], [], [], [], [], [], [], [0]] ∧
    (Allocator.from_init strict (1024 * 512) zero_chunks stale_bitmaps
      [.reserve 0 458753, .free 0]).map
      (fun r => (r.2, Buddy.free_blocks r.1.buddy)) =
      some ([0, 0], [[], [], [], [], [], [], [], [], [], [], []]) := by
  decide!

/-- C5 (code defect): after the thirteen successful calls `corrupt_ops` on a
fresh allocator of 8192 chunks, the block at chunk 4096 is an allocated tiny
block of level 41 (order 10, index 1) whose free pieces are `1 .. 50`
(`frees = 2 ^ 51 - 2`).  `allocator_allocate (8192)` returns
`block_addr 4 + 8192` and an immediate `allocator_free` of this address
returns `0`, but then the free pieces of the same block are `0, 2 .. 50`
(`frees = 2 ^ 51 - 3`). -/
theorem allocate_free_not_restored :
    ((Allocator.from_init false (8192 * 512) zero_chunks zero_bitmaps
        Allocator.corrupt_ops).map
      (fun r => (r.2, [(r.1.buddy.chunk_array 4096).free, (r.1.bitmap_array 4096).tiny],
        [(r.1.buddy.chunk_array 4096).order, (r.1.bitmap_array 4096).index_in_group,
         (r.1.bitmap_array 4096).frees])) =
      some ([0, 0, 0, 0, 0, 0, 0, 0, 0, 0, 0, 0, 0], [false, true], [10, 1, 2 ^ 51 - 2])) ∧
    ((Allocator.from_init false (8192 * 512) zero_chunks zero_bitmaps
        (Allocator.corrupt_ops ++
          [.allocate 8192, .free (Allocator.block_addr 4 + 8192)])).map
      (fun r => (r.2, [(r.1.buddy.chunk_array 4096).free, (r.1.bitmap_array 4096).tiny],
        [(r.1.buddy.chunk_array 4096).order, (r.1.bitmap_array 4096).index_in_group,
         (r.1.bitmap_array 4096).frees])) =
      some ([0, 0, 0, 0, 0, 0, 0, 0, 0, 0, 0, 0, 0, Allocator.block_addr 4 + 8192, 0],
        [false, true], [10, 1, 2 ^ 51 - 3])) :=
  ⟨corrupt_eval.1, corrupt_eval.2.2.1⟩

/-- C6 (code defect): after the thirteen successful calls `corrupt_ops` on a
fresh allocator of 8192 chunks, `allocator_allocate (8192)` returns
`block_addr 4 + 8192`, `allocator_free` of this address returns `0`, and an
immediate `allocator_reserve` of this address with size `8192` returns
`EBUSY`. -/
theorem reserve_after_free_busy :
    (Allocator.from_init false (8192 * 512) zero_chunks zero_bitmaps
        (Allocator.corrupt_ops ++
          [.allocate 8192, .free (Allocator.block_addr 4 + 8192),
           .reserve (Allocator.block_addr 4 + 8192) 8192])).map
      (fun r => r.2) =
      some [0, 0, 0, 0, 0, 0, 0, 0, 0, 0, 0, 0, 0, Allocator.block_addr 4 + 8192, 0,
        EBUSY] :=
  corrupt_eval.2.2.2.1

set_option maxRecDepth 1000000 in
/-- C7 (code defect): a successful `allocator_reserve` is not always undone
by an immediate `allocator_free`.  On a fresh allocator of 1024 chunks with
zeroed metadata, in either address mode, after `allocate (8)` and `free (0)`
the call `reserve (0, 458753)` returns `0` and the immediate `free (0)`
returns `EINVAL`.  The scenario of the claim does hold: with 8 chunks,
`reserve (512, 8)` and `free (512)` return `0` and leave one free block, of
order 3 at chunk 0. -/
theorem reserve_free_einval : ∀ strict : Bool,
    (Allocator.from_init strict (1024 * 512) zero_chunks zero_bitmaps
      [.allocate 8, .free 0, .reserve 0 458753, .free 0]).map (fun r => r.2) =
      some [0, 0, 0, EINVAL] ∧
    (Allocator.from_init strict (8 * 512) zero_chunks zero_bitmaps
      [.reserve 512 8, .free 512]).map (fun r => (r.2, Buddy.free_blocks r.1.buddy)) =
      some ([0, 0], [[], [], [], [0]]) := by
  decide!

set_option maxRecDepth 1000000 in
/-- C8 (code defect): a successful direct `allocator_reserve` can leave a
usable size below the reserved size.  On a fresh allocator of 1024 chunks, in
either address mode, `reserve (0, 458753)` returns `0` and the usable size of
address `0` is then `8192`, both when the bitmap array has the prior contents
`stale_bitmaps` and when the metadata is zeroed and the calls `allocate (8)`,
`free (0)` came first. -/
theorem reserve_usable_size_short : ∀ strict : Bool,
    (Allocator.from_init strict (1024 * 512) zero_chunks stale_bitmaps
      [.reserve 0 458753]).map
      (fun r => (r.2, Allocator.allocator_usable_size strict r.1 0)) = some ([0], 8192) ∧
    (Allocator.from_init strict (1024 * 512) zero_chunks zero_bitmaps
      [.allocate 8, .free 0, .reserve 0 458753]).map
      (fun r => (r.2, Allocator.allocator_usable_size strict r.1 0)) =
      some ([0, 0, 0], 8192) := by
  decide!

/-- C9: replay.  The allocations `(addr, size)` that are live after any
sequence of `allocator_allocate` and `allocator_free` calls on a fresh
allocator can be reserved, in any order, on a fresh allocator of the same
size (whatever the prior contents of the metadata), and every
`allocator_reserve` returns `0`; likewise the blocks `(chunk_index, order)`
that are live after any sequence of calls on a fresh buddy (no call being a
`buddy_reserve` for which the sum of `CHECK_BLOCK` wraps) can be reserved,
in any order, on a fresh buddy of the same size, and every `buddy_reserve`
returns `0`. -/
theorem replay_returns_zero :
    (∀ (strict : Bool) (size : Nat) (cm cm2 : Nat → buddy_chunk_t)
      (bm bm2 : Nat → allocator_bitmap_t) (a0 a1 : allocator_t) (ops : List Allocator.Op)
      (l : List (Nat × Nat)),
      Allocator.allocator_init size (some cm) (some bm) = .ok a0 →
      Allocator.allocator_init size (some cm2) (some bm2) = .ok a1 →
      (∀ op, op ∈ ops → op.is_reserve = false) →
      l.Perm (Allocator.run strict (a0, []) ops).2 →
      ∀ r, r ∈ Allocator.replay strict a1 l → r = 0) ∧
    (∀ (n : Nat) (array array2 : Nat → buddy_chunk_t) (b0 b1 : buddy_t)
      (ops : List Buddy.Op) (l : List (Nat × Nat)),
      Buddy.buddy_init n (some array) = .ok b0 →
      Buddy.buddy_init n (some array2) = .ok b1 →
      (∀ op, op ∈ ops → op.no_wrap b0.max_order = true) →
      l.Perm (Buddy.run (b0, []) ops).2 →
      ∀ r, r ∈ Buddy.replay b1 l → r = 0) := by
  refine ⟨?_, ?_⟩
  · intro strict size cm cm2 bm bm2 a0 a1 ops l h0 h1 hops hperm
    obtain ⟨ls0, lls0, hl0, hd0, _, hn0, hm0⟩ := Allocator.allocator_init_live h0
    obtain ⟨ls1, lls1, hl1, _, hx1, hn1, hm1⟩ := Allocator.allocator_init_live h1
    have hsrc : Allocator.Src (size / 512)
        (if highest_bit (size / 512) < BUDDY_MAX_ORDER then highest_bit (size / 512)
         else BUDDY_MAX_ORDER) (a0, ([] : List (Nat × Nat))).1 (a0, ([] : List (Nat × Nat))).2 :=
      ⟨ls0, lls0, _, hl0, hd0, hn0, hm0⟩
    obtain ⟨lsA, llsA, TA, hA, _, hnA, hmA⟩ := Allocator.Src.run_src strict ops hops _ hsrc
    have hnd : l.Nodup := hperm.nodup_iff.2 (List.Nodup.of_map _ hA.nodup)
    exact Allocator.replay_zero strict hA l a1 ls1 lls1 _ [] hl1 hx1 (hn1.trans hnA.symm)
      (hm1.trans hmA.symm) (fun q hq => absurd hq (List.not_mem_nil _))
      (fun p hp => ⟨hperm.subset hp, List.not_mem_nil _⟩) hnd
  · intro n array array2 b0 b1 ops l h0 h1 hops hperm
    exact Buddy.replay_live h0 h1 ops hops l hperm

set_option maxRecDepth 100000 in
theorem replay_returns_zero_witness :
    (Allocator.allocator_init 4096 (some zero_chunks) (some zero_bitmaps) =
        .ok (Allocator.init_state 4096 zero_chunks zero_bitmaps) ∧
      [(0, 10), (10, 10)].Perm
        (Allocator.run false (Allocator.init_state 4096 zero_chunks zero_bitmaps, [])
          [.allocate 10, .allocate 10]).2 ∧
      ∀ r, r ∈ Allocator.replay false (Allocator.init_state 4096 zero_chunks zero_bitmaps)
        [(0, 10), (10, 10)] → r = 0) ∧
    (Buddy.buddy_init 8 (some zero_chunks) = .ok (Buddy.init_state 8 zero_chunks) ∧
      (∀ op, op ∈ [Buddy.Op.allocate 0, .allocate 1, .reserve 4 1, .free 0] →
        op.no_wrap (Buddy.init_state 8 zero_chunks).max_order = true) ∧
      [(2, 1), (4, 1)].Perm
        (Buddy.run (Buddy.init_state 8 zero_chunks, [])
          [.allocate 0, .allocate 1, .reserve 4 1, .free 0]).2 ∧
      ∀ r, r ∈ Buddy.replay (Buddy.init_state 8 zero_chunks) [(2, 1), (4, 1)] → r = 0) :=
  ⟨⟨rfl, by decide!,
    replay_returns_zero.1 false 4096 zero_chunks zero_chunks zero_bitmaps zero_bitmaps _ _
      [.allocate 10, .allocate 10] [(0, 10), (10, 10)] rfl rfl (by decide) (by decide!)⟩,
   ⟨rfl, by decide!, by decide!,
    replay_returns_zero.2 8 zero_chunks zero_chunks _ _
      [.allocate 0, .allocate 1, .reserve 4 1, .free 0] [(2, 1), (4, 1)] rfl rfl
      (by decide!) (by decide!)⟩⟩

/-- The result of `buddy_reserve` where the sum of `CHECK_BLOCK` does not
wrap: in every reachable buddy state, `buddy_reserve chunk_index order`
returns `EINVAL` iff the block is ill-formed (`order > max_order`,
`chunk_index` not a multiple of `2^order`, or
`chunk_index + 2^order > chunk_count`); otherwise it returns `EBUSY` iff some
chunk of `[chunk_index, chunk_index + 2^order)` is allocated; otherwise it
returns `0`. -/
theorem buddy_reserve_result (b : buddy_t) (h : Buddy.Reachable b) (chunk_index order : Nat)
    (hw : Buddy.no_wrap b chunk_index order) :
    ((Buddy.buddy_reserve b chunk_index order).2 = EINVAL ↔
      (order > b.max_order ∨ ¬ 2 ^ order ∣ chunk_index ∨
        chunk_index + 2 ^ order > b.chunk_count)) ∧
    ((Buddy.buddy_reserve b chunk_index order).2 ≠ EINVAL →
      ((Buddy.buddy_reserve b chunk_index order).2 = EBUSY ↔
        ∃ j, chunk_index ≤ j ∧ j < chunk_index + 2 ^ order ∧
          (b.chunk_array j).free = false)) ∧
    ((Buddy.buddy_reserve b chunk_index order).2 ≠ EINVAL →
      (Buddy.buddy_reserve b chunk_index order).2 ≠ EBUSY →
      (Buddy.buddy_reserve b chunk_index order).2 = 0) := by
  obtain ⟨ls, hinv⟩ := h.inv
  have hchk := Buddy.CHECK_BLOCK_iff b chunk_index order hw
  rw [Buddy.align_eq_iff_dvd] at hchk
  rw [Buddy.buddy_reserve_ret]
  cases hc : Buddy.CHECK_BLOCK b chunk_index order
  · have hill : order > b.max_order ∨ ¬ 2 ^ order ∣ chunk_index ∨
        chunk_index + 2 ^ order > b.chunk_count := by
      by_contra hn
      have : Buddy.CHECK_BLOCK b chunk_index order = true := by
        rw [hchk]
        refine ⟨by omega, ?_, by omega⟩
        by_contra hd
        exact hn (Or.inr (Or.inl hd))
      rw [hc] at this
      exact absurd this (by decide)
    simp only [if_true, true_iff, ne_eq, not_true_eq_false, false_implies, and_true]
    exact hill
  · obtain ⟨hm, hal, hr⟩ := hchk.1 hc
    have hwell : ¬ (order > b.max_order ∨ ¬ 2 ^ order ∣ chunk_index ∨
        chunk_index + 2 ^ order > b.chunk_count) := by
      rintro (h1 | h1 | h1)
      · omega
      · exact h1 hal
      · omega
    have hiff := hinv.pinv.reserve_ok_iff hm ((Buddy.align_eq_iff_dvd _ _).2 hal) hr
    simp only [Bool.true_eq_false, if_false]
    by_cases hok : (b.chunk_array chunk_index).free = true ∧
        order ≤ (b.chunk_array chunk_index).order
    · have hall := hiff.1 hok
      simp only [hok, and_self, not_true_eq_false, if_false]
      refine ⟨?_, ?_, fun _ _ => trivial⟩
      · constructor
        · intro e; exact absurd e (by decide)
        · intro e; exact absurd e hwell
      · intro _
        constructor
        · intro e; exact absurd e (by decide)
        · rintro ⟨j, h1, h2, h3⟩
          rw [hall j ⟨h1, h2⟩] at h3
          exact absurd h3 (by decide)
    · simp only [hok, not_false_eq_true, if_true]
      refine ⟨?_, ?_, fun _ e => absurd rfl e⟩
      · constructor
        · intro e; exact absurd e (by decide)
        · intro e; exact absurd e hwell
      · intro _
        refine ⟨fun _ => ?_, fun _ => trivial⟩
        by_contra hne
        apply hok
        apply hiff.2
        intro j hj
        by_contra hf
        apply hne
        refine ⟨j, hj.1, hj.2, ?_⟩
        cases hfj : (b.chunk_array j).free
        · rfl
        · exact absurd hfj hf

theorem buddy_reserve_result_witness :
    Buddy.Reachable (Buddy.init_state 8 zero_chunks) ∧
    Buddy.no_wrap (Buddy.init_state 8 zero_chunks) 2 1 ∧
    ((Buddy.buddy_reserve (Buddy.init_state 8 zero_chunks) 2 1).2 = EINVAL ↔
      (1 > (Buddy.init_state 8 zero_chunks).max_order ∨ ¬ 2 ^ 1 ∣ 2 ∨
        2 + 2 ^ 1 > (Buddy.init_state 8 zero_chunks).chunk_count)) ∧
    ((Buddy.buddy_reserve (Buddy.init_state 8 zero_chunks) 2 1).2 ≠ EINVAL →
      ((Buddy.buddy_reserve (Buddy.init_state 8 zero_chunks) 2 1).2 = EBUSY ↔
        ∃ j, 2 ≤ j ∧ j < 2 + 2 ^ 1 ∧
          ((Buddy.init_state 8 zero_chunks).chunk_array j).free = false)) ∧
    ((Buddy.buddy_reserve (Buddy.init_state 8 zero_chunks) 2 1).2 ≠ EINVAL →
      (Buddy.buddy_reserve (Buddy.init_state 8 zero_chunks) 2 1).2 ≠ EBUSY →
      (Buddy.buddy_reserve (Buddy.init_state 8 zero_chunks) 2 1).2 = 0) :=
  ⟨Buddy.Reachable.init 8 zero_chunks _ rfl, fun _ => by decide,
   buddy_reserve_result _ (Buddy.Reachable.init 8 zero_chunks _ rfl) 2 1 (fun _ => by decide)⟩

namespace Buddy

/-- The macro `CHECK_BLOCK` accepts the block of order `o` that ends at
`2^64`: the sum of its third test wraps to `0`. -/
theorem CHECK_BLOCK_wrap (b : buddy_t) (o : Nat) (hm : o ≤ b.max_order) (ho : o ≤ 64) :
    CHECK_BLOCK b (2 ^ 64 - 2 ^ o) o = true := by
  have hle : 2 ^ o ≤ 2 ^ 64 := Nat.pow_le_pow_right (by decide) ho
  have hpos := Nat.two_pow_pos o
  have hsplit : 2 ^ 64 = 2 ^ o * 2 ^ (64 - o) := by
    rw [← pow_add]; congr 1; omega
  have hal : BUDDY_ALIGN_TO_ORDER (2 ^ 64 - 2 ^ o) o = 2 ^ 64 - 2 ^ o := by
    rw [align_eq_iff_dvd]
    exact Nat.dvd_sub' ⟨_, hsplit⟩ (dvd_refl _)
  simp only [CHECK_BLOCK, Bool.and_eq_true, decide_eq_true_eq, BUDDY_ORDER_TO_COUNT_eq]
  refine ⟨hm, hal, ?_⟩
  rw [Nat.sub_add_cancel hle, Nat.mod_self]
  exact Nat.zero_le _

end Buddy

set_option maxRecDepth 1000000 in
/-- C10 (code defect): `buddy_reserve` does not return `EINVAL` for every
ill-formed block.  In any buddy state, for every order
`order ≤ max_order`, the block `(2 ^ 64 - 2 ^ order, order)` exceeds
`chunk_count`, but the sum `chunk_index + (1ULL << order)` of `CHECK_BLOCK`
wraps to `0`: the macro accepts the block and `buddy_reserve` goes on to the
descriptor `chunk_array + chunk_index`, which lies before the array, and
returns `EBUSY` or `0`.  On the fresh buddy of 8 chunks,
`buddy_reserve (2 ^ 64 - 1, 0)` returns `EBUSY` when the word before the
array has bit 0 clear, and `0` when it has bit 0 set (although no chunk of
the array is allocated). -/
theorem buddy_reserve_wrapped_block :
    (∀ (b : buddy_t) (order : Nat), b.chunk_count < 2 ^ 64 → order ≤ b.max_order →
      order ≤ BUDDY_MAX_ORDER →
      2 ^ 64 - 2 ^ order + 2 ^ order > b.chunk_count ∧
      Buddy.CHECK_BLOCK b (2 ^ 64 - 2 ^ order) order = true ∧
      (Buddy.buddy_reserve b (2 ^ 64 - 2 ^ order) order).2 ≠ EINVAL) ∧
    2 ^ 64 - 1 + 2 ^ 0 > (Buddy.init_state 8 zero_chunks).chunk_count ∧
    (Buddy.buddy_reserve (Buddy.init_state 8 zero_chunks) (2 ^ 64 - 1) 0).2 = EBUSY ∧
    (Buddy.buddy_reserve (Buddy.init_state 8 stray_chunks) (2 ^ 64 - 1) 0).2 = 0 ∧
    (List.range 8).all (fun j =>
      ((Buddy.init_state 8 stray_chunks).chunk_array j).free) = true := by
  refine ⟨?_, by decide!, by decide!, by decide!, by decide!⟩
  intro b order hc hm ho
  have h15 : BUDDY_MAX_ORDER = 15 := by decide
  have hle : 2 ^ order ≤ 2 ^ 64 := Nat.pow_le_pow_right (by decide) (by omega)
  have hchk := Buddy.CHECK_BLOCK_wrap b order hm (by omega)
  refine ⟨by rw [Nat.sub_add_cancel hle]; exact hc, hchk, ?_⟩
  rw [Buddy.buddy_reserve_ret, hchk]
  simp only [Bool.true_eq_false, if_false]
  split_ifs <;> decide

namespace Buddy

/-- The recursive search fails exactly when `order` exceeds `max_order` or
the lists of the orders `order .. max_order` are all empty. -/
theorem allocate_block_fail_iff (fuel : Nat) {b : buddy_t} {ls : Nat → List Nat}
    (h : BInvH b ls 0 0) (order : Nat) (hfuel : b.max_order + 2 - order ≤ fuel) :
    (allocate_block fuel b order).2 = BUDDY_FAIL ↔
      (order > b.max_order ∨
        ∀ o, order ≤ o → o ≤ b.max_order → (b.lists o).length = 0) := by
  induction fuel generalizing order with
  | zero =>
    constructor
    · intro _; left; omega
    · intro _; rfl
  | succ fuel ih =>
    rw [allocate_block]
    by_cases h1 : order > b.max_order
    · rw [if_pos h1]
      exact ⟨fun _ => Or.inl h1, fun _ => rfl⟩
    · rw [if_neg h1]
      by_cases h2 : (b.lists order).length ≠ 0
      · rw [if_pos h2]
        have hl := h.lists order
        have hne : ls order ≠ [] := fun e => h2 (hl.nil_iff.2 e)
        obtain ⟨c, t, hct⟩ := List.exists_cons_of_ne_nil hne
        have hhead : (b.lists order).head = some c := by
          rw [hl.head_eq, hct]; rfl
        have hmem : c ∈ ls order := by rw [hct]; exact List.mem_cons_self _ _
        have hb := ((h.mem order c).1 hmem).1
        rw [pop_list_head_eq b order c hhead]
        constructor
        · intro e
          exact absurd e (in_range_ne_fail h hb.in_range)
        · rintro (h3 | h3)
          · exact absurd h3 h1
          · exact absurd (h3 order (Nat.le_refl _) (by omega)) h2
      · rw [if_neg h2]
        have h2z : (b.lists order).length = 0 := by
          by_contra hne; exact h2 hne
        have hih := ih (order + 1) (by omega)
        simp only
        by_cases h3 : (allocate_block fuel b (order + 1)).2 = BUDDY_FAIL
        · rw [if_pos h3]
          refine ⟨fun _ => ?_, fun _ => rfl⟩
          right
          intro o ho1 ho2
          rcases hih.1 h3 with h4 | h4
          · have : o = order := by omega
            rw [this]; exact h2z
          · by_cases e : o = order
            · rw [e]; exact h2z
            · exact h4 o (by omega) ho2
        · rw [if_neg h3]
          constructor
          · intro e; exact absurd e h3
          · rintro (h4 | h4)
            · exact absurd h4 h1
            · exfalso
              apply h3
              apply hih.2
              by_cases h5 : order + 1 > b.max_order
              · exact Or.inl h5
              · right
                intro o ho1 ho2
                exact h4 o (by omega) ho2

theorem buddy_allocate_ret (b : buddy_t) (order : Nat) :
    (buddy_allocate b order).2 = (allocate_block (b.max_order + 2 - order) b order).2 := by
  unfold buddy_allocate
  simp only
  split_ifs with h
  · exact h.symm
  · rfl

end Buddy

namespace Buddy

/-- In a consistent state `buddy_free` succeeds exactly at the first chunk of
an allocated block. -/
theorem buddy_free_ok_iff_block {b : buddy_t} {ls : Nat → List Nat} (h : BInvH b ls 0 0)
    (c : Nat) : (buddy_free b c).2 = 0 ↔ ∃ o, IsBlock b c o false := by
  rw [buddy_free_ok_iff]
  constructor
  · rintro ⟨h1, h2, h3⟩
    obtain ⟨_, hal⟩ := CHECK_BLOCK_fst h3
    have hb := h.pinv.block_of h1
    rw [hal, h2] at hb
    exact ⟨_, hb⟩
  · rintro ⟨o, hb⟩
    refine ⟨hb.lt, hb.self.1, ?_⟩
    rw [hb.self.2]
    exact CHECK_BLOCK_of h hb.order_le hb.aligned hb.in_range

end Buddy

namespace Allocator
open Buddy

/-- Freeing the address of a live allocation returns `0`. -/
theorem Live.free_ok (strict : Bool) {a : allocator_t} {ls lls : Nat → List Nat}
    {T : Nat → Nat → Prop} {E : List (Nat × Nat)} (h : Live a ls lls T E)
    (hdir : Direct a T) {q : Nat × Nat} (hq : q ∈ E) :
    (allocator_free strict a q.1).2 = 0 := by
  have hinv := h.inv
  have hv := h.valid q hq
  have hin := hv.chunk_in hinv
  have hb := hv.1
  have hu := hb.uniform _ hin
  have hlt : q.1 / 512 < a.buddy.chunk_count := by
    have := hb.in_range
    have := hin.2
    omega
  have hal : BUDDY_ALIGN_TO_ORDER (q.1 / 512) (entry_order q) = entry_chunk q :=
    (in_block_iff hb.aligned _).1 hin
  by_cases hl : allocator_size_to_level q.2 < 0
  · have hv2 := hv.2
    rw [if_pos hl] at hv2
    have ht : (a.bitmap_array (entry_chunk q)).tiny = false := by
      rcases hdir _ _ hb with ⟨L, hT⟩ | ht
      · exact absurd hT (hv2.2 L)
      · exact ht
    rw [free_direct_eq strict a q.1 hlt hu.1 (by rw [hu.2, hal]; exact ht), hu.2, hal,
      if_neg (by rintro ⟨_, hne⟩; exact hne hv2.1)]
    exact (buddy_free_ok_iff_block hinv.lists.binv _).2 ⟨_, hb⟩
  · have hv2 := hv.2
    rw [if_neg hl] at hv2
    obtain ⟨hT, hbit, hclr, haddr⟩ := hv2
    have ht := hinv.tbitmap _ _ hT
    have hL := hinv.tlevel _ _ hT
    have ho := entry_order_tiny hl
    have hlev : entry_order q * 4 + (a.bitmap_array (entry_chunk q)).index_in_group =
        (allocator_size_to_level q.2).toNat := by
      rw [ht.2, ho]; omega
    have hgb : get_bit_index strict q.1 (entry_chunk q) (allocator_size_to_level q.2).toNat =
        ((entry_bit q : Nat) : Int) := by
      rw [get_bit_index_eq]
      have e1 : (q.1 - entry_chunk q * 512) /
          allocator_level_size (allocator_size_to_level q.2).toNat = entry_bit q := rfl
      rw [e1, if_neg]
      rintro (h1 | ⟨_, h1⟩)
      · omega
      · apply h1
        have : q.1 = entry_chunk q * 512 +
            entry_bit q * allocator_level_size (allocator_size_to_level q.2).toNat := haddr
        omega
    rw [free_tiny_eq strict a q.1 hlt hu.1 (by rw [hu.2, hal]; exact ht.1), hu.2, hal, hlev,
      hgb, if_neg (not_lt.2 (Int.natCast_nonneg _)), Int.toNat_natCast,
      if_neg (by rw [not_not, and_mask_eq_zero]; exact hclr)]

end Allocator

/-- C14: after any sequence of `allocator_allocate` and `allocator_free`
calls on a fresh allocator (whatever the prior contents of the metadata, in
either address mode), every address that a successful `allocator_allocate`
returned and that was not freed since (the live list of `Allocator.run`; a
successful `allocator_free` drops the allocation whose piece or block holds
the freed address) is freed by `allocator_free` with return value `0`. -/
theorem allocator_free_live (strict : Bool) (size : Nat) (cm : Nat → buddy_chunk_t)
    (bm : Nat → allocator_bitmap_t) (a0 : allocator_t) (ops : List Allocator.Op)
    (p : Nat × Nat) (h0 : Allocator.allocator_init size (some cm) (some bm) = .ok a0)
    (hops : ∀ op, op ∈ ops → op.is_reserve = false)
    (hp : p ∈ (Allocator.run strict (a0, []) ops).2) :
    (Allocator.allocator_free strict (Allocator.run strict (a0, []) ops).1 p.1).2 = 0 := by
  obtain ⟨ls0, lls0, hl0, hd0, _, hn0, hm0⟩ := Allocator.allocator_init_live h0
  have hsrc : Allocator.Src (size / 512)
      (if highest_bit (size / 512) < BUDDY_MAX_ORDER then highest_bit (size / 512)
       else BUDDY_MAX_ORDER) (a0, ([] : List (Nat × Nat))).1 (a0, ([] : List (Nat × Nat))).2 :=
    ⟨ls0, lls0, _, hl0, hd0, hn0, hm0⟩
  obtain ⟨lsA, llsA, TA, hA, hdA, _, _⟩ := Allocator.Src.run_src strict ops hops _ hsrc
  exact hA.free_ok strict hdA hp

set_option maxRecDepth 100000 in
theorem allocator_free_live_witness :
    Allocator.allocator_init 4096 (some zero_chunks) (some stale_bitmaps) =
        .ok (Allocator.init_state 4096 zero_chunks stale_bitmaps) ∧
    ((10, 10) : Nat × Nat) ∈
      (Allocator.run true (Allocator.init_state 4096 zero_chunks stale_bitmaps, [])
        [.allocate 10, .allocate 10, .allocate 600, .free 0]).2 ∧
    (Allocator.allocator_free true
      (Allocator.run true (Allocator.init_state 4096 zero_chunks stale_bitmaps, [])
        [.allocate 10, .allocate 10, .allocate 600, .free 0]).1 10).2 = 0 :=
  ⟨rfl, by decide!,
   allocator_free_live true 4096 zero_chunks stale_bitmaps _
     [.allocate 10, .allocate 10, .allocate 600, .free 0] (10, 10) rfl (by decide)
     (by decide!)⟩

namespace Buddy

theorem Kept.kept_refl (b : buddy_t) : Kept b b := ⟨rfl, rfl, fun _ => Or.inr ⟨rfl, rfl⟩⟩

theorem Kept.kept_of_sameFO {b b2 : buddy_t} (h : SameFO b b2) : Kept b b2 :=
  ⟨h.chunk_count, h.max_order, fun j => Or.inr ⟨h.free j, h.order j⟩⟩

theorem Kept.kept_trans {b b2 b3 : buddy_t} (h : Kept b b2) (h2 : Kept b2 b3) : Kept b b3 := by
  refine ⟨h2.1.trans h.1, h2.2.1.trans h.2.1, fun j => ?_⟩
  rcases h2.2.2 j with e | ⟨e1, e2⟩
  · exact Or.inl e
  · rcases h.2.2 j with e3 | ⟨e3, e4⟩
    · exact Or.inl (e1.trans e3)
    · exact Or.inr ⟨e1.trans e3, e2.trans e4⟩

theorem push_list_kept (b : buddy_t) (o c : Nat) : Kept b (push_list b o c) := by
  have h := push_list_setBlock b o c
  refine ⟨h.chunk_count, h.max_order, fun j => ?_⟩
  by_cases hj : in_block c o j
  · exact Or.inl (h.inside j hj).1
  · exact Or.inr (h.outside j hj)

/-- One step of `free_block`: either the buddy is popped and the recursion
goes on one order higher, or the block is pushed. -/
theorem free_block_succ (fuel : Nat) (b : buddy_t) (order c : Nat) :
    (order < b.max_order ∧
      free_block (fuel + 1) b order c =
        free_block fuel (pop_list b order (buddy_of c order)) (order + 1)
          (BUDDY_ALIGN_TO_ORDER c (order + 1))) ∨
    free_block (fuel + 1) b order c = push_list b order c := by
  have e0 : free_block (fuel + 1) b order c =
      (match (if order < b.max_order then
          if buddy_of c order < b.chunk_count then
            if (b.chunk_array (buddy_of c order)).order = order ∧
                (b.chunk_array (buddy_of c order)).free = true then
              some (buddy_of c order)
            else none
          else none
        else none : Option Nat) with
      | some buddy_chunk_index =>
        free_block fuel (pop_list b order buddy_chunk_index) (order + 1)
          (BUDDY_ALIGN_TO_ORDER c (order + 1))
      | none => push_list b order c) := rfl
  rw [e0]
  by_cases hcond : order < b.max_order ∧ buddy_of c order < b.chunk_count ∧
      ((b.chunk_array (buddy_of c order)).order = order ∧
        (b.chunk_array (buddy_of c order)).free = true)
  · obtain ⟨h1, h2, h3⟩ := hcond
    rw [if_pos h1, if_pos h2, if_pos h3]
    exact Or.inl ⟨h1, rfl⟩
  · have hnone : (if order < b.max_order then
        if buddy_of c order < b.chunk_count then
          if (b.chunk_array (buddy_of c order)).order = order ∧
              (b.chunk_array (buddy_of c order)).free = true then
            some (buddy_of c order)
          else none
        else none
      else none) = none := by
      split_ifs <;> first | rfl | (exfalso; apply hcond; constructor <;> [assumption; constructor <;> assumption])
    rw [hnone]
    exact Or.inr rfl

/-- In any state, `free_block` only turns chunks free. -/
theorem free_block_kept (fuel : Nat) (b : buddy_t) (order c : Nat) :
    Kept b (free_block fuel b order c) := by
  induction fuel generalizing b order c with
  | zero => exact Kept.kept_refl b
  | succ fuel ih =>
    rcases free_block_succ fuel b order c with ⟨_, e⟩ | e
    · rw [e]
      exact (Kept.kept_of_sameFO (pop_list_sameFO b order _)).kept_trans (ih _ _ _)
    · rw [e]
      exact push_list_kept b order c

/-- In any state, `free_block` leaves the chunk it was started at free. -/
theorem free_block_free (fuel : Nat) (b : buddy_t) (order x : Nat) (hm : order ≤ b.max_order)
    (hfuel : b.max_order + 1 ≤ fuel + order) :
    ((free_block fuel b order (BUDDY_ALIGN_TO_ORDER x order)).chunk_array x).free = true := by
  induction fuel generalizing b order with
  | zero => omega
  | succ fuel ih =>
    rcases free_block_succ fuel b order (BUDDY_ALIGN_TO_ORDER x order) with ⟨hlt, e⟩ | e
    · rw [e, align_align_le (Nat.le_succ order)]
      exact ih _ _ (by rw [pop_list_max_order]; omega) (by rw [pop_list_max_order]; omega)
    · rw [e]
      exact ((push_list_setBlock b order _).inside x ⟨align_le x order, lt_align_add x order⟩).1

theorem buddy_free_kept (b : buddy_t) (c : Nat) : Kept b (buddy_free b c).1 := by
  unfold buddy_free
  simp only
  split_ifs
  · exact Kept.kept_refl b
  · exact Kept.kept_refl b
  · exact Kept.kept_refl b
  · exact free_block_kept _ _ _ _

/-- In any state, the chunk given to a successful `buddy_free` is free
afterwards. -/
theorem buddy_free_frees (b : buddy_t) (c : Nat) (h : (buddy_free b c).2 = 0) :
    ((buddy_free b c).1.chunk_array c).free = true := by
  obtain ⟨hc, hfree, hchk⟩ := (buddy_free_ok_iff b c).1 h
  obtain ⟨hm, hal⟩ := CHECK_BLOCK_fst hchk
  have e : buddy_free b c =
      (free_block (b.max_order + 1 - (b.chunk_array c).order) b (b.chunk_array c).order c,
        0) := by
    unfold buddy_free
    simp [hc, hfree, hchk]
  rw [e]
  have := free_block_free (b.max_order + 1 - (b.chunk_array c).order) b
    (b.chunk_array c).order c hm (by omega)
  rw [hal] at this
  exact this

/-- In any state, `buddy_free` on a free chunk fails. -/
theorem buddy_free_of_free (b : buddy_t) (c : Nat) (h : (b.chunk_array c).free = true) :
    buddy_free b c = (b, EINVAL) := by
  unfold buddy_free
  simp only [h, if_true]
  split_ifs <;> rfl

end Buddy

namespace Allocator
open Buddy

theorem give_piece_kept (a : allocator_t) (L c mask : Nat) :
    Kept a.buddy (give_piece a L c mask).buddy := by
  have h1 := Kept.kept_of_sameFO (set_piece_sameFO a L c mask)
  unfold give_piece
  simp only
  split_ifs
  · refine h1.kept_trans (Kept.kept_trans ?_ (buddy_free_kept _ c))
    rw [level_pop_buddy]
    exact ⟨rfl, rfl, fun j => Or.inr ⟨pop_links_free _ _ _ _, pop_links_order _ _ _ _⟩⟩
  · exact h1

theorem get_bit_index_neg (strict : Bool) (addr c L : Nat)
    (h : get_bit_index strict addr c L < 0) :
    (-(get_bit_index strict addr c L)).toNat = EINVAL := by
  rw [get_bit_index_eq] at h ⊢
  split_ifs at h ⊢ with h1
  · rfl
  · exact absurd h (not_lt.2 (Int.natCast_nonneg _))

/-- Double free, in any state: after a successful `allocator_free` the same
call fails with `EINVAL` and changes nothing. -/
theorem free_twice (strict : Bool) (a : allocator_t) (addr : Nat)
    (h : (allocator_free strict a addr).2 = 0) :
    allocator_free strict (allocator_free strict a addr).1 addr =
      ((allocator_free strict a addr).1, EINVAL) := by
  by_cases h1 : addr / 512 < a.buddy.chunk_count
  swap
  · rw [free_error_eq strict a addr (Or.inl h1)] at h
    exact absurd h (by decide : EINVAL ≠ 0)
  cases h2 : (a.buddy.chunk_array (addr / 512)).free
  swap
  · rw [free_error_eq strict a addr (Or.inr h2)] at h
    exact absurd h (by decide : EINVAL ≠ 0)
  cases ht : (a.bitmap_array (BUDDY_ALIGN_TO_ORDER (addr / 512)
      (a.buddy.chunk_array (addr / 512)).order)).tiny
  · -- a direct block
    have e := free_direct_eq strict a addr h1 h2 ht
    by_cases hs : strict = true ∧ addr ≠ BUDDY_ALIGN_TO_ORDER (addr / 512)
        (a.buddy.chunk_array (addr / 512)).order * 512
    · rw [e, if_pos hs] at h
      exact absurd h (by decide : EINVAL ≠ 0)
    rw [if_neg hs] at e
    rw [e] at h ⊢
    have hk := buddy_free_kept a.buddy (BUDDY_ALIGN_TO_ORDER (addr / 512)
        (a.buddy.chunk_array (addr / 512)).order)
    have hf := buddy_free_frees a.buddy _ h
    generalize (buddy_free a.buddy (BUDDY_ALIGN_TO_ORDER (addr / 512)
        (a.buddy.chunk_array (addr / 512)).order)).1 = b2 at hk hf ⊢
    show allocator_free strict { a with buddy := b2 } addr = ({ a with buddy := b2 }, EINVAL)
    cases h3 : (b2.chunk_array (addr / 512)).free
    · rcases hk.2.2 (addr / 512) with e3 | ⟨_, e4⟩
      · rw [h3] at e3; exact absurd e3 (by decide)
      · rw [free_direct_eq strict { a with buddy := b2 } addr (by rw [← hk.1] at h1; exact h1) h3
          (by
            show (a.bitmap_array (BUDDY_ALIGN_TO_ORDER (addr / 512)
              (b2.chunk_array (addr / 512)).order)).tiny = false
            rw [e4]; exact ht)]
        have e5 : ({ a with buddy := b2 } : allocator_t).buddy = b2 := rfl
        rw [e5, e4, if_neg hs, buddy_free_of_free b2 _ hf]
    · exact free_error_eq strict { a with buddy := b2 } addr (Or.inr h3)
  · -- a tiny block
    have e := free_tiny_eq strict a addr h1 h2 ht
    obtain ⟨o, ho⟩ : ∃ o, o = (a.buddy.chunk_array (addr / 512)).order := ⟨_, rfl⟩
    rw [← ho] at e ht
    obtain ⟨c, hc⟩ : ∃ c, c = BUDDY_ALIGN_TO_ORDER (addr / 512) o := ⟨_, rfl⟩
    rw [← hc] at e ht
    obtain ⟨L, hL⟩ : ∃ L, L = o * 4 + (a.bitmap_array c).index_in_group := ⟨_, rfl⟩
    rw [← hL] at e
    by_cases hb : get_bit_index strict addr c L < 0
    · rw [e, if_pos hb, get_bit_index_neg strict _ _ _ hb] at h
      exact absurd h (by decide : EINVAL ≠ 0)
    rw [if_neg hb] at e
    obtain ⟨i, hi⟩ : ∃ i, i = (get_bit_index strict addr c L).toNat := ⟨_, rfl⟩
    rw [← hi] at e
    by_cases hm : (a.bitmap_array c).frees &&& 2 ^ i ≠ 0
    · rw [e, if_pos hm] at h
      exact absurd h (by decide : EINVAL ≠ 0)
    rw [if_neg hm] at e
    rw [e]
    have hk := give_piece_kept a L c (2 ^ i)
    have hbm := give_piece_bitmap a L c (2 ^ i)
    generalize give_piece a L c (2 ^ i) = a2 at hk hbm ⊢
    show allocator_free strict a2 addr = (a2, EINVAL)
    cases h3 : (a2.buddy.chunk_array (addr / 512)).free
    · rcases hk.2.2 (addr / 512) with e3 | ⟨_, e4⟩
      · rw [h3] at e3; exact absurd e3 (by decide)
      · rw [← ho] at e4
        have hbc : a2.bitmap_array c =
            { a.bitmap_array c with frees := (a.bitmap_array c).frees ||| 2 ^ i } := by
          rw [hbm]; exact store_same _ _ _
        rw [free_tiny_eq strict a2 addr (by rw [← hk.1] at h1; exact h1) h3
          (by rw [e4, ← hc, hbc]; exact ht), e4, ← hc, hbc]
        simp only
        rw [← hL, if_neg hb, ← hi, if_pos]
        intro hz
        rw [and_mask_eq_zero, or_mask_testBit] at hz
        simp at hz
    · exact free_error_eq strict a2 addr (Or.inr h3)

end Allocator

/-- C16: double free.  In any state (reachable or not) and either address
mode, if `allocator_free addr` returns `0` then the same call made right
after it returns `EINVAL` and leaves the state unchanged. -/
theorem double_free_einval (strict : Bool) (a : allocator_t) (addr : Nat)
    (h : (Allocator.allocator_free strict a addr).2 = 0) :
    (Allocator.allocator_free strict (Allocator.allocator_free strict a addr).1 addr).2 =
      EINVAL ∧
    (Allocator.allocator_free strict (Allocator.allocator_free strict a addr).1 addr).1 =
      (Allocator.allocator_free strict a addr).1 := by
  rw [Allocator.free_twice strict a addr h]
  exact ⟨rfl, rfl⟩

set_option maxRecDepth 1000000 in
theorem double_free_einval_witness :
    ((Allocator.allocator_free true
        (Allocator.trace true (Allocator.init_state 4096 zero_chunks zero_bitmaps)
          [.allocate 10, .allocate 10]).1 0).2 = 0 ∧
      (Allocator.allocator_free true (Allocator.allocator_free true
        (Allocator.trace true (Allocator.init_state 4096 zero_chunks zero_bitmaps)
          [.allocate 10, .allocate 10]).1 0).1 0).2 = EINVAL ∧
      (Allocator.allocator_free true (Allocator.allocator_free true
        (Allocator.trace true (Allocator.init_state 4096 zero_chunks zero_bitmaps)
          [.allocate 10, .allocate 10]).1 0).1 0).1 =
        (Allocator.allocator_free true
          (Allocator.trace true (Allocator.init_state 4096 zero_chunks zero_bitmaps)
            [.allocate 10, .allocate 10]).1 0).1) ∧
    ((Allocator.allocator_free true
        (Allocator.trace true (Allocator.init_state 4096 zero_chunks zero_bitmaps)
          [.allocate 10]).1 0).2 = 0 ∧
      (Allocator.allocator_free true (Allocator.allocator_free true
        (Allocator.trace true (Allocator.init_state 4096 zero_chunks zero_bitmaps)
          [.allocate 10]).1 0).1 0).2 = EINVAL ∧
      (Allocator.allocator_free true (Allocator.allocator_free true
        (Allocator.trace true (Allocator.init_state 4096 zero_chunks zero_bitmaps)
          [.allocate 10]).1 0).1 0).1 =
        (Allocator.allocator_free true
          (Allocator.trace true (Allocator.init_state 4096 zero_chunks zero_bitmaps)
            [.allocate 10]).1 0).1) ∧
    ((Allocator.allocator_free true
        (Allocator.trace true (Allocator.init_state (1024 * 512) zero_chunks zero_bitmaps)
          [.allocate 458753]).1 0).2 = 0 ∧
      (Allocator.allocator_free true (Allocator.allocator_free true
        (Allocator.trace true (Allocator.init_state (1024 * 512) zero_chunks zero_bitmaps)
          [.allocate 458753]).1 0).1 0).2 = EINVAL ∧
      (Allocator.allocator_free true (Allocator.allocator_free true
        (Allocator.trace true (Allocator.init_state (1024 * 512) zero_chunks zero_bitmaps)
          [.allocate 458753]).1 0).1 0).1 =
        (Allocator.allocator_free true
          (Allocator.trace true (Allocator.init_state (1024 * 512) zero_chunks zero_bitmaps)
            [.allocate 458753]).1 0).1) :=
  ⟨⟨by decide!, double_free_einval true _ 0 (by decide!)⟩,
   ⟨by decide!, double_free_einval true _ 0 (by decide!)⟩,
   ⟨by decide!, double_free_einval true _ 0 (by decide!)⟩⟩

namespace Allocator
open Buddy

/-- A reachable state satisfies the slab invariant for some list of live
allocations. -/
theorem Reached.live {strict : Bool} {a : allocator_t} (h : Reached strict a) :
    ∃ ls lls T E, Live a ls lls T E ∧ Direct a T := by
  induction h with
  | init size cm bm a h0 =>
    obtain ⟨ls0, lls0, hl0, hd0, _, _, _⟩ := allocator_init_live h0
    exact ⟨ls0, lls0, _, [], hl0, hd0⟩
  | allocate a size _ ih =>
    obtain ⟨ls, lls, T, E, hl, hd⟩ := ih
    rcases allocate_added hl size with ⟨_, e2⟩ | ⟨_, ls2, lls2, T2, h1, h2, _, _, _⟩
    · rw [e2]; exact ⟨ls, lls, T, E, hl, hd⟩
    · exact ⟨ls2, lls2, T2, _, h1, h2 hd⟩
  | free a addr _ ih =>
    obtain ⟨ls, lls, T, E, hl, hd⟩ := ih
    rcases free_removed strict hl hd addr with ⟨_, e2⟩ | ⟨_, ls2, lls2, T2, h1, h2, _, _⟩
    · rw [e2]; exact ⟨ls, lls, T, E, hl, hd⟩
    · exact ⟨ls2, lls2, T2, _, h1, h2⟩

theorem with_buddy_self (a : allocator_t) : { a with buddy := a.buddy } = a := rfl

/-- A failing `allocator_reserve` leaves the state as it was. -/
theorem allocator_reserve_fail (strict : Bool) (a : allocator_t) (addr size : Nat)
    (h : (allocator_reserve strict a addr size).2 ≠ 0) :
    (allocator_reserve strict a addr size).1 = a := by
  unfold allocator_reserve at h ⊢
  simp only at h ⊢
  split_ifs at h ⊢ with h1 h2 h3 h4 h5 h6 h7
  · rfl
  · rfl
  · show { a with buddy := _ } = a
    rw [buddy_reserve_fail _ _ _ h]
  · rfl
  · show { a with buddy := _ } = a
    rw [buddy_reserve_fail _ _ _ h6]
  · exact absurd rfl h
  · rfl
  · exact absurd rfl h

/-- A failing `allocator_free` leaves the state as it was. -/
theorem allocator_free_fail (strict : Bool) (a : allocator_t) (addr : Nat)
    (h : (allocator_free strict a addr).2 ≠ 0) : (allocator_free strict a addr).1 = a := by
  unfold allocator_free at h ⊢
  simp only at h ⊢
  split_ifs at h ⊢
  · rfl
  · rfl
  · rfl
  · show { a with buddy := _ } = a
    rw [buddy_free_fail _ _ h]
  · rfl
  · rfl
  · exact absurd rfl h

end Allocator

namespace Buddy

theorem pop_list_head_snd (b : buddy_t) (o : Nat) :
    (pop_list_head b o).2 = (b.lists o).head.getD 0 := rfl

/-- In any state in which no list head is the chunk whose index is the
sentinel `BUDDY_FAIL`, a failing `allocate_block` leaves the state as it
was. -/
theorem allocate_block_fail (fuel : Nat) (b : buddy_t) (order : Nat)
    (hh : ∀ o, o ≤ b.max_order → (b.lists o).head ≠ some BUDDY_FAIL)
    (hf : (allocate_block fuel b order).2 = BUDDY_FAIL) :
    (allocate_block fuel b order).1 = b := by
  induction fuel generalizing order with
  | zero => rfl
  | succ fuel ih =>
    unfold allocate_block at hf ⊢
    by_cases h1 : order > b.max_order
    · rw [if_pos h1]
    · rw [if_neg h1] at hf ⊢
      by_cases h2 : (b.lists order).length ≠ 0
      · rw [if_pos h2] at hf ⊢
        exfalso
        rw [pop_list_head_snd] at hf
        cases hhd : (b.lists order).head with
        | none => rw [hhd] at hf; exact absurd hf (by decide)
        | some c =>
          rw [hhd] at hf
          have : c = BUDDY_FAIL := hf
          exact hh order (by omega) (by rw [hhd, this])
      · rw [if_neg h2] at hf ⊢
        by_cases h3 : (allocate_block fuel b (order + 1)).2 = BUDDY_FAIL
        · simp only [h3, if_true]
          exact ih (order + 1) h3
        · simp only [h3, if_false] at hf

theorem buddy_allocate_fail (b : buddy_t) (order : Nat)
    (hh : ∀ o, o ≤ b.max_order → (b.lists o).head ≠ some BUDDY_FAIL)
    (hf : (buddy_allocate b order).2 = BUDDY_FAIL) : (buddy_allocate b order).1 = b := by
  unfold buddy_allocate at hf ⊢
  by_cases h3 : (allocate_block (b.max_order + 2 - order) b order).2 = BUDDY_FAIL
  · simp only [h3, if_true]
    exact allocate_block_fail _ b order hh h3
  · simp only [h3, if_false] at hf

/-- In a state that satisfies the invariant no list head is the chunk whose
index is the sentinel. -/
theorem BInvH.head_ne_fail {b : buddy_t} {ls : Nat → List Nat} {hc hs : Nat}
    (h : BInvH b ls hc hs) (o : Nat) : (b.lists o).head ≠ some BUDDY_FAIL := by
  intro e
  have hl := h.lists o
  have he := hl.head_eq
  rw [e] at he
  have hmem : BUDDY_FAIL ∈ ls o := List.mem_of_mem_head? he.symm
  exact in_range_ne_fail h ((h.mem o _).1 hmem).1.in_range rfl

end Buddy

namespace Allocator
open Buddy

theorem level_size_even : ∀ L, L < 64 → allocator_level_size L % 2 = 0 := by
  decide!

/-- In any state in which no free-list head is the chunk whose index is the
sentinel, a failing `allocator_allocate` leaves the state as it was. -/
theorem allocator_allocate_fail (a : allocator_t) (size : Nat)
    (hh : ∀ o, o ≤ a.buddy.max_order → (a.buddy.lists o).head ≠ some BUDDY_FAIL)
    (hf : (allocator_allocate a size).2 = ALLOCATOR_FAIL) :
    (allocator_allocate a size).1 = a := by
  have hodd : ALLOCATOR_FAIL % 2 = 1 := by decide
  unfold allocator_allocate at hf ⊢
  by_cases hl : allocator_size_to_level size < 0
  · simp only [hl, if_true] at hf ⊢
    by_cases h3 : (buddy_allocate a.buddy (-allocator_size_to_level size).toNat).2 = BUDDY_FAIL
    · simp only [h3, if_true]
      show { a with buddy := _ } = a
      rw [buddy_allocate_fail _ _ hh h3]
    · simp only [h3, if_false] at hf
      exfalso
      have : ALLOCATOR_CHUNK_SIZE = 512 := rfl
      rw [this] at hf
      omega
  · simp only [hl, if_false] at hf ⊢
    have hL := size_to_level_le size (not_lt.1 hl)
    generalize (allocator_size_to_level size).toNat = L at hf hL ⊢
    have hev := level_size_even L (by omega)
    by_cases h0 : (a.lists L).length = 0
    · simp only [h0, if_true] at hf ⊢
      by_cases h3 : (buddy_allocate a.buddy (ALLOCATOR_LEVEL_TO_ORDER L)).2 = BUDDY_FAIL
      · simp only [h3, if_true]
        show { a with buddy := _ } = a
        rw [buddy_allocate_fail _ _ hh h3]
      · simp only [h3, if_false] at hf
        exfalso
        have : ALLOCATOR_CHUNK_SIZE = 512 := rfl
        rw [this] at hf
        have hm := Nat.mul_mod (ctzll ((init_bitmap (push_list { a with buddy := (buddy_allocate a.buddy (ALLOCATOR_LEVEL_TO_ORDER L)).1 } L (buddy_allocate a.buddy (ALLOCATOR_LEVEL_TO_ORDER L)).2) (buddy_allocate a.buddy (ALLOCATOR_LEVEL_TO_ORDER L)).2 L).bitmap_array (buddy_allocate a.buddy (ALLOCATOR_LEVEL_TO_ORDER L)).2).frees) (allocator_level_size L) 2
        rw [hev, Nat.mul_zero, Nat.zero_mod] at hm
        omega
    · simp only [h0, if_false] at hf ⊢
      exfalso
      have : ALLOCATOR_CHUNK_SIZE = 512 := rfl
      rw [this] at hf
      have hm := Nat.mul_mod (ctzll (a.bitmap_array ((a.lists L).head.getD 0)).frees)
        (allocator_level_size L) 2
      rw [hev, Nat.mul_zero, Nat.zero_mod] at hm
      omega

end Allocator

/-- C15: failure atomicity.  A `buddy_reserve` or `buddy_free` that returns
a non-zero code returns the buddy it was given, and an `allocator_reserve`
or `allocator_free` that returns a non-zero code returns the allocator it was
given (descriptors, bitmaps, per-order and per-level lists), in any state and
either address mode.  A `buddy_allocate` that returns `BUDDY_FAIL` returns the
buddy it was given, and an `allocator_allocate` that returns `ALLOCATOR_FAIL`
returns the allocator it was given, in any state in which no free list of the
buddy has its head at the chunk index `2 ^ 64 - 1` (the value of the
sentinel: the index of a block popped there could not be told from a
failure).  In the code the link fields `prev` and `next` are 29 bits wide,
and a head pointer is `chunk_array` plus such a link or plus an index handed
to `push_list`; the indices of this development are unbounded, so the
condition on the heads is stated.  No free list has such a head in a
reachable buddy state, nor in an allocator state reachable by
`allocator_allocate` and `allocator_free` calls, and the example applies the
`allocator_allocate` part in a state reached with `allocator_reserve`. -/
theorem failure_atomicity :
    (∀ (b : buddy_t) (chunk_index order : Nat),
      (Buddy.buddy_reserve b chunk_index order).2 ≠ 0 →
      (Buddy.buddy_reserve b chunk_index order).1 = b) ∧
    (∀ (b : buddy_t) (chunk_index : Nat),
      (Buddy.buddy_free b chunk_index).2 ≠ 0 → (Buddy.buddy_free b chunk_index).1 = b) ∧
    (∀ (b : buddy_t) (order : Nat),
      (∀ o, o ≤ b.max_order → (b.lists o).head ≠ some BUDDY_FAIL) →
      (Buddy.buddy_allocate b order).2 = BUDDY_FAIL → (Buddy.buddy_allocate b order).1 = b) ∧
    (∀ (strict : Bool) (a : allocator_t) (addr size : Nat),
      (Allocator.allocator_reserve strict a addr size).2 ≠ 0 →
      (Allocator.allocator_reserve strict a addr size).1 = a) ∧
    (∀ (strict : Bool) (a : allocator_t) (addr : Nat),
      (Allocator.allocator_free strict a addr).2 ≠ 0 →
      (Allocator.allocator_free strict a addr).1 = a) ∧
    (∀ (a : allocator_t) (size : Nat),
      (∀ o, o ≤ a.buddy.max_order → (a.buddy.lists o).head ≠ some BUDDY_FAIL) →
      (Allocator.allocator_allocate a size).2 = ALLOCATOR_FAIL →
      (Allocator.allocator_allocate a size).1 = a) ∧
    (∀ (b : buddy_t), Buddy.Reachable b → ∀ o, (b.lists o).head ≠ some BUDDY_FAIL) ∧
    (∀ (strict : Bool) (a : allocator_t), Allocator.Reached strict a →
      ∀ o, (a.buddy.lists o).head ≠ some BUDDY_FAIL) := by
  refine ⟨Buddy.buddy_reserve_fail, Buddy.buddy_free_fail, Buddy.buddy_allocate_fail,
    Allocator.allocator_reserve_fail, Allocator.allocator_free_fail,
    Allocator.allocator_allocate_fail, ?_, ?_⟩
  · intro b h o
    obtain ⟨ls, hinv⟩ := h.inv
    exact hinv.head_ne_fail o
  · intro strict a h o
    obtain ⟨ls, lls, T, E, hl, _⟩ := h.live
    exact hl.inv.lists.binv.head_ne_fail o

set_option maxRecDepth 1000000 in
theorem failure_atomicity_witness :
    ((Buddy.buddy_reserve (Buddy.init_state 8 zero_chunks) 1 1).2 ≠ 0 ∧
      (Buddy.buddy_reserve (Buddy.init_state 8 zero_chunks) 1 1).1 =
        Buddy.init_state 8 zero_chunks) ∧
    ((Buddy.buddy_free (Buddy.init_state 8 zero_chunks) 0).2 ≠ 0 ∧
      (Buddy.buddy_free (Buddy.init_state 8 zero_chunks) 0).1 =
        Buddy.init_state 8 zero_chunks) ∧
    ((∀ o, o ≤ (Buddy.init_state 8 zero_chunks).max_order →
        ((Buddy.init_state 8 zero_chunks).lists o).head ≠ some BUDDY_FAIL) ∧
      (Buddy.buddy_allocate (Buddy.init_state 8 zero_chunks) 4).2 = BUDDY_FAIL ∧
      (Buddy.buddy_allocate (Buddy.init_state 8 zero_chunks) 4).1 =
        Buddy.init_state 8 zero_chunks) ∧
    ((Allocator.allocator_reserve true (Allocator.init_state 4096 zero_chunks zero_bitmaps)
        3 8).2 ≠ 0 ∧
      (Allocator.allocator_reserve true (Allocator.init_state 4096 zero_chunks zero_bitmaps)
        3 8).1 = Allocator.init_state 4096 zero_chunks zero_bitmaps) ∧
    ((Allocator.allocator_free true (Allocator.init_state 4096 zero_chunks zero_bitmaps)
        0).2 ≠ 0 ∧
      (Allocator.allocator_free true (Allocator.init_state 4096 zero_chunks zero_bitmaps)
        0).1 = Allocator.init_state 4096 zero_chunks zero_bitmaps) ∧
    ((Allocator.allocator_reserve false
        (Allocator.init_state (1024 * 512) zero_chunks zero_bitmaps) 0 458753).2 = 0 ∧
      (∀ o, o ≤ (Allocator.allocator_reserve false
          (Allocator.init_state (1024 * 512) zero_chunks zero_bitmaps) 0 458753).1.buddy.max_order →
        ((Allocator.allocator_reserve false
          (Allocator.init_state (1024 * 512) zero_chunks zero_bitmaps)
            0 458753).1.buddy.lists o).head ≠ some BUDDY_FAIL) ∧
      (Allocator.allocator_allocate (Allocator.allocator_reserve false
        (Allocator.init_state (1024 * 512) zero_chunks zero_bitmaps) 0 458753).1 8).2 =
        ALLOCATOR_FAIL ∧
      (Allocator.allocator_allocate (Allocator.allocator_reserve false
        (Allocator.init_state (1024 * 512) zero_chunks zero_bitmaps) 0 458753).1 8).1 =
        (Allocator.allocator_reserve false
          (Allocator.init_state (1024 * 512) zero_chunks zero_bitmaps) 0 458753).1) :=
  ⟨⟨by decide!, failure_atomicity.1 _ 1 1 (by decide!)⟩,
   ⟨by decide!, failure_atomicity.2.1 _ 0 (by decide!)⟩,
   ⟨by decide!, by decide!,
    failure_atomicity.2.2.1 _ 4 (by decide!) (by decide!)⟩,
   ⟨by decide!, failure_atomicity.2.2.2.1 true _ 3 8 (by decide!)⟩,
   ⟨by decide!, failure_atomicity.2.2.2.2.1 true _ 0 (by decide!)⟩,
   ⟨by decide!, by decide!, by decide!,
    failure_atomicity.2.2.2.2.2.1 _ 8 (by decide!) (by decide!)⟩⟩

namespace Allocator

/-- A successful `allocator_init` returns `init_state`. -/
theorem init_state_ok (size : Nat) (cm : Nat → buddy_chunk_t) (bm : Nat → allocator_bitmap_t)
    (h : ¬ (size / 512 = 0 ∨ size / 512 > BUDDY_MAX_CHUNK_COUNT)) :
    allocator_init size (some cm) (some bm) = .ok (init_state size cm bm) := by
  have hb : ¬ (size / ALLOCATOR_CHUNK_SIZE = 0 ∨
      size / ALLOCATOR_CHUNK_SIZE > ALLOCATOR_MAX_CHUNK_COUNT) := h
  have e : ∃ b, Buddy.buddy_init (size / ALLOCATOR_CHUNK_SIZE) (some cm) = .ok b := by
    unfold Buddy.buddy_init
    have hc : ¬ (size / ALLOCATOR_CHUNK_SIZE = 0 ∨
        size / ALLOCATOR_CHUNK_SIZE > BUDDY_MAX_CHUNK_COUNT) := h
    rw [if_neg hc]
    exact ⟨_, rfl⟩
  obtain ⟨b, hb2⟩ := e
  have e2 : allocator_init size (some cm) (some bm) =
      .ok { buddy := b, bitmap_array := bm, lists := fun _ => { head := none, length := 0 } } := by
    unfold allocator_init
    simp only [hb, if_false, hb2]
  unfold init_state
  rw [e2]

end Allocator

namespace Allocator
open Buddy

/-- A successful `allocator_allocate` in a reachable state: the returned
address with the requested size is a live allocation of the new state. -/
theorem Reached.allocated {strict : Bool} {a : allocator_t} (h : Reached strict a)
    (size : Nat) (hne : (allocator_allocate a size).2 ≠ ALLOCATOR_FAIL) :
    ∃ ls lls T, AInv (allocator_allocate a size).1 ls lls T ∧
      Direct (allocator_allocate a size).1 T ∧
      Valid (allocator_allocate a size).1 T ((allocator_allocate a size).2, size) := by
  obtain ⟨ls, lls, T, E, hl, hd⟩ := h.live
  rcases allocate_added hl size with ⟨e, _⟩ | ⟨_, ls2, lls2, T2, h1, h2, _, _, _⟩
  · exact absurd e hne
  · exact ⟨ls2, lls2, T2, h1.inv, h2 hd, h1.valid _ (List.mem_cons_self _ _)⟩

theorem level_size_dvd_block :
    ∀ L, L < 64 → L % 4 = 0 → (2 ^ (L / 4) * 512) % allocator_level_size L = 0 := by
  decide!

end Allocator

/-- C17 (counterexample): on a fresh allocator of 8 chunks, `allocate (8)`
returns `0` and `allocate (10)` then returns `512`; the size `10` is tiny of
level `1`, whose level size is `10`, and `512` is not a multiple of `10`. -/
theorem allocate_address_not_multiple :
    allocator_size_to_level 10 = 1 ∧ allocator_level_size 1 = 10 ∧
    (Allocator.from_init true 4096 zero_chunks zero_bitmaps [.allocate 8, .allocate 10]).map
      (fun r => r.2) = some [0, 512] ∧
    512 % allocator_level_size 1 ≠ 0 := by
  decide!

/-- C17 (amended): in every state reachable from `allocator_init` by
`allocator_allocate` and `allocator_free` calls, an address returned by
`allocator_allocate size` for a tiny size of level `L` lies in a block of
`2 ^ (L / 4)` chunks at an offset that is a multiple of
`allocator_level_size L`, the piece lies inside the block, and when
`L % 4 = 0` the address itself is a multiple of `allocator_level_size L`. -/
theorem allocate_tiny_offset (strict : Bool) (a : allocator_t) (size L : Nat)
    (h : Allocator.Reached strict a) (hl : allocator_size_to_level size = (L : Int))
    (hne : (Allocator.allocator_allocate a size).2 ≠ ALLOCATOR_FAIL) :
    (Allocator.allocator_allocate a size).2 % (2 ^ (L / 4) * 512) %
      allocator_level_size L = 0 ∧
    (Allocator.allocator_allocate a size).2 % (2 ^ (L / 4) * 512) + allocator_level_size L ≤
      2 ^ (L / 4) * 512 ∧
    (L % 4 = 0 → (Allocator.allocator_allocate a size).2 % allocator_level_size L = 0) := by
  obtain ⟨ls, lls, T, hinv, _, hv⟩ := h.allocated size hne
  generalize (Allocator.allocator_allocate a size).2 = addr at hv ⊢
  generalize (Allocator.allocator_allocate a size).1 = a2 at hv hinv
  have hneg : ¬ allocator_size_to_level (addr, size).2 < 0 := by
    show ¬ allocator_size_to_level size < 0
    rw [hl]; exact not_lt.2 (Int.natCast_nonneg _)
  have hlev : (allocator_size_to_level (addr, size).2).toNat = L := by
    show (allocator_size_to_level size).toNat = L
    rw [hl]; exact Int.toNat_natCast L
  have hb := hv.1
  have hv2 := hv.2
  rw [if_neg hneg, hlev] at hv2
  obtain ⟨hT, hbit, _, haddr⟩ := hv2
  have ho : Allocator.entry_order (addr, size) = L / 4 := by
    rw [Allocator.entry_order_tiny hneg, hlev]
  rw [ho] at hb
  have hL := hinv.tlevel _ _ hT
  have hfit := Allocator.piece_fits hL hbit
  obtain ⟨k, hk⟩ := (Buddy.align_eq_iff_dvd _ _).1 hb.aligned
  have haddr1 : addr = Allocator.entry_chunk (addr, size) * 512 +
      Allocator.entry_bit (addr, size) * allocator_level_size L := haddr
  generalize Allocator.entry_bit (addr, size) = eb at haddr1 hfit
  generalize Allocator.entry_chunk (addr, size) = ec at haddr1 hk
  have haddr2 : addr = eb * allocator_level_size L + (2 ^ (L / 4) * 512) * k := by
    rw [haddr1, hk]; ring
  have hpos := Allocator.level_size_pos L hL
  have hmod : addr % (2 ^ (L / 4) * 512) = eb * allocator_level_size L := by
    rw [haddr2, Nat.add_mul_mod_self_left]
    exact Nat.mod_eq_of_lt (Nat.lt_of_lt_of_le (Nat.lt_add_of_pos_right hpos) hfit)
  refine ⟨?_, ?_, ?_⟩
  · rw [hmod]; exact Nat.mul_mod_left _ _
  · rw [hmod]; exact hfit
  · intro h4
    have hd : allocator_level_size L ∣ 2 ^ (L / 4) * 512 :=
      Nat.dvd_of_mod_eq_zero (Allocator.level_size_dvd_block L hL h4)
    apply Nat.mod_eq_zero_of_dvd
    rw [haddr2]
    exact Dvd.dvd.add (Dvd.intro_left _ rfl) (Dvd.dvd.mul_right hd k)

set_option maxRecDepth 100000 in
theorem allocate_tiny_offset_witness :
    Allocator.Reached true
      (Allocator.allocator_allocate (Allocator.init_state 4096 zero_chunks zero_bitmaps) 8).1 ∧
    allocator_size_to_level 10 = ((1 : Nat) : Int) ∧
    (Allocator.allocator_allocate
      (Allocator.allocator_allocate (Allocator.init_state 4096 zero_chunks zero_bitmaps) 8).1
      10).2 ≠ ALLOCATOR_FAIL ∧
    ((Allocator.allocator_allocate
      (Allocator.allocator_allocate (Allocator.init_state 4096 zero_chunks zero_bitmaps) 8).1
      10).2 % (2 ^ (1 / 4) * 512) % allocator_level_size 1 = 0 ∧
    (Allocator.allocator_allocate
      (Allocator.allocator_allocate (Allocator.init_state 4096 zero_chunks zero_bitmaps) 8).1
      10).2 % (2 ^ (1 / 4) * 512) + allocator_level_size 1 ≤ 2 ^ (1 / 4) * 512 ∧
    (1 % 4 = 0 → (Allocator.allocator_allocate
      (Allocator.allocator_allocate (Allocator.init_state 4096 zero_chunks zero_bitmaps) 8).1
      10).2 % allocator_level_size 1 = 0)) :=
  ⟨Allocator.Reached.allocate _ 8
      (Allocator.Reached.init 4096 zero_chunks zero_bitmaps _ rfl),
   by decide!, by decide!,
   allocate_tiny_offset true _ 10 1
     (Allocator.Reached.allocate _ 8
       (Allocator.Reached.init 4096 zero_chunks zero_bitmaps _ rfl))
     (by decide!) (by decide!)⟩

/-- Direct allocation in the states reached without `allocator_reserve`:
for every size with `allocator_size_to_level size = -o < 0` and
every state reachable from `allocator_init` by `allocator_allocate` and
`allocator_free` calls in which `allocator_allocate size` returns an address
other than `ALLOCATOR_FAIL`, the address is a multiple of `2 ^ o * 512` and
its usable size in the new state is `2 ^ o * 512`. -/
theorem allocate_direct_block (strict : Bool) (a : allocator_t) (size o : Nat)
    (h : Allocator.Reached strict a) (hl : allocator_size_to_level size = -(o : Int))
    (ho : 0 < o) (hne : (Allocator.allocator_allocate a size).2 ≠ ALLOCATOR_FAIL) :
    2 ^ o * 512 ∣ (Allocator.allocator_allocate a size).2 ∧
    Allocator.allocator_usable_size strict (Allocator.allocator_allocate a size).1
      (Allocator.allocator_allocate a size).2 = 2 ^ o * 512 := by
  obtain ⟨ls, lls, T, hinv, hdir, hv⟩ := h.allocated size hne
  have hus := Allocator.usable_size_valid strict hinv hdir hv
  generalize (Allocator.allocator_allocate a size).2 = addr at hv hus ⊢
  generalize (Allocator.allocator_allocate a size).1 = a2 at hv hinv hus
  have hneg : allocator_size_to_level (addr, size).2 < 0 := by
    show allocator_size_to_level size < 0
    rw [hl]; omega
  have ho2 : Allocator.entry_order (addr, size) = o := by
    rw [Allocator.entry_order_direct hneg]
    show (-(allocator_size_to_level size)).toNat = o
    rw [hl]; omega
  have hb := hv.1
  have hv2 := hv.2
  rw [if_pos hneg] at hv2
  rw [ho2] at hb
  obtain ⟨k, hk⟩ := (Buddy.align_eq_iff_dvd _ _).1 hb.aligned
  refine ⟨?_, ?_⟩
  · have : addr = Allocator.entry_chunk (addr, size) * 512 := hv2.1
    rw [this, hk]
    exact ⟨k, by ring⟩
  · have e : Allocator.allocator_usable_size strict a2 addr =
        Allocator.entry_size (addr, size) := hus
    rw [e, Allocator.entry_size_direct hneg, ho2]

set_option maxRecDepth 1000000 in
theorem allocate_direct_block_witness :
    Allocator.Reached true (Allocator.init_state (1024 * 512) zero_chunks stale_bitmaps) ∧
    allocator_size_to_level 458753 = -((10 : Nat) : Int) ∧ 0 < 10 ∧
    (Allocator.allocator_allocate
      (Allocator.init_state (1024 * 512) zero_chunks stale_bitmaps) 458753).2 ≠
      ALLOCATOR_FAIL ∧
    (2 ^ 10 * 512 ∣ (Allocator.allocator_allocate
      (Allocator.init_state (1024 * 512) zero_chunks stale_bitmaps) 458753).2 ∧
    Allocator.allocator_usable_size true (Allocator.allocator_allocate
        (Allocator.init_state (1024 * 512) zero_chunks stale_bitmaps) 458753).1
      (Allocator.allocator_allocate
        (Allocator.init_state (1024 * 512) zero_chunks stale_bitmaps) 458753).2 =
      2 ^ 10 * 512) :=
  ⟨Allocator.Reached.init (1024 * 512) zero_chunks stale_bitmaps _
       (Allocator.init_state_ok _ _ _ (by decide)), by decide!,
   by decide, by decide!,
   allocate_direct_block true _ 458753 10
     (Allocator.Reached.init (1024 * 512) zero_chunks stale_bitmaps _
       (Allocator.init_state_ok _ _ _ (by decide))) (by decide!)
     (by decide) (by decide!)⟩

set_option maxRecDepth 1000000 in
/-- C18 (code defect): a direct allocation is not aligned to its size in
every reachable state.  On a fresh allocator of 8192 chunks whose bitmap
array has the prior contents `stale_bitmaps`, the ten calls `misalign_ops`
all succeed.  The first three reserve a piece of 8192 bytes in the blocks at
chunks 0, 3072 and 4096, which leaves the free blocks of order 10 at chunks
1024, 2048 and 5120 linked in this order.  The direct reservation of the
block at chunk 5120 does not touch its bitmap entry, so the block passes for
a tiny block of level 40 with its piece 1 free, and it keeps the links to
chunks 2048 and 1024.  After the blocks at chunks 2048 and 6144 have become
the free list of order 11, reserving piece 1 of the block at chunk 5120
empties its bitmap and pops it from the list of level 40, on which it is not;
the pop writes `1024` into the `next` link of the chunk 2048, the head of the
free list of order 11.  The last two calls are
`allocator_allocate (1048576)`, a size with `allocator_size_to_level = -11`:
the first returns `block_addr 2`, and the second returns `block_addr 1`,
which is not a multiple of `2 ^ 11 * 512`; the usable size of this address in
the new state is `16384`, not `2 ^ 11 * 512`. -/
theorem direct_allocate_misaligned :
    allocator_size_to_level 1048576 = -((11 : Nat) : Int) ∧
    (Allocator.from_init false (8192 * 512) zero_chunks stale_bitmaps
      Allocator.misalign_ops).map
      (fun r => (r.2, Allocator.allocator_usable_size false r.1 (Allocator.block_addr 1))) =
      some ([0, 0, 0, 0, 0, 0, 0, 0, Allocator.block_addr 2, Allocator.block_addr 1],
        16384) ∧
    Allocator.block_addr 1 ≠ ALLOCATOR_FAIL ∧
    ¬ 2 ^ 11 * 512 ∣ Allocator.block_addr 1 ∧ 16384 ≠ 2 ^ 11 * 512 := by
  decide!

theorem clz_from_log (n x : Nat) (hx : x ≠ 0) (hlt : x < 2 ^ n) :
    clz_from n x + Nat.log 2 x + 1 = n := by
  induction n with
  | zero => simp at hlt; exact absurd hlt hx
  | succ n ih =>
    unfold clz_from
    by_cases hb : x.testBit n = true
    · rw [if_pos hb]
      have hge : 2 ^ n ≤ x := Nat.testBit_implies_ge hb
      rw [Nat.log_eq_of_pow_le_of_lt_pow hge hlt]
      omega
    · rw [if_neg hb]
      have hlt2 : x < 2 ^ n := by
        by_contra hge
        have hge : 2 ^ n ≤ x := Nat.le_of_not_lt hge
        apply hb
        rw [Nat.testBit_to_div_mod]
        have h1 : x / 2 ^ n < 2 := by
          rw [Nat.div_lt_iff_lt_mul (Nat.two_pow_pos n)]
          rw [pow_succ] at hlt
          omega
        have h2 : 0 < x / 2 ^ n := Nat.div_pos hge (Nat.two_pow_pos n)
        have : x / 2 ^ n = 1 := by omega
        rw [this]
        rfl
      have := ih hlt2
      omega

/-- The highest set bit of a non-zero 64-bit value is `floor (log2 x)`. -/
theorem highest_bit_eq_log (x : Nat) (hx : x ≠ 0) (hlt : x < 2 ^ 64) :
    highest_bit x = Nat.log 2 x := by
  have := clz_from_log 64 x hx hlt
  unfold highest_bit clzll
  omega

theorem DIV_CEIL_eq (n p : Nat) (hp : 0 < p) : DIV_CEIL n p = spec_ceil_div n p := by
  unfold DIV_CEIL spec_ceil_div
  by_cases h : n = 0
  · rw [if_pos h, h, Nat.zero_add]
    exact (Nat.div_eq_of_lt (by omega)).symm
  · rw [if_neg h]
    have : n + p - 1 = (n - 1) + p := by omega
    rw [this, Nat.add_div_right _ hp]

/-- The order chosen by the code for a chunk count is the smallest `o` with
`2 ^ o ≥ chunk_count`. -/
theorem order_eq_spec_order (n : Nat) (hn : n ≠ 0) (hlt : n < 2 ^ 64) :
    (if 2 ^ highest_bit n = n then highest_bit n else highest_bit n + 1) = spec_order n := by
  rw [highest_bit_eq_log n hn hlt]
  have h1 : 2 ^ Nat.log 2 n ≤ n := Nat.pow_log_le_self 2 hn
  have h2 : n < 2 ^ (Nat.log 2 n + 1) := Nat.lt_pow_succ_log_self (by decide) n
  symm
  unfold spec_order
  rw [Nat.find_eq_iff]
  by_cases he : 2 ^ Nat.log 2 n = n
  · rw [if_pos he]
    refine ⟨Nat.le_of_eq he.symm, fun k hk hge => ?_⟩
    have : 2 ^ k < 2 ^ Nat.log 2 n := Nat.pow_lt_pow_right (by decide) hk
    have hge2 : n ≤ 2 ^ k := hge
    omega
  · rw [if_neg he]
    refine ⟨Nat.le_of_lt h2, fun k hk hge => ?_⟩
    have : 2 ^ k ≤ 2 ^ Nat.log 2 n := Nat.pow_le_pow_right (by decide) (Nat.le_of_lt_succ hk)
    have hge2 : n ≤ 2 ^ k := hge
    omega

/-- The bounds of the level formula. -/
theorem spec_level_bounds (size : Nat) (h8 : 8 ≤ size) :
    4 * (Nat.log 2 size - 3) ≤ spec_level size ∧
    spec_level size ≤ 4 * (Nat.log 2 size - 3) + 4 := by
  have hne : size ≠ 0 := by omega
  have h3 : 3 ≤ Nat.log 2 size := by
    rw [← Nat.pow_le_iff_le_log (by decide) hne]
    exact h8
  have hlt : size < 2 ^ (Nat.log 2 size + 1) := Nat.lt_pow_succ_log_self (by decide) size
  have e : Nat.log 2 size + 1 = (Nat.log 2 size - 3) + 4 := by omega
  rw [e, pow_add] at hlt
  unfold spec_level spec_ceil_div
  simp only [Nat.shiftLeft_eq]
  generalize 2 ^ (Nat.log 2 size - 3) = G at hlt
  have hG : 0 < G := by
    rcases Nat.eq_zero_or_pos G with h0 | h0
    · rw [h0] at hlt; omega
    · exact h0
  refine ⟨Nat.le_add_right _ _, ?_⟩
  have : (size - 8 * G + 2 * G - 1) / (2 * G) < 5 := by
    rw [Nat.div_lt_iff_lt_mul (by omega)]
    omega
  omega

/-- C19: for every 64-bit size, `allocator_size_to_level` is the
classification of the specification: `0` if `size < 8`; otherwise, with
`h = floor (log2 size)`, `g = h - 3` and
`lvl = 4 * g + ceil ((size - (8 << g)) / (2 << g))`, which satisfies
`4 * g ≤ lvl ≤ 4 * g + 4`, the result is `lvl` if `lvl ≤ 63` and otherwise
`-o` for the smallest `o` with `2 ^ o ≥ ceil (size / 512)`. -/
theorem size_to_level_classification (size : Nat) (h : size < 2 ^ 64) :
    allocator_size_to_level size = spec_size_to_level size ∧
    (8 ≤ size → 4 * (Nat.log 2 size - 3) ≤ spec_level size ∧
      spec_level size ≤ 4 * (Nat.log 2 size - 3) + 4) := by
  refine ⟨?_, spec_level_bounds size⟩
  unfold allocator_size_to_level spec_size_to_level
  by_cases h8 : size < 8
  · rw [if_pos h8, if_pos h8]
  rw [if_neg h8, if_neg h8]
  have hne : size ≠ 0 := by omega
  have hlog := highest_bit_eq_log size hne h
  have hlog63 : Nat.log 2 size < 64 := Nat.log_lt_of_lt_pow hne h
  have hg : Nat.log 2 size - 3 ≤ 60 := by omega
  have hG : 2 ^ (Nat.log 2 size - 3) ≤ 2 ^ 60 := Nat.pow_le_pow_right (by decide) hg
  have hGpos : 0 < 2 ^ (Nat.log 2 size - 3) := Nat.two_pow_pos _
  have hbase : ALLOCATOR_GROUP_BASE_SIZE (Nat.log 2 size - 3) = 8 <<< (Nat.log 2 size - 3) := by
    unfold ALLOCATOR_GROUP_BASE_SIZE
    rw [Nat.shiftLeft_eq]
    exact Nat.mod_eq_of_lt (by omega)
  have hgap : ALLOCATOR_GROUP_SIZE_GAP (Nat.log 2 size - 3) = 2 <<< (Nat.log 2 size - 3) := by
    unfold ALLOCATOR_GROUP_SIZE_GAP
    rw [Nat.shiftLeft_eq]
    exact Nat.mod_eq_of_lt (by omega)
  have hgappos : 0 < 2 <<< (Nat.log 2 size - 3) := by
    rw [Nat.shiftLeft_eq]; omega
  have hlevel : (Nat.log 2 size - 3) * 4 +
      DIV_CEIL (size - ALLOCATOR_GROUP_BASE_SIZE (Nat.log 2 size - 3))
        (ALLOCATOR_GROUP_SIZE_GAP (Nat.log 2 size - 3)) = spec_level size := by
    rw [hbase, hgap, DIV_CEIL_eq _ _ hgappos]
    unfold spec_level
    simp only
    omega
  simp only [hlog, hlevel]
  have hmax : ALLOCATOR_MAX_LEVEL = 63 := by decide
  rw [hmax]
  by_cases hl : spec_level size ≤ 63
  · rw [if_pos hl, if_pos hl]
  rw [if_neg hl, if_neg hl]
  have hcc : DIV_CEIL size ALLOCATOR_CHUNK_SIZE = spec_ceil_div size 512 :=
    DIV_CEIL_eq size 512 (by decide)
  rw [hcc]
  have hccne : spec_ceil_div size 512 ≠ 0 := by
    unfold spec_ceil_div
    have : 1 ≤ (size + 512 - 1) / 512 := by
      rw [Nat.le_div_iff_mul_le (by decide)]
      omega
    omega
  have hcclt : spec_ceil_div size 512 < 2 ^ 64 := by
    unfold spec_ceil_div
    rw [Nat.div_lt_iff_lt_mul (by decide)]
    omega
  rw [order_eq_spec_order _ hccne hcclt]
  rfl

theorem size_to_level_classification_witness :
    600 < 2 ^ 64 ∧
    (allocator_size_to_level 600 = spec_size_to_level 600 ∧
    (8 ≤ 600 → 4 * (Nat.log 2 600 - 3) ≤ spec_level 600 ∧
      spec_level 600 ≤ 4 * (Nat.log 2 600 - 3) + 4)) :=
  ⟨by decide, size_to_level_classification 600 (by decide)⟩

set_option maxRecDepth 1000000 in
/-- C20 (counterexample): `allocator_size_to_level 600` is `25`, not `-1`:
the size `600` is tiny, with pieces of `640` bytes and blocks of order `6`.
On a fresh allocator of 64 chunks, in either address mode, `allocate (600)`
returns `0`, after which the usable size of address `0` is `640`, not `1024`,
and `bitmap[0].tiny` is `1`, not `0`; on the fresh allocator of
`allocator_init (4096)` the call returns `ALLOCATOR_FAIL`. -/
theorem allocate_600_not_direct :
    allocator_size_to_level 600 = 25 ∧ allocator_level_size 25 = 640 ∧
    ALLOCATOR_LEVEL_TO_ORDER 25 = 6 ∧
    (∀ strict : Bool,
      (Allocator.from_init strict (64 * 512) zero_chunks zero_bitmaps [.allocate 600]).map
        (fun r => (r.2, Allocator.allocator_usable_size strict r.1 0,
          (r.1.bitmap_array 0).tiny)) = some ([0], 640, true)) ∧
    (∀ strict : Bool,
      (Allocator.from_init strict 4096 zero_chunks zero_bitmaps [.allocate 600]).map
        (fun r => r.2) = some [ALLOCATOR_FAIL]) := by
  decide!

set_option maxRecDepth 1000000 in
/-- C20 (amended): `allocator_allocate (600)` takes the tiny path:
`allocator_size_to_level 600 = 25`, with pieces of `640` bytes in blocks of
order `6`.  In every state reachable from `allocator_init` by
`allocator_allocate` and `allocator_free` calls in which the call succeeds,
the usable size of the returned address is `640` and the bitmap of the first
chunk of its block of 64 chunks has `tiny = 1`.  On a fresh allocator of 64
chunks the call returns `0`, with usable size `640` at address `0` and
`bitmap[0].tiny = 1`; on a fresh allocator of 8 chunks it returns
`ALLOCATOR_FAIL`. -/
theorem allocate_600_tiny :
    allocator_size_to_level 600 = 25 ∧ allocator_level_size 25 = 640 ∧
    ALLOCATOR_LEVEL_TO_ORDER 25 = 6 ∧
    (∀ (strict : Bool) (a : allocator_t), Allocator.Reached strict a →
      (Allocator.allocator_allocate a 600).2 ≠ ALLOCATOR_FAIL →
      Allocator.allocator_usable_size strict (Allocator.allocator_allocate a 600).1
        (Allocator.allocator_allocate a 600).2 = 640 ∧
      ((Allocator.allocator_allocate a 600).1.bitmap_array
        (BUDDY_ALIGN_TO_ORDER ((Allocator.allocator_allocate a 600).2 / 512) 6)).tiny =
        true) ∧
    (∀ strict : Bool,
      (Allocator.from_init strict (64 * 512) zero_chunks zero_bitmaps [.allocate 600]).map
        (fun r => (r.2, Allocator.allocator_usable_size strict r.1 0,
          (r.1.bitmap_array 0).tiny)) = some ([0], 640, true)) ∧
    (∀ strict : Bool,
      (Allocator.from_init strict 4096 zero_chunks zero_bitmaps [.allocate 600]).map
        (fun r => r.2) = some [ALLOCATOR_FAIL]) := by
  have hlev : allocator_size_to_level 600 = 25 := by decide!
  have hsize : allocator_level_size 25 = 640 := by decide!
  refine ⟨hlev, hsize, by decide, ?_, by decide!, by decide!⟩
  intro strict a h hne
  obtain ⟨ls, lls, T, hinv, hdir, hv⟩ := h.allocated 600 hne
  have hus := Allocator.usable_size_valid strict hinv hdir hv
  generalize (Allocator.allocator_allocate a 600).2 = addr at hv hus ⊢
  generalize (Allocator.allocator_allocate a 600).1 = a2 at hv hinv hus ⊢
  have hneg : ¬ allocator_size_to_level (addr, 600).2 < 0 := by
    show ¬ allocator_size_to_level 600 < 0
    rw [hlev]; decide
  have hlev2 : (allocator_size_to_level (addr, 600).2).toNat = 25 := by
    show (allocator_size_to_level 600).toNat = 25
    rw [hlev]; rfl
  have ho : Allocator.entry_order (addr, 600) = 6 := by
    rw [Allocator.entry_order_tiny hneg, hlev2]
  have hv2 := hv.2
  rw [if_neg hneg, hlev2] at hv2
  refine ⟨?_, ?_⟩
  · have e : Allocator.allocator_usable_size strict a2 addr =
        Allocator.entry_size (addr, 600) := hus
    rw [e, Allocator.entry_size_tiny hneg, hlev2, hsize]
  · have e : BUDDY_ALIGN_TO_ORDER (addr / 512) 6 = Allocator.entry_chunk (addr, 600) := by
      unfold Allocator.entry_chunk
      rw [ho]
      rfl
    rw [e]
    exact (hinv.tbitmap _ _ hv2.1).1

set_option maxRecDepth 1000000 in
theorem allocate_600_tiny_witness :
    Allocator.Reached true (Allocator.init_state (64 * 512) zero_chunks zero_bitmaps) ∧
    (Allocator.allocator_allocate
      (Allocator.init_state (64 * 512) zero_chunks zero_bitmaps) 600).2 ≠ ALLOCATOR_FAIL ∧
    Allocator.allocator_usable_size true
      (Allocator.allocator_allocate
        (Allocator.init_state (64 * 512) zero_chunks zero_bitmaps) 600).1
      (Allocator.allocator_allocate
        (Allocator.init_state (64 * 512) zero_chunks zero_bitmaps) 600).2 = 640 ∧
    ((Allocator.allocator_allocate
        (Allocator.init_state (64 * 512) zero_chunks zero_bitmaps) 600).1.bitmap_array
      (BUDDY_ALIGN_TO_ORDER ((Allocator.allocator_allocate
        (Allocator.init_state (64 * 512) zero_chunks zero_bitmaps) 600).2 / 512) 6)).tiny =
      true :=
  ⟨Allocator.Reached.init (64 * 512) zero_chunks zero_bitmaps _
     (Allocator.init_state_ok _ _ _ (by decide)),
   by decide!,
   allocate_600_tiny.2.2.2.1 true _
     (Allocator.Reached.init (64 * 512) zero_chunks zero_bitmaps _
       (Allocator.init_state_ok _ _ _ (by decide)))
     (by decide!)⟩

/-- The level computed by `allocator_size_to_level` is the level of the
specification. -/
theorem code_level_eq (size : Nat) (h8 : 8 ≤ size) (h : size < 2 ^ 64) :
    (highest_bit size - 3) * 4 +
      DIV_CEIL (size - ALLOCATOR_GROUP_BASE_SIZE (highest_bit size - 3))
        (ALLOCATOR_GROUP_SIZE_GAP (highest_bit size - 3)) = spec_level size := by
  have hne : size ≠ 0 := by omega
  rw [highest_bit_eq_log size hne h]
  have hlog63 : Nat.log 2 size < 64 := Nat.log_lt_of_lt_pow hne h
  have hg : Nat.log 2 size - 3 ≤ 60 := by omega
  have hG : 2 ^ (Nat.log 2 size - 3) ≤ 2 ^ 60 := Nat.pow_le_pow_right (by decide) hg
  have hGpos : 0 < 2 ^ (Nat.log 2 size - 3) := Nat.two_pow_pos _
  have hbase : ALLOCATOR_GROUP_BASE_SIZE (Nat.log 2 size - 3) = 8 <<< (Nat.log 2 size - 3) := by
    unfold ALLOCATOR_GROUP_BASE_SIZE
    rw [Nat.shiftLeft_eq]
    exact Nat.mod_eq_of_lt (by omega)
  have hgap : ALLOCATOR_GROUP_SIZE_GAP (Nat.log 2 size - 3) = 2 <<< (Nat.log 2 size - 3) := by
    unfold ALLOCATOR_GROUP_SIZE_GAP
    rw [Nat.shiftLeft_eq]
    exact Nat.mod_eq_of_lt (by omega)
  have hgappos : 0 < 2 <<< (Nat.log 2 size - 3) := by
    rw [Nat.shiftLeft_eq]; omega
  rw [hbase, hgap, DIV_CEIL_eq _ _ hgappos]
  unfold spec_level
  simp only
  omega

/-- The level of the specification is at most `63` exactly up to the size
`458752`. -/
theorem spec_level_le_iff (size : Nat) (h8 : 8 ≤ size) :
    spec_level size ≤ 63 ↔ size ≤ 458752 := by
  have hne : size ≠ 0 := by omega
  have h3 : 3 ≤ Nat.log 2 size := by
    rw [← Nat.pow_le_iff_le_log (by decide) hne]
    exact h8
  have hlo : 2 ^ Nat.log 2 size ≤ size := Nat.pow_log_le_self 2 hne
  have hhi : size < 2 ^ (Nat.log 2 size + 1) := Nat.lt_pow_succ_log_self (by decide) size
  have hb := spec_level_bounds size h8
  constructor
  · intro hle
    have hg : Nat.log 2 size - 3 ≤ 15 := by omega
    by_cases hg14 : Nat.log 2 size - 3 ≤ 14
    · have : 2 ^ (Nat.log 2 size + 1) ≤ 2 ^ 18 := Nat.pow_le_pow_right (by decide) (by omega)
      omega
    · have e : Nat.log 2 size - 3 = 15 := by omega
      unfold spec_level spec_ceil_div at hle
      simp only [e, Nat.shiftLeft_eq] at hle
      norm_num at hle
      omega
  · intro hle
    have hlt : Nat.log 2 size < 19 := Nat.log_lt_of_lt_pow hne (by omega)
    by_cases hg14 : Nat.log 2 size - 3 ≤ 14
    · omega
    · have e : Nat.log 2 size - 3 = 15 := by omega
      unfold spec_level spec_ceil_div
      simp only [e, Nat.shiftLeft_eq]
      norm_num
      omega

/-- C21: for every 64-bit size, `allocator_size_to_level size ≥ 0` iff
`size ≤ 458752`, which is `allocator_level_size 63`, the size class of order
`15 = BUDDY_MAX_ORDER` and index `3` in its group; and every negative result
is at most `-10`: a direct allocation has buddy order at least `10`. -/
theorem size_to_level_nonneg_iff (size : Nat) (h : size < 2 ^ 64) :
    (0 ≤ allocator_size_to_level size ↔ size ≤ 458752) ∧
    allocator_level_size 63 = 458752 ∧ ALLOCATOR_LEVEL_TO_ORDER 63 = BUDDY_MAX_ORDER ∧
    BUDDY_MAX_ORDER = 15 ∧ 63 % 4 = 3 ∧
    (allocator_size_to_level size < 0 → allocator_size_to_level size ≤ -10) := by
  refine ⟨?_, by decide!, by decide, by decide, by decide, ?_⟩
  · unfold allocator_size_to_level
    by_cases h8 : size < 8
    · rw [if_pos h8]
      exact ⟨fun _ => by omega, fun _ => le_refl _⟩
    rw [if_neg h8]
    simp only [code_level_eq size (by omega) h]
    have hmax : ALLOCATOR_MAX_LEVEL = 63 := by decide
    rw [hmax]
    have hiff := spec_level_le_iff size (by omega)
    by_cases hl : spec_level size ≤ 63
    · rw [if_pos hl]
      exact ⟨fun _ => hiff.1 hl, fun _ => Int.natCast_nonneg _⟩
    · rw [if_neg hl]
      have hgt : ¬ size ≤ 458752 := fun hh => hl (hiff.2 hh)
      refine ⟨fun hnn => ?_, fun hh => absurd hh hgt⟩
      exfalso
      have hcc : DIV_CEIL size ALLOCATOR_CHUNK_SIZE = spec_ceil_div size 512 :=
        DIV_CEIL_eq size 512 (by decide)
      rw [hcc] at hnn
      have h512 : 512 < spec_ceil_div size 512 := by
        unfold spec_ceil_div
        show 513 ≤ (size + 512 - 1) / 512
        rw [Nat.le_div_iff_mul_le (by decide)]
        omega
      have hlt : spec_ceil_div size 512 < 2 ^ 64 := by
        unfold spec_ceil_div
        rw [Nat.div_lt_iff_lt_mul (by decide)]
        omega
      rw [highest_bit_eq_log _ (by omega) hlt] at hnn
      have h9 : 9 ≤ Nat.log 2 (spec_ceil_div size 512) := by
        rw [← Nat.pow_le_iff_le_log (by decide) (by omega)]
        omega
      have : ∀ n : Nat, 0 < n → ¬ (0 ≤ Int.neg (n : Int)) := by
        intro n hn hh
        have : (Int.neg (n : Int)) = -(n : Int) := rfl
        rw [this] at hh
        omega
      refine this _ ?_ hnn
      split_ifs <;> omega
  · intro hneg
    unfold allocator_size_to_level at hneg ⊢
    by_cases h8 : size < 8
    · rw [if_pos h8] at hneg; omega
    rw [if_neg h8] at hneg ⊢
    simp only [code_level_eq size (by omega) h] at hneg ⊢
    have hmax : ALLOCATOR_MAX_LEVEL = 63 := by decide
    rw [hmax] at hneg ⊢
    have hiff := spec_level_le_iff size (by omega)
    by_cases hl : spec_level size ≤ 63
    · rw [if_pos hl] at hneg
      exact absurd hneg (not_lt.2 (Int.natCast_nonneg _))
    · rw [if_neg hl]
      have hgt : ¬ size ≤ 458752 := fun hh => hl (hiff.2 hh)
      have hcc : DIV_CEIL size ALLOCATOR_CHUNK_SIZE = spec_ceil_div size 512 :=
        DIV_CEIL_eq size 512 (by decide)
      rw [hcc]
      have h512 : 512 < spec_ceil_div size 512 := by
        unfold spec_ceil_div
        show 513 ≤ (size + 512 - 1) / 512
        rw [Nat.le_div_iff_mul_le (by decide)]
        omega
      have hlt : spec_ceil_div size 512 < 2 ^ 64 := by
        unfold spec_ceil_div
        rw [Nat.div_lt_iff_lt_mul (by decide)]
        omega
      rw [highest_bit_eq_log _ (by omega) hlt]
      have h9 : 9 ≤ Nat.log 2 (spec_ceil_div size 512) := by
        rw [← Nat.pow_le_iff_le_log (by decide) (by omega)]
        omega
      have hlo : 2 ^ Nat.log 2 (spec_ceil_div size 512) ≤ spec_ceil_div size 512 :=
        Nat.pow_log_le_self 2 (by omega)
      have : ∀ n : Nat, 10 ≤ n → Int.neg (n : Int) ≤ -10 := by
        intro n hn
        have : (Int.neg (n : Int)) = -(n : Int) := rfl
        rw [this]
        omega
      apply this
      by_cases h9e : Nat.log 2 (spec_ceil_div size 512) = 9
      · rw [h9e]
        rw [h9e] at hlo
        rw [if_neg (by omega)]
      · split_ifs <;> omega

theorem size_to_level_nonneg_iff_witness :
    458753 < 2 ^ 64 ∧
    ((0 ≤ allocator_size_to_level 458753 ↔ 458753 ≤ 458752) ∧
    allocator_level_size 63 = 458752 ∧ ALLOCATOR_LEVEL_TO_ORDER 63 = BUDDY_MAX_ORDER ∧
    BUDDY_MAX_ORDER = 15 ∧ 63 % 4 = 3 ∧
    (allocator_size_to_level 458753 < 0 → allocator_size_to_level 458753 ≤ -10)) :=
  ⟨by decide, size_to_level_nonneg_iff 458753 (by decide)⟩

namespace Allocator

/-- The result of `allocator_init` on a size that passes the check on the
chunk count. -/
theorem allocator_init_cases (size : Nat) (cm : Option (Nat → buddy_chunk_t))
    (bm : Option (Nat → allocator_bitmap_t))
    (h : ¬ (size / 512 = 0 ∨ size / 512 > BUDDY_MAX_CHUNK_COUNT)) :
    (cm = none ∨ bm = none) ∧ allocator_init size cm bm = .error ENOMEM ∨
    ∃ c b buddy, cm = some c ∧ bm = some b ∧ Buddy.buddy_init (size / 512) (some c) = .ok buddy ∧
      allocator_init size cm bm =
        .ok { buddy := buddy, bitmap_array := b
              lists := fun _ => { head := none, length := 0 } } := by
  have hb : ¬ (size / ALLOCATOR_CHUNK_SIZE = 0 ∨
      size / ALLOCATOR_CHUNK_SIZE > ALLOCATOR_MAX_CHUNK_COUNT) := h
  have hc : ¬ (size / ALLOCATOR_CHUNK_SIZE = 0 ∨
      size / ALLOCATOR_CHUNK_SIZE > BUDDY_MAX_CHUNK_COUNT) := h
  cases cm with
  | none =>
    left
    refine ⟨Or.inl rfl, ?_⟩
    unfold allocator_init Buddy.buddy_init
    simp only [hb, hc, if_false]
  | some c =>
    have e : ∃ buddy, Buddy.buddy_init (size / ALLOCATOR_CHUNK_SIZE) (some c) = .ok buddy := by
      unfold Buddy.buddy_init
      rw [if_neg hc]
      exact ⟨_, rfl⟩
    obtain ⟨buddy, hbuddy⟩ := e
    cases bm with
    | none =>
      left
      refine ⟨Or.inr rfl, ?_⟩
      unfold allocator_init
      simp only [hb, if_false, hbuddy]
    | some b =>
      right
      refine ⟨c, b, buddy, rfl, rfl, hbuddy, ?_⟩
      unfold allocator_init
      simp only [hb, if_false, hbuddy]

theorem allocator_init_einval (size : Nat) (cm : Option (Nat → buddy_chunk_t))
    (bm : Option (Nat → allocator_bitmap_t))
    (h : size / 512 = 0 ∨ size / 512 > BUDDY_MAX_CHUNK_COUNT) :
    allocator_init size cm bm = .error EINVAL := by
  have hb : size / ALLOCATOR_CHUNK_SIZE = 0 ∨
      size / ALLOCATOR_CHUNK_SIZE > ALLOCATOR_MAX_CHUNK_COUNT := h
  unfold allocator_init
  simp only [hb, if_true]

end Allocator

/-- C22: `allocator_init size` returns `EINVAL` iff `size / 512` is `0` or
exceeds `ALLOCATOR_MAX_CHUNK_COUNT = 2 ^ 29`, so the sizes `0` and
`512 * (2 ^ 29 + 1)` are rejected; otherwise, when the metadata allocator
returns both arrays, it succeeds with `buddy.chunk_count = size / 512` and
every per-level list empty (and it returns `ENOMEM` when the metadata
allocator fails). -/
theorem allocator_init_result (size : Nat) (cm : Option (Nat → buddy_chunk_t))
    (bm : Option (Nat → allocator_bitmap_t)) :
    ALLOCATOR_MAX_CHUNK_COUNT = 2 ^ 29 ∧
    (Allocator.allocator_init size cm bm = .error EINVAL ↔
      (size / 512 = 0 ∨ size / 512 > 2 ^ 29)) ∧
    (¬ (size / 512 = 0 ∨ size / 512 > 2 ^ 29) → cm ≠ none → bm ≠ none →
      ∃ a, Allocator.allocator_init size cm bm = .ok a ∧ a.buddy.chunk_count = size / 512 ∧
        ∀ L, (a.lists L).head = none ∧ (a.lists L).length = 0) ∧
    (¬ (size / 512 = 0 ∨ size / 512 > 2 ^ 29) → (cm = none ∨ bm = none) →
      Allocator.allocator_init size cm bm = .error ENOMEM) ∧
    Allocator.allocator_init 0 cm bm = .error EINVAL ∧
    Allocator.allocator_init (512 * (2 ^ 29 + 1)) cm bm = .error EINVAL := by
  have hmax : BUDDY_MAX_CHUNK_COUNT = 2 ^ 29 := by decide
  refine ⟨by decide, ?_, ?_, ?_, ?_, ?_⟩
  · constructor
    · intro he
      by_contra hn
      rw [← hmax] at hn
      rcases Allocator.allocator_init_cases size cm bm hn with ⟨_, e⟩ | ⟨c, b, buddy, _, _, _, e⟩
      · rw [e] at he
        injection he with he
        exact absurd he (by decide)
      · rw [e] at he
        exact absurd he (by simp)
    · intro hc
      rw [← hmax] at hc
      exact Allocator.allocator_init_einval size cm bm hc
  · intro hn hcm hbm
    rw [← hmax] at hn
    rcases Allocator.allocator_init_cases size cm bm hn with ⟨hnone, _⟩ | ⟨c, b, buddy, _, _, hb, e⟩
    · rcases hnone with e | e
      · exact absurd e hcm
      · exact absurd e hbm
    · refine ⟨_, e, ?_, fun L => ⟨rfl, rfl⟩⟩
      obtain ⟨_, _, hcount, _⟩ := Buddy.buddy_init_inv hb
      exact hcount
  · intro hn hnone
    rw [← hmax] at hn
    rcases Allocator.allocator_init_cases size cm bm hn with ⟨_, e⟩ | ⟨c, b, buddy, e1, e2, _, _⟩
    · exact e
    · rcases hnone with e | e
      · rw [e] at e1; exact absurd e1 (by simp)
      · rw [e] at e2; exact absurd e2 (by simp)
  · exact Allocator.allocator_init_einval 0 cm bm (Or.inl (by decide))
  · exact Allocator.allocator_init_einval _ cm bm (Or.inr (by decide))

theorem allocator_init_result_witness :
    ¬ (4096 / 512 = 0 ∨ 4096 / 512 > 2 ^ 29) ∧
    (some zero_chunks : Option (Nat → buddy_chunk_t)) ≠ none ∧
    (some stale_bitmaps : Option (Nat → allocator_bitmap_t)) ≠ none ∧
    ∃ a, Allocator.allocator_init 4096 (some zero_chunks) (some stale_bitmaps) = .ok a ∧
      a.buddy.chunk_count = 4096 / 512 ∧
      ∀ L, (a.lists L).head = none ∧ (a.lists L).length = 0 :=
  ⟨by decide, by simp, by simp,
   (allocator_init_result 4096 (some zero_chunks) (some stale_bitmaps)).2.2.1
     (by decide) (by simp) (by simp)⟩

/-- Walking along a segment: the chunks of the segment, then the walk from
its end. -/
theorem Seg.walk_append {arr : Nat → buddy_chunk_t} {a e : Nat} {l : List Nat}
    (h : Seg arr a l e) (n : Nat) :
    Buddy.walk arr (l.length + 1 + n) a = a :: l ++ Buddy.walk arr n e := by
  induction l generalizing a with
  | nil =>
    obtain ⟨h1, _⟩ := h
    show Buddy.walk arr (0 + 1 + n) a = _
    rw [Nat.zero_add, Nat.add_comm 1 n]
    show a :: Buddy.walk arr n (arr a).next = _
    rw [h1]
    rfl
  | cons x l ih =>
    obtain ⟨h1, _, h3⟩ := h
    have e1 : (x :: l).length + 1 + n = (l.length + 1 + n) + 1 := by
      simp only [List.length_cons]; omega
    rw [e1]
    show a :: Buddy.walk arr (l.length + 1 + n) (arr a).next = _
    rw [h1, ih h3]
    rfl

/-- Every chunk of a segment is followed by a chunk whose `prev` leads back
to it. -/
theorem Seg.next_mem {arr : Nat → buddy_chunk_t} {a e : Nat} {l : List Nat}
    (h : Seg arr a l e) :
    ∀ c, c ∈ a :: l → (arr c).next ∈ l ++ [e] ∧ (arr (arr c).next).prev = c := by
  induction l generalizing a with
  | nil =>
    intro c hc
    obtain ⟨h1, h2⟩ := h
    have : c = a := by simpa using hc
    subst this
    rw [h1]
    exact ⟨by simp, h2⟩
  | cons x l ih =>
    intro c hc
    obtain ⟨h1, h2, h3⟩ := h
    rcases List.mem_cons.1 hc with e1 | hc2
    · subst e1
      rw [h1]
      exact ⟨by simp, h2⟩
    · obtain ⟨g1, g2⟩ := ih h3 c hc2
      exact ⟨List.mem_cons_of_mem _ g1, g2⟩

/-- Every chunk after the start of a segment is preceded by a chunk whose
`next` leads to it. -/
theorem Seg.prev_mem {arr : Nat → buddy_chunk_t} {a e : Nat} {l : List Nat}
    (h : Seg arr a l e) :
    ∀ c, c ∈ l ++ [e] → (arr c).prev ∈ a :: l ∧ (arr (arr c).prev).next = c := by
  induction l generalizing a with
  | nil =>
    intro c hc
    obtain ⟨h1, h2⟩ := h
    have : c = e := by simpa using hc
    subst this
    rw [h2]
    exact ⟨by simp, h1⟩
  | cons x l ih =>
    intro c hc
    obtain ⟨h1, h2, h3⟩ := h
    rcases List.mem_cons.1 hc with e1 | hc2
    · subst e1
      rw [h2]
      exact ⟨by simp, h1⟩
    · obtain ⟨g1, g2⟩ := ih h3 c hc2
      exact ⟨List.mem_cons_of_mem _ g1, g2⟩

/-- The walk of `len` steps from the head of a circular list visits the
chunks of the list, in order. -/
theorem IsCList.walk_eq {arr : Nat → buddy_chunk_t} {l : List Nat} {head : Option Nat}
    {len : Nat} (h : IsCList arr l head len) :
    (head = none → l = []) ∧ (∀ x, head = some x → Buddy.walk arr len x = l) := by
  cases l with
  | nil =>
    have hh : head = none := h.head_eq
    refine ⟨fun _ => rfl, fun x hx => ?_⟩
    rw [hh] at hx
    cases hx
  | cons x t =>
    have hh : head = some x := h.head_eq
    have hlen : len = t.length + 1 := h.len_eq
    refine ⟨fun hn => ?_, fun y hy => ?_⟩
    · rw [hh] at hn; cases hn
    · rw [hh] at hy
      cases hy
      rw [hlen]
      have := (h.links x t rfl).walk_append 0
      simpa [Buddy.walk] using this

namespace Buddy

theorem BInvH.members {b : buddy_t} {ls : Nat → List Nat} (h : BInvH b ls 0 0) (o : Nat) :
    list_members b o = ls o := by
  have hw := (h.lists o).walk_eq
  unfold list_members
  cases hh : (b.lists o).head with
  | none => exact (hw.1 hh).symm
  | some x => exact hw.2 x hh

end Buddy

/-- The free lists where no sum of `CHECK_BLOCK` wrapped: in every reachable
buddy state, the free list of every order is a
well-formed circular doubly-linked list of block heads.  The head pointer is
null iff `length = 0`; the `length` chunks met from the head along `next` are
distinct, and one more step returns to the head; every one of them is free,
has the order of the list, is `2 ^ order`-aligned and in range; along the
list `prev` is the inverse of `next`; and the only chunk of a list of length
`1` has `prev = next =` its own index. -/
theorem free_lists_well_formed (b : buddy_t) (h : Buddy.Reachable b) (o : Nat) :
    ((b.lists o).head = none ↔ (b.lists o).length = 0) ∧
    (Buddy.list_members b o).Nodup ∧
    (Buddy.list_members b o).length = (b.lists o).length ∧
    (∀ x, (b.lists o).head = some x →
      Buddy.walk b.chunk_array ((b.lists o).length + 1) x = Buddy.list_members b o ++ [x]) ∧
    (∀ c, c ∈ Buddy.list_members b o →
      (b.chunk_array c).free = true ∧ (b.chunk_array c).order = o ∧ 2 ^ o ∣ c ∧
      c + 2 ^ o ≤ b.chunk_count ∧
      (b.chunk_array c).next ∈ Buddy.list_members b o ∧
      (b.chunk_array (b.chunk_array c).next).prev = c ∧
      (b.chunk_array c).prev ∈ Buddy.list_members b o ∧
      (b.chunk_array (b.chunk_array c).prev).next = c) ∧
    ((b.lists o).length = 1 → ∀ x, (b.lists o).head = some x →
      (b.chunk_array x).prev = x ∧ (b.chunk_array x).next = x) := by
  obtain ⟨ls, hinv⟩ := h.inv
  have hm := hinv.members o
  have hl := hinv.lists o
  rw [hm]
  cases hls : ls o with
  | nil =>
    rw [hls] at hl
    have hh : (b.lists o).head = none := hl.head_eq
    have hlen : (b.lists o).length = 0 := hl.len_eq
    refine ⟨⟨fun _ => hlen, fun _ => hh⟩, List.nodup_nil, hlen.symm, ?_, ?_, ?_⟩
    · intro x hx; rw [hh] at hx; cases hx
    · intro c hc; cases hc
    · intro h1; rw [hlen] at h1; cases h1
  | cons y t =>
    rw [hls] at hl
    have hh : (b.lists o).head = some y := hl.head_eq
    have hlen : (b.lists o).length = t.length + 1 := hl.len_eq
    have hseg := hl.links y t rfl
    have hsub : ∀ c, c ∈ t ++ [y] → c ∈ y :: t := by
      intro c hc
      simp at hc ⊢
      tauto
    have hsub2 : ∀ c, c ∈ y :: t → c ∈ t ++ [y] := by
      intro c hc
      simp at hc ⊢
      tauto
    refine ⟨⟨fun e => ?_, fun e => ?_⟩, hl.nodup, hlen.symm, ?_, ?_, ?_⟩
    · rw [hh] at e; cases e
    · rw [hlen] at e; cases e
    · intro x hx
      rw [hh] at hx
      cases hx
      rw [hlen]
      have := hseg.walk_append 1
      rw [this]
      rfl
    · intro c hc
      have hblk := ((hinv.mem o c).1 (by rw [hls]; exact hc)).1
      obtain ⟨n1, n2⟩ := hseg.next_mem c hc
      obtain ⟨p1, p2⟩ := hseg.prev_mem c (hsub2 c hc)
      exact ⟨hblk.self.1, hblk.self.2, (Buddy.align_eq_iff_dvd _ _).1 hblk.aligned,
        hblk.in_range, hsub _ n1, n2, p1, p2⟩
    · intro h1 x hx
      rw [hh] at hx
      cases hx
      have ht : t = [] := by
        rw [hlen] at h1
        exact List.length_eq_zero.1 (by omega)
      subst ht
      exact ⟨hseg.2, hseg.1⟩

set_option maxRecDepth 100000 in
theorem free_lists_well_formed_witness :
    Buddy.Reachable (Buddy.buddy_allocate (Buddy.init_state 8 zero_chunks) 0).1 ∧
    ((Buddy.buddy_allocate (Buddy.init_state 8 zero_chunks) 0).1.lists 1).length = 1 ∧
    ((Buddy.buddy_allocate (Buddy.init_state 8 zero_chunks) 0).1.lists 1).head = some 2 ∧
    ((Buddy.buddy_allocate (Buddy.init_state 8 zero_chunks) 0).1.chunk_array 2).prev = 2 ∧
    ((Buddy.buddy_allocate (Buddy.init_state 8 zero_chunks) 0).1.chunk_array 2).next = 2 :=
  ⟨Buddy.Reachable.allocate _ 0 (Buddy.Reachable.init 8 zero_chunks _ rfl), by decide!,
   by decide!,
   (free_lists_well_formed (Buddy.buddy_allocate (Buddy.init_state 8 zero_chunks) 0).1
      (Buddy.Reachable.allocate (Buddy.init_state 8 zero_chunks) 0
        (Buddy.Reachable.init 8 zero_chunks _ rfl)) 1).2.2.2.2.2
      (by decide!) 2 (by decide!)⟩

namespace Buddy

theorem Seeded.same_lists {b : buddy_t} {ls ls2 : Nat → List Nat} {n m off : Nat}
    (h : Seeded b ls n m off) (e : ∀ o, ls2 o = ls o) : Seeded b ls2 n m off := by
  have : ls2 = ls := funext e
  rw [this]
  exact h

/-- The inner loop of `buddy_init` for the order `k` appends the blocks
`off, off + 2 ^ k, ...` that fit below `n` to the list of order `k`. -/
theorem init_blocks_lists (k : Nat) (fuel : Nat) {b : buddy_t} {ls : Nat → List Nat}
    {n m off : Nat} (h : Seeded b ls n m off) (hk : k ≤ m)
    (hal : BUDDY_ALIGN_TO_ORDER off k = off)
    (hlow : k < m → n - off < 2 ^ k ∨
      (BUDDY_ALIGN_TO_ORDER off (k + 1) = off ∧ n - off < 2 ^ (k + 1)))
    (hfuel : n - off ≤ fuel) :
    Seeded (init_blocks k fuel b off).1
      (store ls k (ls k ++ (List.range ((n - off) / 2 ^ k)).map (fun i => off + i * 2 ^ k)))
      n m (off + (n - off) / 2 ^ k * 2 ^ k) ∧
    (init_blocks k fuel b off).2 = off + (n - off) / 2 ^ k * 2 ^ k := by
  have hpos := Nat.two_pow_pos k
  have hle := h.le
  have stop : n - off < 2 ^ k →
      Seeded b
        (store ls k (ls k ++ (List.range ((n - off) / 2 ^ k)).map (fun i => off + i * 2 ^ k)))
        n m (off + (n - off) / 2 ^ k * 2 ^ k) ∧
      off = off + (n - off) / 2 ^ k * 2 ^ k := by
    intro hlt
    have e0 : (n - off) / 2 ^ k = 0 := Nat.div_eq_of_lt hlt
    rw [e0]
    simp only [List.range_zero, List.map_nil, List.append_nil, Nat.zero_mul, Nat.add_zero]
    rw [store_self]
    exact ⟨h, trivial⟩
  induction fuel generalizing b ls off with
  | zero =>
    have := stop (by omega)
    exact ⟨this.1, this.2⟩
  | succ fuel ih =>
    unfold init_blocks
    simp only [BUDDY_ORDER_TO_COUNT_eq]
    by_cases h1 : off + 2 ^ k > b.chunk_count
    · rw [if_pos h1]
      rw [h.chunk_count] at h1
      have := stop (by omega)
      exact ⟨this.1, this.2⟩
    · rw [if_neg h1]
      rw [h.chunk_count] at h1
      have hpow : 2 ^ (k + 1) = 2 * 2 ^ k := by rw [pow_succ]; omega
      have hlow2 : k < m →
          BUDDY_ALIGN_TO_ORDER off (k + 1) = off ∧ n - (off + 2 ^ k) ≤ 2 ^ k := by
        intro hkm
        rcases hlow hkm with e | ⟨e1, e2⟩
        · omega
        · exact ⟨e1, by omega⟩
      have hs := h.push_seed hal (by omega) hk hlow2
      have hal2 : BUDDY_ALIGN_TO_ORDER (off + 2 ^ k) k = off + 2 ^ k := by
        by_cases hkm : k < m
        · exact (align_halves (hlow2 hkm).1).2.1
        · rw [align_eq] at hal ⊢
          have e : off + 2 ^ k = (off / 2 ^ k + 1) * 2 ^ k := by
            rw [Nat.add_mul, Nat.one_mul, hal]
          conv_lhs => rw [e]
          rw [Nat.mul_div_cancel _ hpos]
          exact e.symm
      have hlow3 : k < m → n - (off + 2 ^ k) < 2 ^ k ∨
          (BUDDY_ALIGN_TO_ORDER (off + 2 ^ k) (k + 1) = off + 2 ^ k ∧
            n - (off + 2 ^ k) < 2 ^ (k + 1)) := by
        intro hkm
        left
        have := (hlow2 hkm).2
        rcases hlow hkm with e | ⟨e1, e2⟩
        · omega
        · omega
      obtain ⟨r1, r2⟩ := ih hs hal2 hlow3 (by omega) (by omega) (by
        intro hlt
        have e0 : (n - (off + 2 ^ k)) / 2 ^ k = 0 := Nat.div_eq_of_lt hlt
        rw [e0]
        simp only [List.range_zero, List.map_nil, List.append_nil, Nat.zero_mul,
          Nat.add_zero]
        rw [store_self]
        exact ⟨hs, trivial⟩)
      have hcount : (n - off) / 2 ^ k = (n - (off + 2 ^ k)) / 2 ^ k + 1 := by
        have e : n - off = (n - (off + 2 ^ k)) + 2 ^ k := by omega
        rw [e, Nat.add_div_right _ hpos]
      have hoff : off + 2 ^ k + (n - (off + 2 ^ k)) / 2 ^ k * 2 ^ k =
          off + (n - off) / 2 ^ k * 2 ^ k := by
        rw [hcount, Nat.add_mul, Nat.one_mul]
        omega
      rw [hoff] at r1 r2
      refine ⟨r1.same_lists ?_, r2⟩
      intro o
      rw [store_apply, store_apply]
      by_cases ho : o = k
      · rw [if_pos ho, if_pos ho, store_same, hcount, List.range_succ_eq_map, List.map_cons,
          List.map_map, List.append_assoc]
        congr 1
        simp only [List.singleton_append, Nat.zero_mul, Nat.add_zero, List.cons.injEq,
          true_and]
        apply List.map_congr_left
        intro i _
        show off + (i + 1) * 2 ^ k = off + 2 ^ k + i * 2 ^ k
        rw [Nat.add_mul, Nat.one_mul]
        omega
      · rw [if_neg ho, if_neg ho, store_other _ _ ho]

theorem bit_split (n k : Nat) :
    n / 2 ^ (k + 1) * 2 ^ (k + 1) + (n - n / 2 ^ (k + 1) * 2 ^ (k + 1)) / 2 ^ k * 2 ^ k =
      n / 2 ^ k * 2 ^ k ∧
    (n - n / 2 ^ (k + 1) * 2 ^ (k + 1)) / 2 ^ k = n / 2 ^ k % 2 := by
  have hpos := Nat.two_pow_pos k
  have e1 : n - n / 2 ^ (k + 1) * 2 ^ (k + 1) = n % 2 ^ (k + 1) := by
    have := Nat.div_add_mod n (2 ^ (k + 1))
    rw [Nat.mul_comm] at this
    omega
  have e2 : n % 2 ^ (k + 1) / 2 ^ k = n / 2 ^ k % 2 := by
    rw [pow_succ]
    exact Nat.mod_mul_right_div_self n (2 ^ k) 2
  have e3 : n / 2 ^ (k + 1) = n / 2 ^ k / 2 := by
    rw [pow_succ, Nat.div_div_eq_div_mul]
  refine ⟨?_, by rw [e1, e2]⟩
  rw [e1, e2, e3, pow_succ]
  have := Nat.div_add_mod (n / 2 ^ k) 2
  generalize n / 2 ^ k = q at this ⊢
  generalize 2 ^ k = P
  have h4 : q / 2 * (P * 2) + q % 2 * P = (2 * (q / 2) + q % 2) * P := by ring
  rw [h4, this]

/-- The loop of `buddy_init` over the orders below `K`, started at the
offset `n` with its low `K` bits cleared: every order `o < K` gets one block
if bit `o` of `n` is set. -/
theorem init_orders_lists (K : Nat) {b : buddy_t} {ls : Nat → List Nat}
    {n m off : Nat} (h : Seeded b ls n m off) (hK : K ≤ m)
    (hoff : off = n / 2 ^ K * 2 ^ K) :
    Seeded (init_orders K b off).1
      (fun o => ls o ++
        (if o < K ∧ n.testBit o = true then [n / 2 ^ (o + 1) * 2 ^ (o + 1)] else []))
      n m n ∧
    (init_orders K b off).2 = n := by
  induction K generalizing b ls off with
  | zero =>
    have : off = n := by rw [hoff]; simp
    subst this
    refine ⟨h.same_lists ?_, rfl⟩
    intro o
    rw [if_neg (by omega), List.append_nil]
  | succ k ih =>
    unfold init_orders
    have hpos := Nat.two_pow_pos k
    have hk : k ≤ m := by omega
    have hal : BUDDY_ALIGN_TO_ORDER off (k + 1) = off := by
      rw [hoff, align_eq, Nat.mul_div_cancel _ (Nat.two_pow_pos _)]
    have hlt : n - off < 2 ^ (k + 1) := by
      rw [hoff, Nat.mul_comm, ← Nat.mod_def]
      exact Nat.mod_lt n (Nat.two_pow_pos (k + 1))
    obtain ⟨r1, r2⟩ := init_blocks_lists k b.chunk_count h hk (align_halves hal).1
      (fun _ => Or.inr ⟨hal, hlt⟩) (by rw [h.chunk_count]; omega)
    obtain ⟨s1, s2⟩ := bit_split n k
    rw [← hoff] at s1 s2
    rw [s1] at r1 r2
    obtain ⟨this, hend⟩ := ih r1 hk rfl
    show Seeded (init_orders k (init_blocks k b.chunk_count b off).1
      (init_blocks k b.chunk_count b off).2).1 _ n m n ∧
      (init_orders k (init_blocks k b.chunk_count b off).1
        (init_blocks k b.chunk_count b off).2).2 = n
    rw [r2]
    refine ⟨this.same_lists ?_, hend⟩
    intro o
    have hbit : n.testBit k = decide (n / 2 ^ k % 2 = 1) := Nat.testBit_to_div_mod
    by_cases ho : o = k
    · subst ho
      have hR : (if o < o ∧ n.testBit o = true then [n / 2 ^ (o + 1) * 2 ^ (o + 1)]
          else ([] : List Nat)) = [] := if_neg (fun hh => Nat.lt_irrefl _ hh.1)
      rw [store_apply, if_pos rfl, hR, List.append_nil, s2]
      by_cases hb : n / 2 ^ o % 2 = 1
      · have htb : n.testBit o = true := by rw [hbit]; simpa using hb
        rw [hb, if_pos ⟨Nat.lt_succ_self o, htb⟩, ← hoff, show List.range 1 = [0] from rfl]
        simp
      · have h0 : n / 2 ^ o % 2 = 0 := by omega
        have htb : ¬ (o < o + 1 ∧ n.testBit o = true) := by
          rintro ⟨_, h5⟩
          rw [hbit] at h5
          simp at h5
          exact hb h5
        rw [h0, if_neg htb, List.range_zero]
        simp
    · rw [store_apply, if_neg ho]
      by_cases hok : o < k
      · by_cases hb : n.testBit o = true
        · rw [if_pos ⟨Nat.lt_succ_of_lt hok, hb⟩, if_pos ⟨hok, hb⟩]
        · rw [if_neg (fun hh => hb hh.2), if_neg (fun hh => hb hh.2)]
      · rw [if_neg (fun hh => hok (by have := hh.1; omega)), if_neg (fun hh => hok hh.1)]

/-- The free lists after a successful `buddy_init`. -/
theorem buddy_init_lists {n : Nat} {array : Nat → buddy_chunk_t} {b : buddy_t}
    (h : buddy_init n (some array) = .ok b) :
    BInvH b (spec_init_list n b.max_order) 0 0 ∧ b.chunk_count = n ∧
    b.max_order = (if highest_bit n < BUDDY_MAX_ORDER then highest_bit n else BUDDY_MAX_ORDER) ∧
    (∀ j, j < n → (b.chunk_array j).free = true) ∧
    (init_orders (b.max_order + 1)
      { chunk_count := n, chunk_array := array, max_order := b.max_order
        lists := fun _ => { head := none, length := 0 } } 0).2 = n := by
  obtain ⟨hn0, hn⟩ := buddy_init_ok h
  have hcond : ¬ (n = 0 ∨ n > BUDDY_MAX_CHUNK_COUNT) := by omega
  obtain ⟨m, hm⟩ : ∃ m, m =
      (if highest_bit n < BUDDY_MAX_ORDER then highest_bit n else BUDDY_MAX_ORDER) := ⟨_, rfl⟩
  have hseed : Seeded
      { chunk_count := n, chunk_array := array, max_order := m
        lists := fun _ => { head := none, length := 0 } }
      (fun _ => []) n m 0 :=
    { inv :=
        { sized := hn
          ordered := hm ▸ init_max_order_le n
          pinv :=
            { cover := fun i hi hni => absurd (show in_hole 0 (n - 0) i from ⟨Nat.zero_le i, by
                simpa using hi⟩) hni
              merged := fun c o hb hnc _ _ => absurd (show in_hole 0 (n - 0) c from
                ⟨Nat.zero_le c, by simpa using hb.lt⟩) hnc }
          lists := fun o =>
            { nodup := List.nodup_nil, len_eq := rfl, head_eq := rfl
              links := fun h t e => by simp at e }
          mem := fun o c => by
            constructor
            · intro hh; simp at hh
            · rintro ⟨hb, hnc⟩
              exact absurd (show in_hole 0 (n - 0) c from
                ⟨Nat.zero_le c, by simpa using hb.lt⟩) hnc }
      chunk_count := rfl, max_order := rfl, le := Nat.zero_le n
      all_free := fun j hj => absurd hj (Nat.not_lt_zero j) }
  have hb : b = (init_orders (m + 1)
      { chunk_count := n, chunk_array := array, max_order := m
        lists := fun _ => { head := none, length := 0 } } 0).1 := by
    unfold buddy_init at h
    rw [if_neg hcond] at h
    simp only at h
    rw [← hm] at h
    injection h with h
    exact h.symm
  obtain ⟨r1, r2⟩ := init_blocks_lists m n hseed (Nat.le_refl m) (align_zero m)
    (fun hh => absurd hh (Nat.lt_irrefl m)) (by omega)
  rw [Nat.zero_add, Nat.sub_zero] at r1 r2
  obtain ⟨r3, r4⟩ := init_orders_lists m r1 (Nat.le_refl m) rfl
  have hfinal : Seeded b (spec_init_list n m) n m n := by
    rw [hb]
    unfold init_orders
    show Seeded (init_orders m (init_blocks m n _ 0).1 (init_blocks m n _ 0).2).1 _ n m n
    rw [r2]
    refine r3.same_lists ?_
    intro o
    unfold spec_init_list
    rw [store_apply]
    by_cases ho : o = m
    · subst ho
      rw [if_pos rfl, if_pos rfl, if_neg (fun hh => Nat.lt_irrefl _ hh.1), List.append_nil,
        List.nil_append]
      apply List.map_congr_left
      intro i _
      simp
    · rw [if_neg ho, if_neg ho, List.nil_append]
  have hmo : b.max_order = m := hfinal.max_order
  rw [hmo, ← hm]
  refine ⟨?_, hfinal.chunk_count, rfl, hfinal.all_free, ?_⟩
  · have := hfinal.inv
    rw [Nat.sub_self] at this
    exact this.of_empty_lists
  · unfold init_orders
    show (init_orders m (init_blocks m n _ 0).1 (init_blocks m n _ 0).2).2 = n
    rw [r2]
    exact r4

end Buddy

theorem spec_init_list_eight (o : Nat) :
    spec_init_list 8 3 o = if o = 3 then [0] else [] := by
  unfold spec_init_list
  by_cases h3 : o = 3
  · rw [if_pos h3, if_pos h3]
    rfl
  · rw [if_neg h3, if_neg h3, if_neg]
    rintro ⟨h1, h2⟩
    have : o = 0 ∨ o = 1 ∨ o = 2 := by omega
    rcases this with e | e | e <;> subst e <;> exact absurd h2 (by decide)

/-- C23: after a successful `buddy_init n`, `max_order` is
`min (floor (log2 n)) 15`; the seeding loop ends with `offset = n`; the list
of every order `o` holds the blocks of `spec_init_list n max_order o`, in
this order (for `max_order`: the `floor (n / 2 ^ max_order)` blocks
`0, 2 ^ max_order, ...`; below it: one block if bit `o` of `n` is set,
starting at `n` with its low `o + 1` bits cleared, and none otherwise); the
blocks on the lists lie in `[0, n)` and every chunk of `[0, n)` lies in
exactly one of them.  For `n = 8`: `max_order = 3`, the list of order `3` is
`[0]` and all other lists are empty. -/
theorem buddy_init_free_lists (n : Nat) (array : Nat → buddy_chunk_t) (b : buddy_t)
    (h : Buddy.buddy_init n (some array) = .ok b) :
    b.chunk_count = n ∧ b.max_order = min (Nat.log 2 n) 15 ∧
    (Buddy.init_orders (b.max_order + 1)
      { chunk_count := n, chunk_array := array, max_order := b.max_order
        lists := fun _ => { head := none, length := 0 } } 0).2 = n ∧
    (∀ o, Buddy.list_members b o = spec_init_list n b.max_order o ∧
      (b.lists o).length = (spec_init_list n b.max_order o).length) ∧
    (∀ o c, c ∈ Buddy.list_members b o → c + 2 ^ o ≤ n) ∧
    (∀ j, j < n → ∃ o c, c ∈ Buddy.list_members b o ∧ c ≤ j ∧ j < c + 2 ^ o ∧
      ∀ o2 c2, c2 ∈ Buddy.list_members b o2 → c2 ≤ j → j < c2 + 2 ^ o2 →
        o2 = o ∧ c2 = c) ∧
    (n = 8 → b.max_order = 3 ∧ Buddy.list_members b 3 = [0] ∧
      ∀ o, o ≠ 3 → Buddy.list_members b o = []) := by
  obtain ⟨hinv, hcount, hmax, hfree, hoff⟩ := Buddy.buddy_init_lists h
  obtain ⟨hn0, hn⟩ := Buddy.buddy_init_ok h
  have hlt : n < 2 ^ 64 := Nat.lt_of_le_of_lt hn (by decide)
  have hmo : b.max_order = min (Nat.log 2 n) 15 := by
    rw [hmax, highest_bit_eq_log n hn0 hlt]
    have e15 : BUDDY_MAX_ORDER = 15 := by decide
    rw [e15]
    split_ifs <;> omega
  have hmem : ∀ o, Buddy.list_members b o = spec_init_list n b.max_order o :=
    fun o => hinv.members o
  refine ⟨hcount, hmo, hoff, ?_, ?_, ?_, ?_⟩
  · intro o
    exact ⟨hmem o, (hinv.lists o).len_eq⟩
  · intro o c hc
    rw [hmem] at hc
    have := ((hinv.mem o c).1 hc).1.in_range
    rw [hcount] at this
    exact this
  · intro j hj
    have hblk := hinv.pinv.block_of (by rw [hcount]; exact hj)
    rw [hfree j hj] at hblk
    have hin : in_block (BUDDY_ALIGN_TO_ORDER j (b.chunk_array j).order)
        (b.chunk_array j).order j := ⟨align_le _ _, lt_align_add _ _⟩
    refine ⟨_, _, ?_, hin.1, hin.2, ?_⟩
    · rw [hmem]
      exact (hinv.mem _ _).2 ⟨hblk, Buddy.not_in_hole_zero _ _⟩
    · intro o2 c2 hc2 h1 h2
      rw [hmem] at hc2
      have hb2 := ((hinv.mem o2 c2).1 hc2).1
      obtain ⟨e1, e2, _⟩ := hb2.unique hblk ⟨h1, h2⟩ hin
      exact ⟨e2, e1⟩
  · intro h8
    subst h8
    have hlog : Nat.log 2 8 = 3 := Nat.log_eq_of_pow_le_of_lt_pow (by decide) (by decide)
    have h3 : b.max_order = 3 := by rw [hmo, hlog]; rfl
    refine ⟨h3, ?_, ?_⟩
    · rw [hmem, h3, spec_init_list_eight, if_pos rfl]
    · intro o ho
      rw [hmem, h3, spec_init_list_eight, if_neg ho]

set_option maxRecDepth 100000 in
theorem buddy_init_free_lists_witness :
    Buddy.buddy_init 13 (some zero_chunks) = .ok (Buddy.init_state 13 zero_chunks) ∧
    (Buddy.init_state 13 zero_chunks).max_order = 3 ∧
    [0, 1, 2, 3].map (Buddy.list_members (Buddy.init_state 13 zero_chunks)) =
      [[12], [], [8], [0]] ∧
    (∀ o, Buddy.list_members (Buddy.init_state 13 zero_chunks) o =
        spec_init_list 13 (Buddy.init_state 13 zero_chunks).max_order o ∧
      ((Buddy.init_state 13 zero_chunks).lists o).length =
        (spec_init_list 13 (Buddy.init_state 13 zero_chunks).max_order o).length) :=
  ⟨rfl, by decide!, by decide!,
   (buddy_init_free_lists 13 zero_chunks (Buddy.init_state 13 zero_chunks) rfl).2.2.2.1⟩

set_option maxRecDepth 1000000 in
/-- C24 (code defect): with `ALLOCATOR_STRICT_ADDR`, `allocator_usable_size`
does not check the address inside a tiny block.  On a fresh allocator of 8
chunks `allocate (100)` returns `0`, a piece of `112` bytes; in strict mode
`allocator_free (2)` returns `EINVAL`, but `allocator_usable_size (2)` returns
`112`, not `0`.  Likewise, on a fresh allocator of 16 chunks the 37th
`allocate (100)` returns `0x1000 = 4096`, and in strict mode
`allocator_usable_size (0x1002)` returns `112`, not `0`. -/
theorem strict_usable_size_inside_piece :
    (Allocator.from_init true 4096 zero_chunks zero_bitmaps [.allocate 100]).map
      (fun r => (r.2, [Allocator.allocator_usable_size true r.1 0,
        Allocator.allocator_usable_size true r.1 2,
        (Allocator.allocator_free true r.1 2).2])) = some ([0], [112, 112, EINVAL]) ∧
    (Allocator.from_init true (16 * 512) zero_chunks zero_bitmaps
      (List.replicate 37 (.allocate 100))).map
      (fun r => (r.2.getLast?, [Allocator.allocator_usable_size true r.1 4096,
        Allocator.allocator_usable_size true r.1 4098,
        (Allocator.allocator_free true r.1 4098).2])) =
      some (some 4096, [112, 112, EINVAL]) := by
  decide!

set_option maxRecDepth 1000000 in
/-- C26 (code defect): `allocator_usable_size` does not return `0` for every
invalid address.  On a fresh allocator of 8 chunks `allocate (8)` returns
`0`, the first piece of `8` bytes of the block at chunk `0`; the piece at
address `8` is free and address `488` lies beyond the last piece of the
block, so that `allocator_free` returns `EINVAL` for both, in either address
mode, but `allocator_usable_size` returns `8` for both. -/
theorem usable_size_of_free_piece : ∀ strict : Bool,
    (Allocator.from_init strict 4096 zero_chunks zero_bitmaps [.allocate 8]).map
      (fun r => (r.2, [Allocator.allocator_usable_size strict r.1 8,
        (Allocator.allocator_free strict r.1 8).2,
        Allocator.allocator_usable_size strict r.1 488,
        (Allocator.allocator_free strict r.1 488).2])) = some ([0], [8, EINVAL, 8, EINVAL]) := by
  decide!

set_option maxRecDepth 1000000 in
/-- C28 (code defect): a block can satisfy the four conditions without being
on the list of its level.  On a fresh allocator of 1024 chunks with zeroed
metadata, `allocate (8)`, `free (0)` and `reserve (0, 458753)` return `0`;
afterwards chunk `0` is allocated with order `10`, its bitmap still has
`tiny = 1`, `index_in_group = 0` and `frees ≠ 0`, so that its level is `40`,
but the list of level `40` is empty. -/
theorem stale_tiny_block_not_listed : ∀ strict : Bool,
    (Allocator.from_init strict (1024 * 512) zero_chunks zero_bitmaps
      [.allocate 8, .free 0, .reserve 0 458753]).map
      (fun r => (r.2,
        [(r.1.buddy.chunk_array 0).free, (r.1.bitmap_array 0).tiny,
          decide ((r.1.bitmap_array 0).frees ≠ 0), (r.1.lists 40).head.isNone],
        [(r.1.buddy.chunk_array 0).order * 4 + (r.1.bitmap_array 0).index_in_group,
          (r.1.lists 40).length])) =
      some ([0, 0, 0], [false, true, true, true], [40, 0]) := by
  decide!

set_option maxRecDepth 1000000 in
/-- C29 (code defect): the `prev` and `next` fields are not kept identical
inside a free block.  On a fresh buddy of 8 chunks, three `buddy_allocate (1)`
return `0`, `2` and `4`, and `buddy_free (0)` then pushes block `0` behind
block `6` on the list of order `1`: the blocks `2` and `4` stay allocated, the
list holds the blocks `6` and `0`, the head descriptor of block `6` has
`prev = next = 0`, and the second descriptor of the same free block, chunk
`7`, still has `prev = next = 6`. -/
theorem free_block_links_differ :
    ((Buddy.run (Buddy.init_state 8 zero_chunks, [])
        [.allocate 1, .allocate 1, .allocate 1, .free 0]).2,
     Buddy.list_members
      (Buddy.run (Buddy.init_state 8 zero_chunks, [])
        [.allocate 1, .allocate 1, .allocate 1, .free 0]).1 1,
     [6, 7].map (fun j =>
      (((Buddy.run (Buddy.init_state 8 zero_chunks, [])
          [.allocate 1, .allocate 1, .allocate 1, .free 0]).1.chunk_array j).free,
       ((Buddy.run (Buddy.init_state 8 zero_chunks, [])
          [.allocate 1, .allocate 1, .allocate 1, .free 0]).1.chunk_array j).order,
       ((Buddy.run (Buddy.init_state 8 zero_chunks, [])
          [.allocate 1, .allocate 1, .allocate 1, .free 0]).1.chunk_array j).prev,
       ((Buddy.run (Buddy.init_state 8 zero_chunks, [])
          [.allocate 1, .allocate 1, .allocate 1, .free 0]).1.chunk_array j).next))) =
    ([(4, 1), (2, 1)], [6, 0], [(true, 1, 0, 0), (true, 1, 6, 6)]) := by
  decide!

namespace Allocator
open Buddy

/-- Without `ALLOCATOR_STRICT_ADDR`, every address inside a live allocation
is treated as the start of the allocation by `allocator_usable_size` and
`allocator_free`. -/
theorem Live.same_piece {a : allocator_t} {ls lls : Nat → List Nat}
    {T : Nat → Nat → Prop} {E : List (Nat × Nat)} (h : Live a ls lls T E)
    (hdir : Direct a T) {q : Nat × Nat} (hq : q ∈ E) {addr : Nat} (h1 : q.1 ≤ addr)
    (h2 : addr < q.1 + entry_size q) :
    allocator_usable_size false a addr = allocator_usable_size false a q.1 ∧
    allocator_free false a addr = allocator_free false a q.1 := by
  have hinv := h.inv
  have hv := h.valid q hq
  have hb := hv.1
  have hina := hv.range_block hinv h1 h2
  have hinp := hv.chunk_in hinv
  have hua := hb.uniform _ hina
  have hup := hb.uniform _ hinp
  have hala : BUDDY_ALIGN_TO_ORDER (addr / 512) (entry_order q) = entry_chunk q :=
    (in_block_iff hb.aligned _).1 hina
  have halp : BUDDY_ALIGN_TO_ORDER (q.1 / 512) (entry_order q) = entry_chunk q :=
    (in_block_iff hb.aligned _).1 hinp
  have hlta : addr / 512 < a.buddy.chunk_count := by
    have := hb.in_range
    have := hina.2
    omega
  have hltp : q.1 / 512 < a.buddy.chunk_count := by
    have := hb.in_range
    have := hinp.2
    omega
  have hns : ∀ x y : Nat, ¬ (false = true ∧ x ≠ y) := by
    rintro x y ⟨hh, _⟩
    exact absurd hh (by decide)
  constructor
  · have e : ∀ x, x / 512 < a.buddy.chunk_count →
        (a.buddy.chunk_array (x / 512)).free = false →
        (a.buddy.chunk_array (x / 512)).order = entry_order q →
        BUDDY_ALIGN_TO_ORDER (x / 512) (entry_order q) = entry_chunk q →
        allocator_usable_size false a x =
          if (a.bitmap_array (entry_chunk q)).tiny = false then
            BUDDY_ORDER_TO_COUNT (entry_order q) * ALLOCATOR_CHUNK_SIZE
          else
            allocator_level_size (entry_order q * 4 +
              (a.bitmap_array (entry_chunk q)).index_in_group) := by
      intro x hx1 hx2 hx3 hx4
      have g1 : ¬ (x / ALLOCATOR_CHUNK_SIZE ≥ a.buddy.chunk_count) := by
        show ¬ (x / 512 ≥ a.buddy.chunk_count)
        omega
      have g2 : (a.buddy.chunk_array (x / ALLOCATOR_CHUNK_SIZE)).free = false := hx2
      have g3 : (a.buddy.chunk_array (x / ALLOCATOR_CHUNK_SIZE)).order = entry_order q := hx3
      have g4 : BUDDY_ALIGN_TO_ORDER (x / ALLOCATOR_CHUNK_SIZE) (entry_order q) =
          entry_chunk q := hx4
      unfold allocator_usable_size
      simp only [g1, if_false, g2, g3, g4, Bool.false_eq_true]
      cases (a.bitmap_array (entry_chunk q)).tiny
      · simp
      · simp
    rw [e addr hlta hua.1 hua.2 hala, e q.1 hltp hup.1 hup.2 halp]
  · by_cases hl : allocator_size_to_level q.2 < 0
    · have hv2 := hv.2
      rw [if_pos hl] at hv2
      have ht : (a.bitmap_array (entry_chunk q)).tiny = false := by
        rcases hdir _ _ hb with ⟨L, hT⟩ | ht
        · exact absurd hT (hv2.2 L)
        · exact ht
      rw [free_direct_eq false a addr hlta hua.1 (by rw [hua.2, hala]; exact ht),
        free_direct_eq false a q.1 hltp hup.1 (by rw [hup.2, halp]; exact ht),
        hua.2, hup.2, hala, halp, if_neg (hns _ _), if_neg (hns _ _)]
    · have hv2 := hv.2
      rw [if_neg hl] at hv2
      obtain ⟨hT, hbit, _, haddr⟩ := hv2
      have ht := hinv.tbitmap _ _ hT
      have hL := hinv.tlevel _ _ hT
      have ho := entry_order_tiny hl
      have hlev : entry_order q * 4 + (a.bitmap_array (entry_chunk q)).index_in_group =
          (allocator_size_to_level q.2).toNat := by
        rw [ht.2, ho]; omega
      have hec : entry_chunk q * 512 ≤ q.1 := by
        have : q.1 = entry_chunk q * 512 +
            entry_bit q * allocator_level_size (allocator_size_to_level q.2).toNat := haddr
        omega
      have hes : entry_size q = allocator_level_size (allocator_size_to_level q.2).toNat :=
        entry_size_tiny hl
      have hgb : ∀ x, q.1 ≤ x → x < q.1 + entry_size q →
          get_bit_index false x (entry_chunk q) (allocator_size_to_level q.2).toNat =
            ((entry_bit q : Nat) : Int) := by
        intro x hx1 hx2
        have hd : (x - entry_chunk q * 512) /
            allocator_level_size (allocator_size_to_level q.2).toNat = entry_bit q := by
          apply piece_div hL
          · have : q.1 = entry_chunk q * 512 +
                entry_bit q * allocator_level_size (allocator_size_to_level q.2).toNat := haddr
            omega
          · have : q.1 = entry_chunk q * 512 +
                entry_bit q * allocator_level_size (allocator_size_to_level q.2).toNat := haddr
            rw [hes] at hx2
            omega
        rw [get_bit_index_eq, hd, if_neg]
        rintro (h3 | ⟨h3, _⟩)
        · omega
        · exact absurd h3 (by decide)
      have hpos := level_size_pos _ hL
      rw [free_tiny_eq false a addr hlta hua.1 (by rw [hua.2, hala]; exact ht.1),
        free_tiny_eq false a q.1 hltp hup.1 (by rw [hup.2, halp]; exact ht.1),
        hua.2, hup.2, hala, halp, hlev, hgb addr h1 h2,
        hgb q.1 (Nat.le_refl _) (by rw [hes]; omega)]

end Allocator

/-- The addresses inside a piece in the states reached without
`allocator_reserve`: without `ALLOCATOR_STRICT_ADDR`, after any sequence of
`allocator_allocate` and `allocator_free` calls on a fresh allocator, for
every live allocation starting at `p` with usable size `u` and every `addr`
in `[p, p + u)`, `allocator_usable_size addr` is `allocator_usable_size p`,
and `allocator_free addr` returns the same code and the same state as
`allocator_free p`. -/
theorem nonstrict_addr_in_piece (size : Nat) (cm : Nat → buddy_chunk_t)
    (bm : Nat → allocator_bitmap_t) (a0 : allocator_t) (ops : List Allocator.Op)
    (p : Nat × Nat) (addr : Nat)
    (h0 : Allocator.allocator_init size (some cm) (some bm) = .ok a0)
    (hops : ∀ op, op ∈ ops → op.is_reserve = false)
    (hp : p ∈ (Allocator.run false (a0, []) ops).2) (h1 : p.1 ≤ addr)
    (h2 : addr < p.1 +
      Allocator.allocator_usable_size false (Allocator.run false (a0, []) ops).1 p.1) :
    Allocator.allocator_usable_size false (Allocator.run false (a0, []) ops).1 addr =
      Allocator.allocator_usable_size false (Allocator.run false (a0, []) ops).1 p.1 ∧
    Allocator.allocator_free false (Allocator.run false (a0, []) ops).1 addr =
      Allocator.allocator_free false (Allocator.run false (a0, []) ops).1 p.1 := by
  obtain ⟨ls0, lls0, hl0, hd0, _, hn0, hm0⟩ := Allocator.allocator_init_live h0
  have hsrc : Allocator.Src (size / 512)
      (if highest_bit (size / 512) < BUDDY_MAX_ORDER then highest_bit (size / 512)
       else BUDDY_MAX_ORDER) (a0, ([] : List (Nat × Nat))).1 (a0, ([] : List (Nat × Nat))).2 :=
    ⟨ls0, lls0, _, hl0, hd0, hn0, hm0⟩
  obtain ⟨lsA, llsA, TA, hA, hdA, _, _⟩ := Allocator.Src.run_src false ops hops _ hsrc
  rw [Allocator.usable_size_valid false hA.inv hdA (hA.valid p hp)] at h2
  exact hA.same_piece hdA hp h1 h2

set_option maxRecDepth 100000 in
theorem nonstrict_addr_in_piece_witness :
    Allocator.allocator_init 4096 (some zero_chunks) (some stale_bitmaps) =
        .ok (Allocator.init_state 4096 zero_chunks stale_bitmaps) ∧
    ((10, 10) : Nat × Nat) ∈
      (Allocator.run false (Allocator.init_state 4096 zero_chunks stale_bitmaps, [])
        [.allocate 10, .allocate 10]).2 ∧
    (10 : Nat) ≤ 13 ∧
    13 < 10 + Allocator.allocator_usable_size false
      (Allocator.run false (Allocator.init_state 4096 zero_chunks stale_bitmaps, [])
        [.allocate 10, .allocate 10]).1 10 ∧
    Allocator.allocator_usable_size false
      (Allocator.run false (Allocator.init_state 4096 zero_chunks stale_bitmaps, [])
        [.allocate 10, .allocate 10]).1 13 =
      Allocator.allocator_usable_size false
        (Allocator.run false (Allocator.init_state 4096 zero_chunks stale_bitmaps, [])
          [.allocate 10, .allocate 10]).1 10 ∧
    Allocator.allocator_free false
      (Allocator.run false (Allocator.init_state 4096 zero_chunks stale_bitmaps, [])
        [.allocate 10, .allocate 10]).1 13 =
      Allocator.allocator_free false
        (Allocator.run false (Allocator.init_state 4096 zero_chunks stale_bitmaps, [])
          [.allocate 10, .allocate 10]).1 10 :=
  ⟨rfl, by decide!, by decide, by decide!,
   nonstrict_addr_in_piece 4096 zero_chunks stale_bitmaps _ [.allocate 10, .allocate 10]
     (10, 10) 13 rfl (by decide) (by decide!) (by decide) (by decide!)⟩

/-- C25 (code defect): without `ALLOCATOR_STRICT_ADDR`, the addresses inside
an allocated piece are not always treated as the start of the piece.  After
the thirteen successful calls `corrupt_ops` on a fresh allocator of 8192
chunks, `allocator_allocate (8192)` returns `p = block_addr 4 + 8192`, whose
usable size is `u = 10240`; the address `block_addr 4 + 10240` lies in
`[p, p + u)` and has the same usable size.  `allocator_free (p)` returns `0`
and leaves the pieces `0, 2 .. 50` of the block at chunk 4096 free
(`frees = 2 ^ 51 - 3`), while `allocator_free (block_addr 4 + 10240)` returns
`0` and leaves the pieces `1 .. 50` free (`frees = 2 ^ 51 - 2`): the two
calls end in different states. -/
theorem nonstrict_free_inside_piece :
    ((Allocator.from_init false (8192 * 512) zero_chunks zero_bitmaps
        (Allocator.corrupt_ops ++ [.allocate 8192])).map
      (fun r => (r.2, Allocator.allocator_usable_size false r.1 (Allocator.block_addr 4 + 8192),
        Allocator.allocator_usable_size false r.1 (Allocator.block_addr 4))) =
      some ([0, 0, 0, 0, 0, 0, 0, 0, 0, 0, 0, 0, 0, Allocator.block_addr 4 + 8192],
        10240, 10240)) ∧
    (Allocator.block_addr 4 + 8192 ≤ Allocator.block_addr 4 + 10240 ∧
      Allocator.block_addr 4 + 10240 < Allocator.block_addr 4 + 8192 + 10240) ∧
    ((Allocator.from_init false (8192 * 512) zero_chunks zero_bitmaps
        (Allocator.corrupt_ops ++ [.allocate 8192])).map
      (fun r => Allocator.allocator_usable_size false r.1 (Allocator.block_addr 4 + 10240)) =
      some 10240) ∧
    ((Allocator.from_init false (8192 * 512) zero_chunks zero_bitmaps
        (Allocator.corrupt_ops ++
          [.allocate 8192, .free (Allocator.block_addr 4 + 8192)])).map
      (fun r => (r.2, [(r.1.buddy.chunk_array 4096).free, (r.1.bitmap_array 4096).tiny],
        [(r.1.buddy.chunk_array 4096).order, (r.1.bitmap_array 4096).index_in_group,
         (r.1.bitmap_array 4096).frees])) =
      some ([0, 0, 0, 0, 0, 0, 0, 0, 0, 0, 0, 0, 0, Allocator.block_addr 4 + 8192, 0],
        [false, true], [10, 1, 2 ^ 51 - 3])) ∧
    ((Allocator.from_init false (8192 * 512) zero_chunks zero_bitmaps
        (Allocator.corrupt_ops ++
          [.allocate 8192, .free (Allocator.block_addr 4 + 10240)])).map
      (fun r => (r.2, [(r.1.buddy.chunk_array 4096).free, (r.1.bitmap_array 4096).tiny],
        [(r.1.buddy.chunk_array 4096).order, (r.1.bitmap_array 4096).index_in_group,
         (r.1.bitmap_array 4096).frees])) =
      some ([0, 0, 0, 0, 0, 0, 0, 0, 0, 0, 0, 0, 0, Allocator.block_addr 4 + 8192, 0],
        [false, true], [10, 1, 2 ^ 51 - 2])) ∧
    (2 : Nat) ^ 51 - 3 ≠ 2 ^ 51 - 2 :=
  ⟨corrupt_eval.2.1, by decide, corrupt_eval.2.2.2.2.1, corrupt_eval.2.2.1,
   corrupt_eval.2.2.2.2.2, by decide⟩

namespace Allocator
open Buddy

end Allocator

/-- C34 (counterexample): at level `4` the pieces have `16` bytes, so
`min (512 / level_size (4), 61)` is `32`, while `get_bitmap_bits (4)` is `61`
and the full bitmap of the level has `61` bits: the table of
`get_bitmap_bits` is indexed by `level % 4` only. -/
theorem bitmap_bits_not_chunk_quotient :
    allocator_level_size 4 = 16 ∧ min (512 / allocator_level_size 4) 61 = 32 ∧
    Allocator.get_bitmap_bits 4 = 61 ∧
    Allocator.get_bitmap_bits 4 ≠ min (512 / allocator_level_size 4) 61 ∧
    Allocator.FULL_BITMAP 4 = (1 <<< 61) - 1 := by
  decide!

set_option maxRecDepth 1000000 in
/-- C34 (amended): for every level `L` in `0..63` the number of pieces
tracked per block, `get_bitmap_bits (L)`, equals
`min (512 / level_size (L % 4), 61)` with integer division, the quotient of
the level's position in its group, which is also the number of pieces of
`level_size (L)` bytes in a block of `2 ^ (L / 4)` chunks, capped at `61`;
and the full bitmap installed by `init_bitmap` is `(1 << that number) - 1`. -/
theorem bitmap_bits_group_quotient (L : Nat) (h : L ≤ 63) :
    Allocator.get_bitmap_bits L = min (512 / allocator_level_size (L % 4)) 61 ∧
    Allocator.get_bitmap_bits L = min (2 ^ (L / 4) * 512 / allocator_level_size L) 61 ∧
    ∀ (a : allocator_t) (c : Nat),
      ((Allocator.init_bitmap a c L).bitmap_array c).frees =
        (1 <<< Allocator.get_bitmap_bits L) - 1 := by
  have key : ∀ L, L < 64 →
      Allocator.get_bitmap_bits L = min (512 / allocator_level_size (L % 4)) 61 ∧
      Allocator.get_bitmap_bits L = min (2 ^ (L / 4) * 512 / allocator_level_size L) 61 := by
    decide!
  refine ⟨(key L (by omega)).1, (key L (by omega)).2, fun a c => ?_⟩
  simp [Allocator.init_bitmap, store, Allocator.FULL_BITMAP, Nat.shiftLeft_eq]

theorem bitmap_bits_group_quotient_witness :
    4 ≤ 63 ∧
    (Allocator.get_bitmap_bits 4 = min (512 / allocator_level_size (4 % 4)) 61 ∧
    Allocator.get_bitmap_bits 4 = min (2 ^ (4 / 4) * 512 / allocator_level_size 4) 61 ∧
    ∀ (a : allocator_t) (c : Nat),
      ((Allocator.init_bitmap a c 4).bitmap_array c).frees =
        (1 <<< Allocator.get_bitmap_bits 4) - 1) :=
  ⟨by decide, bitmap_bits_group_quotient 4 (by decide)⟩

set_option maxRecDepth 1000000 in
/-- The size of the pieces of a level: `2 ^ (L / 4) * (8 + 2 * (L % 4))`. -/
theorem level_size_formula :
    ∀ L, L < 64 → allocator_level_size L = 2 ^ (L / 4) * (8 + 2 * (L % 4)) := by
  decide!

set_option maxRecDepth 1000000 in
theorem level_size_succ_lt :
    ∀ L, L < 63 → allocator_level_size L < allocator_level_size (L + 1) := by
  decide!

/-- The piece sizes increase strictly with the level on `0..63`. -/
theorem level_size_strict_mono {i j : Nat} (hij : i < j) (hj : j ≤ 63) :
    allocator_level_size i < allocator_level_size j := by
  induction j with
  | zero => omega
  | succ k ih =>
    have hk := level_size_succ_lt k (by omega)
    by_cases hik : i = k
    · rw [hik]; exact hk
    · exact Nat.lt_trans (ih (by omega) (by omega)) hk

/-- The level of the specification is below a level `L` exactly when the
size fits the pieces of `L`. -/
theorem spec_level_le_level (size L : Nat) (h8 : 8 ≤ size) (hL : L ≤ 63) :
    spec_level size ≤ L ↔ size ≤ allocator_level_size L := by
  have hne : size ≠ 0 := by omega
  have h3 : 3 ≤ Nat.log 2 size := by
    rw [← Nat.pow_le_iff_le_log (by decide) hne]
    exact h8
  have hlo : 2 ^ Nat.log 2 size ≤ size := Nat.pow_log_le_self 2 hne
  have hhi : size < 2 ^ (Nat.log 2 size + 1) := Nat.lt_pow_succ_log_self (by decide) size
  have e1 : Nat.log 2 size = (Nat.log 2 size - 3) + 3 := by omega
  have e2 : Nat.log 2 size + 1 = (Nat.log 2 size - 3) + 4 := by omega
  rw [e1, pow_add] at hlo
  rw [e2, pow_add] at hhi
  rw [level_size_formula L (by omega)]
  unfold spec_level spec_ceil_div
  simp only [Nat.shiftLeft_eq]
  generalize Nat.log 2 size - 3 = g at hlo hhi ⊢
  have hq : L / 4 ≤ 15 := by omega
  have hr : L % 4 < 4 := Nat.mod_lt _ (by decide)
  have hLe : L = 4 * (L / 4) + L % 4 := (Nat.div_add_mod L 4).symm
  generalize L / 4 = q at hq hLe ⊢
  generalize L % 4 = r at hr hLe ⊢
  have hcmp : (q < g → 2 ^ q * 2 ≤ 2 ^ g) ∧ (g < q → 2 ^ g * 2 ≤ 2 ^ q) ∧
      (q = g → 2 ^ q = 2 ^ g) := by
    refine ⟨fun h => ?_, fun h => ?_, fun h => by rw [h]⟩
    · rw [← pow_succ]; exact Nat.pow_le_pow_right (by decide) h
    · rw [← pow_succ]; exact Nat.pow_le_pow_right (by decide) h
  have hGpos : 0 < 2 ^ g := Nat.two_pow_pos g
  have hQpos : 0 < 2 ^ q := Nat.two_pow_pos q
  generalize 2 ^ g = G at hlo hhi hcmp hGpos ⊢
  generalize 2 ^ q = Q at hcmp hQpos ⊢
  have hdiv : ∀ k, (size - 8 * G + 2 * G - 1) / (2 * G) ≤ k ↔
      size - 8 * G + 2 * G - 1 < (k + 1) * (2 * G) := by
    intro k
    rw [← Nat.lt_succ_iff, Nat.div_lt_iff_lt_mul (by omega)]
  have ha4 : (size - 8 * G + 2 * G - 1) / (2 * G) ≤ 4 := by
    rw [hdiv]; omega
  obtain ⟨h1, h2, h3⟩ := hcmp
  generalize (size - 8 * G + 2 * G - 1) / (2 * G) = a at hdiv ha4 ⊢
  rcases Nat.lt_trichotomy q g with hlt | heq | hgt
  · have := h1 hlt
    constructor
    · intro hh; omega
    · intro hh
      exfalso
      have : Q * (8 + 2 * r) ≤ Q * 14 := Nat.mul_le_mul_left _ (by omega)
      omega
  · have := h3 heq
    subst this
    subst heq
    have hd := hdiv r
    rw [hLe]
    constructor
    · intro hh
      have : a ≤ r := by omega
      have := hd.1 this
      have e : Q * (8 + 2 * r) = 8 * Q + (r + 1) * (2 * Q) - 2 * Q := by
        rw [Nat.mul_add, Nat.add_mul]
        have : Q * (2 * r) = r * (2 * Q) := by ring
        omega
      rw [e]
      omega
    · intro hh
      have e : Q * (8 + 2 * r) = 8 * Q + (r + 1) * (2 * Q) - 2 * Q := by
        rw [Nat.mul_add, Nat.add_mul]
        have : Q * (2 * r) = r * (2 * Q) := by ring
        omega
      rw [e] at hh
      have : a ≤ r := hd.2 (by omega)
      omega
  · have := h2 hgt
    constructor
    · intro _
      have : Q * 8 ≤ Q * (8 + 2 * r) := Nat.mul_le_mul_left _ (by omega)
      omega
    · intro _; omega

/-- On the tiny range `allocator_size_to_level` is `0` below `8` and the
level of the specification from `8`. -/
theorem size_to_level_tiny (size : Nat) (h : size ≤ 458752) :
    allocator_size_to_level size = ((if size < 8 then 0 else spec_level size : Nat) : Int) := by
  unfold allocator_size_to_level
  by_cases h8 : size < 8
  · rw [if_pos h8, if_pos h8]; rfl
  rw [if_neg h8, if_neg h8]
  simp only [code_level_eq size (by omega) (by omega)]
  have hmax : ALLOCATOR_MAX_LEVEL = 63 := by decide
  rw [hmax, if_pos ((spec_level_le_iff size (by omega)).2 h)]

/-- The level of a tiny size is the least level whose pieces hold it. -/
theorem size_to_level_least (size : Nat) (h : size ≤ 458752) :
    ∃ L : Nat, allocator_size_to_level size = (L : Int) ∧ L ≤ 63 ∧
      size ≤ allocator_level_size L ∧
      ∀ L2, L2 ≤ 63 → size ≤ allocator_level_size L2 → L ≤ L2 := by
  refine ⟨_, size_to_level_tiny size h, ?_⟩
  by_cases h8 : size < 8
  · rw [if_pos h8]
    refine ⟨by decide, ?_, fun L2 _ _ => Nat.zero_le _⟩
    have : allocator_level_size 0 = 8 := by decide!
    omega
  · rw [if_neg h8]
    have h63 := (spec_level_le_iff size (by omega)).2 h
    exact ⟨h63, (spec_level_le_level size _ (by omega) h63).1 (le_refl _),
      fun L2 hL2 hfit => (spec_level_le_level size L2 (by omega) hL2).2 hfit⟩

/-- C36: best fit.  For every size up to `458752` the level
`L = allocator_size_to_level (size)` lies in `0..63`, its pieces hold the
size, and no lower level has pieces that hold it; `allocator_level_size`
increases strictly on `0..63`; and `allocator_size_to_level` is
non-decreasing on the tiny range. -/
theorem size_to_level_best_fit (size : Nat) (h : size ≤ 458752) :
    (∃ L : Nat, allocator_size_to_level size = (L : Int) ∧ L ≤ 63 ∧
      size ≤ allocator_level_size L ∧
      (∀ L2, L2 ≤ 63 → size ≤ allocator_level_size L2 → L ≤ L2) ∧
      (∀ L2, L2 < L → allocator_level_size L2 < size)) ∧
    (∀ i j, i < j → j ≤ 63 → allocator_level_size i < allocator_level_size j) ∧
    (∀ smaller, smaller ≤ size →
      allocator_size_to_level smaller ≤ allocator_size_to_level size) := by
  obtain ⟨L, hL, h63, hfit, hleast⟩ := size_to_level_least size h
  refine ⟨⟨L, hL, h63, hfit, hleast, fun L2 hlt => ?_⟩,
    fun i j hij hj => level_size_strict_mono hij hj, fun s hs => ?_⟩
  · by_contra hge
    have := hleast L2 (by omega) (by omega)
    omega
  · obtain ⟨L1, hL1, _, _, hleast1⟩ := size_to_level_least s (by omega)
    rw [hL1, hL]
    exact Int.ofNat_le.2 (hleast1 L h63 (by omega))

set_option maxRecDepth 1000000 in
theorem size_to_level_best_fit_witness :
    600 ≤ 458752 ∧
    ((∃ L : Nat, allocator_size_to_level 600 = (L : Int) ∧ L ≤ 63 ∧
      600 ≤ allocator_level_size L ∧
      (∀ L2, L2 ≤ 63 → 600 ≤ allocator_level_size L2 → L ≤ L2) ∧
      (∀ L2, L2 < L → allocator_level_size L2 < 600)) ∧
    (∀ i j, i < j → j ≤ 63 → allocator_level_size i < allocator_level_size j) ∧
    (∀ smaller, smaller ≤ 600 →
      allocator_size_to_level smaller ≤ allocator_size_to_level 600)) :=
  ⟨by decide, size_to_level_best_fit 600 (by decide)⟩

/-! ## The assertions of `allocator_size_to_level` -/

/-- Up to `2 ^ 63` every assertion of `allocator_size_to_level` holds. -/
theorem size_to_level_asserts_hold (size : Nat) (h : size ≤ 2 ^ 63) :
    size_to_level_asserts size = true := by
  unfold size_to_level_asserts
  by_cases h8 : size < 8
  · rw [if_pos h8]
  rw [if_neg h8]
  have hne : size ≠ 0 := by omega
  have h64 : size < 2 ^ 64 := by omega
  have hlog := highest_bit_eq_log size hne h64
  have h3 : 3 ≤ Nat.log 2 size := by
    rw [← Nat.pow_le_iff_le_log (by decide) hne]
    exact Nat.le_of_not_lt h8
  have hlo : 2 ^ Nat.log 2 size ≤ size := Nat.pow_log_le_self 2 hne
  have hlog63 : Nat.log 2 size < 64 := Nat.log_lt_of_lt_pow hne h64
  have hg : Nat.log 2 size - 3 ≤ 60 := by omega
  have hG : 2 ^ (Nat.log 2 size - 3) ≤ 2 ^ 60 := Nat.pow_le_pow_right (by decide) hg
  have hGpos : 0 < 2 ^ (Nat.log 2 size - 3) := Nat.two_pow_pos _
  have e1 : 2 ^ Nat.log 2 size = 8 * 2 ^ (Nat.log 2 size - 3) := by
    conv_lhs => rw [show Nat.log 2 size = (Nat.log 2 size - 3) + 3 by omega, pow_add]
    omega
  have hbase : ALLOCATOR_GROUP_BASE_SIZE (Nat.log 2 size - 3) =
      8 * 2 ^ (Nat.log 2 size - 3) := by
    unfold ALLOCATOR_GROUP_BASE_SIZE
    rw [Nat.shiftLeft_eq]
    exact Nat.mod_eq_of_lt (by omega)
  have hlevel := code_level_eq size (Nat.le_of_not_lt h8) h64
  have hb := spec_level_bounds size (Nat.le_of_not_lt h8)
  rw [hlog] at hlevel
  simp only [hlog, hlevel]
  have ha : DIV_CEIL (size - ALLOCATOR_GROUP_BASE_SIZE (Nat.log 2 size - 3))
      (ALLOCATOR_GROUP_SIZE_GAP (Nat.log 2 size - 3)) ≤ 4 := by omega
  have hmax : ALLOCATOR_MAX_LEVEL = 63 := by decide
  rw [hmax]
  simp only [Bool.and_eq_true, decide_eq_true_eq]
  refine ⟨h3, by rw [hbase]; omega, Int.natCast_nonneg _, ha, ?_⟩
  by_cases hl : spec_level size ≤ 63
  · rw [if_pos hl]
  rw [if_neg hl]
  have hgt : ¬ size ≤ 458752 := fun hh => hl ((spec_level_le_iff size (by omega)).2 hh)
  have hcc : DIV_CEIL size ALLOCATOR_CHUNK_SIZE = spec_ceil_div size 512 :=
    DIV_CEIL_eq size 512 (by decide)
  rw [hcc]
  have h512 : 512 < spec_ceil_div size 512 := by
    unfold spec_ceil_div
    show 513 ≤ (size + 512 - 1) / 512
    rw [Nat.le_div_iff_mul_le (by decide)]
    omega
  have hle : spec_ceil_div size 512 ≤ 2 ^ 54 := by
    unfold spec_ceil_div
    rw [← Nat.lt_succ_iff, Nat.div_lt_iff_lt_mul (by decide)]
    omega
  have hmul : size ≤ spec_ceil_div size 512 * 512 := by
    unfold spec_ceil_div
    have := Nat.div_add_mod (size + 512 - 1) 512
    have := Nat.mod_lt (size + 512 - 1) (show 0 < 512 by decide)
    omega
  rw [order_eq_spec_order _ (by omega) (by omega)]
  have hspec : spec_ceil_div size 512 ≤ 2 ^ spec_order (spec_ceil_div size 512) := by
    unfold spec_order
    exact Nat.find_spec (⟨_, Nat.le_of_lt (Nat.lt_two_pow _)⟩ :
      ∃ o, 2 ^ o ≥ spec_ceil_div size 512)
  have hord : spec_order (spec_ceil_div size 512) ≤ 54 := by
    unfold spec_order
    exact Nat.find_min' _ hle
  have hpos : 0 < spec_order (spec_ceil_div size 512) := by
    rcases Nat.eq_zero_or_pos (spec_order (spec_ceil_div size 512)) with h0 | h0
    · rw [h0] at hspec
      simp at hspec
      omega
    · exact h0
  have hp54 : 2 ^ spec_order (spec_ceil_div size 512) ≤ 2 ^ 54 :=
    Nat.pow_le_pow_right (by decide) hord
  simp only [Bool.and_eq_true, decide_eq_true_eq]
  refine ⟨by omega, hpos, ?_⟩
  unfold BUDDY_ORDER_TO_COUNT ALLOCATOR_CHUNK_SIZE
  rw [Nat.mod_eq_of_lt (by omega)]
  omega

set_option maxRecDepth 1000000 in
/-- C39: for the size `2 ^ 64 - 1` the function `allocator_size_to_level`
takes the direct path with 2 ^ 55 chunks and order `55` (it returns `-55`),
where `BUDDY_ORDER_TO_COUNT (55) * 512` is `2 ^ 64`, which is `0` in unsigned
64-bit arithmetic: the last assertion, `BUDDY_ORDER_TO_COUNT (order) * 512 ≥
size`, fails.  The same holds for `2 ^ 63 + 1`, while up to `2 ^ 63` every
assertion of the function holds. -/
theorem size_to_level_assert_overflow :
    allocator_size_to_level (2 ^ 64 - 1) = -55 ∧
    DIV_CEIL (2 ^ 64 - 1) ALLOCATOR_CHUNK_SIZE = 2 ^ 55 ∧
    (BUDDY_ORDER_TO_COUNT 55 * ALLOCATOR_CHUNK_SIZE) % 2 ^ 64 = 0 ∧
    size_to_level_asserts (2 ^ 64 - 1) = false ∧
    size_to_level_asserts (2 ^ 63 + 1) = false ∧
    ∀ size, size ≤ 2 ^ 63 → size_to_level_asserts size = true := by
  refine ⟨by decide!, by decide!, by decide!, by decide!, by decide!,
    size_to_level_asserts_hold⟩

/-! ## Allocation on a fresh allocator -/

namespace Allocator
open Buddy

/-- When `allocator_allocate` fails: the buddy has no block of the order of
a direct size, or the level of a tiny size has no block with a free piece
and the buddy has no block of the order of the level. -/
theorem allocate_fail_iff {a : allocator_t} {ls lls : Nat → List Nat} {T : Nat → Nat → Prop}
    {E : List (Nat × Nat)} (h : Live a ls lls T E) (size : Nat) :
    (allocator_allocate a size).2 = ALLOCATOR_FAIL ↔
      if allocator_size_to_level size < 0 then
        (buddy_allocate a.buddy (-(allocator_size_to_level size)).toNat).2 = BUDDY_FAIL
      else
        (a.lists (allocator_size_to_level size).toNat).length = 0 ∧
        (buddy_allocate a.buddy ((allocator_size_to_level size).toNat / 4)).2 = BUDDY_FAIL := by
  have hinv := h.inv.lists.binv
  by_cases hl : allocator_size_to_level size < 0
  · rw [if_pos hl, allocate_direct_eq a size hl]
    rcases buddy_allocate_spec hinv (-(allocator_size_to_level size)).toNat with
      ⟨e1, _⟩ | ⟨hne, ls2, hd, hb, _⟩
    · rw [if_pos e1]
      exact ⟨fun _ => e1, fun _ => rfl⟩
    · rw [if_neg hne]
      refine ⟨fun e => ?_, fun e => absurd e hne⟩
      exfalso
      have hpos := Nat.two_pow_pos (-(allocator_size_to_level size)).toNat
      have := piece_ne_fail hd.inv hb (x := 0) (by omega)
      rw [Nat.add_zero] at this
      exact this e
  · rw [if_neg hl]
    have hL : (allocator_size_to_level size).toNat < 64 := by
      have := size_to_level_le size (by omega); omega
    have hlp := level_size_pos _ hL
    by_cases hlen : (a.lists (allocator_size_to_level size).toNat).length = 0
    · rcases buddy_allocate_spec hinv ((allocator_size_to_level size).toNat / 4) with
        ⟨e1, _⟩ | ⟨hne, ls2, hd, hb, _⟩
      · rw [allocate_new_fail_eq a size hl hlen e1]
        exact ⟨fun _ => ⟨hlen, e1⟩, fun _ => rfl⟩
      · rw [allocate_new_eq a size hl hlen hne]
        obtain ⟨_, hi⟩ := ctzll_spec (f := FULL_BITMAP (allocator_size_to_level size).toNat)
          (n := get_bitmap_bits (allocator_size_to_level size).toNat)
          (by have := get_bitmap_bits_le (allocator_size_to_level size).toNat; omega)
          (FULL_BITMAP_ne_zero _)
          (fun j hj => by simpa [FULL_BITMAP_testBit] using hj)
        have hfit := piece_fits hL hi
        exact ⟨fun e => absurd e (piece_ne_fail hd.inv hb (by omega)),
          fun e => absurd e.2 hne⟩
    · rw [allocate_old_eq a size hl hlen]
      have hl2 := h.inv.lists.llists (allocator_size_to_level size).toNat
      have hne : lls (allocator_size_to_level size).toNat ≠ [] :=
        fun e => hlen (hl2.nil_iff.2 e)
      obtain ⟨c, t, hct⟩ := List.exists_cons_of_ne_nil hne
      have hhead : (a.lists (allocator_size_to_level size).toNat).head = some c := by
        rw [hl2.head_eq, hct]; rfl
      rw [hhead]
      simp only [Option.getD_some]
      have hmem : c ∈ lls (allocator_size_to_level size).toNat := by
        rw [hct]; exact List.mem_cons_self _ _
      obtain ⟨hT, hnz⟩ := (h.inv.lists.lmem _ c).1 hmem
      obtain ⟨hbit, hi⟩ := ctzll_spec
        (n := get_bitmap_bits (allocator_size_to_level size).toNat)
        (by have := get_bitmap_bits_le (allocator_size_to_level size).toNat; omega)
        hnz (h.inv.tfrees c _ hT)
      have hfit := piece_fits hL hi
      exact ⟨fun e => absurd e (piece_ne_fail hinv (h.inv.tblock c _ hT) (by omega)),
        fun e => absurd e.1 hlen⟩

end Allocator

namespace Buddy

/-- After `buddy_init` the list of `max_order` is not empty. -/
theorem buddy_init_top_list {n : Nat} {array : Nat → buddy_chunk_t} {b : buddy_t}
    (h : buddy_init n (some array) = .ok b) : (b.lists b.max_order).length ≠ 0 := by
  obtain ⟨hinv, hn, hm, _, _⟩ := buddy_init_lists h
  obtain ⟨hn0, hnle⟩ := buddy_init_ok h
  have hlen := (hinv.lists b.max_order).len_eq
  rw [hlen]
  unfold spec_init_list
  rw [if_pos rfl, List.length_map, List.length_range]
  have hlt : n < 2 ^ 64 := by
    have : BUDDY_MAX_CHUNK_COUNT = 2 ^ 29 := by decide
    omega
  have hlog := highest_bit_eq_log n hn0 hlt
  have hle : b.max_order ≤ Nat.log 2 n := by
    rw [hm, hlog]
    split_ifs <;> omega
  have h1 : 2 ^ b.max_order ≤ 2 ^ Nat.log 2 n := Nat.pow_le_pow_right (by decide) hle
  have h2 : 2 ^ Nat.log 2 n ≤ n := Nat.pow_log_le_self 2 hn0
  have : 0 < n / 2 ^ b.max_order := Nat.div_pos (Nat.le_trans h1 h2) (Nat.two_pow_pos _)
  omega

/-- After `buddy_init`, `buddy_allocate` fails exactly above `max_order`. -/
theorem buddy_init_allocate_fail_iff {n : Nat} {array : Nat → buddy_chunk_t} {b : buddy_t}
    (h : buddy_init n (some array) = .ok b) (order : Nat) :
    (buddy_allocate b order).2 = BUDDY_FAIL ↔ order > b.max_order := by
  obtain ⟨hinv, _⟩ := buddy_init_lists h
  rw [buddy_allocate_ret, allocate_block_fail_iff _ hinv order (le_refl _)]
  refine ⟨fun hh => ?_, fun hh => Or.inl hh⟩
  rcases hh with hh | hh
  · exact hh
  · by_contra hle
    exact buddy_init_top_list h (hh b.max_order (by omega) (le_refl _))

end Buddy

set_option maxRecDepth 1000000 in
/-- C40: on a freshly initialised allocator whose buddy layer has
`max_order = m`, `allocator_allocate (size)` returns `ALLOCATOR_FAIL` iff
the buddy order required by `size` exceeds `m`, where the order is `L / 4`
for a tiny level `L = allocator_size_to_level (size)` and
`-allocator_size_to_level (size)` for a direct size.  After
`allocator_init (4096)` (8 chunks, `m = 3`), `allocate (112)` (level `15`,
order `3`) returns address `0` and `allocate (113)` (level `16`, order `4`)
returns `ALLOCATOR_FAIL`. -/
theorem fresh_allocate_fail_iff (bytes : Nat) (cm : Nat → buddy_chunk_t)
    (bm : Nat → allocator_bitmap_t) (a : allocator_t)
    (h : Allocator.allocator_init bytes (some cm) (some bm) = .ok a) (size : Nat) :
    ((Allocator.allocator_allocate a size).2 = ALLOCATOR_FAIL ↔
      (if allocator_size_to_level size < 0 then (-(allocator_size_to_level size)).toNat
       else ALLOCATOR_LEVEL_TO_ORDER (allocator_size_to_level size).toNat) >
        a.buddy.max_order) ∧
    ((Allocator.init_state 4096 zero_chunks zero_bitmaps).buddy.chunk_count = 8 ∧
     (Allocator.init_state 4096 zero_chunks zero_bitmaps).buddy.max_order = 3 ∧
     allocator_size_to_level 112 = 15 ∧ allocator_size_to_level 113 = 16 ∧
     (Allocator.allocator_allocate
       (Allocator.init_state 4096 zero_chunks zero_bitmaps) 112).2 = 0 ∧
     (Allocator.allocator_allocate
       (Allocator.init_state 4096 zero_chunks zero_bitmaps) 113).2 = ALLOCATOR_FAIL) := by
  refine ⟨?_, by decide!⟩
  obtain ⟨ls, lls, hlive, _⟩ := Allocator.allocator_init_live h
  obtain ⟨hb, hlists⟩ := Allocator.allocator_init_buddy h
  rw [Allocator.allocate_fail_iff hlive size]
  by_cases hl : allocator_size_to_level size < 0
  · rw [if_pos hl, if_pos hl]
    exact Buddy.buddy_init_allocate_fail_iff hb _
  · rw [if_neg hl, if_neg hl, hlists]
    unfold ALLOCATOR_LEVEL_TO_ORDER
    rw [Buddy.buddy_init_allocate_fail_iff hb _]
    exact ⟨fun hh => hh.2, fun hh => ⟨rfl, hh⟩⟩

set_option maxRecDepth 1000000 in
theorem fresh_allocate_fail_iff_witness :
    Allocator.allocator_init 4096 (some zero_chunks) (some zero_bitmaps) =
      .ok (Allocator.init_state 4096 zero_chunks zero_bitmaps) ∧
    ((Allocator.allocator_allocate
        (Allocator.init_state 4096 zero_chunks zero_bitmaps) 113).2 = ALLOCATOR_FAIL ↔
      (if allocator_size_to_level 113 < 0 then (-(allocator_size_to_level 113)).toNat
       else ALLOCATOR_LEVEL_TO_ORDER (allocator_size_to_level 113).toNat) >
        (Allocator.init_state 4096 zero_chunks zero_bitmaps).buddy.max_order) :=
  ⟨Allocator.init_state_ok _ _ _ (by decide),
   (fresh_allocate_fail_iff 4096 zero_chunks zero_bitmaps
     (Allocator.init_state 4096 zero_chunks zero_bitmaps)
     (Allocator.init_state_ok _ _ _ (by decide)) 113).1⟩

/-! ## The tiny path of `allocator_allocate` and `allocator_free` -/

namespace Allocator
open Buddy

theorem ALists.level_members_eq {a : allocator_t} {ls lls : Nat → List Nat}
    {M : Nat → Nat → Prop} (h : ALists a ls lls M) (L : Nat) : level_members a L = lls L := by
  have hw := (h.llists L).walk_eq
  unfold level_members
  cases hh : (a.lists L).head with
  | none => exact (hw.1 hh).symm
  | some x => exact hw.2 x hh

/-- No bit below the one chosen by `allocator_allocate` is set. -/
theorem ctzll_lowest {f n : Nat} (hn : n ≤ 64) (h0 : f ≠ 0)
    (hb : ∀ j, f.testBit j = true → j < n) : ∀ j, j < ctzll f → f.testBit j = false := by
  have hex : ∃ j, f.testBit j = true := by
    by_contra hne
    apply h0
    rw [eq_zero_iff_testBit]
    intro j
    cases h : f.testBit j
    · rfl
    · exact absurd ⟨j, h⟩ hne
  obtain ⟨j, hj⟩ := hex
  have hjn := hb j hj
  obtain ⟨_, _, r3⟩ := ctz_from_spec f 64 0 ⟨j, Nat.zero_le _, by omega, hj⟩
  exact fun k hk => r3 k (Nat.zero_le _) hk

/-- The members of the level lists after a piece of a tiny block is taken. -/
theorem AInv.take_members {a : allocator_t} {ls lls : Nat → List Nat} {T : Nat → Nat → Prop}
    (h : AInv a ls lls T) {c L i : Nat} (hT : T c L)
    (hbit : (a.bitmap_array c).frees.testBit i = true) (c2 L2 : Nat) :
    (c2 ∈ level_members (take_piece a L c (2 ^ i)) L2 ↔
      if c2 = c ∧ L2 = L then clear_mask (a.bitmap_array c).frees (2 ^ i) ≠ 0
      else c2 ∈ level_members a L2) := by
  obtain ⟨lls2, h2⟩ := h.take hT hbit
  rw [h2.lists.level_members_eq, h.lists.level_members_eq, h2.lists.lmem, h.lists.lmem,
    take_piece_bitmap]
  by_cases e : c2 = c
  · subst e
    rw [store_same]
    by_cases e2 : L2 = L
    · subst e2
      rw [if_pos ⟨rfl, rfl⟩]
      exact ⟨fun hh => hh.2, fun hh => ⟨hT, hh⟩⟩
    · rw [if_neg (fun hh => e2 hh.2)]
      exact ⟨fun hh => absurd (h.t_unique hh.1 hT) e2, fun hh => absurd (h.t_unique hh.1 hT) e2⟩
  · rw [store_other _ _ e, if_neg (fun hh => e hh.1)]

/-- The members of the level lists after a block fresh from the buddy is made
a tiny block of level `L` and a piece of it is taken. -/
theorem AInv.take_new_members {a : allocator_t} {ls lls : Nat → List Nat}
    {T : Nat → Nat → Prop} (h : AInv a ls lls T) {L c i : Nat} (hL : L < 64) {b2 : buddy_t}
    {ls2 : Nat → List Nat} (hd : Done a.buddy b2 ls2 (in_block c (L / 4)) false)
    (hb : IsBlock b2 c (L / 4) false)
    (hfree : ∀ j, in_block c (L / 4) j → (a.buddy.chunk_array j).free = true)
    (hi : i < get_bitmap_bits L) (c2 L2 : Nat) :
    (c2 ∈ level_members
        (take_piece (init_bitmap (push_list { a with buddy := b2 } L c) c L) L c (2 ^ i)) L2 ↔
      if c2 = c ∧ L2 = L then clear_mask (FULL_BITMAP L) (2 ^ i) ≠ 0
      else c2 ∈ level_members a L2) := by
  obtain ⟨lls1, h1, _⟩ := h.new_block hL hd hb hfree
  have hbc : (init_bitmap (push_list { a with buddy := b2 } L c) c L).bitmap_array c =
      { tiny := true, index_in_group := L % 4, frees := FULL_BITMAP L } := store_same _ _ _
  have hcT : ∀ L3, ¬ T c L3 := by
    intro L3 hT
    have := ((h.tblock c L3 hT).uniform c (in_block_self _ _)).1
    rw [hfree c (in_block_self _ _)] at this
    exact absurd this (by decide)
  have hbit : ((init_bitmap (push_list { a with buddy := b2 } L c) c L).bitmap_array
      c).frees.testBit i = true := by
    rw [hbc]
    simp only [FULL_BITMAP_testBit, decide_eq_true_eq]
    exact hi
  rw [h1.take_members (Or.inr ⟨rfl, rfl⟩) hbit c2 L2, hbc]
  by_cases e : c2 = c ∧ L2 = L
  · rw [if_pos e, if_pos e]
  · rw [if_neg e, if_neg e, h1.lists.level_members_eq, h.lists.level_members_eq, h1.lists.lmem,
      h.lists.lmem]
    by_cases e2 : c2 = c
    · subst e2
      constructor
      · rintro ⟨hT | hT, _⟩
        · exact absurd hT (hcT L2)
        · exact absurd hT e
      · rintro ⟨hT, _⟩
        exact absurd hT (hcT L2)
    · have hbm : (init_bitmap (push_list { a with buddy := b2 } L c) c L).bitmap_array c2 =
          a.bitmap_array c2 := store_other _ _ e2
      rw [hbm]
      constructor
      · rintro ⟨hT | hT, hz⟩
        · exact ⟨hT, hz⟩
        · exact absurd hT.1 e2
      · rintro ⟨hT, hz⟩
        exact ⟨Or.inl hT, hz⟩

end Allocator

set_option maxRecDepth 1000000 in
/-- The tiny path in the states reached without `allocator_reserve`: on the
tiny path (level `L = allocator_size_to_level (size) ≥ 0`), in
every state reachable from `allocator_init` by `allocator_allocate` and
`allocator_free` calls, a successful `allocator_allocate` serves a block `c`
whose bitmap before the piece is taken is `frees`: when the list of `L` is
not empty, `c` is its head and `frees` its bitmap; when it is empty, `c` is
the block that `buddy_allocate (L / 4)` returns, its chunks were free, and
`frees` is the full bitmap of `L`.  Afterwards the chunks of `c` are
allocated with order `L / 4`; the bit `b = ctzll (frees)` is the lowest set
bit of `frees`, and the bitmap of `c` is `frees` with bit `b` cleared; `c` is
on the list of `L` iff its bitmap is not `0`, and every other membership of a
level list is unchanged; the call returns `c * 512 + b * level_size (L)`.
On a fresh allocator of 8 chunks, `allocate (10)` twice returns `0` and then
`10`, after which the list of level `1` holds chunk `0` only and
`bitmap[0].frees` is the full bitmap of level `1` (51 bits) without its bits
`0` and `1`. -/
theorem allocate_tiny_path (strict : Bool) (a : allocator_t)
    (h : Allocator.Reached strict a) (size : Nat) (hl : 0 ≤ allocator_size_to_level size)
    (hne : (Allocator.allocator_allocate a size).2 ≠ ALLOCATOR_FAIL) :
    (∃ c frees : Nat,
      (((a.lists (allocator_size_to_level size).toNat).length ≠ 0 ∧
        (Allocator.level_members a (allocator_size_to_level size).toNat).head? = some c ∧
        frees = (a.bitmap_array c).frees) ∨
       ((a.lists (allocator_size_to_level size).toNat).length = 0 ∧
        Allocator.level_members a (allocator_size_to_level size).toNat = [] ∧
        (Buddy.buddy_allocate a.buddy ((allocator_size_to_level size).toNat / 4)).2 = c ∧
        c ≠ BUDDY_FAIL ∧ frees = Allocator.FULL_BITMAP (allocator_size_to_level size).toNat ∧
        ∀ j, c ≤ j → j < c + 2 ^ ((allocator_size_to_level size).toNat / 4) →
          (a.buddy.chunk_array j).free = true)) ∧
      (∀ j, c ≤ j → j < c + 2 ^ ((allocator_size_to_level size).toNat / 4) →
        ((Allocator.allocator_allocate a size).1.buddy.chunk_array j).free = false ∧
        ((Allocator.allocator_allocate a size).1.buddy.chunk_array j).order =
          (allocator_size_to_level size).toNat / 4) ∧
      frees.testBit (Allocator.ctzll frees) = true ∧
      (∀ j, j < Allocator.ctzll frees → frees.testBit j = false) ∧
      (∀ j, ((Allocator.allocator_allocate a size).1.bitmap_array c).frees.testBit j =
        (frees.testBit j && decide (j ≠ Allocator.ctzll frees))) ∧
      (c ∈ Allocator.level_members (Allocator.allocator_allocate a size).1
          (allocator_size_to_level size).toNat ↔
        ((Allocator.allocator_allocate a size).1.bitmap_array c).frees ≠ 0) ∧
      (∀ c2 L2, ¬ (c2 = c ∧ L2 = (allocator_size_to_level size).toNat) →
        (c2 ∈ Allocator.level_members (Allocator.allocator_allocate a size).1 L2 ↔
          c2 ∈ Allocator.level_members a L2)) ∧
      (Allocator.allocator_allocate a size).2 =
        c * 512 + Allocator.ctzll frees *
          allocator_level_size (allocator_size_to_level size).toNat) ∧
    (∀ strict2 : Bool,
      (Allocator.from_init strict2 4096 zero_chunks zero_bitmaps
        [.allocate 10, .allocate 10]).map
        (fun r => (r.2, Allocator.level_members r.1 1, (r.1.bitmap_array 0).frees,
          List.map (Allocator.level_members r.1) [0, 2, 3])) =
        some ([0, 10], [0], Allocator.FULL_BITMAP 1 - 2 ^ 0 - 2 ^ 1, [[], [], []])) ∧
    allocator_size_to_level 10 = 1 ∧ allocator_level_size 1 = 10 ∧
    Allocator.FULL_BITMAP 1 = 2 ^ 51 - 1 := by
  refine ⟨?_, by decide!, by decide!, by decide!, by decide!⟩
  obtain ⟨ls, lls, T, E, hlive, _⟩ := h.live
  have hinv := hlive.inv
  have hl' : ¬ allocator_size_to_level size < 0 := by omega
  have hL : (allocator_size_to_level size).toNat < 64 := by
    have := Allocator.size_to_level_le size hl; omega
  generalize hLe : (allocator_size_to_level size).toNat = L at hL
  by_cases hlen : (a.lists L).length = 0
  · -- a fresh block
    have hlen' : (a.lists (allocator_size_to_level size).toNat).length = 0 := by
      rw [hLe]; exact hlen
    rcases Buddy.buddy_allocate_spec hinv.lists.binv (L / 4) with
      ⟨e1, _⟩ | ⟨hnf, ls2, hd, hb, hfree⟩
    · exfalso
      apply hne
      rw [Allocator.allocate_new_fail_eq a size hl' hlen' (by rw [hLe]; exact e1)]
    · have heq := Allocator.allocate_new_eq a size hl' hlen' (by rw [hLe]; exact hnf)
      rw [hLe] at heq
      generalize (Buddy.buddy_allocate a.buddy (L / 4)).2 = c at heq hnf hd hb hfree
      generalize (Buddy.buddy_allocate a.buddy (L / 4)).1 = b2 at heq hd hb
      have hbits : ∀ j, (Allocator.FULL_BITMAP L).testBit j = true →
          j < Allocator.get_bitmap_bits L := by
        intro j hj
        simpa [Allocator.FULL_BITMAP_testBit] using hj
      have h64 : Allocator.get_bitmap_bits L ≤ 64 := by
        have := Allocator.get_bitmap_bits_le L; omega
      obtain ⟨hbit, hi⟩ := Allocator.ctzll_spec h64 (Allocator.FULL_BITMAP_ne_zero L) hbits
      have hlow := Allocator.ctzll_lowest h64 (Allocator.FULL_BITMAP_ne_zero L) hbits
      obtain ⟨lls1, h1, hfo1⟩ := hinv.new_block hL hd hb hfree
      have hfo2 := Allocator.take_piece_sameFO
        (Allocator.init_bitmap (Allocator.push_list { a with buddy := b2 } L c) c L) L c
        (2 ^ Allocator.ctzll (Allocator.FULL_BITMAP L))
      have hmem := hinv.take_new_members hL hd hb hfree hi
      have hbm := Allocator.take_new_bitmap a b2 L c (Allocator.ctzll (Allocator.FULL_BITMAP L))
      rw [heq]
      refine ⟨c, Allocator.FULL_BITMAP L, Or.inr ⟨hlen, ?_, ?_, hnf, rfl, ?_⟩, ?_, hbit, hlow,
        ?_, ?_, ?_, rfl⟩
      · rw [hinv.lists.level_members_eq]
        exact (hinv.lists.llists L).nil_iff.1 hlen
      · rfl
      · exact fun j hj1 hj2 => hfree j ⟨hj1, hj2⟩
      · intro j hj1 hj2
        have := hb.uniform j ⟨hj1, hj2⟩
        show ((Allocator.take_piece _ L c _).buddy.chunk_array j).free = false ∧
          ((Allocator.take_piece _ L c _).buddy.chunk_array j).order = L / 4
        rw [hfo2.free, hfo2.order, hfo1.free, hfo1.order]
        exact this
      · intro j
        show ((Allocator.take_piece _ L c _).bitmap_array c).frees.testBit j = _
        rw [hbm, store_same]
        exact Allocator.clear_mask_testBit _ _ _
      · show c ∈ Allocator.level_members (Allocator.take_piece _ L c _) L ↔
          ((Allocator.take_piece _ L c _).bitmap_array c).frees ≠ 0
        rw [hmem c L, if_pos ⟨rfl, rfl⟩, hbm, store_same]
      · intro c2 L2 hne2
        show c2 ∈ Allocator.level_members (Allocator.take_piece _ L c _) L2 ↔ _
        rw [hmem c2 L2, if_neg hne2]
  · -- the head of the list
    have hlen' : (a.lists (allocator_size_to_level size).toNat).length ≠ 0 := by
      rw [hLe]; exact hlen
    have heq := Allocator.allocate_old_eq a size hl' hlen'
    rw [hLe] at heq
    have hl2 := hinv.lists.llists L
    have hnn : lls L ≠ [] := fun e => hlen (hl2.nil_iff.2 e)
    obtain ⟨c, t, hct⟩ := List.exists_cons_of_ne_nil hnn
    have hhead : (a.lists L).head = some c := by
      rw [hl2.head_eq, hct]; rfl
    rw [hhead] at heq
    simp only [Option.getD_some] at heq
    have hmemc : c ∈ lls L := by
      rw [hct]; exact List.mem_cons_self _ _
    obtain ⟨hT, hnz⟩ := (hinv.lists.lmem _ c).1 hmemc
    have h64 : Allocator.get_bitmap_bits L ≤ 64 := by
      have := Allocator.get_bitmap_bits_le L; omega
    obtain ⟨hbit, hi⟩ := Allocator.ctzll_spec h64 hnz (hinv.tfrees c _ hT)
    have hlow := Allocator.ctzll_lowest h64 hnz (hinv.tfrees c _ hT)
    have hfo := Allocator.take_piece_sameFO a L c (2 ^ Allocator.ctzll (a.bitmap_array c).frees)
    have hmem := hinv.take_members hT hbit
    have hbm := Allocator.take_piece_bitmap a L c (2 ^ Allocator.ctzll (a.bitmap_array c).frees)
    rw [heq]
    refine ⟨c, (a.bitmap_array c).frees, Or.inl ⟨hlen, ?_, rfl⟩, ?_, hbit, hlow, ?_, ?_, ?_, rfl⟩
    · rw [hinv.lists.level_members_eq, hct]; rfl
    · intro j hj1 hj2
      have := (hinv.tblock c L hT).uniform j ⟨hj1, hj2⟩
      show ((Allocator.take_piece a L c _).buddy.chunk_array j).free = false ∧
        ((Allocator.take_piece a L c _).buddy.chunk_array j).order = L / 4
      rw [hfo.free, hfo.order]
      exact this
    · intro j
      show ((Allocator.take_piece a L c _).bitmap_array c).frees.testBit j = _
      rw [hbm, store_same]
      exact Allocator.clear_mask_testBit _ _ _
    · show c ∈ Allocator.level_members (Allocator.take_piece a L c _) L ↔
        ((Allocator.take_piece a L c _).bitmap_array c).frees ≠ 0
      rw [hmem c L, if_pos ⟨rfl, rfl⟩, hbm, store_same]
    · intro c2 L2 hne2
      show c2 ∈ Allocator.level_members (Allocator.take_piece a L c _) L2 ↔ _
      rw [hmem c2 L2, if_neg hne2]

set_option maxRecDepth 1000000 in
theorem allocate_tiny_path_witness :
    Allocator.Reached true (Allocator.init_state 4096 zero_chunks zero_bitmaps) ∧
    0 ≤ allocator_size_to_level 10 ∧
    (Allocator.allocator_allocate
      (Allocator.init_state 4096 zero_chunks zero_bitmaps) 10).2 ≠ ALLOCATOR_FAIL ∧
    ∃ c frees : Nat,
      (Allocator.allocator_allocate (Allocator.init_state 4096 zero_chunks zero_bitmaps) 10).2 =
        c * 512 + Allocator.ctzll frees *
          allocator_level_size (allocator_size_to_level 10).toNat :=
  ⟨Allocator.Reached.init 4096 zero_chunks zero_bitmaps _
     (Allocator.init_state_ok _ _ _ (by decide)),
   by decide!, by decide!,
   (allocate_tiny_path true (Allocator.init_state 4096 zero_chunks zero_bitmaps)
     (Allocator.Reached.init 4096 zero_chunks zero_bitmaps _
       (Allocator.init_state_ok _ _ _ (by decide))) 10 (by decide!) (by decide!)).1.elim
     (fun c hc => hc.elim (fun frees hf => ⟨c, frees, hf.2.2.2.2.2.2.2⟩))⟩

namespace Allocator
open Buddy

/-- The effect of giving back a piece of a tiny block: when the bitmap
becomes full the chunks of the block are free and the block is on no level
list; otherwise the block stays allocated and is on the list of its
level. -/
theorem AInv.give_effect {a : allocator_t} {ls lls : Nat → List Nat} {T : Nat → Nat → Prop}
    (h : AInv a ls lls T) {c L i : Nat} (hT : T c L) (hi : i < get_bitmap_bits L) :
    ((a.bitmap_array c).frees ||| 2 ^ i = FULL_BITMAP L →
      (∀ j, in_block c (L / 4) j →
        ((give_piece a L c (2 ^ i)).buddy.chunk_array j).free = true) ∧
      ∀ L2, c ∉ level_members (give_piece a L c (2 ^ i)) L2) ∧
    ((a.bitmap_array c).frees ||| 2 ^ i ≠ FULL_BITMAP L →
      (∀ j, in_block c (L / 4) j →
        ((give_piece a L c (2 ^ i)).buddy.chunk_array j).free = false ∧
        ((give_piece a L c (2 ^ i)).buddy.chunk_array j).order = L / 4) ∧
      c ∈ level_members (give_piece a L c (2 ^ i)) L) := by
  obtain ⟨lls1, hs1⟩ := h.set_bit hT hi
  have hfo1 := set_piece_sameFO a L c (2 ^ i)
  have hbc : ((set_piece a L c (2 ^ i)).bitmap_array c).frees =
      (a.bitmap_array c).frees ||| 2 ^ i := by
    rw [set_piece_bitmap, store_same]
  have hnz : ((set_piece a L c (2 ^ i)).bitmap_array c).frees ≠ 0 := by
    rw [hbc]
    intro e
    have := or_mask_testBit (a.bitmap_array c).frees i i
    rw [e, Nat.zero_testBit] at this
    simp at this
  refine ⟨fun hfull => ?_, fun hpart => ?_⟩
  · rw [give_piece_full_eq a L c (2 ^ i) (by rw [hbc]; exact hfull)]
    obtain ⟨ls2, lls2, hs3, heff3⟩ := hs1.release hT hnz
    have heff := Eff.sameFO_left hfo1 heff3
    refine ⟨fun j hj => heff.free_in j hj, fun L2 hm => ?_⟩
    rw [hs3.lists.level_members_eq, hs3.lists.lmem] at hm
    exact hm.1.2 ⟨rfl, h.t_unique hm.1.1 hT⟩
  · rw [give_piece_part_eq a L c (2 ^ i) (by rw [hbc]; exact hpart)]
    refine ⟨fun j hj => ?_, ?_⟩
    · exact ((h.tblock c L hT).sameFO hfo1).uniform j hj
    · rw [hs1.lists.level_members_eq, hs1.lists.lmem]
      exact ⟨hT, hnz⟩

end Allocator

/-- The last piece of a tiny block in the states reached without
`allocator_reserve`: in every state reachable from `allocator_init` by
`allocator_allocate` and `allocator_free` calls, when `allocator_free (addr)`
returns `0` for a piece of a tiny block (the block of order `o` at chunk `c`
that holds `addr`, of level `L = 4 * o + index_in_group`, the piece being
bit `i`): the bit `i` is set in the bitmap of the block; when the bitmap
becomes the full bitmap of `L` (the piece was the last allocated piece),
afterwards every chunk of the block is free in the buddy layer and the block
is on no level list; when other pieces remain allocated, the chunks of the
block stay allocated with order `o` and the block is on the list of `L`. -/
theorem free_last_piece (strict : Bool) (a : allocator_t) (h : Allocator.Reached strict a)
    (addr o c L i : Nat) (ho : o = (a.buddy.chunk_array (addr / 512)).order)
    (hc : c = BUDDY_ALIGN_TO_ORDER (addr / 512) o)
    (hL : L = o * 4 + (a.bitmap_array c).index_in_group)
    (hi : i = (addr - c * 512) / allocator_level_size L)
    (ht : (a.bitmap_array c).tiny = true)
    (h0 : (Allocator.allocator_free strict a addr).2 = 0) :
    ((Allocator.allocator_free strict a addr).1.bitmap_array c).frees =
      (a.bitmap_array c).frees ||| 2 ^ i ∧
    ((a.bitmap_array c).frees ||| 2 ^ i = Allocator.FULL_BITMAP L →
      (∀ j, c ≤ j → j < c + 2 ^ o →
        ((Allocator.allocator_free strict a addr).1.buddy.chunk_array j).free = true) ∧
      ∀ L2, c ∉ Allocator.level_members (Allocator.allocator_free strict a addr).1 L2) ∧
    ((a.bitmap_array c).frees ||| 2 ^ i ≠ Allocator.FULL_BITMAP L →
      (∀ j, c ≤ j → j < c + 2 ^ o →
        ((Allocator.allocator_free strict a addr).1.buddy.chunk_array j).free = false ∧
        ((Allocator.allocator_free strict a addr).1.buddy.chunk_array j).order = o) ∧
      c ∈ Allocator.level_members (Allocator.allocator_free strict a addr).1 L) := by
  obtain ⟨ls, lls, T, E, hlive, hdir⟩ := h.live
  have hinv := hlive.inv.lists.binv
  subst ho
  subst hc
  have h1 : addr / 512 < a.buddy.chunk_count := by
    by_contra h1
    rw [Allocator.free_error_eq strict a addr (Or.inl h1)] at h0
    exact absurd h0 (by decide : EINVAL ≠ 0)
  have h2f : (a.buddy.chunk_array (addr / 512)).free = false := by
    cases hf : (a.buddy.chunk_array (addr / 512)).free
    · rfl
    · rw [Allocator.free_error_eq strict a addr (Or.inr hf)] at h0
      exact absurd h0 (by decide : EINVAL ≠ 0)
  have hb := hinv.pinv.block_of h1
  rw [h2f] at hb
  rcases hdir _ _ hb with ⟨L', hT⟩ | ht2
  swap
  · rw [ht] at ht2; exact absurd ht2 (by decide)
  have hlev : (a.buddy.chunk_array (addr / 512)).order * 4 +
      (a.bitmap_array (BUDDY_ALIGN_TO_ORDER (addr / 512)
        (a.buddy.chunk_array (addr / 512)).order)).index_in_group = L' := by
    have e1 := (hlive.inv.tblock _ _ hT).self.2
    have e2 := hb.self.2
    have e3 := (hlive.inv.tbitmap _ _ hT).2
    rw [e3]
    omega
  rw [hlev] at hL
  subst hL
  have ho4 : L / 4 = (a.buddy.chunk_array (addr / 512)).order := by
    have e1 := (hlive.inv.tblock _ _ hT).self.2
    have e2 := hb.self.2
    omega
  have heq := Allocator.free_tiny_eq strict a addr h1 h2f ht
  rw [hlev, Allocator.get_bit_index_eq, ← hi] at heq
  by_cases hbad : i ≥ Allocator.get_bitmap_bits L ∨
      (strict = true ∧ i * allocator_level_size L ≠
        addr - BUDDY_ALIGN_TO_ORDER (addr / 512) (a.buddy.chunk_array (addr / 512)).order * 512)
  · rw [if_pos hbad, if_pos (by decide)] at heq
    rw [heq] at h0
    exact absurd h0 (by decide : (-(-(22 : Int))).toNat ≠ 0)
  rw [if_neg hbad, if_neg (not_lt.2 (Nat.cast_nonneg _))] at heq
  simp only [Int.toNat_ofNat] at heq
  by_cases hset : (a.bitmap_array (BUDDY_ALIGN_TO_ORDER (addr / 512)
      (a.buddy.chunk_array (addr / 512)).order)).frees &&& 2 ^ i ≠ 0
  · rw [if_pos hset] at heq
    rw [heq] at h0
    exact absurd h0 (by decide : EINVAL ≠ 0)
  rw [if_neg hset] at heq
  have hilt : i < Allocator.get_bitmap_bits L := by
    by_contra hge
    exact hbad (Or.inl (Nat.le_of_not_lt hge))
  have heff := hlive.inv.give_effect hT hilt
  rw [ho4] at heff
  rw [heq]
  refine ⟨?_, fun hfull => ?_, fun hpart => ?_⟩
  · show ((Allocator.give_piece a L _ _).bitmap_array _).frees = _
    rw [Allocator.give_piece_bitmap, store_same]
  · exact ⟨fun j hj1 hj2 => (heff.1 hfull).1 j ⟨hj1, hj2⟩, (heff.1 hfull).2⟩
  · exact ⟨fun j hj1 hj2 => (heff.2 hpart).1 j ⟨hj1, hj2⟩, (heff.2 hpart).2⟩

set_option maxRecDepth 1000000 in
theorem free_last_piece_witness :
    Allocator.Reached true
      (Allocator.allocator_allocate (Allocator.init_state 4096 zero_chunks zero_bitmaps) 10).1 ∧
    ((Allocator.allocator_allocate
      (Allocator.init_state 4096 zero_chunks zero_bitmaps) 10).1.bitmap_array 0).tiny = true ∧
    (Allocator.allocator_free true
      (Allocator.allocator_allocate
        (Allocator.init_state 4096 zero_chunks zero_bitmaps) 10).1 0).2 = 0 ∧
    (((Allocator.allocator_free true
        (Allocator.allocator_allocate
          (Allocator.init_state 4096 zero_chunks zero_bitmaps) 10).1 0).1.bitmap_array 0).frees =
      ((Allocator.allocator_allocate
        (Allocator.init_state 4096 zero_chunks zero_bitmaps) 10).1.bitmap_array 0).frees |||
        2 ^ 0 ∧
    (((Allocator.allocator_allocate
        (Allocator.init_state 4096 zero_chunks zero_bitmaps) 10).1.bitmap_array 0).frees |||
        2 ^ 0 = Allocator.FULL_BITMAP 1 →
      (∀ j, 0 ≤ j → j < 0 + 2 ^ 0 →
        ((Allocator.allocator_free true
          (Allocator.allocator_allocate
            (Allocator.init_state 4096 zero_chunks zero_bitmaps) 10).1 0).1.buddy.chunk_array
          j).free = true) ∧
      ∀ L2, 0 ∉ Allocator.level_members (Allocator.allocator_free true
        (Allocator.allocator_allocate
          (Allocator.init_state 4096 zero_chunks zero_bitmaps) 10).1 0).1 L2) ∧
    (((Allocator.allocator_allocate
        (Allocator.init_state 4096 zero_chunks zero_bitmaps) 10).1.bitmap_array 0).frees |||
        2 ^ 0 ≠ Allocator.FULL_BITMAP 1 →
      (∀ j, 0 ≤ j → j < 0 + 2 ^ 0 →
        ((Allocator.allocator_free true
          (Allocator.allocator_allocate
            (Allocator.init_state 4096 zero_chunks zero_bitmaps) 10).1 0).1.buddy.chunk_array
          j).free = false ∧
        ((Allocator.allocator_free true
          (Allocator.allocator_allocate
            (Allocator.init_state 4096 zero_chunks zero_bitmaps) 10).1 0).1.buddy.chunk_array
          j).order = 0) ∧
      0 ∈ Allocator.level_members (Allocator.allocator_free true
        (Allocator.allocator_allocate
          (Allocator.init_state 4096 zero_chunks zero_bitmaps) 10).1 0).1 1)) :=
  ⟨Allocator.Reached.allocate _ 10
    (Allocator.Reached.init 4096 zero_chunks zero_bitmaps _
      (Allocator.init_state_ok _ _ _ (by decide))),
   by decide!, by decide!,
   free_last_piece true
     (Allocator.allocator_allocate (Allocator.init_state 4096 zero_chunks zero_bitmaps) 10).1
     (Allocator.Reached.allocate _ 10
       (Allocator.Reached.init 4096 zero_chunks zero_bitmaps _
         (Allocator.init_state_ok _ _ _ (by decide))))
     0 0 0 1 0 (by decide!) (by decide!) (by decide!) (by decide!) (by decide!) (by decide!)⟩

/-! ## The partition into blocks and the effect of the buddy calls on the free lists -/

namespace Buddy

theorem countP_range_card (p : Nat → Bool) (n : Nat) :
    (List.range n).countP p = ((Finset.range n).filter (fun j => p j = true)).card := by
  induction n with
  | zero => rfl
  | succ k ih =>
    rw [List.range_succ, List.countP_append, ih, Finset.range_succ, Finset.filter_insert]
    by_cases hp : p k = true
    · rw [if_pos hp, Finset.card_insert_of_not_mem (by simp)]
      simp [List.countP_cons, hp]
    · rw [if_neg hp]
      simp [List.countP_cons, hp]

theorem sum_range_map (f : Nat → Nat) (k : Nat) :
    ((List.range k).map f).sum = Finset.sum (Finset.range k) f := by
  induction k with
  | zero => rfl
  | succ k ih =>
    rw [List.range_succ, List.map_append, List.sum_append, ih, Finset.sum_range_succ]
    simp

theorem free_add_allocated (b : buddy_t) : free_count b + allocated_count b = b.chunk_count := by
  unfold free_count allocated_count
  have h1 := List.length_eq_countP_add_countP (fun j => (b.chunk_array j).free)
    (List.range b.chunk_count)
  rw [List.length_range] at h1
  have h2 : List.countP (fun a => decide ¬(b.chunk_array a).free = true)
      (List.range b.chunk_count) =
      List.countP (fun j => !(b.chunk_array j).free) (List.range b.chunk_count) := by
    apply List.countP_congr
    intro x _
    cases (b.chunk_array x).free <;> simp
  omega

/-- The blocks on the free lists hold exactly the free chunks. -/
theorem BInvH.listed_eq_free {b : buddy_t} {ls : Nat → List Nat} (h : BInvH b ls 0 0) :
    listed_count b = free_count b := by
  unfold listed_count free_count
  rw [sum_range_map, countP_range_card]
  have hF : (Finset.range b.chunk_count).filter (fun j => (b.chunk_array j).free = true) =
      ((Finset.range (b.max_order + 1)).sigma (fun o => (ls o).toFinset)).biUnion
        (fun p => Finset.Ico p.2 (p.2 + 2 ^ p.1)) := by
    ext j
    simp only [Finset.mem_filter, Finset.mem_range, Finset.mem_biUnion, Finset.mem_sigma,
      List.mem_toFinset, Finset.mem_Ico]
    constructor
    · rintro ⟨hj, hfree⟩
      have hb := h.pinv.block_of hj
      rw [hfree] at hb
      refine ⟨⟨(b.chunk_array j).order, BUDDY_ALIGN_TO_ORDER j (b.chunk_array j).order⟩,
        ⟨Nat.lt_succ_of_le hb.order_le, (h.mem _ _).2 ⟨hb, not_in_hole_zero _ _⟩⟩,
        align_le _ _, lt_align_add _ _⟩
    · rintro ⟨⟨o, c⟩, ⟨_, hm⟩, hj1, hj2⟩
      have hb := ((h.mem o c).1 hm).1
      have := hb.in_range
      exact ⟨by simp only at hj2; omega, (hb.uniform j ⟨hj1, hj2⟩).1⟩
  rw [hF, Finset.card_biUnion, Finset.sum_sigma]
  · apply Finset.sum_congr rfl
    intro o _
    simp only [Nat.card_Ico, Nat.add_sub_cancel_left, Finset.sum_const, smul_eq_mul]
    rw [List.toFinset_card_of_nodup (h.lists o).nodup, (h.lists o).len_eq]
  · rintro ⟨o, c⟩ hp ⟨o2, c2⟩ hp2 hne
    simp only [Finset.mem_sigma, List.mem_toFinset] at hp hp2
    rw [Finset.disjoint_left]
    intro j hj1 hj2
    simp only [Finset.mem_Ico] at hj1 hj2
    have hb1 := ((h.mem o c).1 hp.2).1
    have hb2 := ((h.mem o2 c2).1 hp2.2).1
    obtain ⟨e1, e2, _⟩ := hb1.unique hb2 hj1 hj2
    apply hne
    rw [e1, e2]

end Buddy

/-- The partition where no sum of `CHECK_BLOCK` wrapped: in every reachable
buddy state, the blocks (ranges `[c, c + 2 ^ o)` whose descriptors all carry
the same `free` flag and the order `o`) partition `[0, chunk_count)`: the
free blocks are exactly the members of the free lists; every block is
`2 ^ o`-aligned and in range, with `o ≤ max_order`; every chunk belongs to a
block; two blocks that share a chunk are the same block; and the sum over the
orders of `length (o) * 2 ^ o`, which is the number of free chunks, plus the
number of allocated chunks equals `chunk_count`. -/
theorem blocks_partition (b : buddy_t) (h : Buddy.Reachable b) :
    (∀ o c, c ∈ Buddy.list_members b o ↔ Buddy.IsBlock b c o true) ∧
    (∀ c o f, Buddy.IsBlock b c o f →
      2 ^ o ∣ c ∧ o ≤ b.max_order ∧ c + 2 ^ o ≤ b.chunk_count) ∧
    (∀ j, j < b.chunk_count → ∃ c o f, Buddy.IsBlock b c o f ∧ c ≤ j ∧ j < c + 2 ^ o) ∧
    (∀ c o f c2 o2 f2 j, Buddy.IsBlock b c o f → Buddy.IsBlock b c2 o2 f2 →
      c ≤ j → j < c + 2 ^ o → c2 ≤ j → j < c2 + 2 ^ o2 → c = c2 ∧ o = o2 ∧ f = f2) ∧
    Buddy.listed_count b = Buddy.free_count b ∧
    Buddy.listed_count b + Buddy.allocated_count b = b.chunk_count := by
  obtain ⟨ls, hinv⟩ := h.inv
  refine ⟨fun o c => ?_, fun c o f hb => ?_, fun j hj => ?_, ?_, hinv.listed_eq_free, ?_⟩
  · rw [hinv.members, hinv.mem]
    exact ⟨fun hh => hh.1, fun hh => ⟨hh, Buddy.not_in_hole_zero _ _⟩⟩
  · exact ⟨(Buddy.align_eq_iff_dvd c o).1 hb.aligned, hb.order_le, hb.in_range⟩
  · exact ⟨_, _, _, hinv.pinv.block_of hj, align_le _ _, lt_align_add _ _⟩
  · intro c o f c2 o2 f2 j hb1 hb2 h1 h2 h3 h4
    exact hb1.unique hb2 ⟨h1, h2⟩ ⟨h3, h4⟩
  · rw [hinv.listed_eq_free]
    exact Buddy.free_add_allocated b

set_option maxRecDepth 1000000 in
theorem blocks_partition_witness :
    Buddy.Reachable (Buddy.buddy_allocate (Buddy.init_state 8 zero_chunks) 0).1 ∧
    Buddy.listed_count (Buddy.buddy_allocate (Buddy.init_state 8 zero_chunks) 0).1 +
      Buddy.allocated_count (Buddy.buddy_allocate (Buddy.init_state 8 zero_chunks) 0).1 =
      (Buddy.buddy_allocate (Buddy.init_state 8 zero_chunks) 0).1.chunk_count :=
  ⟨Buddy.Reachable.allocate _ 0 (Buddy.Reachable.init 8 zero_chunks _ rfl),
   (blocks_partition (Buddy.buddy_allocate (Buddy.init_state 8 zero_chunks) 0).1
     (Buddy.Reachable.allocate _ 0 (Buddy.Reachable.init 8 zero_chunks _ rfl))).2.2.2.2.2⟩

set_option maxRecDepth 1000000 in
/-- C37 (code defect): the blocks do not partition the chunks in every state
reached with arbitrary arguments.  On the fresh buddy of 8 chunks, with bit 0
set in the word before the descriptor array, `buddy_reserve (2 ^ 64 - 1, 0)`
returns `0`; afterwards the free lists still hold the block of order 3 at
chunk 0 and no chunk of the array is allocated, but the list of order 0 has
the length `2 ^ 64 - 1`, so the sum over the orders of `length * 2 ^ order`
is `2 ^ 64 + 7` and, with the allocated chunks, is not `chunk_count = 8`. -/
theorem wrapped_reserve_breaks_count :
    (Buddy.buddy_reserve (Buddy.init_state 8 stray_chunks) (2 ^ 64 - 1) 0).2 = 0 ∧
    (Buddy.buddy_reserve (Buddy.init_state 8 stray_chunks) (2 ^ 64 - 1) 0).1.chunk_count = 8 ∧
    Buddy.free_blocks (Buddy.buddy_reserve (Buddy.init_state 8 stray_chunks) (2 ^ 64 - 1) 0).1 =
      [[], [], [], [0]] ∧
    Buddy.allocated_count
      (Buddy.buddy_reserve (Buddy.init_state 8 stray_chunks) (2 ^ 64 - 1) 0).1 = 0 ∧
    Buddy.listed_count (Buddy.buddy_reserve (Buddy.init_state 8 stray_chunks) (2 ^ 64 - 1) 0).1 =
      2 ^ 64 + 7 ∧
    Buddy.listed_count (Buddy.buddy_reserve (Buddy.init_state 8 stray_chunks) (2 ^ 64 - 1) 0).1 +
      Buddy.allocated_count
        (Buddy.buddy_reserve (Buddy.init_state 8 stray_chunks) (2 ^ 64 - 1) 0).1 ≠
      (Buddy.buddy_reserve (Buddy.init_state 8 stray_chunks) (2 ^ 64 - 1) 0).1.chunk_count := by
  decide!

namespace Buddy

end Buddy

namespace Buddy

end Buddy

/-- A chunk of a segment without repetition whose `next` is the chunk itself
is the end of the segment. -/
theorem Seg.next_self {arr : Nat → buddy_chunk_t} {a e : Nat} {l : List Nat}
    (h : Seg arr a l e) (hnd : (a :: l).Nodup) :
    ∀ c, c ∈ a :: l → (arr c).next = c → c = e := by
  induction l generalizing a with
  | nil =>
    intro c hc hn
    have : c = a := by simpa using hc
    subst this
    rw [← hn]; exact h.1
  | cons x l ih =>
    intro c hc hn
    obtain ⟨h1, _, h3⟩ := h
    rcases List.mem_cons.1 hc with e1 | hc2
    · subst e1
      exfalso
      have : c ∈ x :: l := by rw [← h1, hn]; exact List.mem_cons_self _ _
      exact (List.nodup_cons.1 hnd).1 this
    · exact ih h3 (List.nodup_cons.1 hnd).2 c hc2 hn

/-- A chunk of a segment whose `prev` is the chunk itself is the start of the
segment. -/
theorem Seg.prev_self {arr : Nat → buddy_chunk_t} {a e : Nat} {l : List Nat}
    (h : Seg arr a l e) :
    ∀ c, c ∈ l ++ [e] → (arr c).prev = c → c = a := by
  induction l generalizing a with
  | nil =>
    intro c hc hp
    have : c = e := by simpa using hc
    subst this
    rw [← hp]; exact h.2
  | cons x l ih =>
    intro c hc hp
    obtain ⟨_, h2, h3⟩ := h
    rcases List.mem_cons.1 hc with e1 | hc2
    · subst e1
      rw [← hp]; exact h2
    · have := ih h3 c hc2 hp
      subst this
      rw [← hp]; exact h2

/-- The links of a member of a circular list: its neighbours are members;
in a list of more than one chunk they differ from it; in a list of one chunk
they are the chunk itself, which is the head. -/
theorem IsCList.mem_links {arr : Nat → buddy_chunk_t} {l : List Nat} {head : Option Nat}
    {len : Nat} (h : IsCList arr l head len) {c : Nat} (hc : c ∈ l) :
    (arr c).next ∈ l ∧ (arr c).prev ∈ l ∧ 0 < len ∧
    (len > 1 → (arr c).next ≠ c ∧ (arr c).prev ≠ c) ∧
    (¬ len > 1 → (arr c).next = c ∧ (arr c).prev = c ∧ head = some c) := by
  cases l with
  | nil => cases hc
  | cons x t =>
    have hseg := h.links x t rfl
    have hlen : len = t.length + 1 := h.len_eq
    have hh : head = some x := h.head_eq
    have hsub : ∀ y, y ∈ t ++ [x] → y ∈ x :: t := by
      intro y hy
      simp at hy ⊢
      tauto
    have hsub2 : ∀ y, y ∈ x :: t → y ∈ t ++ [x] := by
      intro y hy
      simp at hy ⊢
      tauto
    refine ⟨hsub _ (hseg.next_mem c hc).1, (hseg.prev_mem c (hsub2 c hc)).1, by omega,
      fun hgt => ?_, fun hle => ?_⟩
    · cases t with
      | nil => simp at hlen; omega
      | cons y t2 =>
        have hxy : x ≠ y := fun e => (List.nodup_cons.1 h.nodup).1 (e ▸ List.mem_cons_self _ _)
        refine ⟨fun hn => ?_, fun hp => ?_⟩
        · have e := hseg.next_self h.nodup c hc hn
          subst e
          rw [hseg.1] at hn
          exact hxy hn.symm
        · have e := hseg.prev_self c (hsub2 c hc) hp
          subst e
          have hl := hseg.last.2
          rw [hp, List.getLast_cons (List.cons_ne_nil y t2)] at hl
          have : c ∈ y :: t2 := by rw [hl]; exact List.getLast_mem _
          exact (List.nodup_cons.1 h.nodup).1 this
    · have ht : t = [] := List.length_eq_zero.1 (by omega)
      subst ht
      have : c = x := by simpa using hc
      subst this
      exact ⟨hseg.1, hseg.2, hh⟩

namespace Buddy

theorem BInvH.push_asserts {b : buddy_t} {ls : Nat → List Nat} {hc hs : Nat}
    (h : BInvH b ls hc hs) {c o : Nat} (hal : BUDDY_ALIGN_TO_ORDER c o = c)
    (hr : c + 2 ^ o ≤ b.chunk_count) (hm : o ≤ b.max_order) :
    push_list_asserts b o c = true := by
  unfold push_list_asserts
  rw [CHECK_BLOCK_of h hm hal hr, Bool.true_and]
  have hl := h.lists o
  cases hls : ls o with
  | nil =>
    rw [hls] at hl
    have hh : (b.lists o).head = none := hl.head_eq
    have hlen : (b.lists o).length = 0 := hl.len_eq
    rw [hh]
    simp [hlen]
  | cons y t =>
    rw [hls] at hl
    have hh : (b.lists o).head = some y := hl.head_eq
    have hlen : (b.lists o).length = t.length + 1 := hl.len_eq
    rw [hh]
    simp [hlen]

theorem BInvH.pop_asserts {b : buddy_t} {ls : Nat → List Nat} {hc hs : Nat}
    (h : BInvH b ls hc hs) {c o : Nat} (hmem : c ∈ ls o) :
    pop_list_asserts b o c = true := by
  have hb := ((h.mem o c).1 hmem).1
  obtain ⟨n1, p1, hpos, hgt, hle⟩ := (h.lists o).mem_links hmem
  have hn := (((h.mem o _).1 n1).1).lt
  have hp := (((h.mem o _).1 p1).1).lt
  unfold pop_list_asserts
  simp only [CHECK_BLOCK_of h hb.order_le hb.aligned hb.in_range, hb.self.1,
    hb.self.2, Bool.true_and, decide_True, hn, hp, hpos, gt_iff_lt]
  by_cases h1 : (b.lists o).length > 1
  · rw [if_pos h1]
    simp [(hgt h1).1, (hgt h1).2]
  · rw [if_neg h1]
    simp [(hle h1).1, (hle h1).2.1, (hle h1).2.2]

theorem BInvH.pop_head_asserts {b : buddy_t} {ls : Nat → List Nat} {hc hs : Nat}
    (h : BInvH b ls hc hs) {c o : Nat} (hhead : (b.lists o).head = some c)
    (hmem : c ∈ ls o) : pop_list_head_asserts b o = true := by
  have hb := ((h.mem o c).1 hmem).1
  obtain ⟨_, _, hpos, hgt, hle⟩ := (h.lists o).mem_links hmem
  unfold pop_list_head_asserts
  simp only [hhead, CHECK_BLOCK_of h hb.order_le hb.aligned hb.in_range, hb.self.1,
    hb.self.2, Bool.true_and, decide_True, hpos, gt_iff_lt]
  by_cases h1 : (b.lists o).length > 1
  · rw [if_pos h1]
    simp [(hgt h1).1, (hgt h1).2]
  · rw [if_neg h1]
    simp [(hle h1).1, (hle h1).2.1]

theorem init_blocks_asserts_hold (k : Nat) (fuel : Nat) {b : buddy_t} {ls : Nat → List Nat}
    {n m off : Nat} (h : Seeded b ls n m off) (hk : k ≤ m)
    (hal : BUDDY_ALIGN_TO_ORDER off k = off)
    (hlow : k < m → n - off < 2 ^ k ∨
      (BUDDY_ALIGN_TO_ORDER off (k + 1) = off ∧ n - off < 2 ^ (k + 1)))
    (hfuel : n - off ≤ fuel) :
    init_blocks_asserts k fuel b off = true := by
  have hpos := Nat.two_pow_pos k
  have hle := h.le
  induction fuel generalizing b ls off with
  | zero =>
    unfold init_blocks_asserts
    rw [BUDDY_ORDER_TO_COUNT_eq, h.chunk_count]
    simp only [decide_eq_true_eq]
    omega
  | succ fuel ih =>
    unfold init_blocks_asserts
    simp only [BUDDY_ORDER_TO_COUNT_eq]
    by_cases h1 : off + 2 ^ k > b.chunk_count
    · rw [if_pos h1]
    · rw [if_neg h1]
      have h1b := h1
      rw [h.chunk_count] at h1
      have hpow : 2 ^ (k + 1) = 2 * 2 ^ k := by rw [pow_succ]; omega
      have hlow2 : k < m →
          BUDDY_ALIGN_TO_ORDER off (k + 1) = off ∧ n - (off + 2 ^ k) ≤ 2 ^ k := by
        intro hkm
        rcases hlow hkm with e | ⟨e1, e2⟩
        · omega
        · exact ⟨e1, by omega⟩
      have hs := h.push_seed hal (by omega) hk hlow2
      have hal2 : BUDDY_ALIGN_TO_ORDER (off + 2 ^ k) k = off + 2 ^ k := by
        by_cases hkm : k < m
        · exact (align_halves (hlow2 hkm).1).2.1
        · rw [align_eq] at hal ⊢
          have e : off + 2 ^ k = (off / 2 ^ k + 1) * 2 ^ k := by
            rw [Nat.add_mul, Nat.one_mul, hal]
          conv_lhs => rw [e]
          rw [Nat.mul_div_cancel _ hpos]
          exact e.symm
      have hlow3 : k < m → n - (off + 2 ^ k) < 2 ^ k ∨
          (BUDDY_ALIGN_TO_ORDER (off + 2 ^ k) (k + 1) = off + 2 ^ k ∧
            n - (off + 2 ^ k) < 2 ^ (k + 1)) := by
        intro hkm
        left
        have := (hlow2 hkm).2
        rcases hlow hkm with e | ⟨e1, e2⟩
        · omega
        · omega
      rw [h.inv.push_asserts hal (Nat.le_of_not_lt h1b) (by rw [h.max_order]; exact hk),
        Bool.true_and]
      exact ih hs hal2 hlow3 (by omega) (by omega)

theorem init_orders_asserts_hold (K : Nat) {b : buddy_t} {ls : Nat → List Nat}
    {n m off : Nat} (h : Seeded b ls n m off) (hK : K ≤ m)
    (hoff : off = n / 2 ^ K * 2 ^ K) :
    init_orders_asserts K b off = true := by
  induction K generalizing b ls off with
  | zero => rfl
  | succ k ih =>
    unfold init_orders_asserts
    have hpos := Nat.two_pow_pos k
    have hk : k ≤ m := by omega
    have hal : BUDDY_ALIGN_TO_ORDER off (k + 1) = off := by
      rw [hoff, align_eq, Nat.mul_div_cancel _ (Nat.two_pow_pos _)]
    have hlt : n - off < 2 ^ (k + 1) := by
      rw [hoff, Nat.mul_comm, ← Nat.mod_def]
      exact Nat.mod_lt n (Nat.two_pow_pos (k + 1))
    obtain ⟨r1, r2⟩ := init_blocks_lists k b.chunk_count h hk (align_halves hal).1
      (fun _ => Or.inr ⟨hal, hlt⟩) (by rw [h.chunk_count]; omega)
    obtain ⟨s1, s2⟩ := bit_split n k
    rw [← hoff] at s1 s2
    rw [s1] at r1 r2
    simp only [init_blocks_asserts_hold k b.chunk_count h hk (align_halves hal).1
      (fun _ => Or.inr ⟨hal, hlt⟩) (by rw [h.chunk_count]; omega), Bool.true_and]
    rw [r2]
    exact ih r1 hk rfl

theorem buddy_init_asserts_hold (n : Nat) (chunk_mem : Option (Nat → buddy_chunk_t)) :
    buddy_init_asserts n chunk_mem = true := by
  unfold buddy_init_asserts
  by_cases hcond : n = 0 ∨ n > BUDDY_MAX_CHUNK_COUNT
  · rw [if_pos hcond]
  rw [if_neg hcond]
  cases chunk_mem with
  | none => rfl
  | some array =>
    have hn0 : n ≠ 0 := fun e => hcond (Or.inl e)
    have hn : n ≤ BUDDY_MAX_CHUNK_COUNT := by omega
    have hlt : n < 2 ^ 64 := by
      have : BUDDY_MAX_CHUNK_COUNT = 2 ^ 29 := by decide
      omega
    have hclz := clz_from_log 64 n hn0 hlt
    obtain ⟨m, hm⟩ : ∃ m, m =
        (if highest_bit n < BUDDY_MAX_ORDER then highest_bit n else BUDDY_MAX_ORDER) :=
      ⟨_, rfl⟩
    simp only
    rw [← hm]
    have hseed : Seeded
        { chunk_count := n, chunk_array := array, max_order := m
          lists := fun _ => { head := none, length := 0 } }
        (fun _ => []) n m 0 :=
      { inv :=
          { sized := hn
            ordered := hm ▸ init_max_order_le n
            pinv :=
              { cover := fun i hi hni =>
                  absurd (show in_hole 0 (n - 0) i from ⟨Nat.zero_le i, by simpa using hi⟩) hni
                merged := fun c o hb hnc _ _ => absurd (show in_hole 0 (n - 0) c from
                  ⟨Nat.zero_le c, by simpa using hb.lt⟩) hnc }
            lists := fun o =>
              { nodup := List.nodup_nil, len_eq := rfl, head_eq := rfl
                links := fun h t e => by simp at e }
            mem := fun o c => by
              constructor
              · intro hh; simp at hh
              · rintro ⟨hb, hnc⟩
                exact absurd (show in_hole 0 (n - 0) c from
                  ⟨Nat.zero_le c, by simpa using hb.lt⟩) hnc }
        chunk_count := rfl, max_order := rfl, le := Nat.zero_le n
        all_free := fun j hj => absurd hj (Nat.not_lt_zero j) }
    have h1 : decide (clzll n + 1 ≤ 8 * 8) = true := by
      unfold clzll
      simp only [decide_eq_true_eq]
      omega
    obtain ⟨r1, r2⟩ := init_blocks_lists m n hseed (Nat.le_refl m) (align_zero m)
      (fun hh => absurd hh (Nat.lt_irrefl m)) (by omega)
    rw [Nat.zero_add, Nat.sub_zero] at r1 r2
    have h2 := init_blocks_asserts_hold m n hseed (Nat.le_refl m) (align_zero m)
      (fun hh => absurd hh (Nat.lt_irrefl m)) (by omega)
    have h3 := init_orders_asserts_hold m r1 (Nat.le_refl m) rfl
    obtain ⟨_, r4⟩ := init_orders_lists m r1 (Nat.le_refl m) rfl
    have h4 : init_orders_asserts (m + 1)
        { chunk_count := n, chunk_array := array, max_order := m
          lists := fun _ => { head := none, length := 0 } } 0 = true := by
      unfold init_orders_asserts
      show (init_blocks_asserts m n _ 0 &&
        init_orders_asserts m (init_blocks m n _ 0).1 (init_blocks m n _ 0).2) = true
      rw [h2, Bool.true_and, r2]
      exact h3
    have h5 : (init_orders (m + 1)
        { chunk_count := n, chunk_array := array, max_order := m
          lists := fun _ => { head := none, length := 0 } } 0).2 = n := by
      unfold init_orders
      show (init_orders m (init_blocks m n _ 0).1 (init_blocks m n _ 0).2).2 = n
      rw [r2]
      exact r4
    rw [h1, h4, h5]
    simp

theorem allocate_block_asserts_hold (fuel : Nat) {b0 : buddy_t} {ls : Nat → List Nat}
    (h : BInvH b0 ls 0 0) (order : Nat) (hfuel : b0.max_order + 2 - order ≤ fuel) :
    allocate_block_asserts fuel b0 order = true := by
  induction fuel generalizing order with
  | zero =>
    unfold allocate_block_asserts
    simp only [decide_eq_true_eq]
    omega
  | succ fuel ih =>
    unfold allocate_block_asserts
    by_cases h1 : order > b0.max_order
    · rw [if_pos h1]
    · rw [if_neg h1]
      have hle : order ≤ b0.max_order := Nat.le_of_not_lt h1
      by_cases h2 : (b0.lists order).length ≠ 0
      · rw [if_pos h2]
        have hne : ls order ≠ [] := fun e => h2 ((h.lists order).nil_iff.2 e)
        obtain ⟨c, t, hct⟩ := List.exists_cons_of_ne_nil hne
        have hhead : (b0.lists order).head = some c := by
          rw [(h.lists order).head_eq, hct]; rfl
        have hmem : c ∈ ls order := by rw [hct]; exact List.mem_cons_self _ _
        exact h.pop_head_asserts hhead hmem
      · rw [if_neg h2]
        simp only [ih (order + 1) (by omega), Bool.true_and]
        rcases allocate_block_spec fuel h (order + 1) (by omega) with
          ⟨e1, _⟩ | ⟨ls2, hmid, hal, hr, hm⟩
        · rw [if_pos e1]
        · have hne := in_range_ne_fail hmid.inv (by rw [hmid.chunk_count]; exact hr)
          rw [if_neg hne, BUDDY_ORDER_TO_COUNT_eq]
          have hpow : 2 ^ (order + 1) = 2 * 2 ^ order := by rw [pow_succ]; omega
          have hals := align_halves hal
          exact hmid.inv.push_asserts hals.2.1 (by rw [hmid.chunk_count]; omega)
            (by rw [hmid.max_order]; exact hle)

theorem reserve_block_asserts_hold (fuel : Nat) {b0 b : buddy_t} {ls : Nat → List Nat}
    {ci order root ro : Nat} (h : Mid b0 b ls root (2 ^ ro) (fun _ => False))
    (hal : BUDDY_ALIGN_TO_ORDER root ro = root) (hr : root + 2 ^ ro ≤ b.chunk_count)
    (hm : ro ≤ b.max_order) (hci : BUDDY_ALIGN_TO_ORDER ci order = ci)
    (hin : in_block root ro ci) (hle : order ≤ ro) (hfuel : ro - order + 1 ≤ fuel) :
    reserve_block_asserts fuel b ci order root ro = true := by
  induction fuel generalizing b ls root ro with
  | zero => omega
  | succ fuel ih =>
    unfold reserve_block_asserts
    have hend : ci + 2 ^ order ≤ root + 2 ^ ro := by
      have hpos := Nat.two_pow_pos order
      have := block_nested hci hal hle (in_block_self ci order) hin (ci + 2 ^ order - 1)
        ⟨by omega, by omega⟩
      have := this.2
      omega
    have hsz := h.inv.sized
    have hbig : BUDDY_MAX_CHUNK_COUNT < 2 ^ 64 := by decide
    have hend2 : (root + 2 ^ ro) % 2 ^ 64 ≥ (ci + 2 ^ order) % 2 ^ 64 := by
      rw [Nat.mod_eq_of_lt (by omega), Nat.mod_eq_of_lt (by omega)]
      exact hend
    simp only [CHECK_BLOCK_of h.inv (show order ≤ b.max_order by omega) hci
        (show ci + 2 ^ order ≤ b.chunk_count by omega),
      CHECK_BLOCK_of h.inv hm hal hr, Bool.true_and, BUDDY_ORDER_TO_COUNT_eq,
      decide_eq_true hin.1, decide_eq_true hend2,
      decide_eq_true (show ro ≥ order from hle)]
    by_cases h1 : ro = order
    · rw [if_pos h1]
    · rw [if_neg h1]
      obtain ⟨sub, rfl⟩ : ∃ sub, ro = sub + 1 := ⟨ro - 1, by omega⟩
      simp only [Nat.add_sub_cancel]
      have hpow : 2 ^ (sub + 1) = 2 * 2 ^ sub := by rw [pow_succ]; omega
      have hals := align_halves hal
      have hpos := Nat.two_pow_pos sub
      by_cases h2 : ci < root + 2 ^ sub
      · rw [if_pos h2]
        have hp := h.inv.pinv.split hal hr hm (Or.inl ⟨rfl, rfl⟩)
          (push_list_setBlock b sub (root + 2 ^ sub))
        have hmid := h.push_mid (hole_split root sub)
          (by intro j; unfold in_hole in_block; omega)
          hals.2.1 (by omega) (by omega) hp (fun j hk => absurd hk id) (fun j _ hk => hk)
        rw [h.inv.push_asserts hals.2.1 (by omega) (by omega), Bool.true_and]
        exact ih hmid hals.1 (by rw [push_list_chunk_count]; omega)
          (by rw [push_list_max_order]; omega) ⟨hin.1, h2⟩ (by omega) (by omega)
      · rw [if_neg h2]
        have hp := h.inv.pinv.split hal hr hm (Or.inr ⟨rfl, rfl⟩)
          (push_list_setBlock b sub root)
        have hmid := h.push_mid (hole_split_upper root sub)
          (by intro j; unfold in_hole in_block; omega)
          hals.1 (by omega) (by omega) hp (fun j hk => absurd hk id) (fun j _ hk => hk)
        rw [h.inv.push_asserts hals.1 (by omega) (by omega), Bool.true_and]
        refine ih hmid hals.2.1 (by rw [push_list_chunk_count]; omega)
          (by rw [push_list_max_order]; omega) ?_ (by omega) (by omega)
        have := hin.2
        exact ⟨by omega, by omega⟩

/-- The buddy of the range under rewriting lies in a block of at most the
order of the range. -/
theorem BInvH.buddy_order_le {b : buddy_t} {ls : Nat → List Nat} {c order : Nat}
    (h : BInvH b ls c (2 ^ order)) (hal : BUDDY_ALIGN_TO_ORDER c order = c)
    (hlt : buddy_of c order < b.chunk_count) :
    (b.chunk_array (buddy_of c order)).order ≤ order := by
  obtain ⟨c2, o2, f2, hb2, hin2, hout⟩ :=
    h.pinv.cover (buddy_of c order) hlt (buddy_of_not_in_block hal)
  rw [(hb2.uniform _ hin2).2]
  by_contra hgt
  have := in_block_of_buddy hal hb2.aligned (Nat.lt_of_not_le hgt) hin2
  exact hout c this (in_block_self c order)

theorem free_block_asserts_hold (fuel : Nat) {b0 b : buddy_t} {ls : Nat → List Nat}
    {order c : Nat} {K : Nat → Prop} (h : Mid b0 b ls c (2 ^ order) K)
    (hal : BUDDY_ALIGN_TO_ORDER c order = c) (hr : c + 2 ^ order ≤ b.chunk_count)
    (hm : order ≤ b.max_order) (hfuel : b.max_order - order + 1 ≤ fuel) :
    free_block_asserts fuel b order c = true := by
  induction fuel generalizing b ls order c with
  | zero => omega
  | succ fuel ih =>
    unfold free_block_asserts
    simp only [BUDDY_ORDER_TO_COUNT_eq, CHECK_BLOCK_of h.inv hm hal hr,
      Bool.true_and]
    have hfold : (if c = BUDDY_ALIGN_TO_ORDER c (order + 1) then
        BUDDY_ALIGN_TO_ORDER c (order + 1) + 2 ^ order
        else BUDDY_ALIGN_TO_ORDER c (order + 1)) = buddy_of c order := rfl
    rw [hfold]
    have hpush := h.inv.push_asserts hal hr hm
    by_cases h1 : order < b.max_order
    swap
    · rw [if_neg h1]; exact hpush
    rw [if_pos h1]
    have hside : (if c = BUDDY_ALIGN_TO_ORDER c (order + 1) then true
        else decide (c = BUDDY_ALIGN_TO_ORDER c (order + 1) + 2 ^ order)) = true := by
      rcases aligned_cases hal with e | e
      · rw [if_pos e]
      · by_cases e2 : c = BUDDY_ALIGN_TO_ORDER c (order + 1)
        · rw [if_pos e2]
        · rw [if_neg e2]; exact decide_eq_true e
    rw [hside, Bool.true_and]
    by_cases h2 : buddy_of c order < b.chunk_count
    swap
    · rw [if_neg h2]; exact hpush
    rw [if_pos h2, decide_eq_true (h.inv.buddy_order_le hal h2), Bool.true_and]
    by_cases h3 : (b.chunk_array (buddy_of c order)).order = order ∧
        (b.chunk_array (buddy_of c order)).free = true
    swap
    · rw [if_neg h3]; exact hpush
    rw [if_pos h3]
    obtain ⟨hp, hr2, hS⟩ := h.inv.pinv.merge hal hr h1 h2 ⟨h3.2, h3.1⟩
    have hmem := (h.inv.mem order (buddy_of c order)).2 ⟨hS, buddy_of_not_in_block hal⟩
    have hmid := h.pop_mid hmem (in_parent_iff hal) hp
    rw [h.inv.pop_asserts hmem, Bool.true_and]
    exact ih hmid (align_align c (order + 1)) hr2 (by rw [pop_list_max_order]; omega)
      (by rw [pop_list_max_order]; omega)

theorem BInvH.allocate_asserts {b : buddy_t} {ls : Nat → List Nat} (h : BInvH b ls 0 0)
    (order : Nat) : buddy_allocate_asserts b order = true := by
  unfold buddy_allocate_asserts
  simp only [allocate_block_asserts_hold _ h order (Nat.le_refl _), Bool.true_and]
  rcases allocate_block_spec (b.max_order + 2 - order) h order (Nat.le_refl _) with
    ⟨e1, _⟩ | ⟨ls2, hmid, hal, hr, hm⟩
  · rw [if_pos e1]
  · have hne := in_range_ne_fail hmid.inv (by rw [hmid.chunk_count]; exact hr)
    rw [if_neg hne]
    unfold mark_allocated_asserts
    exact CHECK_BLOCK_of hmid.inv (by rw [hmid.max_order]; exact hm) hal
      (by rw [hmid.chunk_count]; exact hr)

theorem BInvH.reserve_asserts {b : buddy_t} {ls : Nat → List Nat} (h : BInvH b ls 0 0)
    (c order : Nat) (hw : no_wrap b c order) : buddy_reserve_asserts b c order = true := by
  unfold buddy_reserve_asserts
  cases hchk : CHECK_BLOCK b c order
  · simp
  simp only [Bool.not_true, Bool.false_eq_true, if_false]
  by_cases hfo : ((b.chunk_array c).free && decide ((b.chunk_array c).order ≥ order)) = true
  swap
  · simp [hfo]
  have hfo2 := hfo
  simp only [Bool.and_eq_true, decide_eq_true_eq] at hfo2
  obtain ⟨hfree, hord⟩ := hfo2
  simp only [hfo, Bool.not_true, Bool.false_eq_true, if_false]
  obtain ⟨hm, hal, hr⟩ := (CHECK_BLOCK_iff b c order hw).1 hchk
  have hc : c < b.chunk_count := by
    have := Nat.two_pow_pos order
    omega
  have hroot := h.pinv.block_of hc
  rw [hfree] at hroot
  have hmem := (h.mem _ _).2 ⟨hroot, not_in_hole_zero 0 _⟩
  have hmid := (Mid.start h).pop_mid hmem
    (fun j => ⟨fun hh => Or.inr hh,
      fun hh => hh.elim (fun e => absurd e (not_in_hole_zero 0 j)) id⟩)
    (h.pinv.open_block hroot)
  obtain ⟨ls2, hmid2⟩ := reserve_block_spec ((b.chunk_array c).order + 1) hmid hroot.aligned
    hroot.in_range hroot.order_le hal ⟨align_le _ _, lt_align_add _ _⟩ hord (by omega)
  rw [h.pop_asserts hmem, Bool.true_and,
    reserve_block_asserts_hold ((b.chunk_array c).order + 1) hmid hroot.aligned
      hroot.in_range hroot.order_le hal ⟨align_le _ _, lt_align_add _ _⟩ hord (by omega),
    Bool.true_and]
  unfold mark_allocated_asserts
  exact CHECK_BLOCK_of hmid2.inv (by rw [hmid2.max_order]; exact hm) hal
    (by rw [hmid2.chunk_count]; exact hr)

theorem BInvH.free_asserts {b : buddy_t} {ls : Nat → List Nat} (h : BInvH b ls 0 0)
    (c : Nat) : buddy_free_asserts b c = true := by
  unfold buddy_free_asserts
  by_cases h1 : c ≥ b.chunk_count
  · rw [if_pos h1]
  rw [if_neg h1]
  cases hf : (b.chunk_array c).free
  swap
  · simp [hf]
  simp only [hf, Bool.false_eq_true, if_false]
  cases hchk : CHECK_BLOCK b c (b.chunk_array c).order
  · simp
  simp only [Bool.not_true, Bool.false_eq_true, if_false]
  obtain ⟨hm, hal, hr⟩ := (CHECK_BLOCK_iff b c _ (no_wrap_of_lt h (Nat.lt_of_not_le h1) _)).1 hchk
  have hblk := h.pinv.block_of (Nat.lt_of_not_le h1)
  rw [hf, hal] at hblk
  refine free_block_asserts_hold _ (Mid.open_alloc h hblk) hal hr hm ?_
  omega

end Buddy

/-- The assertions where no sum of `CHECK_BLOCK` wraps: in every reachable
buddy state, every assertion met by a further call of `buddy_allocate` or
`buddy_free` with arbitrary arguments, or of `buddy_reserve` with arguments
for which the sum does not wrap, holds (and the
recursions of the call end): `ASSERT_BLOCK` in `push_list`, `pop_list`,
`pop_list_head`, `mark_allocated`, `reserve_block` and `free_block`, the
head/length and prev/next consistency assertions of `push_list`, `pop_list`
and `pop_list_head`, the range assertions of `reserve_block`, and
`assert (buddy_chunk->order <= order)` in `free_block`; so does every
assertion met by a call of `buddy_init` with arbitrary arguments. -/
theorem buddy_asserts_hold (b : buddy_t) (h : Buddy.Reachable b) :
    (∀ order, Buddy.buddy_allocate_asserts b order = true) ∧
    (∀ chunk_index order, Buddy.no_wrap b chunk_index order →
      Buddy.buddy_reserve_asserts b chunk_index order = true) ∧
    (∀ chunk_index, Buddy.buddy_free_asserts b chunk_index = true) ∧
    (∀ chunk_count chunk_mem, Buddy.buddy_init_asserts chunk_count chunk_mem = true) := by
  obtain ⟨ls, hinv⟩ := h.inv
  exact ⟨hinv.allocate_asserts, hinv.reserve_asserts, hinv.free_asserts,
    Buddy.buddy_init_asserts_hold⟩

theorem buddy_asserts_hold_witness :
    Buddy.Reachable (Buddy.init_state 8 zero_chunks) ∧
    Buddy.buddy_reserve_asserts (Buddy.init_state 8 zero_chunks) 2 1 = true :=
  ⟨Buddy.Reachable.init 8 zero_chunks _ rfl,
   (buddy_asserts_hold (Buddy.init_state 8 zero_chunks)
     (Buddy.Reachable.init 8 zero_chunks _ rfl)).2.1 2 1 (fun _ => by decide)⟩

set_option maxRecDepth 1000000 in
/-- C38 (code defect): an assertion of buddy.c fails for a call with
arbitrary arguments.  On the fresh buddy of 8 chunks, with bit 0 set in the
word before the descriptor array, `buddy_reserve (2 ^ 64 - 1, 0)` passes
`CHECK_BLOCK` (the sum wraps), and so does the `ASSERT_BLOCK` of `pop_list`;
but the list of order 0 is empty, and `assert (list->length > 0)` of
`pop_list` fails. -/
theorem wrapped_reserve_assert_fails :
    Buddy.CHECK_BLOCK (Buddy.init_state 8 stray_chunks) (2 ^ 64 - 1) 0 = true ∧
    ((Buddy.init_state 8 stray_chunks).chunk_array (2 ^ 64 - 1)).free = true ∧
    ((Buddy.init_state 8 stray_chunks).lists 0).length = 0 ∧
    Buddy.pop_list_asserts (Buddy.init_state 8 stray_chunks) 0 (2 ^ 64 - 1) = false ∧
    Buddy.buddy_reserve_asserts (Buddy.init_state 8 stray_chunks) (2 ^ 64 - 1) 0 = false := by
  decide!

/-! ## A wrapped reservation, and the tiny path after `allocator_reserve` -/

set_option maxRecDepth 1000000 in
/-- C30 (code defect): the free lists are not well formed after every
sequence of buddy operations.  On the fresh buddy of 8 chunks, with bit 0 set
in the word before the descriptor array, `buddy_reserve (2 ^ 64 - 1, 0)`
passes `CHECK_BLOCK` (the sum wraps), takes the descriptor before the array
for a free block of order 0 and returns `0` after popping it from the list of
order 0, which was empty: afterwards this list has a null head and the length
`2 ^ 64 - 1`. -/
theorem wrapped_reserve_breaks_list :
    Buddy.buddy_init 8 (some stray_chunks) = .ok (Buddy.init_state 8 stray_chunks) ∧
    ((Buddy.init_state 8 stray_chunks).lists 0).length = 0 ∧
    (Buddy.buddy_reserve (Buddy.init_state 8 stray_chunks) (2 ^ 64 - 1) 0).2 = 0 ∧
    ((Buddy.buddy_reserve (Buddy.init_state 8 stray_chunks) (2 ^ 64 - 1) 0).1.lists 0).head =
      none ∧
    ((Buddy.buddy_reserve (Buddy.init_state 8 stray_chunks) (2 ^ 64 - 1) 0).1.lists 0).length =
      2 ^ 64 - 1 :=
  ⟨rfl, by decide!, by decide!, by decide!, by decide!⟩

set_option maxRecDepth 1000000 in
/-- C33 (code defect): on the tiny path `allocator_allocate` does not always
serve from the head block of the list of the level, nor from a fresh block.
On a fresh allocator of 1024 chunks with zeroed metadata, in either address
mode, the calls `allocate (8)`, `free (0)`, `reserve (0, 458753)`,
`reserve (0, 8192)` and `free (0)` all return `0`.  The direct reservation
leaves the stale bitmap of chunk 0 in place, so the last call takes the
direct block for a tiny block of level 40 whose pieces are all free again: it
pops the block from the list of level 40, which is empty, and returns the
block to the buddy.  Afterwards the list of level 40 has a null head and the
length `2 ^ 64 - 1`, and all 1024 chunks are one free block of the buddy.  A
further `allocate (8192)` finds `length != 0` and takes the null head for a
block: `head - chunk_array` has no meaning in C; with index 0 standing for
it, the call returns the address `0` of a chunk that is still free in the
buddy. -/
theorem allocate_tiny_null_head : ∀ strict : Bool,
    (Allocator.from_init strict (1024 * 512) zero_chunks zero_bitmaps
      [.allocate 8, .free 0, .reserve 0 458753, .reserve 0 8192, .free 0]).map
      (fun r => (r.2, (r.1.lists 40).head.isNone, (r.1.lists 40).length)) =
      some ([0, 0, 0, 0, 0], true, 2 ^ 64 - 1) ∧
    (Allocator.from_init strict (1024 * 512) zero_chunks zero_bitmaps
      [.allocate 8, .free 0, .reserve 0 458753, .reserve 0 8192, .free 0]).map
      (fun r => Buddy.free_blocks r.1.buddy) =
      some [[], [], [], [], [], [], [], [], [], [], [0]] ∧
    allocator_size_to_level 8192 = 40 ∧
    (Allocator.from_init strict (1024 * 512) zero_chunks zero_bitmaps
      [.allocate 8, .free 0, .reserve 0 458753, .reserve 0 8192, .free 0,
       .allocate 8192]).map
      (fun r => (r.2, (r.1.buddy.chunk_array 0).free, Buddy.free_blocks r.1.buddy)) =
      some ([0, 0, 0, 0, 0, 0], true, [[], [], [], [], [], [], [], [], [], [], [0]]) := by
  decide!

set_option maxRecDepth 1000000 in
/-- C35 (code defect): a tiny block with allocated pieces is not always on
the list of its level after `allocator_free`.  On a fresh allocator of 1024
chunks with zeroed metadata, in either address mode, the calls
`allocate (8)`, `free (0)`, `reserve (0, 458753)`, `reserve (0, 8192)`,
`reserve (8192, 8192)` and `free (0)` all return `0`.  The direct reservation
leaves the stale bitmap of chunk 0 in place, so the two reservations of size
`8192` take the pieces 0 and 1 of what passes for a tiny block of level 40,
without putting it on the list of level 40.  After the last call the block
at chunk 0 is allocated (order 10, `tiny = 1`, level 40), piece 1 is still
allocated (`frees = 2 ^ 61 - 3`, the full bitmap being `2 ^ 61 - 1`), and the
list of level 40 is empty. -/
theorem free_piece_block_not_listed : ∀ strict : Bool,
    (Allocator.from_init strict (1024 * 512) zero_chunks zero_bitmaps
      [.allocate 8, .free 0, .reserve 0 458753, .reserve 0 8192, .reserve 8192 8192,
       .free 0]).map
      (fun r => (r.2, [(r.1.buddy.chunk_array 0).free, (r.1.bitmap_array 0).tiny],
        [(r.1.buddy.chunk_array 0).order, (r.1.bitmap_array 0).index_in_group,
         (r.1.bitmap_array 0).frees, Allocator.FULL_BITMAP 40, (r.1.lists 40).length])) =
      some ([0, 0, 0, 0, 0, 0], [false, true], [10, 0, 2 ^ 61 - 3, 2 ^ 61 - 1, 0]) ∧
    (Allocator.from_init strict (1024 * 512) zero_chunks zero_bitmaps
      [.allocate 8, .free 0, .reserve 0 458753, .reserve 0 8192, .reserve 8192 8192,
       .free 0]).map (fun r => Allocator.level_members r.1 40) = some [] := by
  decide!
